import Mathlib

/-!
Syscall compiler front end: lexer, parser, resolver, flow checks,
constant evaluator and the code generation of expressions.

A shallow embedding of `src/include/lexer.h`, `src/src/lexer.cpp`,
`src/src/parser.cpp`, `src/include/parser.h`, `src/src/sema.cpp`,
`src/include/cfg.h`, `src/src/constexpr.cpp`, the expression part of
`src/src/codegen.cpp` and the `ConstantValueContainer` of
`src/include/utils.h`, with the properties of the lexer, the parser, the
resolver, the flow checks, the constant evaluator and the code generator
stated over it. The headers lexer.h and parser.h carry second, shorter bodies
for `Lexer::getNextToken` and for some methods of `Parser`; the embedding
follows the bodies of lexer.cpp and parser.cpp, and has the bodies of
parser.h in the namespace `ParserH`.

Conventions of the embedding:

* a `char` is a `Char` and a `std::string` is the list of its `char`s
  (`List Char`); the lexer compares characters with ASCII literals only;
* a `std::unique_ptr<T>` is an `Option T` (`none` is the null pointer);
* an operation that can hit a failed `assert` or an `llvm_unreachable`,
  dereference an empty `std::optional` or a null pointer, index a vector
  out of range or throw an exception returns `Except Fault _`;
* the `int` counters (`line`, `column`, `braces`) are integers without bound:
  each counts characters or tokens of the input, so it stays below `2^31` on
  every input of less than 2 GiB;
* loops and recursive descent are driven by a fuel counter; `Fault.outOfFuel`
  is the only outcome that does not exist in the C++ program;
* an object that is compared by its address (a resolved declaration) carries
  the address as a number; the type of a resolved expression, which the
  resolved classes compute and the sources do not declare, is read through a
  parameter `typeOf`;
* a `double` is a number of a type `D` that comes with the operations
  constexpr.cpp applies to it (`Arith D`); rounding is not modelled, and the
  rationals stand in where a value is computed;
* the LLVM function under construction is the list of its basic blocks, a
  block is named by its position in the list and an instruction by a number;
  a constant the `IRBuilder` folds is kept as the operation on its operands.
-/

namespace Syscall

/-! ## Shared data (utils.h, lexer.h) -/

/-- The ways a run stops without a result. -/
inductive Fault where
  /-- A failed `assert(cond && "msg")`; the argument is the message. -/
  | assertion (msg : String)
  /-- The expression `*opt` on a `std::optional` that holds no value. -/
  | emptyOptional
  /-- The expression `*p` on a null `std::unique_ptr`. -/
  | nullDereference
  /-- An index outside a `std::vector`, or `back()` on an empty one. -/
  | outOfBounds
  /-- A call of `llvm_unreachable(msg)`; the argument is the message. -/
  | unreachable (msg : String)
  /-- A C++ exception nothing catches; the argument is its class. -/
  | exception (what : String)
  /-- The fuel of the embedding ran out (no counterpart in the program). -/
  | outOfFuel
  deriving DecidableEq, Repr

/-- The struct `SourceFile` of utils.h. -/
structure SourceFile where
  path : String
  buffer : List Char
  deriving DecidableEq, Repr

/-- The struct `SourceLocation` of utils.h. -/
structure SourceLocation where
  filepath : String
  line : Int
  col : Int
  deriving DecidableEq, Repr

/-- The table `singleCharTokens` of lexer.h. -/
def singleCharTokens : List Char :=
  ['\x00', '(', ')', '{', '}', ':', ';', ',', '+', '-', '*', '<', '>', '!', '=']

/-- The enumeration `TokenKind`. The first block are the enumerators declared in
lexer.h. The second block are the enumerators that parser.cpp names
(`TokenKind::KwFunction`, `TokenKind::Lparen`, ...) and the third block those
that codegen.cpp names (`TokenKind::Star`, `TokenKind::Less`, ...); lexer.h
declares none of them and the lexer never produces them. -/
inductive TokenKind where
  | Unk | Slash
  | Equal | EqualEqual | AmpAmp | PipePipe
  | Identifier | Number
  | KwMain | KwAdd | KwPrint | KwLog | KwReturn
  | Eof | Lpar | Rpar | Lbrace | Rbrace | Colon | Semi | Comma
  | Plus | Minus | Asterisk | Lt | Gt | Excl | EqualSign
  | KwFunction | KwIf | KwElse | KwWhile | KwLet | KwVar
  | IntegerLiteral | Lparen | Rparen
  | Star | ExclEqual | Less | Greater | LessEqual | GreaterEqual
  deriving DecidableEq, Repr

/-- The cast `static_cast<TokenKind>(c)` for a character `c` of
`singleCharTokens`: lexer.h declares one enumerator with each of these
values (`Eof = singleCharTokens[0]`, ..., `EqualSign = singleCharTokens[14]`).
The lexer casts no other character. -/
def castTokenKind (c : Char) : TokenKind :=
  if c = '\x00' then .Eof
  else if c = '(' then .Lpar
  else if c = ')' then .Rpar
  else if c = '{' then .Lbrace
  else if c = '}' then .Rbrace
  else if c = ':' then .Colon
  else if c = ';' then .Semi
  else if c = ',' then .Comma
  else if c = '+' then .Plus
  else if c = '-' then .Minus
  else if c = '*' then .Asterisk
  else if c = '<' then .Lt
  else if c = '>' then .Gt
  else if c = '!' then .Excl
  else if c = '=' then .EqualSign
  else .Unk

/-- The map `keywords` of lexer.h. -/
def keywords : List (List Char × TokenKind) :=
  [("main".toList, .KwMain), ("add".toList, .KwAdd), ("print".toList, .KwPrint),
   ("log".toList, .KwLog), ("return".toList, .KwReturn)]

/-- The struct `Token`: `value` is the `std::optional<std::string>`. -/
structure Token where
  location : SourceLocation
  kind : TokenKind
  value : Option (List Char) := none
  deriving DecidableEq, Repr

/-! ## Lexer (lexer.h, lexer.cpp) -/

/-- The class `Lexer`: the source file, the index into its buffer, and the
line and column counters. -/
structure Lexer where
  source : SourceFile
  idx : Nat := 0
  line : Int := 1
  column : Int := 0
  deriving DecidableEq, Repr

/-- `Lexer::peekNextChar`: `source->buffer[idx]`. A `std::string` reads as
NUL at `idx == size()`; the lexer never peeks beyond that. -/
def peekNextChar (l : Lexer) : Char :=
  l.source.buffer.getD l.idx '\x00'

/-- `Lexer::eatNextChar`: asserts `idx <= size()`, counts the column, starts
a new line after a newline, returns `buffer[idx]` and advances `idx`. -/
def eatNextChar (l : Lexer) : Except Fault (Char × Lexer) :=
  if l.idx ≤ l.source.buffer.length then
    let c := l.source.buffer.getD l.idx '\x00'
    if c = '\n' then
      .ok (c, { l with idx := l.idx + 1, line := l.line + 1, column := 0 })
    else
      .ok (c, { l with idx := l.idx + 1, column := l.column + 1 })
  else
    .error (.assertion "indexing past the end of the source buffer")

/-- `isSpace` of lexer.cpp. -/
def isSpace (c : Char) : Bool :=
  c == ' ' || c == '\x0c' || c == '\n' || c == '\r' || c == '\t' || c == '\x0b'

/-- `isAlpha` of lexer.cpp. -/
def isAlpha (c : Char) : Bool :=
  ('a' ≤ c && c ≤ 'z') || ('A' ≤ c && c ≤ 'Z')

/-- `isNum` of lexer.cpp. -/
def isNum (c : Char) : Bool :=
  '0' ≤ c && c ≤ '9'

/-- `isAlnum` of lexer.cpp. -/
def isAlnum (c : Char) : Bool :=
  isAlpha c || isNum c

/-- The loop `while (isSpace(currentChar)) currentChar = eatNextChar();`. -/
def skipSpaces : Nat → Char → Lexer → Except Fault (Char × Lexer)
  | 0, _, _ => .error .outOfFuel
  | fuel + 1, currentChar, l =>
    if isSpace currentChar then
      match eatNextChar l with
      | .error e => .error e
      | .ok (c, l1) => skipSpaces fuel c l1
    else
      .ok (currentChar, l)

/-- The loops `while (cond(peekNextChar())) value += eatNextChar();` of
`getNextToken` (the comment loop drops the characters it eats). -/
def eatWhile (cond : Char → Bool) : Nat → List Char → Lexer → Except Fault (List Char × Lexer)
  | 0, _, _ => .error .outOfFuel
  | fuel + 1, value, l =>
    if cond (peekNextChar l) then
      match eatNextChar l with
      | .error e => .error e
      | .ok (c, l1) => eatWhile cond fuel (value ++ [c]) l1
    else
      .ok (value, l)

/-- The part of `Lexer::getNextToken` (lexer.cpp) that follows the whitespace
loop: `currentChar` is the first character that is not whitespace, already
eaten. `recur` stands for the recursive call `getNextToken()` that follows a
comment, and `fuel` bounds the loops. -/
def lexToken (recur : Lexer → Except Fault (Token × Lexer)) (fuel : Nat)
    (currentChar : Char) (l1 : Lexer) : Except Fault (Token × Lexer) :=
  let tokenStartLocation : SourceLocation := ⟨l1.source.path, l1.line, l1.column⟩
  -- Single character tokens
  match singleCharTokens.find? (fun c => c == currentChar) with
  | some c => .ok ({ location := tokenStartLocation, kind := castTokenKind c }, l1)
  | none =>
  -- Comments
  if currentChar = '/' then
    if peekNextChar l1 = '/' then
      -- Skip the rest of the line
      match eatWhile (fun c => c != '\n' && c != '\x00') fuel [] l1 with
      | .error e => .error e
      | .ok (_, l2) => recur l2
    else
      .ok ({ location := tokenStartLocation, kind := .Slash }, l1)
  -- Operators
  else if currentChar = '=' then
    if peekNextChar l1 = '=' then
      .ok ({ location := tokenStartLocation, kind := .EqualEqual }, l1)
    else
      .ok ({ location := tokenStartLocation, kind := .Equal }, l1)
  else if currentChar = '&' ∧ peekNextChar l1 = '&' then
    .ok ({ location := tokenStartLocation, kind := .AmpAmp }, l1)
  else if currentChar = '|' ∧ peekNextChar l1 = '|' then
    .ok ({ location := tokenStartLocation, kind := .PipePipe }, l1)
  -- Identifiers and keywords
  else if isAlpha currentChar || currentChar == '@' then
    match eatWhile (fun c => isAlnum c || c == '_') fuel [currentChar] l1 with
    | .error e => .error e
    | .ok (value, l2) =>
      match keywords.lookup value with
      | some kw => .ok ({ location := tokenStartLocation, kind := kw, value := some value }, l2)
      | none =>
        .ok ({ location := tokenStartLocation, kind := .Identifier, value := some value }, l2)
  -- Numeric literals
  else if isNum currentChar then
    match eatWhile isNum fuel [currentChar] l1 with
    | .error e => .error e
    | .ok (value, l2) =>
      if peekNextChar l2 = '.' then
        match eatNextChar l2 with -- Consume '.'
        | .error e => .error e
        | .ok (dot, l3) =>
          if isNum (peekNextChar l3) then
            match eatWhile isNum fuel (value ++ [dot]) l3 with
            | .error e => .error e
            | .ok (value2, l4) =>
              .ok ({ location := tokenStartLocation, kind := .Number, value := some value2 }, l4)
          else
            .ok ({ location := tokenStartLocation, kind := .Unk }, l3) -- Invalid number
      else
        .ok ({ location := tokenStartLocation, kind := .Number, value := some value }, l2)
  -- Handle unexpected characters
  else
    .ok ({ location := tokenStartLocation, kind := .Unk }, l1)

/-- `Lexer::getNextToken` (lexer.cpp) with the fuel that bounds its loops and
its recursion: eat a character, skip whitespace, then `lexToken`. -/
def getNextTokenFuel : Nat → Lexer → Except Fault (Token × Lexer)
  | 0, _ => .error .outOfFuel
  | fuel + 1, l =>
    match eatNextChar l with
    | .error e => .error e
    | .ok (c0, l0) =>
      match skipSpaces (fuel + 1) c0 l0 with
      | .error e => .error e
      | .ok (currentChar, l1) => lexToken (getNextTokenFuel fuel) (fuel + 1) currentChar l1

/-- `Lexer::getNextToken`. The fuel exceeds the number of characters left
in the buffer, which bounds every loop and the recursion. -/
def getNextToken (l : Lexer) : Except Fault (Token × Lexer) :=
  getNextTokenFuel (l.source.buffer.length + 2) l

/-- The constructor `Lexer(const SourceFile &source)`. -/
def Lexer.new (source : SourceFile) : Lexer := { source := source }

/-- The kinds and texts of the tokens returned by up to `n` successive calls
of `getNextToken`, stopping after the first call that does not return. -/
def lexKinds : Nat → Lexer → List (TokenKind × Option (List Char))
  | 0, _ => []
  | n + 1, l =>
    match getNextToken l with
    | .error _ => []
    | .ok (t, l1) => (t.kind, t.value) :: lexKinds n l1

/-! ## Parser (parser.cpp) -/

/-- A `DeclRefExpr` node: its location and its identifier. -/
structure DeclRefExpr where
  location : SourceLocation
  identifier : List Char
  deriving DecidableEq, Repr

/-- The expression nodes parser.cpp builds. The operands of a `BinaryExpr`
are `std::unique_ptr<Expr>`, which can be null. -/
inductive Expr where
  | DeclRefExpr (d : DeclRefExpr)
  | IntegerLiteral (location : SourceLocation) (value : List Char)
  | BinaryExpr (location : SourceLocation) (op : TokenKind) (lhs rhs : Option Expr)
  deriving Repr

/-- The member `location` every node inherits from `Stmt`. -/
def Expr.location : Expr → SourceLocation
  | .DeclRefExpr d => d.location
  | .IntegerLiteral location _ => location
  | .BinaryExpr location _ _ _ => location

/-- The struct `Type` as parser.cpp fills it: only `name` is set. -/
structure «Type» where
  name : List Char
  deriving DecidableEq, Repr

/-- A `VarDecl` node, with the arguments parser.cpp gives its constructor. -/
structure VarDecl where
  location : SourceLocation
  identifier : List Char
  type : Option «Type»
  isMutable : Bool
  initializer : Option Expr := none
  deriving Repr

mutual

/-- The statement nodes `Parser::parseStmt` returns: an expression (every
`Expr` is a `Stmt`), an `Assignment`, or one of the statements that start
with a keyword. -/
inductive Stmt where
  | Expr (e : Expr)
  | Assignment (location : SourceLocation) («variable» : DeclRefExpr) (expr : Expr)
  | IfStmt (location : SourceLocation) (condition : Expr) (trueBlock : Block)
      (falseBlock : Option Block)
  | WhileStmt (location : SourceLocation) (condition : Expr) (body : Block)
  | ReturnStmt (location : SourceLocation) (expr : Option Expr)
  | DeclStmt (location : SourceLocation) (varDecl : VarDecl)

/-- A `Block` node: its location and its statements. -/
inductive Block where
  | mk (location : SourceLocation) (statements : List Stmt)

end

/-- A `ParamDecl` node. -/
structure ParamDecl where
  location : SourceLocation
  identifier : List Char
  type : «Type»
  deriving DecidableEq, Repr

/-- The class `Parser`. The lexer it pulls from is represented by the list
of the tokens `getNextToken` will still return; `diagnostics` collects the
calls of `report` (utils.h), which writes to `std::cerr`. -/
structure Parser where
  lexer : List Token
  nextToken : Token
  incompleteAST : Bool := false
  diagnostics : List (SourceLocation × String) := []
  deriving DecidableEq, Repr

/-- The constructor `Parser(Lexer &lexer)`: `nextToken(lexer.getNextToken())`. -/
def Parser.new : List Token → Except Fault Parser
  | [] => .error (.assertion "indexing past the end of the source buffer")
  | t :: ts => .ok { lexer := ts, nextToken := t }

/-- `Parser::eatNextToken`: `nextToken = lexer->getNextToken()`. A call of
`getNextToken` after the token stream has ended fails the assertion of
`Lexer::eatNextChar`. -/
def eatNextToken (p : Parser) : Except Fault Parser :=
  match p.lexer with
  | [] => .error (.assertion "indexing past the end of the source buffer")
  | t :: ts => .ok { p with lexer := ts, nextToken := t }

/-- `report` of utils.h: prints the diagnostic; its callers return the
`nullptr` it yields. -/
def report (p : Parser) (location : SourceLocation) (message : String) : Parser :=
  { p with diagnostics := p.diagnostics ++ [(location, message)] }

/-- `getTokPrecedence` of parser.cpp. -/
def getTokPrecedence : TokenKind → Int
  | .Asterisk | .Slash => 6
  | .Plus | .Minus => 5
  | .Lt | .Gt => 4
  | .EqualEqual => 3
  | .AmpAmp => 2
  | .PipePipe => 1
  | _ => -1

/-- The loop of `Parser::synchronize`; `braces` is its `int` counter. -/
def synchronizeLoop : Nat → Int → Parser → Except Fault Parser
  | 0, _, _ => .error .outOfFuel
  | fuel + 1, braces, p =>
    let kind := p.nextToken.kind
    if kind = .Lbrace then
      match eatNextToken p with
      | .error e => .error e
      | .ok p1 => synchronizeLoop fuel (braces + 1) p1
    else if kind = .Rbrace then
      if braces = 0 then .ok p
      else if braces = 1 then eatNextToken p -- eat '}'
      else
        match eatNextToken p with
        | .error e => .error e
        | .ok p1 => synchronizeLoop fuel (braces - 1) p1
    else if kind = .Semi ∧ braces = 0 then eatNextToken p -- eat ';'
    else if kind = .KwFunction ∨ kind = .Eof then .ok p
    else
      match eatNextToken p with
      | .error e => .error e
      | .ok p1 => synchronizeLoop fuel braces p1

/-- `Parser::synchronize`. Every turn of the loop but the last eats a token,
so the fuel covers the tokens that are left. -/
def synchronize (p : Parser) : Except Fault Parser :=
  synchronizeLoop (p.lexer.length + 1) 0 { p with incompleteAST := true }

/-- `Parser::parseType`. -/
def parseType (p : Parser) : Except Fault (Option «Type» × Parser) :=
  if p.nextToken.kind = .Identifier then
    match p.nextToken.value with
    | none => .error (.assertion "identifier token without value")
    | some name =>
      match eatNextToken p with -- eat identifier
      | .error e => .error e
      | .ok p1 => .ok (some ⟨name⟩, p1)
  else
    .ok (none, p)

/-- `Parser::parseParamDecl`. -/
def parseParamDecl (p : Parser) : Except Fault (Option ParamDecl × Parser) :=
  let location := p.nextToken.location
  match p.nextToken.value with
  | none => .error (.assertion "identifier token without value")
  | some identifier =>
    match eatNextToken p with -- eat identifier
    | .error e => .error e
    | .ok p1 =>
      if p1.nextToken.kind ≠ .Colon then
        .ok (none, report p1 p1.nextToken.location "expected ':'")
      else
        match eatNextToken p1 with -- eat :
        | .error e => .error e
        | .ok p2 =>
          match parseType p2 with
          | .error e => .error e
          | .ok (none, p3) => .ok (none, p3)
          | .ok (some type, p3) => .ok (some ⟨location, identifier, type⟩, p3)

/-- The `do ... while (true)` loop of `Parser::parseParameterList`. -/
def parseParameterLoop : Nat → List ParamDecl → Parser → Except Fault (Option (List ParamDecl) × Parser)
  | 0, _, _ => .error .outOfFuel
  | fuel + 1, params, p =>
    match parseParamDecl p with
    | .error e => .error e
    | .ok (none, p1) => .ok (none, p1)
    | .ok (some param, p1) =>
      if p1.nextToken.kind = .Comma then
        match eatNextToken p1 with -- eat ','
        | .error e => .error e
        | .ok p2 => parseParameterLoop fuel (params ++ [param]) p2
      else
        .ok (some (params ++ [param]), p1)

/-- `Parser::parseParameterList`. -/
def parseParameterList (p : Parser) : Except Fault (Option (List ParamDecl) × Parser) :=
  if p.nextToken.kind ≠ .Lparen then
    .ok (none, report p p.nextToken.location "expected '(' at the start of parameter list")
  else
    match eatNextToken p with -- eat '('
    | .error e => .error e
    | .ok p1 =>
      let afterLoop :=
        if p1.nextToken.kind ≠ .Rparen then parseParameterLoop (p1.lexer.length + 1) [] p1
        else .ok (some [], p1)
      match afterLoop with
      | .error e => .error e
      | .ok (none, p2) => .ok (none, p2)
      | .ok (some params, p2) =>
        if p2.nextToken.kind ≠ .Rparen then
          .ok (none, report p2 p2.nextToken.location "expected ')' at the end of parameter list")
        else
          match eatNextToken p2 with -- eat ')'
          | .error e => .error e
          | .ok p3 => .ok (some params, p3)

mutual

/-- `Parser::parseExpr` with fuel: `parseExprRHS(parsePrefixExpr(), 0)`. -/
def parseExprFuel : Nat → Parser → Except Fault (Option Expr × Parser)
  | 0, _ => .error .outOfFuel
  | fuel + 1, p =>
    match parsePrefixExprFuel fuel p with
    | .error e => .error e
    | .ok (lhs, p1) => parseExprRHSFuel fuel lhs 0 p1

/-- `Parser::parseExprRHS` with fuel; a turn of its `while (true)` loop is a
recursive call with the new `lhs`. -/
def parseExprRHSFuel : Nat → Option Expr → Int → Parser → Except Fault (Option Expr × Parser)
  | 0, _, _, _ => .error .outOfFuel
  | fuel + 1, lhs, exprPrec, p =>
    let tokPrec := getTokPrecedence p.nextToken.kind
    if tokPrec < exprPrec then .ok (lhs, p)
    else
      let binOp := p.nextToken.kind
      let binOpLoc := p.nextToken.location
      match eatNextToken p with -- eat binary operator
      | .error e => .error e
      | .ok p1 =>
        match parsePrefixExprFuel fuel p1 with
        | .error e => .error e
        | .ok (none, p2) => .ok (none, p2)
        | .ok (some rhs, p2) =>
          let nextPrec := getTokPrecedence p2.nextToken.kind
          if tokPrec < nextPrec then
            match parseExprRHSFuel fuel (some rhs) (tokPrec + 1) p2 with
            | .error e => .error e
            | .ok (none, p3) => .ok (none, p3)
            | .ok (some rhs1, p3) =>
              parseExprRHSFuel fuel (some (.BinaryExpr binOpLoc binOp lhs (some rhs1))) exprPrec p3
          else
            parseExprRHSFuel fuel (some (.BinaryExpr binOpLoc binOp lhs (some rhs))) exprPrec p2

/-- `Parser::parsePrefixExpr` with fuel. The identifier and the literal
branch eat the token first and then read `*nextToken.value`, the text of the
token that follows. -/
def parsePrefixExprFuel : Nat → Parser → Except Fault (Option Expr × Parser)
  | 0, _ => .error .outOfFuel
  | fuel + 1, p =>
    let kind := p.nextToken.kind
    let location := p.nextToken.location
    if kind = .Identifier then
      match eatNextToken p with -- eat identifier
      | .error e => .error e
      | .ok p1 =>
        match p1.nextToken.value with
        | none => .error .emptyOptional
        | some value => .ok (some (.DeclRefExpr ⟨location, value⟩), p1)
    else if kind = .IntegerLiteral then
      match eatNextToken p with -- eat integer literal
      | .error e => .error e
      | .ok p1 =>
        match p1.nextToken.value with
        | none => .error .emptyOptional
        | some value => .ok (some (.IntegerLiteral location value), p1)
    else if kind = .Lparen then
      match eatNextToken p with -- eat '('
      | .error e => .error e
      | .ok p1 =>
        match parseExprFuel fuel p1 with
        | .error e => .error e
        | .ok (none, p2) => .ok (none, p2)
        | .ok (some expr, p2) =>
          if p2.nextToken.kind ≠ .Rparen then
            .ok (none, report p2 p2.nextToken.location "expected ')' after expression")
          else
            match eatNextToken p2 with -- eat ')'
            | .error e => .error e
            | .ok p3 => .ok (some expr, p3)
    else
      .ok (none, p)

end

/-- The fuel the recursive descent gets: between two tokens it eats, the
descent goes at most three calls deeper. -/
def parseFuel (p : Parser) : Nat := 3 * p.lexer.length + 4

/-- `Parser::parsePrefixExpr`. -/
def parsePrefixExpr (p : Parser) : Except Fault (Option Expr × Parser) :=
  parsePrefixExprFuel (parseFuel p) p

/-- `Parser::parseExprRHS`. -/
def parseExprRHS (lhs : Option Expr) (exprPrec : Int) (p : Parser) :
    Except Fault (Option Expr × Parser) :=
  parseExprRHSFuel (parseFuel p) lhs exprPrec p

/-- `Parser::parseExpr`. -/
def parseExpr (p : Parser) : Except Fault (Option Expr × Parser) :=
  parseExprFuel (parseFuel p) p

/-- `Parser::parseAssignmentRHS`. -/
def parseAssignmentRHS (lhs : DeclRefExpr) (p : Parser) : Except Fault (Option Stmt × Parser) :=
  let location := p.nextToken.location
  match eatNextToken p with -- eat '='
  | .error e => .error e
  | .ok p1 =>
    match parseExpr p1 with
    | .error e => .error e
    | .ok (none, p2) => .ok (none, p2)
    | .ok (some rhs, p2) => .ok (some (.Assignment location lhs rhs), p2)

/-- `Parser::parseAssignmentOrExpr`. The `dynamic_cast<DeclRefExpr *>` is the
match on the node `parsePrefixExpr` returned. -/
def parseAssignmentOrExpr (p : Parser) : Except Fault (Option Stmt × Parser) :=
  match parsePrefixExpr p with
  | .error e => .error e
  | .ok (none, p1) => .ok (none, p1)
  | .ok (some lhs, p1) =>
    if p1.nextToken.kind ≠ .Equal then
      match parseExprRHS (some lhs) 0 p1 with
      | .error e => .error e
      | .ok (none, p2) => .ok (none, p2)
      | .ok (some expr, p2) =>
        if p2.nextToken.kind ≠ .Semi then
          .ok (none, report p2 p2.nextToken.location "expected ';' at the end of expression")
        else
          match eatNextToken p2 with -- eat ';'
          | .error e => .error e
          | .ok p3 => .ok (some (.Expr expr), p3)
    else
      match lhs with
      | .DeclRefExpr dre =>
        match parseAssignmentRHS dre p1 with
        | .error e => .error e
        | .ok (none, p2) => .ok (none, p2)
        | .ok (some assignment, p2) =>
          if p2.nextToken.kind ≠ .Semi then
            .ok (none, report p2 p2.nextToken.location "expected ';' at the end of assignment")
          else
            match eatNextToken p2 with -- eat ';'
            | .error e => .error e
            | .ok p3 => .ok (some assignment, p3)
      | _ => .ok (none, report p1 lhs.location "expected variable on the LHS of an assignment")

/-- A token without text at line 1, column `col`. -/
def tok (col : Int) (kind : TokenKind) : Token :=
  { location := ⟨"t", 1, col⟩, kind := kind }

/-- A token with text at line 1, column `col`. -/
def tokv (col : Int) (kind : TokenKind) (text : String) : Token :=
  { location := ⟨"t", 1, col⟩, kind := kind, value := some text.toList }

/-! ## Resynchronisation as the specification words it -/

/-- The four states in which the specification lets `synchronize` stop. -/
inductive SyncStop where
  /-- Just after consuming a `;` met at depth zero. -/
  | afterSemi
  /-- Just after consuming the `}` that brings the depth from one to zero. -/
  | afterRbrace
  /-- In front of an unconsumed `}` met at depth zero. -/
  | atRbrace
  /-- In front of an unconsumed function keyword or `Eof`. -/
  | atFunctionOrEof
  deriving DecidableEq, Repr

/-- Whether the token that stops the skipping is consumed. -/
def SyncStop.consumed : SyncStop → Bool
  | .afterSemi | .afterRbrace => true
  | .atRbrace | .atFunctionOrEof => false

/-- The stop a token of kind `k` met at nesting depth `depth` causes, as the
specification lists them; `none` for a token that is skipped. -/
def stopState (depth : Int) (k : TokenKind) : Option SyncStop :=
  if k = .Semi ∧ depth = 0 then some .afterSemi
  else if k = .Rbrace ∧ depth = 1 then some .afterRbrace
  else if k = .Rbrace ∧ depth = 0 then some .atRbrace
  else if k = .KwFunction ∨ k = .Eof then some .atFunctionOrEof
  else none

/-- The change of the `{`/`}` nesting depth a token brings. -/
def braceDelta (k : TokenKind) : Int :=
  if k = .Lbrace then 1 else if k = .Rbrace then -1 else 0

/-- The `{`/`}` nesting depth after the tokens `ts`. -/
def nesting (ts : List Token) : Int :=
  (ts.map (fun t => braceDelta t.kind)).sum

/-- The characters the lexer has not eaten yet, the terminating NUL of the
`std::string` included; empty once the terminator has been eaten. -/
def view (l : Lexer) : List Char :=
  (l.source.buffer ++ ['\x00']).drop l.idx

/-- What a call of `getNextToken` shows of itself apart from the location:
the kind and the text of the token, and the characters left afterwards. -/
def tokObs (r : Except Fault (Token × Lexer)) :
    Except Fault (TokenKind × Option (List Char) × List Char) :=
  match r with
  | .error e => .error e
  | .ok (t, l) => .ok (t.kind, t.value, view l)

/-! ## Resolver: scopes and expressions (sema.h, sema.cpp) -/

namespace Sema

/-- The enumeration `Type::Kind` of ast.h. -/
inductive TypeKind where
  | Void | Number | Custom
  deriving DecidableEq, Repr

/-- The syntactic expressions `Sema::resolveExpr` is given. ast.h declares
`NumberLiteral`, `DeclRefExpr`, `BinaryOperator` and `CallExpr`;
`GroupingExpr` and `UnaryOperator` are the classes sema.cpp names, with the
members it reads. Every child is a `std::unique_ptr<Expr>`. -/
inductive Expr where
  | NumberLiteral (location : SourceLocation) (value : List Char)
  | DeclRefExpr (location : SourceLocation) (identifier : List Char)
  | CallExpr (location : SourceLocation) (callee : Option Expr)
      (arguments : List (Option Expr))
  | GroupingExpr (location : SourceLocation) (expr : Option Expr)
  | BinaryOperator (location : SourceLocation) (lhs rhs : Option Expr) (op : TokenKind)
  | UnaryOperator (location : SourceLocation) (operand : Option Expr) (op : TokenKind)
  deriving Repr

/-- A `ResolvedVarDecl` object: `addr` is its address, by which pointers to it
are compared; `initializer` tells whether its `initializer` pointer is set,
which is all sema.cpp reads of it. -/
structure ResolvedVarDecl where
  addr : Nat
  location : SourceLocation
  identifier : List Char
  type : TypeKind
  isMutable : Bool
  initializer : Bool
  deriving DecidableEq, Repr

/-- A `ResolvedParamDecl` object. -/
structure ResolvedParamDecl where
  addr : Nat
  location : SourceLocation
  identifier : List Char
  type : TypeKind
  deriving DecidableEq, Repr

/-- A `ResolvedFunctionDecl` object; sema.cpp reads its `type`, its `location`
and the size of `params`. -/
structure ResolvedFunctionDecl where
  addr : Nat
  location : SourceLocation
  identifier : List Char
  type : TypeKind
  params : List ResolvedParamDecl
  deriving DecidableEq, Repr

/-- What a `ResolvedDecl *` points to: an object of one of the three classes
derived from `ResolvedDecl`. A `dynamic_cast` is the match on the constructor. -/
inductive ResolvedDecl where
  | ResolvedVarDecl (d : ResolvedVarDecl)
  | ResolvedParamDecl (d : ResolvedParamDecl)
  | ResolvedFunctionDecl (d : ResolvedFunctionDecl)
  deriving DecidableEq, Repr

/-- The member `identifier` of the base class `ResolvedDecl`. -/
def ResolvedDecl.identifier : ResolvedDecl → List Char
  | .ResolvedVarDecl d => d.identifier
  | .ResolvedParamDecl d => d.identifier
  | .ResolvedFunctionDecl d => d.identifier

/-- The member `location` of the base class `ResolvedDecl`. -/
def ResolvedDecl.location : ResolvedDecl → SourceLocation
  | .ResolvedVarDecl d => d.location
  | .ResolvedParamDecl d => d.location
  | .ResolvedFunctionDecl d => d.location

/-- A `ResolvedDeclRefExpr` node: its location and the declaration it points
to. -/
structure ResolvedDeclRefExpr where
  location : SourceLocation
  decl : ResolvedDecl
  deriving DecidableEq, Repr

/-- The resolved expressions sema.cpp builds, with the arguments it gives
their constructors. -/
inductive ResolvedExpr where
  | ResolvedDeclRefExpr (e : ResolvedDeclRefExpr)
  | ResolvedCallExpr (location : SourceLocation) (callee : ResolvedDeclRefExpr)
      (arguments : List ResolvedExpr)
  | ResolvedGroupingExpr (location : SourceLocation) (expr : ResolvedExpr)
  | ResolvedBinaryOperator (location : SourceLocation) (op : TokenKind)
      (lhs rhs : ResolvedExpr)
  | ResolvedUnaryOperator (location : SourceLocation) (op : TokenKind)
      (operand : ResolvedExpr)
  deriving Repr

/-- The member `location` of a resolved expression. -/
def ResolvedExpr.location : ResolvedExpr → SourceLocation
  | .ResolvedDeclRefExpr e => e.location
  | .ResolvedCallExpr location _ _ => location
  | .ResolvedGroupingExpr location _ => location
  | .ResolvedBinaryOperator location _ _ _ => location
  | .ResolvedUnaryOperator location _ _ => location

end Sema

/-- The state of the class `Sema` the embedded methods use: the vector
`scopes` (its `back()`, the innermost scope, is the last element) and the
diagnostics passed to `report`. -/
structure Sema where
  scopes : List (List Sema.ResolvedDecl)
  diagnostics : List (SourceLocation × List Char) := []
  deriving DecidableEq, Repr

namespace Sema

/-- `report`: prints the diagnostic; a caller that returns its value returns
a null pointer. -/
def report (s : Sema) (location : SourceLocation) (message : List Char) : Sema :=
  { s with diagnostics := s.diagnostics ++ [(location, message)] }

/-- The loops of `Sema::lookupDecl` over the scopes still to visit, innermost
first: the first declaration named `id` of the first scope that has one, with
the count of the scopes passed. -/
def lookupLoop : List (List ResolvedDecl) → Int → List Char → Option ResolvedDecl × Int
  | [], _, _ => (none, -1)
  | scope :: rest, scopeIdx, id =>
    match scope.find? (fun decl => decl.identifier == id) with
    | some decl => (some decl, scopeIdx)
    | none => lookupLoop rest (scopeIdx + 1) id

/-- `Sema::lookupDecl`: from `scopes.rbegin()` to `scopes.rend()`. -/
def lookupDecl (s : Sema) (id : List Char) : Option ResolvedDecl × Int :=
  lookupLoop s.scopes.reverse 0 id

/-- `Sema::insertDeclToCurrentScope`; `scopes.back()` needs a scope. -/
def insertDeclToCurrentScope (s : Sema) (decl : ResolvedDecl) : Except Fault (Bool × Sema) :=
  match lookupDecl s decl.identifier with
  | (some _, 0) =>
    .ok (false,
      report s decl.location ("redeclaration of '".toList ++ decl.identifier ++ ['\'']))
  | _ =>
    match s.scopes.getLast? with
    | none => .error .outOfBounds
    | some back => .ok (true, { s with scopes := s.scopes.dropLast ++ [back ++ [decl]] })

/-- `Sema::resolveDeclRefExpr` on the reference at `location` to `identifier`. -/
def resolveDeclRefExpr (s : Sema) (location : SourceLocation) (identifier : List Char)
    (isCallee : Bool) : Option ResolvedDeclRefExpr × Sema :=
  match (lookupDecl s identifier).1 with
  | none =>
    (none, report s location ("symbol '".toList ++ identifier ++ "' not found".toList))
  | some decl =>
    match isCallee, decl with
    | false, .ResolvedFunctionDecl _ =>
      (none, report s location
        ("expected to call function '".toList ++ identifier ++ "'".toList))
    | _, _ => (some ⟨location, decl⟩, s)

mutual

/-- `Sema::resolveExpr` with fuel. The sixth `dynamic_cast`, to `Assignment`,
is null for each of the six classes of expressions, so it has no branch here. -/
def resolveExprFuel (typeOf : ResolvedExpr → TypeKind) :
    Nat → Sema → Expr → Except Fault (Option ResolvedExpr × Sema)
  | 0, _, _ => .error .outOfFuel
  | fuel + 1, s, expr =>
    match expr with
    | .UnaryOperator location operand op =>
      resolveUnaryOperatorFuel typeOf fuel s location operand op
    | .BinaryOperator location lhs rhs op =>
      resolveBinaryOperatorFuel typeOf fuel s location lhs rhs op
    | .GroupingExpr location e => resolveGroupingExprFuel typeOf fuel s location e
    | .DeclRefExpr location identifier =>
      match resolveDeclRefExpr s location identifier false with
      | (none, s1) => .ok (none, s1)
      | (some e, s1) => .ok (some (.ResolvedDeclRefExpr e), s1)
    | .CallExpr location callee arguments =>
      resolveCallExprFuel typeOf fuel s location callee arguments
    | .NumberLiteral _ _ => .error (.assertion "unexpected expression type")

/-- The call `resolveExpr(*p)` on a `std::unique_ptr<Expr>`. -/
def resolveDerefFuel (typeOf : ResolvedExpr → TypeKind) :
    Nat → Sema → Option Expr → Except Fault (Option ResolvedExpr × Sema)
  | 0, _, _ => .error .outOfFuel
  | _ + 1, _, none => .error .nullDereference
  | fuel + 1, s, some expr => resolveExprFuel typeOf fuel s expr

/-- `Sema::resolveUnaryOperator` with fuel. -/
def resolveUnaryOperatorFuel (typeOf : ResolvedExpr → TypeKind) :
    Nat → Sema → SourceLocation → Option Expr → TokenKind →
      Except Fault (Option ResolvedExpr × Sema)
  | 0, _, _, _, _ => .error .outOfFuel
  | fuel + 1, s, location, operand, op =>
    match resolveDerefFuel typeOf fuel s operand with
    | .error e => .error e
    | .ok (none, s1) => .ok (none, s1)
    | .ok (some resolvedRHS, s1) =>
      if typeOf resolvedRHS = .Void then
        .ok (none, report s1 resolvedRHS.location
          "void expression cannot be used as an operand to unary operator".toList)
      else
        .ok (some (.ResolvedUnaryOperator location op resolvedRHS), s1)

/-- `Sema::resolveBinaryOperator` with fuel. -/
def resolveBinaryOperatorFuel (typeOf : ResolvedExpr → TypeKind) :
    Nat → Sema → SourceLocation → Option Expr → Option Expr → TokenKind →
      Except Fault (Option ResolvedExpr × Sema)
  | 0, _, _, _, _, _ => .error .outOfFuel
  | fuel + 1, s, location, lhs, rhs, op =>
    match resolveDerefFuel typeOf fuel s lhs with
    | .error e => .error e
    | .ok (none, s1) => .ok (none, s1)
    | .ok (some resolvedLHS, s1) =>
      match resolveDerefFuel typeOf fuel s1 rhs with
      | .error e => .error e
      | .ok (none, s2) => .ok (none, s2)
      | .ok (some resolvedRHS, s2) =>
        if typeOf resolvedLHS = .Void then
          .ok (none, report s2 resolvedLHS.location
            "void expression cannot be used as LHS operand to binary operator".toList)
        else if typeOf resolvedRHS = .Void then
          .ok (none, report s2 resolvedRHS.location
            "void expression cannot be used as RHS operand to binary operator".toList)
        else if typeOf resolvedLHS = typeOf resolvedRHS ∧ typeOf resolvedLHS = .Number then
          .ok (some (.ResolvedBinaryOperator location op resolvedLHS resolvedRHS), s2)
        else
          .error (.assertion "unexpected type in binop")

/-- `Sema::resolveGroupingExpr` with fuel. -/
def resolveGroupingExprFuel (typeOf : ResolvedExpr → TypeKind) :
    Nat → Sema → SourceLocation → Option Expr → Except Fault (Option ResolvedExpr × Sema)
  | 0, _, _, _ => .error .outOfFuel
  | fuel + 1, s, location, expr =>
    match resolveDerefFuel typeOf fuel s expr with
    | .error e => .error e
    | .ok (none, s1) => .ok (none, s1)
    | .ok (some resolvedExpr, s1) => .ok (some (.ResolvedGroupingExpr location resolvedExpr), s1)

/-- The loop of `Sema::resolveCallExpr` over the arguments. -/
def resolveArgumentsFuel (typeOf : ResolvedExpr → TypeKind) :
    Nat → Sema → List (Option Expr) → List ResolvedExpr →
      Except Fault (Option (List ResolvedExpr) × Sema)
  | 0, _, _, _ => .error .outOfFuel
  | _ + 1, s, [], resolvedArgs => .ok (some resolvedArgs, s)
  | fuel + 1, s, arg :: rest, resolvedArgs =>
    match resolveDerefFuel typeOf fuel s arg with
    | .error e => .error e
    | .ok (none, s1) => .ok (none, s1)
    | .ok (some resolvedArg, s1) =>
      resolveArgumentsFuel typeOf fuel s1 rest (resolvedArgs ++ [resolvedArg])

/-- `Sema::resolveCallExpr` with fuel. -/
def resolveCallExprFuel (typeOf : ResolvedExpr → TypeKind) :
    Nat → Sema → SourceLocation → Option Expr → List (Option Expr) →
      Except Fault (Option ResolvedExpr × Sema)
  | 0, _, _, _, _ => .error .outOfFuel
  | fuel + 1, s, location, callee, arguments =>
    match callee with
    | some (.DeclRefExpr dreLocation identifier) =>
      match resolveDeclRefExpr s dreLocation identifier true with
      | (none, s1) => .ok (none, s1)
      | (some resolvedCallee, s1) =>
        match resolvedCallee.decl with
        | .ResolvedFunctionDecl resolvedFunctionDecl =>
          if arguments.length ≠ resolvedFunctionDecl.params.length then
            .ok (none, report s1 location "argument count mismatch".toList)
          else
            match resolveArgumentsFuel typeOf fuel s1 arguments [] with
            | .error e => .error e
            | .ok (none, s2) => .ok (none, s2)
            | .ok (some resolvedArgs, s2) =>
              .ok (some (.ResolvedCallExpr location resolvedCallee resolvedArgs), s2)
        | _ => .ok (none, report s1 location "calling non-function symbol".toList)
    | _ => .ok (none, report s location "expression cannot be called as a function".toList)

end

mutual

/-- The number of nodes of an expression. -/
def Expr.size : Expr → Nat
  | .NumberLiteral _ _ => 1
  | .DeclRefExpr _ _ => 1
  | .CallExpr _ callee arguments => 1 + sizeOpt callee + sizeArgs arguments
  | .GroupingExpr _ e => 1 + sizeOpt e
  | .BinaryOperator _ lhs rhs _ => 1 + sizeOpt lhs + sizeOpt rhs
  | .UnaryOperator _ operand _ => 1 + sizeOpt operand

/-- The number of nodes behind a pointer to an expression. -/
def sizeOpt : Option Expr → Nat
  | none => 0
  | some e => e.size

/-- The number of nodes and of list cells of an argument list. -/
def sizeArgs : List (Option Expr) → Nat
  | [] => 0
  | arg :: rest => 1 + sizeOpt arg + sizeArgs rest

end

/-- `Sema::resolveExpr`. The descent goes at most three calls deeper between
two nodes of the expression. -/
def resolveExpr (typeOf : ResolvedExpr → TypeKind) (s : Sema) (expr : Expr) :
    Except Fault (Option ResolvedExpr × Sema) :=
  resolveExprFuel typeOf (3 * expr.size + 1) s expr

/-- `Sema::resolveCallExpr` on the call at `location` of `callee` with
`arguments`. -/
def resolveCallExpr (typeOf : ResolvedExpr → TypeKind) (s : Sema)
    (location : SourceLocation) (callee : Option Expr) (arguments : List (Option Expr)) :
    Except Fault (Option ResolvedExpr × Sema) :=
  resolveCallExprFuel typeOf (3 * sizeArgs arguments + 3) s location callee arguments

/-! ## Control-flow graph (cfg.h) and the flow checks of sema.cpp -/

/-- The statements a basic block refers to. The resolved statement classes
are not declared in the sources; each constructor carries the members
`checkReturnOnAllPaths` and `checkVariableInitialization` read. An expression
is a statement too. -/
inductive ResolvedStmt where
  | ResolvedDeclStmt (location : SourceLocation) (varDecl : ResolvedVarDecl)
  | ResolvedAssignment (location : SourceLocation) («variable» : ResolvedDeclRefExpr)
  | ResolvedReturnStmt (location : SourceLocation)
  | ResolvedIfStmt (location : SourceLocation)
  | ResolvedWhileStmt (location : SourceLocation)
  | ResolvedExpr (e : ResolvedExpr)
  deriving Repr

/-- The order of `std::pair<int, bool>`, by which a `std::set` of edges is
kept: first the block index, then `false` before `true`. -/
def edgeLt (a b : Int × Bool) : Bool :=
  a.1 < b.1 || (a.1 == b.1 && (!a.2 && b.2))

/-- `std::set<std::pair<int, bool>>::emplace`: the set is the list of its
elements in ascending order. -/
def setEmplace : List (Int × Bool) → Int × Bool → List (Int × Bool)
  | [], e => [e]
  | x :: rest, e =>
    if edgeLt e x then e :: x :: rest
    else if e = x then x :: rest
    else x :: setEmplace rest e

/-- The struct `BasicBlock` of cfg.h. -/
structure BasicBlock where
  predecessors : List (Int × Bool) := []
  successors : List (Int × Bool) := []
  statements : List ResolvedStmt := []
  deriving Repr

/-- The struct `CFG` of cfg.h. -/
structure CFG where
  basicBlocks : List BasicBlock := []
  entry : Int := -1
  exit : Int := -1
  deriving Repr

/-- The element `v[i]` of a vector for an `int` index; none outside it. -/
def vectorAt {α : Type} (v : List α) (i : Int) : Option α :=
  if 0 ≤ i then v.get? i.toNat else none

/-- The vector `v` after `v[i] = x`, for an index inside it. -/
def vectorSet {α : Type} (v : List α) (i : Int) (x : α) : List α :=
  v.set i.toNat x

/-- `CFG::insertNewBlock`. -/
def CFG.insertNewBlock (cfg : CFG) : Int × CFG :=
  (cfg.basicBlocks.length, { cfg with basicBlocks := cfg.basicBlocks ++ [{}] })

/-- `CFG::insertEdge`. -/
def CFG.insertEdge (cfg : CFG) («from» «to» : Int) (reachable : Bool) : Except Fault CFG :=
  match vectorAt cfg.basicBlocks «from» with
  | none => .error .outOfBounds
  | some b =>
    let b0 : BasicBlock := { b with successors := setEmplace b.successors («to», reachable) }
    let blocks1 := vectorSet cfg.basicBlocks «from» b0
    match vectorAt blocks1 «to» with
    | none => .error .outOfBounds
    | some b1 =>
      let b2 : BasicBlock :=
        { b1 with predecessors := setEmplace b1.predecessors («from», reachable) }
      .ok { cfg with basicBlocks := vectorSet blocks1 «to» b2 }

/-- `CFG::insertNewBlockBefore`. -/
def CFG.insertNewBlockBefore (cfg : CFG) (before : Int) (reachable : Bool) :
    Except Fault (Int × CFG) :=
  let (b, cfg1) := cfg.insertNewBlock
  match cfg1.insertEdge b before reachable with
  | .error e => .error e
  | .ok cfg2 => .ok (b, cfg2)

/-- `CFG::insertStmt`. -/
def CFG.insertStmt (cfg : CFG) (stmt : ResolvedStmt) (block : Int) : Except Fault CFG :=
  match vectorAt cfg.basicBlocks block with
  | none => .error .outOfBounds
  | some b =>
    let b1 : BasicBlock := { b with statements := b.statements ++ [stmt] }
    .ok { cfg with basicBlocks := vectorSet cfg.basicBlocks block b1 }

/-- The test `!stmts.empty() && dynamic_cast<const ResolvedReturnStmt *>(stmts[0])`. -/
def beginsWithReturn (b : BasicBlock) : Bool :=
  match b.statements with
  | .ResolvedReturnStmt _ :: _ => true
  | _ => false

/-- The loop `for (auto &&[succ, reachable] : succs) if (reachable)
worklist.emplace_back(succ);`. -/
def pushReachable (worklist : List Int) : List (Int × Bool) → List Int
  | [] => worklist
  | (succ, reachable) :: rest =>
    if reachable then pushReachable (worklist ++ [succ]) rest
    else pushReachable worklist rest

/-- The `while (!worklist.empty())` loop of `Sema::checkReturnOnAllPaths`. The
vector `worklist` has its `back()` at the end of the list; of the set
`visited` only membership is read. The result is `returnCount` and
`exitReached`. -/
def checkReturnLoop (cfg : CFG) :
    Nat → List Int → List Int → Int → Bool → Except Fault (Int × Bool)
  | 0, _, _, _, _ => .error .outOfFuel
  | fuel + 1, visited, worklist, returnCount, exitReached =>
    match worklist.getLast? with
    | none => .ok (returnCount, exitReached)
    | some bb =>
      let worklist1 := worklist.dropLast
      if bb ∈ visited then checkReturnLoop cfg fuel visited worklist1 returnCount exitReached
      else
        let visited1 := bb :: visited
        let exitReached1 := exitReached || bb == cfg.exit
        match vectorAt cfg.basicBlocks bb with
        | none => .error .outOfBounds
        | some block =>
          if beginsWithReturn block then
            checkReturnLoop cfg fuel visited1 worklist1 (returnCount + 1) exitReached1
          else
            checkReturnLoop cfg fuel visited1 (pushReachable worklist1 block.successors)
              returnCount exitReached1

/-- The number of successor edges of the blocks of a CFG. -/
def edgeCount (cfg : CFG) : Nat :=
  (cfg.basicBlocks.map (fun b => b.successors.length)).sum

/-- `Sema::checkReturnOnAllPaths`. A block is pushed once for the entry and
once for each successor edge of a block visited for the first time, so the
loop makes at most `edgeCount cfg + 1` turns before it finds the worklist
empty. -/
def checkReturnOnAllPaths (s : Sema) (fn : ResolvedFunctionDecl) (cfg : CFG) :
    Except Fault (Bool × Sema) :=
  if fn.type = .Void then .ok (false, s)
  else
    match checkReturnLoop cfg (edgeCount cfg + 2) [] [cfg.entry] 0 false with
    | .error e => .error e
    | .ok (returnCount, exitReached) =>
      if exitReached || returnCount == 0 then
        .ok (true, report s fn.location
          (if returnCount > 0 then
            "non-void function doesn't return a value on every path".toList
          else "non-void function doesn't return a value".toList))
      else .ok (false, s)

/-- The enumeration `State` of `Sema::checkVariableInitialization`. -/
inductive State where
  | Bottom | Unassigned | Assigned | Top
  deriving DecidableEq, Repr

/-- The lambda `joinStates`. -/
def joinStates (s1 s2 : State) : State :=
  if s1 = s2 then s1
  else if s1 = .Bottom then s2
  else if s2 = .Bottom then s1
  else .Top

/-- The type `Lattice`, a `std::map<const ResolvedVarDecl *, State>`: the
list of its entries in ascending order of the key, the address of the
declaration. Two maps are equal when these lists are. -/
abbrev Lattice := List (Nat × State)

/-- The assignment `m[key] = state`. -/
def Lattice.assign : Lattice → Nat → State → Lattice
  | [], key, state => [(key, state)]
  | (k, v) :: rest, key, state =>
    if key < k then (key, state) :: (k, v) :: rest
    else if key = k then (key, state) :: rest
    else (k, v) :: Lattice.assign rest key state

/-- The read `m[key]`: the state of `key`, and the map, to which a missing
key is added with the first enumerator, `Bottom`. -/
def Lattice.index (m : Lattice) (key : Nat) : State × Lattice :=
  match m.lookup key with
  | some state => (state, m)
  | none => (.Bottom, Lattice.assign m key .Bottom)

/-- The loop `for (auto &&[decl, state] : curLattices[pred.first])
tmp[decl] = joinStates(tmp[decl], state);`. -/
def joinLattice (tmp : Lattice) : Lattice → Lattice
  | [] => tmp
  | (decl, state) :: rest =>
    let (cur, tmp1) := Lattice.index tmp decl
    joinLattice (Lattice.assign tmp1 decl (joinStates cur state)) rest

/-- The loop `for (auto &&pred : preds)` around it. -/
def joinPreds (curLattices : List Lattice) (tmp : Lattice) :
    List (Int × Bool) → Except Fault Lattice
  | [] => .ok tmp
  | pred :: rest =>
    match vectorAt curLattices pred.1 with
    | none => .error .outOfBounds
    | some lattice => joinPreds curLattices (joinLattice tmp lattice) rest

/-- The vector `pendingErrors`. -/
abbrev PendingErrors := List (SourceLocation × List Char)

/-- One turn of the loop over the statements of a block in
`Sema::checkVariableInitialization`. -/
def sweepStmt (tmp : Lattice) (pendingErrors : PendingErrors) (stmt : ResolvedStmt) :
    Except Fault (Lattice × PendingErrors) :=
  match stmt with
  | .ResolvedDeclStmt _ varDecl =>
    .ok (Lattice.assign tmp varDecl.addr
          (if varDecl.initializer then .Assigned else .Unassigned), pendingErrors)
  | .ResolvedAssignment location «variable» =>
    match «variable».decl with
    | .ResolvedVarDecl var =>
      if var.isMutable then
        .ok (Lattice.assign tmp var.addr .Assigned, pendingErrors)
      else
        let (state, tmp1) := Lattice.index tmp var.addr
        if state ≠ .Unassigned then
          .ok (Lattice.assign tmp1 var.addr .Assigned,
            pendingErrors ++ [(location, '\'' :: var.identifier ++ "' cannot be mutated".toList)])
        else
          .ok (Lattice.assign tmp1 var.addr .Assigned, pendingErrors)
    | _ => .error (.assertion "assignment to non-variables should have been caught by sema")
  | .ResolvedExpr (.ResolvedDeclRefExpr dre) =>
    match dre.decl with
    | .ResolvedVarDecl var =>
      let (state, tmp1) := Lattice.index tmp var.addr
      if state ≠ .Assigned then
        .ok (tmp1,
          pendingErrors ++ [(dre.location, '\'' :: var.identifier ++ "' is not initialized".toList)])
      else
        .ok (tmp1, pendingErrors)
    | _ => .ok (tmp, pendingErrors)
  | _ => .ok (tmp, pendingErrors)

/-- The loop `for (auto it = stmts.rbegin(); it != stmts.rend(); ++it)` over
the statements still to visit. -/
def sweepStmts (tmp : Lattice) (pendingErrors : PendingErrors) :
    List ResolvedStmt → Except Fault (Lattice × PendingErrors)
  | [] => .ok (tmp, pendingErrors)
  | stmt :: rest =>
    match sweepStmt tmp pendingErrors stmt with
    | .error e => .error e
    | .ok (tmp1, pendingErrors1) => sweepStmts tmp1 pendingErrors1 rest

/-- The state a block computes: the join over its predecessors, then the
statements from the back of the vector to its front. -/
def blockState (curLattices : List Lattice) (pendingErrors : PendingErrors)
    (block : BasicBlock) : Except Fault (Lattice × PendingErrors) :=
  match joinPreds curLattices [] block.predecessors with
  | .error e => .error e
  | .ok tmp => sweepStmts tmp pendingErrors block.statements.reverse

/-- The loop `for (int bb = cfg.entry; bb != cfg.exit; --bb)` from block `bb`
on. The result is `curLattices`, `changed` and `pendingErrors`. -/
def forBlocks (cfg : CFG) :
    Nat → Int → List Lattice → Bool → PendingErrors →
      Except Fault (List Lattice × Bool × PendingErrors)
  | 0, _, _, _, _ => .error .outOfFuel
  | fuel + 1, bb, curLattices, changed, pendingErrors =>
    if bb = cfg.exit then .ok (curLattices, changed, pendingErrors)
    else
      match vectorAt cfg.basicBlocks bb with
      | none => .error .outOfBounds
      | some block =>
        match blockState curLattices pendingErrors block with
        | .error e => .error e
        | .ok (tmp, pendingErrors1) =>
          match vectorAt curLattices bb with
          | none => .error .outOfBounds
          | some lattice =>
            if lattice ≠ tmp then
              forBlocks cfg fuel (bb - 1) (vectorSet curLattices bb tmp) true pendingErrors1
            else
              forBlocks cfg fuel (bb - 1) curLattices changed pendingErrors1

/-- One turn of the `while (changed)` loop: `changed = false`,
`pendingErrors.clear()` and the loop over the blocks, which makes at most
`entry + 1` turns before it reaches `exit` or leaves the vector. -/
def pass (cfg : CFG) (curLattices : List Lattice) :
    Except Fault (List Lattice × Bool × PendingErrors) :=
  forBlocks cfg (cfg.entry.toNat + 2) cfg.entry curLattices false []

/-- The `while (changed)` loop. The result is `curLattices` and
`pendingErrors` after the first turn that changes nothing. -/
def whileChanged (cfg : CFG) : Nat → List Lattice → Except Fault (List Lattice × PendingErrors)
  | 0, _ => .error .outOfFuel
  | fuel + 1, curLattices =>
    match pass cfg curLattices with
    | .error e => .error e
    | .ok (curLattices1, changed, pendingErrors) =>
      if changed then whileChanged cfg fuel curLattices1
      else .ok (curLattices1, pendingErrors)

/-- The number of statements of the blocks of a CFG. -/
def stmtCount (cfg : CFG) : Nat :=
  (cfg.basicBlocks.map (fun b => b.statements.length)).sum

/-- The fixed point of `Sema::checkVariableInitialization`: the lattices and
the pending errors the `while (changed)` loop ends with. A turn that changes
something raises the state of a declaration in a block, which has at most
`stmtCount cfg` declarations in each of its blocks and three steps from a
missing key to `Top`. -/
def fixedPoint (cfg : CFG) : Except Fault (List Lattice × PendingErrors) :=
  whileChanged cfg (3 * cfg.basicBlocks.length * stmtCount cfg + 2)
    (List.replicate cfg.basicBlocks.length [])

/-- The loop `for (auto &&[loc, msg] : pendingErrors) report(loc, msg);`. -/
def reportAll (s : Sema) (pendingErrors : PendingErrors) : Sema :=
  { s with diagnostics := s.diagnostics ++ pendingErrors }

/-- `Sema::checkVariableInitialization`. -/
def checkVariableInitialization (s : Sema) (cfg : CFG) : Except Fault (Bool × Sema) :=
  match fixedPoint cfg with
  | .error e => .error e
  | .ok (_, pendingErrors) => .ok (!pendingErrors.isEmpty, reportAll s pendingErrors)

/-! ## Example declarations -/

/-- The variable `x` declared at line `line`, at address `addr`. -/
def varX (addr : Nat) (line : Int) : ResolvedDecl :=
  .ResolvedVarDecl ⟨addr, ⟨"t", line, 1⟩, "x".toList, .Number, true, false⟩

/-- The function `f` without parameters. -/
def funF : ResolvedFunctionDecl := ⟨9, ⟨"t", 1, 1⟩, "f".toList, .Number, []⟩

/-- The declaration of the local variable `x`, at address 1. -/
def localX (isMutable initializer : Bool) : ResolvedVarDecl :=
  ⟨1, ⟨"t", 2, 1⟩, "x".toList, .Number, isMutable, initializer⟩

/-- The statement that declares `x`. -/
def declX (isMutable initializer : Bool) : ResolvedStmt :=
  .ResolvedDeclStmt ⟨"t", 2, 1⟩ (localX isMutable initializer)

/-- The statement `x = 6;` on line 3. -/
def assignX (isMutable initializer : Bool) : ResolvedStmt :=
  .ResolvedAssignment ⟨"t", 3, 3⟩ ⟨⟨"t", 3, 1⟩, .ResolvedVarDecl (localX isMutable initializer)⟩

/-- The reference to `x` on line 3. -/
def refX (isMutable initializer : Bool) : ResolvedStmt :=
  .ResolvedExpr (.ResolvedDeclRefExpr
    ⟨⟨"t", 3, 8⟩, .ResolvedVarDecl (localX isMutable initializer)⟩)

/-- Modelled from the spec: `CFGBuilder::build` is declared in cfg.h and
defined nowhere in the sources. Construction is back-to-front from a virtual
exit block, so the exit is block 0, the one block of a body without branches
is block 1 and the entry is block 2, each wired to the block that follows
it. -/
def singleBlockCFG (statements : List ResolvedStmt) : CFG :=
  { basicBlocks :=
      [ { predecessors := [(1, true)] },
        { predecessors := [(2, true)], successors := [(0, true)], statements := statements },
        { successors := [(1, true)] } ],
    entry := 2, exit := 0 }

/-- Modelled from the spec: the CFG `CFGBuilder::build`, which is defined
nowhere in the sources, gives a body that is only `if (cond) { return 1; }`.
Block 0 is the virtual exit, block 1 the true branch with the return, block 2
the condition with an edge to the true branch and an edge to what follows the
statement, the exit, and block 3 the entry. -/
def ifOnlyCFG : CFG :=
  { basicBlocks :=
      [ { predecessors := [(1, true), (2, true)] },
        { predecessors := [(2, true)], successors := [(0, true)],
          statements := [.ResolvedReturnStmt ⟨"t", 3, 5⟩] },
        { predecessors := [(3, true)], successors := [(0, true), (1, true)],
          statements := [.ResolvedIfStmt ⟨"t", 2, 3⟩,
            .ResolvedExpr (.ResolvedDeclRefExpr
              ⟨⟨"t", 2, 7⟩, .ResolvedParamDecl ⟨2, ⟨"t", 1, 8⟩, "cond".toList, .Number⟩⟩)] },
        { successors := [(2, true)] } ],
    entry := 3, exit := 0 }

/-- Modelled from the spec: the CFG `CFGBuilder::build`, which is defined
nowhere in the sources, gives the body
`if (cond) { return 1; } else { return 2; }`. Block 0 is the virtual exit,
block 1 the false branch, block 2 the true branch, block 3 the condition
with an edge to each branch and block 4 the entry. -/
def ifElseCFG : CFG :=
  { basicBlocks :=
      [ { predecessors := [(1, true), (2, true)] },
        { predecessors := [(3, true)], successors := [(0, true)],
          statements := [.ResolvedReturnStmt ⟨"t", 5, 5⟩] },
        { predecessors := [(3, true)], successors := [(0, true)],
          statements := [.ResolvedReturnStmt ⟨"t", 3, 5⟩] },
        { predecessors := [(4, true)], successors := [(1, true), (2, true)],
          statements := [.ResolvedIfStmt ⟨"t", 2, 3⟩,
            .ResolvedExpr (.ResolvedDeclRefExpr
              ⟨⟨"t", 2, 7⟩, .ResolvedParamDecl ⟨2, ⟨"t", 1, 8⟩, "cond".toList, .Number⟩⟩)] },
        { successors := [(3, true)] } ],
    entry := 4, exit := 0 }

/-! ## The traversal of the return check as the specification words it -/

/-- Whether `i` is the index of a block of the CFG. -/
def CFG.validIndex (cfg : CFG) (i : Int) : Bool :=
  decide (0 ≤ i ∧ i < cfg.basicBlocks.length)

/-- Whether the entry and every successor of every block are indices of
blocks of the CFG. -/
def CFG.validSuccessors (cfg : CFG) : Bool :=
  cfg.validIndex cfg.entry &&
    cfg.basicBlocks.all (fun b => b.successors.all (fun e => cfg.validIndex e.1))

/-- The blocks the traversal visits: the entry, and every successor along an
edge flagged reachable of a visited block that does not begin with a
return. -/
inductive Visited (cfg : CFG) : Int → Prop where
  | entry : Visited cfg cfg.entry
  | step (a b : Int) (block : BasicBlock) : Visited cfg a →
      vectorAt cfg.basicBlocks a = some block → beginsWithReturn block = false →
      (b, true) ∈ block.successors → Visited cfg b

/-- The successor edges of the blocks from index `i` on that are not in
`visited`: the pushes the loop of the return check can still make. -/
def pendingEdges (visited : List Int) : List BasicBlock → Int → Nat
  | [], _ => 0
  | b :: rest, i =>
    (if i ∈ visited then 0 else b.successors.length) + pendingEdges visited rest (i + 1)

/-- The state of the loop of the return check: what holds of `visited`,
`worklist`, `returnCount` and `exitReached` at the head of each turn. -/
structure LoopInv (cfg : CFG) (visited worklist : List Int) (returnCount : Int)
    (exitReached : Bool) : Prop where
  visited_ok : ∀ b ∈ visited, Visited cfg b
  worklist_ok : ∀ b ∈ worklist, Visited cfg b
  entry_seen : cfg.entry ∈ visited ∨ cfg.entry ∈ worklist
  closed : ∀ a ∈ visited, ∀ block, vectorAt cfg.basicBlocks a = some block →
    beginsWithReturn block = false → ∀ b, (b, true) ∈ block.successors →
    b ∈ visited ∨ b ∈ worklist
  count_nonneg : 0 ≤ returnCount
  count_zero : returnCount = 0 ↔ ∀ b ∈ visited, ∀ block,
    vectorAt cfg.basicBlocks b = some block → beginsWithReturn block = false
  exit_iff : exitReached = true ↔ cfg.exit ∈ visited

/-! ## The dataflow of the initialization check, key by key -/

/-- The height of what a map holds for a key: no entry, `Bottom`, one of
`Unassigned` and `Assigned`, `Top`. -/
def rank : Option State → Nat
  | none => 0
  | some .Bottom => 1
  | some .Unassigned => 2
  | some .Assigned => 2
  | some .Top => 3

/-- The order of the states, with a missing entry below `Bottom`: equal, or
strictly lower. -/
def leS (a b : Option State) : Bool :=
  decide (a = b) || decide (rank a < rank b)

/-- What `tmp[decl] = joinStates(tmp[decl], state)` leaves for a key, from
what `tmp` held for it and what the joined map holds for it. -/
def joinOpt (a b : Option State) : Option State :=
  match b with
  | none => a
  | some state => some (joinStates (a.getD .Bottom) state)

/-- The key a statement reads or writes in the map, if it has one. -/
def stmtAddr : ResolvedStmt → Option Nat
  | .ResolvedDeclStmt _ varDecl => some varDecl.addr
  | .ResolvedAssignment _ ⟨_, .ResolvedVarDecl var⟩ => some var.addr
  | .ResolvedExpr (.ResolvedDeclRefExpr ⟨_, .ResolvedVarDecl var⟩) => some var.addr
  | _ => none

/-- What a statement leaves in the map for the key `k`, from what the map
held for it. -/
def transfer (stmt : ResolvedStmt) (k : Nat) (a : Option State) : Option State :=
  match stmt with
  | .ResolvedDeclStmt _ varDecl =>
    if k = varDecl.addr then some (if varDecl.initializer then .Assigned else .Unassigned)
    else a
  | .ResolvedAssignment _ ⟨_, .ResolvedVarDecl var⟩ =>
    if k = var.addr then some .Assigned else a
  | .ResolvedExpr (.ResolvedDeclRefExpr ⟨_, .ResolvedVarDecl var⟩) =>
    if k = var.addr then some (a.getD .Bottom) else a
  | _ => a

/-- What a sequence of statements leaves in the map for the key `k`. -/
def sweepAt (k : Nat) : Option State → List ResolvedStmt → Option State
  | a, [] => a
  | a, stmt :: rest => sweepAt k (transfer stmt k a) rest

/-- What the join over the predecessors leaves in the map for the key `k`. -/
def joinAt (curLattices : List Lattice) (k : Nat) :
    Option State → List (Int × Bool) → Option State
  | a, [] => a
  | a, pred :: rest =>
    joinAt curLattices k
      (joinOpt a (List.lookup k ((vectorAt curLattices pred.1).getD []))) rest

/-- What a block computes for the key `k` from the maps of the blocks. -/
def stateAt (curLattices : List Lattice) (block : BasicBlock) (k : Nat) : Option State :=
  sweepAt k (joinAt curLattices k none block.predecessors) block.statements.reverse

/-- The keys of the statements of a block. -/
def stmtKeys : List ResolvedStmt → List Nat
  | [] => []
  | stmt :: rest =>
    match stmtAddr stmt with
    | some k => k :: stmtKeys rest
    | none => stmtKeys rest

/-- The keys of the statements of the blocks. -/
def blockKeys : List BasicBlock → List Nat
  | [] => []
  | b :: rest => stmtKeys b.statements ++ blockKeys rest

/-- The sum of the heights a map gives the keys `keys`. -/
def mu (keys : List Nat) (m : Lattice) : Nat :=
  (keys.map (fun k => rank (List.lookup k m))).sum

/-- The sum of the heights over the maps of all blocks. -/
def total (keys : List Nat) : List Lattice → Nat
  | [] => 0
  | m :: rest => mu keys m + total keys rest

/-- The keys of a map ascend strictly, as the entries of a `std::map` do. -/
def sortedKeys (m : Lattice) : Prop :=
  List.Pairwise (fun a b => a.1 < b.1) m

/-- Whether a statement passes the assertion of the initialization check:
an assignment assigns to a variable. -/
def stmtOk : ResolvedStmt → Bool
  | .ResolvedAssignment _ ⟨_, .ResolvedVarDecl _⟩ => true
  | .ResolvedAssignment _ _ => false
  | _ => true

/-- Whether the loops of the initialization check stay inside the vectors:
the blocks from `entry` down to `exit` exist, every predecessor of a block is
the index of a block, and every assignment assigns to a variable. -/
def CFG.validForInitialization (cfg : CFG) : Bool :=
  decide (-1 ≤ cfg.exit ∧ cfg.exit ≤ cfg.entry ∧ cfg.entry < cfg.basicBlocks.length) &&
    cfg.basicBlocks.all (fun b =>
      b.predecessors.all (fun e => cfg.validIndex e.1) && b.statements.all stmtOk)

/-- What holds of `curLattices` at the head of each turn of the loops of the
initialization check: one map for each block, each with ascending keys that
are keys of statements, and the map of each block the loop visits below what
the block computes from the maps. -/
structure FlowInv (cfg : CFG) (X : List Lattice) : Prop where
  length_eq : X.length = cfg.basicBlocks.length
  sorted : ∀ lattice ∈ X, sortedKeys lattice
  keys : ∀ lattice ∈ X, ∀ k, k ∉ blockKeys cfg.basicBlocks → List.lookup k lattice = none
  below : ∀ (b : Int) (lattice : Lattice) (block : BasicBlock), cfg.exit < b → b ≤ cfg.entry →
    vectorAt X b = some lattice → vectorAt cfg.basicBlocks b = some block →
    ∀ k, leS (List.lookup k lattice) (stateAt X block k) = true

/-- Modelled from the spec: the CFG `CFGBuilder::build`, which is defined
nowhere in the sources, gives the body `var x: number; if (c) { x = 6; } x;`.
Block 0 is the virtual exit, block 1 holds the reference to `x` after the
`if`, block 2 the assignment of the true branch, block 3 the declaration and
the condition, with an edge to the true branch and an edge to what follows
the `if`, and block 4 is the entry. -/
def diamondCFG : CFG :=
  { basicBlocks :=
      [ { predecessors := [(1, true)] },
        { predecessors := [(2, true), (3, true)], successors := [(0, true)],
          statements := [refX true false] },
        { predecessors := [(3, true)], successors := [(1, true)],
          statements := [assignX true false] },
        { predecessors := [(4, true)], successors := [(1, true), (2, true)],
          statements := [.ResolvedIfStmt ⟨"t", 3, 1⟩, declX true false] },
        { successors := [(3, true)] } ],
    entry := 4, exit := 0 }

end Sema

namespace Sema

/-! ## The passes of the initialization check -/

/-- Whether the loops of the initialization check stay inside the vectors:
the blocks from `entry` down to `exit` exist and every predecessor of a block
is the index of a block. -/
def CFG.validForFlow (cfg : CFG) : Bool :=
  decide (-1 ≤ cfg.exit ∧ cfg.exit ≤ cfg.entry ∧ cfg.entry < cfg.basicBlocks.length) &&
    cfg.basicBlocks.all (fun b => b.predecessors.all (fun e => cfg.validIndex e.1))

/-- The value of `curLattices` after `n` turns of the `while (changed)` loop,
whether or not the loop goes on that long. -/
def passes (cfg : CFG) : Nat → Except Fault (List Lattice)
  | 0 => .ok (List.replicate cfg.basicBlocks.length [])
  | n + 1 =>
    match passes cfg n with
    | .error e => .error e
    | .ok curLattices =>
      match pass cfg curLattices with
      | .error e => .error e
      | .ok (curLattices1, _, _) => .ok curLattices1

/-- The order `Bottom < {Unassigned, Assigned} < Top` of the states. -/
def stateLe (s t : State) : Bool :=
  s == t || s == .Bottom || t == .Top

/-- The state a map gives a variable: the value `tmp[decl]` reads, `Bottom`
when the map has no entry for it. -/
def stateOf (m : Lattice) (k : Nat) : State :=
  (List.lookup k m).getD .Bottom

end Sema

/-! ## Constant evaluator (utils.h, constexpr.h, constexpr.cpp) -/

/-- The class template `ConstantValueContainer<Ty>` of utils.h. -/
structure ConstantValueContainer (Ty : Type) where
  value : Option Ty := none
  deriving DecidableEq, Repr

/-- `ConstantValueContainer::setConstantValue`. -/
def ConstantValueContainer.setConstantValue {Ty : Type} (_c : ConstantValueContainer Ty)
    (val : Option Ty) : ConstantValueContainer Ty :=
  { value := val }

/-- `ConstantValueContainer::getConstantValue`. -/
def ConstantValueContainer.getConstantValue {Ty : Type} (c : ConstantValueContainer Ty) :
    Option Ty :=
  c.value

namespace ConstantExpressionEvaluator

/-- The arithmetic of `double` that constexpr.cpp uses, on a type `D` of
numbers: the constants `0.0` and `1.0`, the operators `+`, `-`, `*`, `/`,
unary `-`, `<`, `>` and `==`. The operator `!=` is the negation of `==`. -/
structure Arith (D : Type) where
  zero : D
  one : D
  add : D → D → D
  sub : D → D → D
  mul : D → D → D
  div : D → D → D
  neg : D → D
  lt : D → D → Bool
  gt : D → D → Bool
  eq : D → D → Bool

mutual

/-- The resolved expressions as constexpr.cpp reads them. Each carries the
`ConstantValueContainer<double>` it derives from; a literal has its `value`,
the other classes have the members `evaluate` follows. The operands are
`std::unique_ptr`s the resolver has set. A call stands for the classes
`evaluate` has no branch for. -/
inductive ResolvedExpr (D : Type) where
  | ResolvedNumberLiteral (constant : ConstantValueContainer D) (value : D)
  | ResolvedGroupingExpr (constant : ConstantValueContainer D) (expr : ResolvedExpr D)
  | ResolvedBinaryOperator (constant : ConstantValueContainer D) (op : TokenKind)
      (lhs rhs : ResolvedExpr D)
  | ResolvedUnaryOperator (constant : ConstantValueContainer D) (op : TokenKind)
      (operand : ResolvedExpr D)
  | ResolvedDeclRefExpr (constant : ConstantValueContainer D) (decl : ResolvedDecl D)
  | ResolvedCallExpr (constant : ConstantValueContainer D)

/-- What the `decl` of a `ResolvedDeclRefExpr` points to, with the members
`evaluateDeclRefExpr` reads: of a variable `isMutable` and the `initializer`,
a `std::unique_ptr` that may be null. -/
inductive ResolvedDecl (D : Type) where
  | ResolvedVarDecl (isMutable : Bool) (initializer : Option (ResolvedExpr D))
  | ResolvedParamDecl
  | ResolvedFunctionDecl

end

/-- The member `getConstantValue()` of a resolved expression. -/
def ResolvedExpr.getConstantValue {D : Type} : ResolvedExpr D → Option D
  | .ResolvedNumberLiteral c _ => c.getConstantValue
  | .ResolvedGroupingExpr c _ => c.getConstantValue
  | .ResolvedBinaryOperator c _ _ _ => c.getConstantValue
  | .ResolvedUnaryOperator c _ _ => c.getConstantValue
  | .ResolvedDeclRefExpr c _ => c.getConstantValue
  | .ResolvedCallExpr c => c.getConstantValue

/-- The function `toBool` of constexpr.cpp: `*d != 0.0` for a known `d`. -/
def toBool {D : Type} (A : Arith D) (d : Option D) : Option Bool :=
  match d with
  | none => none
  | some x => some (!A.eq x A.zero)

/-- `ConstantExpressionEvaluator::evaluateBinaryOperator`, given the result
`lhs` of `evaluate(*binop.lhs, allowSideEffects)`, its first statement, and
the call `evaluate(*binop.rhs, allowSideEffects)`, which runs where the
operator reaches it. -/
def evaluateBinaryOperator {D : Type} (A : Arith D) (op : TokenKind) (lhs : Option D)
    (evaluateRhs : Unit → Except Fault (Option D)) (allowSideEffects : Bool) :
    Except Fault (Option D) :=
  if lhs.isNone && !allowSideEffects then .ok none
  else
    match op with
    | .PipePipe =>
      if toBool A lhs = some true then .ok (some A.one)
      else
        match evaluateRhs () with
        | .error e => .error e
        | .ok rhs =>
          if toBool A rhs = some true then .ok (some A.one)
          else if lhs.isSome && rhs.isSome then .ok (some A.zero)
          else .ok none
    | .AmpAmp =>
      if toBool A lhs = some false then .ok (some A.zero)
      else
        match evaluateRhs () with
        | .error e => .error e
        | .ok rhs =>
          if toBool A rhs = some false then .ok (some A.zero)
          else if lhs.isSome && rhs.isSome then .ok (some A.one)
          else .ok none
    | .Asterisk =>
      match lhs with
      | none => .ok none
      | some l =>
        match evaluateRhs () with
        | .error e => .error e
        | .ok rhs => .ok (some (A.mul l (rhs.getD A.zero)))
    | .Slash =>
      match lhs with
      | none => .ok none
      | some l =>
        match evaluateRhs () with
        | .error e => .error e
        | .ok rhs => .ok (some (A.div l (rhs.getD A.one)))
    | .Plus =>
      match lhs with
      | none => .ok none
      | some l =>
        match evaluateRhs () with
        | .error e => .error e
        | .ok rhs => .ok (some (A.add l (rhs.getD A.zero)))
    | .Minus =>
      match lhs with
      | none => .ok none
      | some l =>
        match evaluateRhs () with
        | .error e => .error e
        | .ok rhs => .ok (some (A.sub l (rhs.getD A.zero)))
    | .Lt =>
      match lhs with
      | none => .ok none
      | some l =>
        match evaluateRhs () with
        | .error e => .error e
        | .ok rhs => .ok (some (if A.lt l (rhs.getD A.zero) then A.one else A.zero))
    | .Gt =>
      match lhs with
      | none => .ok none
      | some l =>
        match evaluateRhs () with
        | .error e => .error e
        | .ok rhs => .ok (some (if A.gt l (rhs.getD A.zero) then A.one else A.zero))
    | .EqualEqual =>
      match lhs with
      | none => .ok none
      | some l =>
        match evaluateRhs () with
        | .error e => .error e
        | .ok rhs => .ok (some (if A.eq l (rhs.getD A.zero) then A.one else A.zero))
    | _ => .error (.unreachable "unexpected binary operator")

/-- `ConstantExpressionEvaluator::evaluateUnaryOperator`, given the result
`operand` of `evaluate(*unop.operand, allowSideEffects)`. In
`!toBool(operand) ? 1.0 : 0.0` the operator `!` is applied to the
`std::optional<bool>`, which converts to `true` when it holds a value. -/
def evaluateUnaryOperator {D : Type} (A : Arith D) (op : TokenKind) (operand : Option D) :
    Except Fault (Option D) :=
  match operand with
  | none => .ok none
  | some x =>
    match op with
    | .Excl => .ok (some (if !(toBool A operand).isSome then A.one else A.zero))
    | .Minus => .ok (some (A.neg x))
    | _ => .error (.unreachable "unexpected unary operator")

mutual

/-- `ConstantExpressionEvaluator::evaluate`. -/
def evaluate {D : Type} (A : Arith D) :
    ResolvedExpr D → Bool → Except Fault (Option D)
  | .ResolvedNumberLiteral c value, _ =>
    match c.getConstantValue with
    | some val => .ok (some val)
    | none => .ok (some value)
  | .ResolvedGroupingExpr c expr, allowSideEffects =>
    match c.getConstantValue with
    | some val => .ok (some val)
    | none => evaluate A expr allowSideEffects
  | .ResolvedBinaryOperator c op lhs rhs, allowSideEffects =>
    match c.getConstantValue with
    | some val => .ok (some val)
    | none =>
      match evaluate A lhs allowSideEffects with
      | .error e => .error e
      | .ok l =>
        evaluateBinaryOperator A op l (fun _ => evaluate A rhs allowSideEffects)
          allowSideEffects
  | .ResolvedUnaryOperator c op operand, allowSideEffects =>
    match c.getConstantValue with
    | some val => .ok (some val)
    | none =>
      match evaluate A operand allowSideEffects with
      | .error e => .error e
      | .ok x => evaluateUnaryOperator A op x
  | .ResolvedDeclRefExpr c decl, allowSideEffects =>
    match c.getConstantValue with
    | some val => .ok (some val)
    | none => evaluateDeclRefExpr A decl allowSideEffects
  | .ResolvedCallExpr c, _ =>
    match c.getConstantValue with
    | some val => .ok (some val)
    | none => .ok none

/-- `ConstantExpressionEvaluator::evaluateDeclRefExpr` on the declaration the
reference points to. -/
def evaluateDeclRefExpr {D : Type} (A : Arith D) :
    ResolvedDecl D → Bool → Except Fault (Option D)
  | .ResolvedVarDecl false (some initializer), allowSideEffects =>
    evaluate A initializer allowSideEffects
  | _, _ => .ok none

end

/-- The arithmetic of the rational numbers, for expressions whose values the
`double` arithmetic computes without rounding. -/
def ratArith : Arith ℚ :=
  { zero := 0, one := 1, add := fun a b => a + b, sub := fun a b => a - b,
    mul := fun a b => a * b, div := fun a b => a / b, neg := fun a => -a,
    lt := fun a b => decide (a < b), gt := fun a b => decide (a > b),
    eq := fun a b => decide (a = b) }

/-- The literal with value `v`, without a memoized constant. -/
def lit {D : Type} (v : D) : ResolvedExpr D :=
  .ResolvedNumberLiteral {} v

/-- A reference to a parameter, without a memoized constant: an expression
whose value is unknown. -/
def unknown {D : Type} : ResolvedExpr D :=
  .ResolvedDeclRefExpr {} .ResolvedParamDecl

end ConstantExpressionEvaluator

/-! ## The lexer and the parser together -/

/-- The tokens successive calls of `getNextToken` return, up to and with the
`Eof` token; `n` bounds the number of calls. -/
def lexTokens : Nat → Lexer → Except Fault (List Token)
  | 0, _ => .error .outOfFuel
  | n + 1, l =>
    match getNextToken l with
    | .error e => .error e
    | .ok (t, l1) =>
      if t.kind = .Eof then .ok [t]
      else
        match lexTokens n l1 with
        | .error e => .error e
        | .ok ts => .ok (t :: ts)

/-- The parser on the tokens of `source`: the constructor `Parser(lexer)` and
then `parseAssignmentOrExpr()`. -/
def parseAssignmentOrExprOf (source : SourceFile) : Except Fault (Option Stmt × Parser) :=
  match lexTokens (source.buffer.length + 1) (Lexer.new source) with
  | .error e => .error e
  | .ok ts =>
    match Parser.new ts with
    | .error e => .error e
    | .ok p => parseAssignmentOrExpr p

/-! ## Parser: statements and blocks (parser.cpp) -/

/-- The member `location` every statement node inherits from `Stmt`. -/
def Stmt.location : Stmt → SourceLocation
  | .Expr e => e.location
  | .Assignment location _ _ => location
  | .IfStmt location _ _ _ => location
  | .WhileStmt location _ _ => location
  | .ReturnStmt location _ => location
  | .DeclStmt location _ => location

/-- `Parser::parseVarDecl`. -/
def parseVarDecl (isLet : Bool) (p : Parser) : Except Fault (Option VarDecl × Parser) :=
  let location := p.nextToken.location
  match p.nextToken.value with
  | none => .error (.assertion "identifier token without value")
  | some identifier =>
    match eatNextToken p with -- eat identifier
    | .error e => .error e
    | .ok p1 =>
      let afterType : Except Fault (Option (Option «Type») × Parser) :=
        if p1.nextToken.kind = .Colon then
          match eatNextToken p1 with -- eat ':'
          | .error e => .error e
          | .ok p2 =>
            match parseType p2 with
            | .error e => .error e
            | .ok (none, p3) => .ok (none, p3)
            | .ok (some type, p3) => .ok (some (some type), p3)
        else .ok (some none, p1)
      match afterType with
      | .error e => .error e
      | .ok (none, p3) => .ok (none, p3)
      | .ok (some type, p3) =>
        if p3.nextToken.kind ≠ .Equal then
          .ok (some ⟨location, identifier, type, !isLet, none⟩, p3)
        else
          match eatNextToken p3 with -- eat '='
          | .error e => .error e
          | .ok p4 =>
            match parseExpr p4 with
            | .error e => .error e
            | .ok (none, p5) => .ok (none, p5)
            | .ok (some initializer, p5) =>
              .ok (some ⟨location, identifier, type, !isLet, some initializer⟩, p5)

/-- `Parser::parseDeclStmt`. -/
def parseDeclStmt (p : Parser) : Except Fault (Option Stmt × Parser) :=
  let tok := p.nextToken
  match eatNextToken p with -- eat 'let' | 'var'
  | .error e => .error e
  | .ok p1 =>
    if p1.nextToken.kind ≠ .Identifier then
      .ok (none, report p1 p1.nextToken.location "expected identifier")
    else
      match parseVarDecl (tok.kind = .KwLet) p1 with
      | .error e => .error e
      | .ok (none, p2) => .ok (none, p2)
      | .ok (some varDecl, p2) =>
        if p2.nextToken.kind ≠ .Semi then
          .ok (none, report p2 p2.nextToken.location "expected ';' after declaration")
        else
          match eatNextToken p2 with -- eat ';'
          | .error e => .error e
          | .ok p3 => .ok (some (.DeclStmt tok.location varDecl), p3)

/-- `Parser::parseReturnStmt`. -/
def parseReturnStmt (p : Parser) : Except Fault (Option Stmt × Parser) :=
  let location := p.nextToken.location
  match eatNextToken p with -- eat 'return'
  | .error e => .error e
  | .ok p1 =>
    let afterExpr : Except Fault (Option (Option Expr) × Parser) :=
      if p1.nextToken.kind ≠ .Semi then
        match parseExpr p1 with
        | .error e => .error e
        | .ok (none, p2) => .ok (none, p2)
        | .ok (some expr, p2) => .ok (some (some expr), p2)
      else .ok (some none, p1)
    match afterExpr with
    | .error e => .error e
    | .ok (none, p2) => .ok (none, p2)
    | .ok (some expr, p2) =>
      if p2.nextToken.kind ≠ .Semi then
        .ok (none, report p2 p2.nextToken.location
          "expected ';' at the end of a return statement")
      else
        match eatNextToken p2 with -- eat ';'
        | .error e => .error e
        | .ok p3 => .ok (some (.ReturnStmt location expr), p3)

mutual

/-- `Parser::parseStmt` with fuel. -/
def parseStmtFuel : Nat → Parser → Except Fault (Option Stmt × Parser)
  | 0, _ => .error .outOfFuel
  | fuel + 1, p =>
    if p.nextToken.kind = .KwIf then parseIfStmtFuel fuel p
    else if p.nextToken.kind = .KwWhile then parseWhileStmtFuel fuel p
    else if p.nextToken.kind = .KwReturn then parseReturnStmt p
    else if p.nextToken.kind = .KwLet ∨ p.nextToken.kind = .KwVar then parseDeclStmt p
    else parseAssignmentOrExpr p

/-- `Parser::parseIfStmt` with fuel. -/
def parseIfStmtFuel : Nat → Parser → Except Fault (Option Stmt × Parser)
  | 0, _ => .error .outOfFuel
  | fuel + 1, p =>
    let location := p.nextToken.location
    match eatNextToken p with -- eat 'if'
    | .error e => .error e
    | .ok p1 =>
      match parseExpr p1 with
      | .error e => .error e
      | .ok (none, p2) => .ok (none, p2)
      | .ok (some condition, p2) =>
        if p2.nextToken.kind ≠ .Lbrace then
          .ok (none, report p2 p2.nextToken.location "expected 'if' body")
        else
          match parseBlockFuel fuel p2 with
          | .error e => .error e
          | .ok (none, p3) => .ok (none, p3)
          | .ok (some trueBlock, p3) =>
            if p3.nextToken.kind ≠ .KwElse then
              .ok (some (.IfStmt location condition trueBlock none), p3)
            else
              match eatNextToken p3 with -- eat 'else'
              | .error e => .error e
              | .ok p4 =>
                if p4.nextToken.kind = .KwIf then
                  match parseIfStmtFuel fuel p4 with
                  | .error e => .error e
                  | .ok (none, p5) => .ok (none, p5)
                  | .ok (some elseIf, p5) =>
                    .ok (some (.IfStmt location condition trueBlock
                      (some (.mk elseIf.location [elseIf]))), p5)
                else if p4.nextToken.kind ≠ .Lbrace then
                  .ok (none, report p4 p4.nextToken.location "expected 'else' body")
                else
                  match parseBlockFuel fuel p4 with
                  | .error e => .error e
                  | .ok (none, p5) => .ok (none, p5)
                  | .ok (some falseBlock, p5) =>
                    .ok (some (.IfStmt location condition trueBlock (some falseBlock)), p5)

/-- `Parser::parseWhileStmt` with fuel. -/
def parseWhileStmtFuel : Nat → Parser → Except Fault (Option Stmt × Parser)
  | 0, _ => .error .outOfFuel
  | fuel + 1, p =>
    let location := p.nextToken.location
    match eatNextToken p with -- eat 'while'
    | .error e => .error e
    | .ok p1 =>
      match parseExpr p1 with
      | .error e => .error e
      | .ok (none, p2) => .ok (none, p2)
      | .ok (some cond, p2) =>
        if p2.nextToken.kind ≠ .Lbrace then
          .ok (none, report p2 p2.nextToken.location "expected 'while' body")
        else
          match parseBlockFuel fuel p2 with
          | .error e => .error e
          | .ok (none, p3) => .ok (none, p3)
          | .ok (some body, p3) => .ok (some (.WhileStmt location cond body), p3)

/-- `Parser::parseBlock` with fuel. -/
def parseBlockFuel : Nat → Parser → Except Fault (Option Block × Parser)
  | 0, _ => .error .outOfFuel
  | fuel + 1, p =>
    let location := p.nextToken.location
    match eatNextToken p with -- eat '{'
    | .error e => .error e
    | .ok p1 => parseBlockLoopFuel fuel location [] p1

/-- The `while (true)` loop of `Parser::parseBlock` and what follows it. -/
def parseBlockLoopFuel : Nat → SourceLocation → List Stmt → Parser →
    Except Fault (Option Block × Parser)
  | 0, _, _, _ => .error .outOfFuel
  | fuel + 1, location, statements, p =>
    if p.nextToken.kind = .Rbrace then
      match eatNextToken p with -- eat '}'
      | .error e => .error e
      | .ok p1 => .ok (some (.mk location statements), p1)
    else if p.nextToken.kind = .Eof ∨ p.nextToken.kind = .KwFunction then
      .ok (none, report p p.nextToken.location "expected '\x7d' at the end of a block")
    else
      match parseStmtFuel fuel p with
      | .error e => .error e
      | .ok (none, p1) =>
        match synchronize p1 with
        | .error e => .error e
        | .ok p2 => parseBlockLoopFuel fuel location statements p2
      | .ok (some stmt, p1) => parseBlockLoopFuel fuel location (statements ++ [stmt]) p1

end

/-- The fuel for a statement or a block: between two tokens the parser eats,
the descent goes at most four calls deeper. -/
def blockFuel (p : Parser) : Nat := 4 * p.lexer.length + 4

/-- `Parser::parseStmt`. -/
def parseStmt (p : Parser) : Except Fault (Option Stmt × Parser) :=
  parseStmtFuel (blockFuel p) p

/-- `Parser::parseBlock`. -/
def parseBlock (p : Parser) : Except Fault (Option Block × Parser) :=
  parseBlockFuel (blockFuel p) p

/-- A parser state `p1` reached from `p` is further on in the token stream,
or at the same token. -/
def Keeps (p p1 : Parser) : Prop :=
  p1.lexer.length < p.lexer.length ∨
    (p1.lexer.length = p.lexer.length ∧ p1.nextToken = p.nextToken)

/-! ## Parser (the bodies defined in parser.h) -/

namespace ParserH

/-- The expression node the bodies of parser.h build: `LiteralExpr(int)`. -/
inductive Expr where
  | LiteralExpr (value : Int)
  deriving DecidableEq, Repr

/-- The statement nodes the bodies of parser.h build, with the arguments
they give the constructors; the operands are `std::unique_ptr`s. -/
inductive Stmt where
  | Assignment (lhs : Option Expr) (rhs : Option Expr)
  | ReturnStmt (expr : Option Expr)
  deriving DecidableEq, Repr

/-- The struct `Block`: its vector `stmts`. -/
structure Block where
  stmts : List Stmt := []
  deriving DecidableEq, Repr

/-- The node `FunctionDecl("main", std::move(block))`. -/
structure FunctionDecl where
  identifier : String
  body : Block
  deriving DecidableEq, Repr

/-- `std::stoi` on the text of a token: the digits the text starts with, as
an `int`; `std::invalid_argument` when it starts with no digit and
`std::out_of_range` when the number does not fit. -/
def stoi (text : List Char) : Except Fault Int :=
  let digits := text.takeWhile isNum
  if digits = [] then .error (.exception "std::invalid_argument")
  else
    let n : Nat := digits.foldl (fun acc c => 10 * acc + (c.toNat - '0'.toNat)) 0
    if n ≤ 2147483647 then .ok n else .error (.exception "std::out_of_range")

/-- The loop of `Parser::synchronizeOn`. -/
def synchronizeOnLoop : Nat → TokenKind → Parser → Except Fault Parser
  | 0, _, _ => .error .outOfFuel
  | fuel + 1, kind, p =>
    if p.nextToken.kind ≠ kind ∧ p.nextToken.kind ≠ .Eof then
      match eatNextToken p with
      | .error e => .error e
      | .ok p1 => synchronizeOnLoop fuel kind p1
    else
      .ok p

/-- `Parser::synchronizeOn`, with the fuel of its loop. -/
def synchronizeOn (fuel : Nat) (kind : TokenKind) (p : Parser) : Except Fault Parser :=
  synchronizeOnLoop fuel kind { p with incompleteAST := true }

/-- `Parser::parsePrimary` of parser.h. -/
def parsePrimary (p : Parser) : Except Fault (Option Expr × Parser) :=
  if p.nextToken.kind = .Number then
    let value := p.nextToken.value
    match eatNextToken p with
    | .error e => .error e
    | .ok p1 =>
      match value with
      | none => .error .emptyOptional
      | some text =>
        match stoi text with
        | .error e => .error e
        | .ok n => .ok (some (.LiteralExpr n), p1)
  else
    .ok (none, p)

/-- `Parser::parseExpr` of parser.h. -/
def parseExpr (p : Parser) : Except Fault (Option Expr × Parser) :=
  parsePrimary p -- Simplified for demonstration

/-- `Parser::parseReturnStmt` of parser.h. -/
def parseReturnStmt (p : Parser) : Except Fault (Option Stmt × Parser) :=
  match eatNextToken p with -- consume 'return'
  | .error e => .error e
  | .ok p1 =>
    match parseExpr p1 with
    | .error e => .error e
    | .ok (expr, p2) => .ok (some (.ReturnStmt expr), p2)

/-- `Parser::parseAssignmentOrExpr` of parser.h. -/
def parseAssignmentOrExpr (p : Parser) : Except Fault (Option Stmt × Parser) :=
  match parsePrimary p with
  | .error e => .error e
  | .ok (none, p1) => .ok (none, p1)
  | .ok (some lhs, p1) =>
    if p1.nextToken.kind = .EqualSign then
      match eatNextToken p1 with
      | .error e => .error e
      | .ok p2 =>
        match parseExpr p2 with
        | .error e => .error e
        | .ok (rhs, p3) => .ok (some (.Assignment (some lhs) rhs), p3)
    else
      .ok (none, p1)

/-- `Parser::parseStmt` of parser.h. -/
def parseStmt (p : Parser) : Except Fault (Option Stmt × Parser) :=
  match p.nextToken.kind with
  | .KwAdd | .KwPrint | .KwLog => parseAssignmentOrExpr p
  | .KwReturn => parseReturnStmt p
  | _ => .ok (none, p)

/-- The loop of `Parser::parseBlock` of parser.h. -/
def parseBlockLoop : Nat → List Stmt → Parser → Except Fault (List Stmt × Parser)
  | 0, _, _ => .error .outOfFuel
  | fuel + 1, stmts, p =>
    if p.nextToken.kind ≠ .Eof ∧ p.nextToken.kind ≠ .Rbrace then
      match parseStmt p with
      | .error e => .error e
      | .ok (none, p1) => parseBlockLoop fuel stmts p1
      | .ok (some stmt, p1) => parseBlockLoop fuel (stmts ++ [stmt]) p1
    else
      .ok (stmts, p)

/-- `Parser::parseBlock` of parser.h, with the fuel of its loop. -/
def parseBlock (fuel : Nat) (p : Parser) : Except Fault (Block × Parser) :=
  match parseBlockLoop fuel [] p with
  | .error e => .error e
  | .ok (stmts, p1) =>
    if p1.nextToken.kind = .Rbrace then
      match eatNextToken p1 with -- consume '}'
      | .error e => .error e
      | .ok p2 => .ok (⟨stmts⟩, p2)
    else
      .ok (⟨stmts⟩, p1)

/-- `Parser::parseFunctionDecl` of parser.h, with the fuel of the loop of
`parseBlock`. -/
def parseFunctionDecl (fuel : Nat) (p : Parser) : Except Fault (Option FunctionDecl × Parser) :=
  if p.nextToken.kind ≠ .KwMain then .ok (none, p)
  else
    match eatNextToken p with -- consume 'main'
    | .error e => .error e
    | .ok p1 =>
      match parseBlock fuel p1 with
      | .error e => .error e
      | .ok (block, p2) => .ok (some ⟨"main", block⟩, p2)

/-- The loop of `Parser::parseSourceFile`; the fuel bounds its turns and the
turns of the loops it reaches. -/
def parseSourceFileLoop : Nat → List FunctionDecl → Parser →
    Except Fault (List FunctionDecl × Bool)
  | 0, _, _ => .error .outOfFuel
  | fuel + 1, functions, p =>
    if p.nextToken.kind ≠ .Eof then
      if p.nextToken.kind = .KwMain then
        match parseFunctionDecl fuel p with
        | .error e => .error e
        | .ok (none, p1) => parseSourceFileLoop fuel functions p1
        | .ok (some function, p1) => parseSourceFileLoop fuel (functions ++ [function]) p1
      else
        match synchronizeOn fuel .KwMain p with
        | .error e => .error e
        | .ok p1 => parseSourceFileLoop fuel functions p1
    else
      .ok (functions, p.incompleteAST)

/-- `Parser::parseSourceFile` of parser.h with `fuel` turns for its loops. -/
def parseSourceFile (fuel : Nat) (p : Parser) : Except Fault (List FunctionDecl × Bool) :=
  parseSourceFileLoop fuel [] p

end ParserH

namespace Sema

/-! ## CFGs that differ in the flags of their edges -/

/-- Two lists of edges name the same blocks, whatever the flags. -/
def sameIndices (preds1 preds2 : List (Int × Bool)) : Prop :=
  ∀ i, (∃ f, (i, f) ∈ preds1) ↔ (∃ f, (i, f) ∈ preds2)

/-- Two CFGs have the same entry and exit, as many blocks, and block by block
the same statements and the same predecessor blocks; the flags of the edges
and the successors are free. -/
def sameUpToFlags (cfg1 cfg2 : CFG) : Prop :=
  cfg1.entry = cfg2.entry ∧ cfg1.exit = cfg2.exit ∧
  cfg1.basicBlocks.length = cfg2.basicBlocks.length ∧
  ∀ pair ∈ List.zip cfg1.basicBlocks cfg2.basicBlocks,
    pair.1.statements = pair.2.statements ∧
    sameIndices pair.1.predecessors pair.2.predecessors

/-- Modelled from the spec: the CFG of `var x: number; if (c) { x = 6; } x;`
when the condition `c` is a constant that is true: the edge from the
condition to what follows the `if` is inserted with `reachable = false`. -/
def diamondDeadEdgeCFG : CFG :=
  { basicBlocks :=
      [ { predecessors := [(1, true)] },
        { predecessors := [(2, true), (3, false)], successors := [(0, true)],
          statements := [refX true false] },
        { predecessors := [(3, true)], successors := [(1, true)],
          statements := [assignX true false] },
        { predecessors := [(4, true)], successors := [(1, false), (2, true)],
          statements := [.ResolvedIfStmt ⟨"t", 3, 1⟩, declX true false] },
        { successors := [(3, true)] } ],
    entry := 4, exit := 0 }

/-! ## The CFGs the operations of cfg.h build -/

/-- The CFGs reached from the empty CFG by calls of `insertNewBlock`,
`insertNewBlockBefore`, `insertEdge` and `insertStmt` whose block indices are
in range. -/
inductive Built : CFG → Prop where
  | empty : Built {}
  | insertNewBlock (cfg : CFG) : Built cfg → Built cfg.insertNewBlock.2
  | insertNewBlockBefore (cfg : CFG) (before : Int) (reachable : Bool) (b : Int) (cfg1 : CFG) :
      Built cfg → cfg.insertNewBlockBefore before reachable = .ok (b, cfg1) → Built cfg1
  | insertEdge (cfg : CFG) («from» «to» : Int) (reachable : Bool) (cfg1 : CFG) :
      Built cfg → cfg.insertEdge «from» «to» reachable = .ok cfg1 → Built cfg1
  | insertStmt (cfg : CFG) (stmt : ResolvedStmt) (block : Int) (cfg1 : CFG) :
      Built cfg → cfg.insertStmt stmt block = .ok cfg1 → Built cfg1

/-- The successors and the predecessors mirror each other: `(b, r)` is a
successor of block `a` exactly when `(a, r)` is a predecessor of block `b`. -/
def Mirror (cfg : CFG) : Prop :=
  ∀ (a b : Int) (r : Bool),
    (∃ A, vectorAt cfg.basicBlocks a = some A ∧ (b, r) ∈ A.successors) ↔
    (∃ B, vectorAt cfg.basicBlocks b = some B ∧ (a, r) ∈ B.predecessors)

/-- The CFG after `insertNewBlock()` and `insertNewBlockBefore(0, true)` on
the empty CFG: block 1 leads to block 0. -/
def twoBlockCFG : CFG :=
  { basicBlocks := [{ predecessors := [(1, true)] }, { successors := [(0, true)] }] }

/-! ## Resolver: assignments (sema.cpp) -/

/-- The member `type.kind` of the base class `ResolvedDecl`. -/
def ResolvedDecl.type : ResolvedDecl → TypeKind
  | .ResolvedVarDecl d => d.type
  | .ResolvedParamDecl d => d.type
  | .ResolvedFunctionDecl d => d.type

/-- The member `isMutable` read through a `ResolvedDecl *`. A variable
declaration carries it; `other` is its value in the declarations that are not
variables, whose classes the sources do not declare. -/
def ResolvedDecl.isMutable (other : Bool) : ResolvedDecl → Bool
  | .ResolvedVarDecl d => d.isMutable
  | _ => other

/-- The `Assignment` node as sema.cpp reads it: its location, the pointer
`variable`, which is cast to `DeclRefExpr *`, and the pointer `value`. -/
structure Assignment where
  location : SourceLocation
  «variable» : Option Expr
  value : Option Expr
  deriving Repr

/-- The `ResolvedAssignment` node, with the arguments sema.cpp gives its
constructor. -/
structure ResolvedAssignment where
  location : SourceLocation
  «variable» : ResolvedDeclRefExpr
  value : ResolvedExpr
  deriving Repr

/-- `Sema::resolveAssignment`. -/
def resolveAssignment (typeOf : ResolvedExpr → TypeKind) (other : Bool) (s : Sema)
    (assignment : Assignment) : Except Fault (Option ResolvedAssignment × Sema) :=
  match assignment.variable with
  | some (.DeclRefExpr location identifier) =>
    match resolveDeclRefExpr s location identifier false with
    | (none, s1) => .ok (none, s1)
    | (some resolvedVar, s1) =>
      match assignment.value with
      | none => .error .nullDereference
      | some value =>
        match resolveExpr typeOf s1 value with
        | .error e => .error e
        | .ok (none, s2) => .ok (none, s2)
        | .ok (some resolvedValue, s2) =>
          if resolvedVar.decl.isMutable other
              && typeOf resolvedValue != resolvedVar.decl.type then
            .ok (none, report s2 assignment.location "incompatible types in assignment".toList)
          else
            .ok (some ⟨assignment.location, resolvedVar, resolvedValue⟩, s2)
  | _ => .ok (none, report s assignment.location "assignment to non-variable".toList)

/-- The function `println`, of type `void`, with one parameter. -/
def funPrintln : ResolvedFunctionDecl :=
  ⟨8, ⟨"t", 0, 1⟩, "println".toList, .Void, [⟨7, ⟨"t", 0, 9⟩, "n".toList, .Number⟩]⟩

/-- The parameter `n` of the function the statements are in. -/
def paramN : ResolvedParamDecl := ⟨2, ⟨"t", 1, 8⟩, "n".toList, .Number⟩

/-- The scopes at `x = println(n);` on line 3, after the declaration of the
local `x: number` on line 2, by `let` or by `var`. -/
def scopesAtAssignment (isMutable : Bool) : Sema :=
  { scopes := [[.ResolvedFunctionDecl funPrintln],
      [.ResolvedParamDecl paramN, .ResolvedVarDecl (localX isMutable false)]] }

/-- The assignment `x = println(n);` on line 3. -/
def assignPrintln : Assignment :=
  { location := ⟨"t", 3, 3⟩,
    «variable» := some (.DeclRefExpr ⟨"t", 3, 1⟩ "x".toList),
    value := some (.CallExpr ⟨"t", 3, 12⟩ (some (.DeclRefExpr ⟨"t", 3, 5⟩ "println".toList))
      [some (.DeclRefExpr ⟨"t", 3, 13⟩ "n".toList)]) }

/-- The types of the resolved expressions of the example: a call has the type
of the function called, a reference the type of its declaration, and the
operators are numbers. -/
def exampleTypeOf : ResolvedExpr → TypeKind
  | .ResolvedDeclRefExpr e => e.decl.type
  | .ResolvedCallExpr _ callee _ => callee.decl.type
  | .ResolvedGroupingExpr _ _ => .Number
  | .ResolvedBinaryOperator _ _ _ _ => .Number
  | .ResolvedUnaryOperator _ _ _ => .Number

end Sema

namespace ConstantExpressionEvaluator

/-- Whether `evaluate(e, false)` returns a value. -/
def knownWithoutSideEffects {D : Type} (A : Arith D) (e : ResolvedExpr D) : Bool :=
  match evaluate A e false with
  | .ok (some _) => true
  | _ => false

mutual

/-- Whether no fallback constant stands in for an operand of `e`: the right
operand of every binary operator other than `||` and `&&` in `e`, and in the
initializers of the constants `e` refers to, is known without side effects. -/
def noFallback {D : Type} (A : Arith D) : ResolvedExpr D → Bool
  | .ResolvedNumberLiteral _ _ => true
  | .ResolvedGroupingExpr _ expr => noFallback A expr
  | .ResolvedBinaryOperator _ op lhs rhs =>
    noFallback A lhs && noFallback A rhs &&
      (op == .PipePipe || op == .AmpAmp || knownWithoutSideEffects A rhs)
  | .ResolvedUnaryOperator _ _ operand => noFallback A operand
  | .ResolvedDeclRefExpr _ decl => noFallbackDecl A decl
  | .ResolvedCallExpr _ => true

/-- The same for the declaration a reference points to. -/
def noFallbackDecl {D : Type} (A : Arith D) : ResolvedDecl D → Bool
  | .ResolvedVarDecl false (some initializer) => noFallback A initializer
  | _ => true

end

end ConstantExpressionEvaluator

/-! ## Code generation of expressions (codegen.h, codegen.cpp) -/

namespace Codegen

/-- An `llvm::Value *` as codegen.cpp handles it: a null pointer, the constant
`ConstantFP::get(double, value)`, a constant the folder of the `IRBuilder`
made of an operation on constants, or the instruction with number `id`. -/
inductive Value (D : Type) where
  | null
  | ConstantFP (value : D)
  | folded1 (opcode : String) (a : Value D)
  | folded2 (opcode : String) (a b : Value D)
  | folded3 (opcode : String) (a b c : Value D)
  | instruction (id : Nat)
  deriving DecidableEq, Repr

/-- Whether a value is an `llvm::Constant`. -/
def Value.isConstant {D : Type} : Value D → Bool
  | .ConstantFP _ | .folded1 _ _ | .folded2 _ _ _ | .folded3 _ _ _ _ => true
  | _ => false

/-- The instructions the `IRBuilder` calls of codegen.cpp create. A basic
block is named by its position in the function. -/
inductive Instr (D : Type) where
  | Alloca (name : String)
  | Load (ptr : Value D)
  | Unary (opcode : String) (a : Value D)
  | Binary (opcode : String) (a b : Value D)
  | Select (c a b : Value D)
  | Call (callee : List Char) (args : List (Value D))
  | Br (dest : Nat)
  | CondBr (cond : Value D) (ifTrue ifFalse : Nat)
  | PHI (numReservedValues : Nat) (incoming : List (Value D × Nat))
  deriving DecidableEq, Repr

/-- An `llvm::BasicBlock`: its name and its instructions, each with its
number. -/
structure BasicBlock (D : Type) where
  name : String
  instructions : List (Nat × Instr D) := []
  deriving DecidableEq, Repr

end Codegen

/-- The state of the class `Codegen` while the body of a function is
generated: the blocks of the current function, the block at whose end the
`builder` inserts, the number of the next instruction, the map
`declarations` from the address of a declaration to its value, and the names
of the functions of the `module`. -/
structure Codegen (D : Type) where
  blocks : List (Codegen.BasicBlock D)
  insertBlock : Nat
  nextValue : Nat
  declarations : List (Nat × Codegen.Value D) := []
  functions : List (List Char) := []
  deriving DecidableEq, Repr

namespace Codegen

/-- The list `l` with `f` applied to the element at position `i`. -/
def modifyAt {α : Type} (f : α → α) : List α → Nat → List α
  | [], _ => []
  | x :: rest, 0 => f x :: rest
  | x :: rest, i + 1 => x :: modifyAt f rest i

/-- `llvm::BasicBlock::Create(context, name, function)`: a new block at the
end of the current function. -/
def createBlock {D : Type} (g : Codegen D) (name : String) : Nat × Codegen D :=
  (g.blocks.length, { g with blocks := g.blocks ++ [{ name := name }] })

/-- `builder.SetInsertPoint(bb)`. -/
def SetInsertPoint {D : Type} (g : Codegen D) (bb : Nat) : Codegen D :=
  { g with insertBlock := bb }

/-- The `builder` inserts an instruction at the end of the insertion block;
the result is the number of the instruction. -/
def insert {D : Type} (g : Codegen D) (instr : Instr D) : Nat × Codegen D :=
  (g.nextValue,
    { g with
      blocks := modifyAt
        (fun b => { b with instructions := b.instructions ++ [(g.nextValue, instr)] })
        g.blocks g.insertBlock,
      nextValue := g.nextValue + 1 })

/-- An `IRBuilder` call for an operation with one operand: a constant operand
is folded, otherwise the instruction is inserted. -/
def createUnary {D : Type} (g : Codegen D) (opcode : String) (a : Value D) :
    Value D × Codegen D :=
  if a.isConstant then (.folded1 opcode a, g)
  else
    let (id, g1) := insert g (.Unary opcode a)
    (.instruction id, g1)

/-- An `IRBuilder` call for an operation with two operands: `CreateFAdd`,
`CreateFCmpONE`, ...; constant operands are folded. -/
def createBinary {D : Type} (g : Codegen D) (opcode : String) (a b : Value D) :
    Value D × Codegen D :=
  if a.isConstant && b.isConstant then (.folded2 opcode a b, g)
  else
    let (id, g1) := insert g (.Binary opcode a b)
    (.instruction id, g1)

/-- `builder.CreateSelect(c, a, b)`. -/
def CreateSelect {D : Type} (g : Codegen D) (c a b : Value D) : Value D × Codegen D :=
  if c.isConstant && a.isConstant && b.isConstant then (.folded3 "select" c a b, g)
  else
    let (id, g1) := insert g (.Select c a b)
    (.instruction id, g1)

/-- `builder.CreateLoad(builder.getDoubleTy(), ptr)`; the constructor of the
instruction reads the type of `ptr`. -/
def CreateLoad {D : Type} (g : Codegen D) (ptr : Value D) : Except Fault (Value D × Codegen D) :=
  match ptr with
  | .null => .error .nullDereference
  | _ =>
    let (id, g1) := insert g (.Load ptr)
    .ok (.instruction id, g1)

/-- `builder.CreateBr(dest)`. -/
def CreateBr {D : Type} (g : Codegen D) (dest : Nat) : Codegen D :=
  (insert g (.Br dest)).2

/-- `builder.CreateCondBr(cond, ifTrue, ifFalse)`. -/
def CreateCondBr {D : Type} (g : Codegen D) (cond : Value D) (ifTrue ifFalse : Nat) :
    Codegen D :=
  (insert g (.CondBr cond ifTrue ifFalse)).2

/-- `builder.CreatePHI(builder.getInt1Ty(), numReservedValues)`: a phi
without incoming values. -/
def CreatePHI {D : Type} (g : Codegen D) (numReservedValues : Nat) : Nat × Codegen D :=
  insert g (.PHI numReservedValues [])

/-- `phi->addIncoming(value, bb)` on the phi with number `phi`. -/
def addIncoming {D : Type} (g : Codegen D) (phi : Nat) (value : Value D) (bb : Nat) :
    Codegen D :=
  { g with
    blocks := g.blocks.map (fun b =>
      { b with
        instructions := b.instructions.map (fun i =>
          match i with
          | (id, .PHI n incoming) =>
            if id = phi then (id, .PHI n (incoming ++ [(value, bb)])) else i
          | _ => i) }) }

/-- The blocks a terminator names. -/
def Instr.successors {D : Type} : Instr D → List Nat
  | .Br dest => [dest]
  | .CondBr _ ifTrue ifFalse => [ifTrue, ifFalse]
  | _ => []

/-- The range `pred_begin(bb)` to `pred_end(bb)`: one entry for every use of
`bb` in a terminator, the block of that terminator. They are listed by block
and instruction; the order in which LLVM lists them is not modelled. -/
def predecessors {D : Type} (g : Codegen D) (bb : Nat) : List Nat :=
  (g.blocks.enum.map (fun (i, b) =>
    (b.instructions.map (fun instr =>
      (instr.2.successors.filter (fun s => s == bb)).map (fun _ => i))).flatten)).flatten

/-- `Codegen::doubleToBool`. -/
def doubleToBool {D : Type} (zero : D) (g : Codegen D) (value : Value D) :
    Value D × Codegen D :=
  createBinary g "fcmp one" value (.ConstantFP zero)

/-- `Codegen::boolToDouble`. -/
def boolToDouble {D : Type} (zero one : D) (g : Codegen D) (value : Value D) :
    Value D × Codegen D :=
  CreateSelect g value (.ConstantFP one) (.ConstantFP zero)

/-- The lookup `declarations[decl]`: `std::map::operator[]` enters a null
pointer for a key that is missing. -/
def declarationsAt {D : Type} (g : Codegen D) (decl : Nat) : Value D × Codegen D :=
  match g.declarations.lookup decl with
  | some v => (v, g)
  | none => (.null, { g with declarations := g.declarations ++ [(decl, .null)] })

/-- The resolved expressions as codegen.cpp reads them: the memoized constant
of each, the `value` of a literal, the address of the declaration a reference
points to, the identifier of the callee and the arguments of a call, and the
operands, which are `std::unique_ptr`s the resolver has set. -/
inductive ResolvedExpr (D : Type) where
  | ResolvedNumberLiteral (constant : ConstantValueContainer D) (value : D)
  | ResolvedDeclRefExpr (constant : ConstantValueContainer D) (decl : Nat)
  | ResolvedCallExpr (constant : ConstantValueContainer D) (callee : List Char)
      (arguments : List (ResolvedExpr D))
  | ResolvedGroupingExpr (constant : ConstantValueContainer D) (expr : ResolvedExpr D)
  | ResolvedBinaryOperator (constant : ConstantValueContainer D) (op : TokenKind)
      (lhs rhs : ResolvedExpr D)
  | ResolvedUnaryOperator (constant : ConstantValueContainer D) (op : TokenKind)
      (operand : ResolvedExpr D)

/-- The loop of `generateBinaryOperator` over the predecessors of `rhsBB`:
`if (*it == rhsBB) phi->addIncoming(rhs, rhsBB);`. -/
def addIncomingLoop {D : Type} (phi : Nat) (rhs : Value D) (rhsBB : Nat) :
    List Nat → Codegen D → Codegen D
  | [], g => g
  | it :: rest, g =>
    if it = rhsBB then addIncomingLoop phi rhs rhsBB rest (addIncoming g phi rhs rhsBB)
    else addIncomingLoop phi rhs rhsBB rest g

/-- The `switch (op)` of `generateBinaryOperator`. -/
def binaryOpcode : TokenKind → Except Fault String
  | .Plus => .ok "fadd"
  | .Minus => .ok "fsub"
  | .Star => .ok "fmul"
  | .Slash => .ok "fdiv"
  | .EqualEqual => .ok "fcmp oeq"
  | .ExclEqual => .ok "fcmp une"
  | .Less => .ok "fcmp olt"
  | .Greater => .ok "fcmp ogt"
  | .LessEqual => .ok "fcmp ole"
  | .GreaterEqual => .ok "fcmp oge"
  | _ => .error (.unreachable "unknown binary operator")

mutual

/-- `Codegen::generateExpr` with fuel; `zero` and `one` are the doubles `0`
and `1`. -/
def generateExprFuel {D : Type} (zero one : D) :
    Nat → Codegen D → ResolvedExpr D → Except Fault (Value D × Codegen D)
  | 0, _, _ => .error .outOfFuel
  | fuel + 1, g, expr =>
    match expr with
    | .ResolvedNumberLiteral _ value => .ok (.ConstantFP value, g)
    | .ResolvedDeclRefExpr c decl =>
      match c.getConstantValue with
      | some val => .ok (.ConstantFP val, g)
      | none =>
        let (ptr, g1) := declarationsAt g decl
        CreateLoad g1 ptr
    | .ResolvedCallExpr c callee arguments =>
      match c.getConstantValue with
      | some val => .ok (.ConstantFP val, g)
      | none => generateCallExprFuel zero one fuel g callee arguments
    | .ResolvedGroupingExpr c e =>
      match c.getConstantValue with
      | some val => .ok (.ConstantFP val, g)
      | none => generateExprFuel zero one fuel g e
    | .ResolvedBinaryOperator c op lhs rhs =>
      match c.getConstantValue with
      | some val => .ok (.ConstantFP val, g)
      | none => generateBinaryOperatorFuel zero one fuel g op lhs rhs
    | .ResolvedUnaryOperator c op operand =>
      match c.getConstantValue with
      | some val => .ok (.ConstantFP val, g)
      | none => generateUnaryOperatorFuel zero one fuel g op operand

/-- The loop of `Codegen::generateCallExpr` over the arguments. -/
def generateArgsFuel {D : Type} (zero one : D) :
    Nat → Codegen D → List (ResolvedExpr D) → List (Value D) →
      Except Fault (List (Value D) × Codegen D)
  | 0, _, _, _ => .error .outOfFuel
  | _ + 1, g, [], args => .ok (args, g)
  | fuel + 1, g, arg :: rest, args =>
    match generateExprFuel zero one fuel g arg with
    | .error e => .error e
    | .ok (v, g1) => generateArgsFuel zero one fuel g1 rest (args ++ [v])

/-- `Codegen::generateCallExpr` with fuel; `CreateCall` reads the type of the
callee `module.getFunction` found. -/
def generateCallExprFuel {D : Type} (zero one : D) :
    Nat → Codegen D → List Char → List (ResolvedExpr D) →
      Except Fault (Value D × Codegen D)
  | 0, _, _, _ => .error .outOfFuel
  | fuel + 1, g, callee, arguments =>
    match generateArgsFuel zero one fuel g arguments [] with
    | .error e => .error e
    | .ok (args, g1) =>
      if callee ∈ g1.functions then
        let (id, g2) := insert g1 (.Call callee args)
        .ok (.instruction id, g2)
      else .error .nullDereference

/-- `Codegen::generateUnaryOperator` with fuel. -/
def generateUnaryOperatorFuel {D : Type} (zero one : D) :
    Nat → Codegen D → TokenKind → ResolvedExpr D → Except Fault (Value D × Codegen D)
  | 0, _, _, _ => .error .outOfFuel
  | fuel + 1, g, op, operand =>
    match generateExprFuel zero one fuel g operand with
    | .error e => .error e
    | .ok (rhs, g1) =>
      if op = .Excl then
        let (b, g2) := doubleToBool zero g1 rhs
        let (n, g3) := createUnary g2 "not" b
        .ok (boolToDouble zero one g3 n)
      else if op = .Minus then .ok (createUnary g1 "fneg" rhs)
      else .error (.unreachable "unknown unary op")

/-- `Codegen::generateConditionalOperator` with fuel. -/
def generateConditionalOperatorFuel {D : Type} (zero one : D) :
    Nat → Codegen D → ResolvedExpr D → Nat → Nat → Except Fault (Codegen D)
  | 0, _, _, _, _ => .error .outOfFuel
  | fuel + 1, g, op, trueBB, falseBB =>
    match op with
    | .ResolvedBinaryOperator _ .PipePipe lhs rhs =>
      let (nextBB, g1) := createBlock g "or.lhs.false"
      match generateConditionalOperatorFuel zero one fuel g1 lhs trueBB nextBB with
      | .error e => .error e
      | .ok g2 =>
        generateConditionalOperatorFuel zero one fuel (SetInsertPoint g2 nextBB) rhs
          trueBB falseBB
    | .ResolvedBinaryOperator _ .AmpAmp lhs rhs =>
      let (nextBB, g1) := createBlock g "and.lhs.true"
      match generateConditionalOperatorFuel zero one fuel g1 lhs nextBB falseBB with
      | .error e => .error e
      | .ok g2 =>
        generateConditionalOperatorFuel zero one fuel (SetInsertPoint g2 nextBB) rhs
          trueBB falseBB
    | _ =>
      match generateExprFuel zero one fuel g op with
      | .error e => .error e
      | .ok (v, g1) =>
        let (val, g2) := doubleToBool zero g1 v
        .ok (CreateCondBr g2 val trueBB falseBB)

/-- `Codegen::generateBinaryOperator` with fuel. -/
def generateBinaryOperatorFuel {D : Type} (zero one : D) :
    Nat → Codegen D → TokenKind → ResolvedExpr D → ResolvedExpr D →
      Except Fault (Value D × Codegen D)
  | 0, _, _, _, _ => .error .outOfFuel
  | fuel + 1, g, op, lhs, rhs =>
    if op = .AmpAmp ∨ op = .PipePipe then
      let isOr : Bool := op = .PipePipe
      let (rhsBB, g1) := createBlock g (if isOr then "or.rhs" else "and.rhs")
      let (mergeBB, g2) := createBlock g1 (if isOr then "or.merge" else "and.merge")
      let trueBB := if isOr then mergeBB else rhsBB
      let falseBB := if isOr then rhsBB else mergeBB
      match generateConditionalOperatorFuel zero one fuel g2 lhs trueBB falseBB with
      | .error e => .error e
      | .ok g3 =>
        match generateExprFuel zero one fuel (SetInsertPoint g3 rhsBB) rhs with
        | .error e => .error e
        | .ok (v, g4) =>
          let (rhsValue, g5) := doubleToBool zero g4 v
          let g6 := CreateBr g5 mergeBB
          let rhsBB1 := g6.insertBlock
          let (phi, g7) := CreatePHI (SetInsertPoint g6 mergeBB) 2
          .ok (.instruction phi,
            addIncomingLoop phi rhsValue rhsBB1 (predecessors g7 rhsBB1) g7)
    else
      match generateExprFuel zero one fuel g lhs with
      | .error e => .error e
      | .ok (l, g1) =>
        match generateExprFuel zero one fuel g1 rhs with
        | .error e => .error e
        | .ok (r, g2) =>
          match binaryOpcode op with
          | .error e => .error e
          | .ok opcode => .ok (createBinary g2 opcode l r)

end

mutual

/-- The number of nodes of a resolved expression. -/
def ResolvedExpr.size {D : Type} : ResolvedExpr D → Nat
  | .ResolvedNumberLiteral _ _ => 1
  | .ResolvedDeclRefExpr _ _ => 1
  | .ResolvedCallExpr _ _ arguments => 1 + sizeArgs arguments
  | .ResolvedGroupingExpr _ e => 1 + e.size
  | .ResolvedBinaryOperator _ _ lhs rhs => 1 + lhs.size + rhs.size
  | .ResolvedUnaryOperator _ _ operand => 1 + operand.size

/-- The number of nodes and of list cells of an argument list. -/
def sizeArgs {D : Type} : List (ResolvedExpr D) → Nat
  | [] => 0
  | arg :: rest => 1 + arg.size + sizeArgs rest

end

/-- `Codegen::generateExpr`. The descent goes at most three calls deeper
between two nodes of the expression. -/
def generateExpr {D : Type} (zero one : D) (g : Codegen D) (expr : ResolvedExpr D) :
    Except Fault (Value D × Codegen D) :=
  generateExprFuel zero one (3 * expr.size + 1) g expr

/-- The instructions of the merge block a `generateExpr` call leaves the
`builder` in, and the predecessors of that block. -/
def mergeBlockOf {D : Type} (r : Except Fault (Value D × Codegen D)) :
    Option (List (Nat × Instr D) × List Nat) :=
  match r with
  | .error _ => none
  | .ok (_, g) =>
    match g.blocks.get? g.insertBlock with
    | none => none
    | some b => some (b.instructions, predecessors g g.insertBlock)

/-- The state in the body of a function with the locals `a` and `b`: the
entry block holds their `alloca`s. -/
def twoLocals : Codegen Int :=
  { blocks := [{ name := "entry", instructions := [(0, .Alloca "a"), (1, .Alloca "b")] }],
    insertBlock := 0, nextValue := 2,
    declarations := [(1, .instruction 0), (2, .instruction 1)] }

/-- The expression `a op b` on the two locals, without memoized constants. -/
def localsOp (op : TokenKind) : ResolvedExpr Int :=
  .ResolvedBinaryOperator {} op (.ResolvedDeclRefExpr {} 1) (.ResolvedDeclRefExpr {} 2)

end Codegen

/-! ## Lexer: the primitives in terms of the characters left -/

theorem getD_eq_append_nul (b : List Char) (i : Nat) :
    b.getD i '\x00' = ((b ++ ['\x00']).drop i).headD '\x00' := by
  rw [List.headD_eq_head?_getD, List.head?_drop, List.getD_eq_getElem?_getD]
  by_cases h : i < b.length
  · rw [List.getElem?_append_left h]
  · have h1 : b[i]? = none := List.getElem?_eq_none (by omega)
    rw [h1, List.getElem?_append_right (by omega)]
    cases hk : i - b.length with
    | zero => simp
    | succ k => simp

theorem peekNextChar_eq_head (l : Lexer) : peekNextChar l = (view l).headD '\x00' := by
  unfold peekNextChar view
  exact getD_eq_append_nul _ _

theorem view_length (l : Lexer) : (view l).length = l.source.buffer.length + 1 - l.idx := by
  simp [view]

theorem eatNextChar_nil (l : Lexer) (h : view l = []) :
    eatNextChar l = .error (.assertion "indexing past the end of the source buffer") := by
  have h1 := view_length l
  rw [h] at h1
  simp only [List.length_nil] at h1
  have h2 : ¬ l.idx ≤ l.source.buffer.length := by omega
  simp [eatNextChar, h2]

theorem eatNextChar_cons (l : Lexer) (c : Char) (r : List Char) (h : view l = c :: r) :
    ∃ l1, eatNextChar l = .ok (c, l1) ∧ view l1 = r ∧ l1.source = l.source ∧
      l1.idx = l.idx + 1 := by
  have h1 := view_length l
  rw [h] at h1
  simp only [List.length_cons] at h1
  have h2 : l.idx ≤ l.source.buffer.length := by omega
  have hc : l.source.buffer.getD l.idx '\x00' = c := by
    rw [getD_eq_append_nul]
    change (view l).headD '\x00' = c
    rw [h]; rfl
  have hr : (l.source.buffer ++ ['\x00']).drop (l.idx + 1) = r := by
    have : (view l).drop 1 = r := by rw [h]; rfl
    rw [← this, view, List.drop_drop]
  unfold eatNextChar
  rw [if_pos h2]
  simp only [hc]
  by_cases hn : c = '\n'
  · rw [if_pos hn]
    exact ⟨_, rfl, hr, rfl, rfl⟩
  · rw [if_neg hn]
    exact ⟨_, rfl, hr, rfl, rfl⟩

theorem eatWhile_view (cond : Char → Bool) (h0 : cond '\x00' = false) :
    ∀ (fuel : Nat) (value : List Char) (l : Lexer), (view l).length < fuel →
      ∃ l1, eatWhile cond fuel value l = .ok (value ++ (view l).takeWhile cond, l1) ∧
        view l1 = (view l).dropWhile cond ∧ l1.source = l.source ∧
        l1.idx = l.idx + ((view l).takeWhile cond).length := by
  intro fuel
  induction fuel with
  | zero => intro value l h; omega
  | succ fuel ih =>
    intro value l h
    cases hv : view l with
    | nil =>
      refine ⟨l, ?_, ?_, rfl, ?_⟩
      · simp [eatWhile, peekNextChar_eq_head, hv, h0]
      · simp [hv]
      · simp
    | cons c r =>
      by_cases hc : cond c = true
      · obtain ⟨l1, he, hv1, hs1, hi1⟩ := eatNextChar_cons l c r hv
        have hlen : (view l1).length < fuel := by
          rw [hv1]; rw [hv] at h; simp only [List.length_cons] at h; omega
        obtain ⟨l2, hw, hv2, hs2, hi2⟩ := ih (value ++ [c]) l1 hlen
        refine ⟨l2, ?_, ?_, ?_, ?_⟩
        · simp only [eatWhile, peekNextChar_eq_head, hv, List.headD_cons, hc, if_true, he]
          rw [hw, hv1]
          simp [List.takeWhile_cons, hc]
        · rw [hv2, hv1]; simp [List.dropWhile_cons, hc]
        · rw [hs2, hs1]
        · rw [hi2, hi1, hv1]; simp [List.takeWhile_cons, hc]; omega
      · refine ⟨l, ?_, ?_, rfl, ?_⟩
        · simp [eatWhile, peekNextChar_eq_head, hv, hc, List.takeWhile_cons]
        · simp [hv, List.dropWhile_cons, hc]
        · simp [List.takeWhile_cons, hc]

theorem skipSpaces_view :
    ∀ (fuel : Nat) (c : Char) (l : Lexer), (view l).length < fuel →
      ((c :: view l).dropWhile isSpace = [] →
        skipSpaces fuel c l =
          .error (.assertion "indexing past the end of the source buffer")) ∧
      (∀ c1 r, (c :: view l).dropWhile isSpace = c1 :: r →
        ∃ l1, skipSpaces fuel c l = .ok (c1, l1) ∧ view l1 = r ∧ l1.source = l.source ∧
          l1.idx + 1 = l.idx + ((c :: view l).takeWhile isSpace).length + 1) := by
  intro fuel
  induction fuel with
  | zero => intro c l h; omega
  | succ fuel ih =>
    intro c l h
    by_cases hc : isSpace c = true
    · cases hv : view l with
      | nil =>
        constructor
        · intro _
          simp [skipSpaces, hc, eatNextChar_nil l hv]
        · intro c1 r hd
          simp [List.dropWhile_cons, hc] at hd
      | cons c2 r2 =>
        obtain ⟨l1, he, hv1, hs1, hi1⟩ := eatNextChar_cons l c2 r2 hv
        have hlen : (view l1).length < fuel := by
          rw [hv1]; rw [hv] at h; simp only [List.length_cons] at h; omega
        have ih1 := ih c2 l1 hlen
        rw [hv1] at ih1
        have hdw : (c :: c2 :: r2).dropWhile isSpace = (c2 :: r2).dropWhile isSpace := by
          rw [List.dropWhile_cons, if_pos hc]
        have htw : ((c :: c2 :: r2).takeWhile isSpace).length
            = ((c2 :: r2).takeWhile isSpace).length + 1 := by
          rw [List.takeWhile_cons, if_pos hc]; rfl
        constructor
        · intro hd
          rw [hdw] at hd
          simp only [skipSpaces, hc, if_true, he]
          exact ih1.1 hd
        · intro c1 r hd
          rw [hdw] at hd
          obtain ⟨l2, hk, hv2, hs2, hi2⟩ := ih1.2 c1 r hd
          refine ⟨l2, ?_, hv2, ?_, ?_⟩
          · simp only [skipSpaces, hc, if_true, he]
            exact hk
          · rw [hs2, hs1]
          · rw [htw]; omega
    · have hdw : (c :: view l).dropWhile isSpace = c :: view l := by
        rw [List.dropWhile_cons, if_neg hc]
      have htw : (c :: view l).takeWhile isSpace = [] := by
        rw [List.takeWhile_cons, if_neg hc]
      constructor
      · intro hd
        rw [hdw] at hd
        exact absurd hd (by simp)
      · intro c1 r hd
        rw [hdw] at hd
        injection hd with h1 h2
        subst h1
        refine ⟨l, ?_, h2, rfl, ?_⟩
        · simp [skipSpaces, hc]
        · rw [htw]; simp

theorem length_dropWhile_le_self (p : Char → Bool) (v : List Char) :
    (v.dropWhile p).length ≤ v.length :=
  (List.dropWhile_sublist p).length_le

theorem peekNextChar_congr (l1 l2 : Lexer) (hv : view l1 = view l2) :
    peekNextChar l1 = peekNextChar l2 := by
  rw [peekNextChar_eq_head, peekNextChar_eq_head, hv]

/-! ## Lexer: the token depends only on the characters left -/

theorem lexToken_obs (recur1 recur2 : Lexer → Except Fault (Token × Lexer))
    (fuel1 fuel2 : Nat) (c : Char) (l1 l2 : Lexer) (hv : view l1 = view l2)
    (hf1 : (view l1).length < fuel1) (hf2 : (view l1).length < fuel2)
    (hrec : ∀ a b, view a = view b → (view a).length ≤ (view l1).length →
      tokObs (recur1 a) = tokObs (recur2 b)) :
    tokObs (lexToken recur1 fuel1 c l1) = tokObs (lexToken recur2 fuel2 c l2) := by
  have hp : peekNextChar l2 = peekNextChar l1 := (peekNextChar_congr l1 l2 hv).symm
  have hf2b : (view l2).length < fuel2 := by rw [← hv]; exact hf2
  unfold lexToken
  simp only [hp]
  cases hfind : singleCharTokens.find? (fun x => x == c) with
  | some k => simp [tokObs, hv]
  | none =>
    simp only []
    by_cases h1 : c = '/'
    · simp only [h1, if_true]
      by_cases h2 : peekNextChar l1 = '/'
      · simp only [h2, if_true]
        obtain ⟨a, ha, hva, -, -⟩ :=
          eatWhile_view (fun c => c != '\n' && c != '\x00') (by decide) fuel1 [] l1 hf1
        obtain ⟨b, hb, hvb, -, -⟩ :=
          eatWhile_view (fun c => c != '\n' && c != '\x00') (by decide) fuel2 [] l2 hf2b
        rw [ha, hb]
        simp only []
        apply hrec
        · rw [hva, hvb, hv]
        · rw [hva]; exact length_dropWhile_le_self _ _
      · simp [h2, tokObs, hv]
    · simp only [h1, if_false]
      by_cases h2 : c = '='
      · by_cases h3 : peekNextChar l1 = '=' <;> simp [h2, h3, tokObs, hv]
      · simp only [h2, if_false]
        by_cases h3 : c = '&' ∧ peekNextChar l1 = '&'
        · simp [h3, tokObs, hv]
        · simp only [h3, if_false]
          by_cases h4 : c = '|' ∧ peekNextChar l1 = '|'
          · simp [h4, tokObs, hv]
          · simp only [h4, if_false]
            by_cases h5 : (isAlpha c || c == '@') = true
            · simp only [h5, if_true]
              obtain ⟨a, ha, hva, -, -⟩ :=
                eatWhile_view (fun c => isAlnum c || c == '_') (by decide) fuel1 [c] l1 hf1
              obtain ⟨b, hb, hvb, -, -⟩ :=
                eatWhile_view (fun c => isAlnum c || c == '_') (by decide) fuel2 [c] l2 hf2b
              rw [ha, hb, ← hv]
              simp only []
              cases keywords.lookup ([c] ++ List.takeWhile (fun c => isAlnum c || c == '_') (view l1))
                <;> simp [tokObs, hva, hvb, hv]
            · simp only [h5]
              by_cases h6 : isNum c = true
              · simp only [h6, if_true]
                obtain ⟨a, ha, hva, -, -⟩ := eatWhile_view isNum (by decide) fuel1 [c] l1 hf1
                obtain ⟨b, hb, hvb, -, -⟩ := eatWhile_view isNum (by decide) fuel2 [c] l2 hf2b
                have hab : view a = view b := by rw [hva, hvb, hv]
                have hla : (view a).length ≤ (view l1).length := by
                  rw [hva]; exact length_dropWhile_le_self _ _
                rw [ha, hb, ← hv]
                simp only [← peekNextChar_congr a b hab]
                by_cases h7 : peekNextChar a = '.'
                · simp only [h7, if_true]
                  cases hvw : view a with
                  | nil => simp [eatNextChar_nil a hvw, eatNextChar_nil b (hab ▸ hvw), tokObs]
                  | cons d r =>
                    obtain ⟨a3, ha3, hva3, -, -⟩ := eatNextChar_cons a d r hvw
                    obtain ⟨b3, hb3, hvb3, -, -⟩ := eatNextChar_cons b d r (hab ▸ hvw)
                    have hab3 : view a3 = view b3 := by rw [hva3, hvb3]
                    have hl3 : (view a3).length < (view l1).length := by
                      rw [hva3]; rw [hvw] at hla; simp only [List.length_cons] at hla; omega
                    rw [ha3, hb3]
                    simp only [← peekNextChar_congr a3 b3 hab3]
                    by_cases h8 : isNum (peekNextChar a3) = true
                    · simp only [h8, if_true]
                      obtain ⟨a4, ha4, hva4, -, -⟩ :=
                        eatWhile_view isNum (by decide) fuel1
                          ([c] ++ List.takeWhile isNum (view l1) ++ [d]) a3 (by omega)
                      obtain ⟨b4, hb4, hvb4, -, -⟩ :=
                        eatWhile_view isNum (by decide) fuel2
                          ([c] ++ List.takeWhile isNum (view l1) ++ [d]) b3
                          (by rw [← hab3]; omega)
                      rw [ha4, hb4]
                      simp [tokObs, hva4, hvb4, hab3]
                    · simp [h8, tokObs, hab3]
                · simp [h7, tokObs, hab]
              · simp [h6, tokObs, hv]

theorem getNextTokenFuel_view (n : Nat) (l : Lexer) (hn : (view l).length < n + 1) :
    ((view l).dropWhile isSpace = [] →
      getNextTokenFuel (n + 1) l =
        .error (.assertion "indexing past the end of the source buffer")) ∧
    (∀ c1 r1, (view l).dropWhile isSpace = c1 :: r1 →
      ∃ l1, getNextTokenFuel (n + 1) l = lexToken (getNextTokenFuel n) (n + 1) c1 l1 ∧
        view l1 = r1 ∧ l1.source = l.source ∧
        l1.idx = l.idx + ((view l).takeWhile isSpace).length + 1) := by
  cases hv : view l with
  | nil =>
    constructor
    · intro _
      simp [getNextTokenFuel, eatNextChar_nil l hv]
    · intro c1 r1 hd
      simp at hd
  | cons c0 r =>
    obtain ⟨a0, he, hva, hsa, hia⟩ := eatNextChar_cons l c0 r hv
    have hlen : (view a0).length < n + 1 := by
      rw [hva]; rw [hv] at hn; simp only [List.length_cons] at hn; omega
    have hs := skipSpaces_view (n + 1) c0 a0 hlen
    rw [hva] at hs
    constructor
    · intro hd
      simp only [getNextTokenFuel, he, hs.1 hd]
    · intro c1 r1 hd
      obtain ⟨l1, hk, hv1, hs1, hi1⟩ := hs.2 c1 r1 hd
      refine ⟨l1, ?_, hv1, ?_, ?_⟩
      · simp only [getNextTokenFuel, he, hk]
      · rw [hs1, hsa]
      · omega

theorem getNextTokenFuel_step (n m : Nat) (l1 l2 : Lexer) (ws : List Char)
    (hws : ∀ w ∈ ws, isSpace w = true) (hv : view l1 = ws ++ view l2)
    (hn : (view l1).length < n + 1) (hm : (view l2).length < m + 1)
    (hrec : ∀ a b, view a = view b → (view a).length < n → (view a).length < m →
      tokObs (getNextTokenFuel n a) = tokObs (getNextTokenFuel m b)) :
    tokObs (getNextTokenFuel (n + 1) l1) = tokObs (getNextTokenFuel (m + 1) l2) := by
  have hd : (view l1).dropWhile isSpace = (view l2).dropWhile isSpace := by
    rw [hv, List.dropWhile_append_of_pos hws]
  have h1 := getNextTokenFuel_view n l1 hn
  have h2 := getNextTokenFuel_view m l2 hm
  cases hD : (view l2).dropWhile isSpace with
  | nil =>
    rw [h1.1 (hd.trans hD), h2.1 hD]
  | cons c1 r1 =>
    obtain ⟨a1, ha, hva, -, -⟩ := h1.2 c1 r1 (hd.trans hD)
    obtain ⟨b1, hb, hvb, -, -⟩ := h2.2 c1 r1 hD
    have hr2 : r1.length < (view l2).length := by
      have := length_dropWhile_le_self isSpace (view l2)
      rw [hD] at this; simp only [List.length_cons] at this; omega
    have hr1 : r1.length < (view l1).length := by
      rw [hv, List.length_append]; omega
    rw [ha, hb]
    apply lexToken_obs
    · rw [hva, hvb]
    · rw [hva]; omega
    · rw [hva]; omega
    · intro a b hab hlen
      rw [hva] at hlen
      exact hrec a b hab (by omega) (by omega)

theorem getNextTokenFuel_obs :
    ∀ (n m : Nat) (l1 l2 : Lexer), view l1 = view l2 → (view l1).length < n →
      (view l1).length < m → tokObs (getNextTokenFuel n l1) = tokObs (getNextTokenFuel m l2) := by
  intro n
  induction n with
  | zero => intro m l1 l2 _ h; omega
  | succ n ih =>
    intro m l1 l2 hv hn hm
    cases m with
    | zero => omega
    | succ m =>
      apply getNextTokenFuel_step n m l1 l2 [] (by simp) (by simpa using hv) hn
        (by rw [← hv]; exact hm)
      intro a b hab h1 h2
      exact ih m a b hab h1 h2

theorem getNextToken_length_lt (l : Lexer) :
    (view l).length < l.source.buffer.length + 2 := by
  rw [view_length]; omega

/-- A call of `getNextToken` shows the same token and leaves the same
characters on two lexers with the same characters left. -/
theorem getNextToken_obs (l1 l2 : Lexer) (hv : view l1 = view l2) :
    tokObs (getNextToken l1) = tokObs (getNextToken l2) := by
  unfold getNextToken
  apply getNextTokenFuel_obs _ _ l1 l2 hv (getNextToken_length_lt l1)
  rw [hv]; exact getNextToken_length_lt l2

/-- Whitespace in front of the characters left changes neither the token nor
the characters left after it. -/
theorem getNextToken_obs_spaces (l1 l2 : Lexer) (ws : List Char)
    (hws : ∀ w ∈ ws, isSpace w = true) (hv : view l1 = ws ++ view l2) :
    tokObs (getNextToken l1) = tokObs (getNextToken l2) := by
  unfold getNextToken
  apply getNextTokenFuel_step _ _ l1 l2 ws hws hv
  · have := getNextToken_length_lt l1; omega
  · have := getNextToken_length_lt l2; omega
  · intro a b hab h1 h2
    exact getNextTokenFuel_obs _ _ a b hab h1 h2

theorem getNextTokenFuel_obs_spaces (n m : Nat) (l1 l2 : Lexer) (ws : List Char)
    (hws : ∀ w ∈ ws, isSpace w = true) (hv : view l1 = ws ++ view l2)
    (hn : (view l1).length < n) (hm : (view l2).length < m) :
    tokObs (getNextTokenFuel n l1) = tokObs (getNextTokenFuel m l2) := by
  cases n with
  | zero => omega
  | succ n =>
    cases m with
    | zero => omega
    | succ m =>
      apply getNextTokenFuel_step n m l1 l2 ws hws hv hn hm
      intro a b hab h1 h2
      exact getNextTokenFuel_obs _ _ a b hab h1 h2

/-- A `//` comment up to and including its newline in front of the characters
left changes neither the token nor the characters left after it. -/
theorem getNextToken_obs_comment (l1 l2 : Lexer) (c : List Char)
    (hc : ∀ x ∈ c, x ≠ '\n' ∧ x ≠ '\x00')
    (hv : view l1 = '/' :: '/' :: (c ++ '\n' :: view l2)) :
    tokObs (getNextToken l1) = tokObs (getNextToken l2) := by
  have hlen := view_length l1
  have hlen2 := view_length l2
  rw [hv] at hlen
  simp only [List.length_cons, List.length_append] at hlen
  unfold getNextToken
  have h1 := getNextTokenFuel_view (l1.source.buffer.length + 1) l1
    (by rw [view_length]; omega)
  rw [hv] at h1
  obtain ⟨a1, ha, hva, -, -⟩ := h1.2 '/' ('/' :: (c ++ '\n' :: view l2)) (by
    rw [List.dropWhile_cons, if_neg (by decide)])
  rw [ha]
  have hcond : ∀ x ∈ '/' :: c, (fun c => c != '\n' && c != '\x00') x = true := by
    intro x hx
    rcases List.mem_cons.1 hx with h | h
    · subst h; decide
    · have := hc x h; simp [this.1, this.2]
  have hdw : (view a1).dropWhile (fun c => c != '\n' && c != '\x00') = '\n' :: view l2 := by
    rw [hva]
    have : '/' :: (c ++ '\n' :: view l2) = ('/' :: c) ++ ('\n' :: view l2) := rfl
    rw [this, List.dropWhile_append_of_pos hcond, List.dropWhile_cons, if_neg (by decide)]
  obtain ⟨a2, hw, hva2, -, -⟩ :=
    eatWhile_view (fun c => c != '\n' && c != '\x00') (by decide)
      (l1.source.buffer.length + 1 + 1) [] a1 (by rw [hva]; simp; omega)
  have hpeek : peekNextChar a1 = '/' := by rw [peekNextChar_eq_head, hva]; rfl
  have hfind : singleCharTokens.find? (fun x => x == '/') = none := by decide
  unfold lexToken
  simp only [hfind, hpeek, if_true, hw]
  apply getNextTokenFuel_obs_spaces _ _ a2 l2 ['\n'] (by decide)
  · rw [hva2, hdw]; rfl
  · rw [hva2, hdw]; simp; omega
  · omega

theorem lexKinds_view : ∀ (n : Nat) (l1 l2 : Lexer), view l1 = view l2 →
    lexKinds n l1 = lexKinds n l2 := by
  intro n
  induction n with
  | zero => intro l1 l2 _; rfl
  | succ n ih =>
    intro l1 l2 hv
    have h := getNextToken_obs l1 l2 hv
    unfold lexKinds
    cases h1 : getNextToken l1 with
    | error e1 =>
      cases h2 : getNextToken l2 with
      | error e2 => rfl
      | ok r2 => rw [h1, h2] at h; simp [tokObs] at h
    | ok r1 =>
      cases h2 : getNextToken l2 with
      | error e2 => rw [h1, h2] at h; simp [tokObs] at h
      | ok r2 =>
        rw [h1, h2] at h
        obtain ⟨t1, a⟩ := r1
        obtain ⟨t2, b⟩ := r2
        simp only [tokObs, Except.ok.injEq, Prod.mk.injEq] at h
        simp only [h.1, h.2.1]
        rw [ih a b h.2.2]

theorem lexKinds_of_obs (l1 l2 : Lexer)
    (h : tokObs (getNextToken l1) = tokObs (getNextToken l2)) (n : Nat) :
    lexKinds n l1 = lexKinds n l2 := by
  cases n with
  | zero => rfl
  | succ n =>
    unfold lexKinds
    cases h1 : getNextToken l1 with
    | error e1 =>
      cases h2 : getNextToken l2 with
      | error e2 => rfl
      | ok r2 => rw [h1, h2] at h; simp [tokObs] at h
    | ok r1 =>
      cases h2 : getNextToken l2 with
      | error e2 => rw [h1, h2] at h; simp [tokObs] at h
      | ok r2 =>
        rw [h1, h2] at h
        obtain ⟨t1, a⟩ := r1
        obtain ⟨t2, b⟩ := r2
        simp only [tokObs, Except.ok.injEq, Prod.mk.injEq] at h
        simp only [h.1, h.2.1]
        rw [lexKinds_view n a b h.2.2]

theorem view_new (path : String) (b : List Char) :
    view (Lexer.new ⟨path, b⟩) = b ++ ['\x00'] := by
  simp [view, Lexer.new]

/-! ## Lexer: every call in front of the terminator returns a token -/

theorem idx_le_of_view_ne_nil (l : Lexer) (h : view l ≠ []) :
    l.idx ≤ l.source.buffer.length := by
  have h1 := view_length l
  have h2 : 0 < (view l).length := List.length_pos.2 h
  omega

theorem view_eq_append_nul (l : Lexer) (h : l.idx ≤ l.source.buffer.length) :
    view l = l.source.buffer.drop l.idx ++ ['\x00'] := by
  unfold view
  rw [List.drop_append_of_le_length h]

theorem dropWhile_append_nul_ne_nil (p : Char → Bool) (h0 : p '\x00' = false)
    (v : List Char) : (v ++ ['\x00']).dropWhile p ≠ [] := by
  intro h
  rw [List.dropWhile_eq_nil_iff] at h
  have := h '\x00' (by simp)
  rw [h0] at this
  exact absurd this (by simp)

theorem dropWhile_append_nul_shape (p : Char → Bool) (h0 : p '\x00' = false)
    (v : List Char) : ∃ w, (v ++ ['\x00']).dropWhile p = w ++ ['\x00'] := by
  induction v with
  | nil => exact ⟨[], by simp [List.dropWhile_cons, h0]⟩
  | cons c r ih =>
    by_cases hc : p c = true
    · obtain ⟨w, hw⟩ := ih
      exact ⟨w, by simp only [List.cons_append, List.dropWhile_cons, hc, if_true, hw]⟩
    · exact ⟨c :: r, by simp [List.dropWhile_cons, hc]⟩

theorem lexToken_total (recur : Lexer → Except Fault (Token × Lexer)) (fuel : Nat)
    (c : Char) (l1 : Lexer) (hf : (view l1).length < fuel)
    (hc : c = '\x00' ∨ l1.idx ≤ l1.source.buffer.length)
    (hrec : ∀ a, a.source = l1.source → l1.idx ≤ a.idx → a.idx ≤ a.source.buffer.length →
      ∃ t a1, recur a = .ok (t, a1) ∧ a1.source = a.source ∧ a.idx < a1.idx) :
    ∃ t l2, lexToken recur fuel c l1 = .ok (t, l2) ∧ l2.source = l1.source ∧
      l1.idx ≤ l2.idx := by
  unfold lexToken
  cases hfind : singleCharTokens.find? (fun x => x == c) with
  | some k => exact ⟨_, l1, rfl, rfl, le_refl _⟩
  | none =>
    have hle : l1.idx ≤ l1.source.buffer.length := by
      rcases hc with h | h
      · subst h
        exact absurd hfind (by decide)
      · exact h
    have hview := view_eq_append_nul l1 hle
    simp only []
    by_cases h1 : c = '/'
    · simp only [h1, if_true]
      by_cases h2 : peekNextChar l1 = '/'
      · simp only [h2, if_true]
        obtain ⟨a, ha, hva, hsa, hia⟩ :=
          eatWhile_view (fun c => c != '\n' && c != '\x00') (by decide) fuel [] l1 hf
        rw [ha]
        simp only []
        have hane : view a ≠ [] := by
          rw [hva, hview]; exact dropWhile_append_nul_ne_nil _ (by decide) _
        have hale := idx_le_of_view_ne_nil a hane
        obtain ⟨t, a1, hr, hs1, hi1⟩ := hrec a hsa (by omega) hale
        exact ⟨t, a1, hr, by rw [hs1, hsa], by omega⟩
      · simp only [h2, if_false]
        exact ⟨_, l1, rfl, rfl, le_refl _⟩
    · simp only [h1, if_false]
      by_cases h2 : c = '='
      · by_cases h3 : peekNextChar l1 = '=' <;> simp only [h2, h3, if_true, if_false] <;>
          exact ⟨_, l1, rfl, rfl, le_refl _⟩
      · simp only [h2, if_false]
        by_cases h3 : c = '&' ∧ peekNextChar l1 = '&'
        · simp only [h3, and_self, if_true]
          exact ⟨_, l1, rfl, rfl, le_refl _⟩
        · simp only [h3, if_false]
          by_cases h4 : c = '|' ∧ peekNextChar l1 = '|'
          · simp only [h4, and_self, if_true]
            exact ⟨_, l1, rfl, rfl, le_refl _⟩
          · simp only [h4, if_false]
            by_cases h5 : (isAlpha c || c == '@') = true
            · simp only [h5, if_true]
              obtain ⟨a, ha, hva, hsa, hia⟩ :=
                eatWhile_view (fun c => isAlnum c || c == '_') (by decide) fuel [c] l1 hf
              rw [ha]
              simp only []
              cases keywords.lookup
                  ([c] ++ List.takeWhile (fun c => isAlnum c || c == '_') (view l1)) <;>
                exact ⟨_, a, rfl, hsa, by omega⟩
            · simp only [h5]
              by_cases h6 : isNum c = true
              · simp only [h6, if_true]
                obtain ⟨a, ha, hva, hsa, hia⟩ := eatWhile_view isNum (by decide) fuel [c] l1 hf
                have hla : (view a).length ≤ (view l1).length := by
                  rw [hva]; exact length_dropWhile_le_self _ _
                rw [ha]
                simp only []
                by_cases h7 : peekNextChar a = '.'
                · simp only [h7, if_true]
                  cases hvw : view a with
                  | nil =>
                    rw [peekNextChar_eq_head, hvw] at h7
                    exact absurd h7 (by decide)
                  | cons d r =>
                    obtain ⟨a3, ha3, hva3, hsa3, hia3⟩ := eatNextChar_cons a d r hvw
                    have hl3 : (view a3).length < fuel := by
                      rw [hva3]; rw [hvw] at hla; simp only [List.length_cons] at hla; omega
                    rw [ha3]
                    simp only []
                    by_cases h8 : isNum (peekNextChar a3) = true
                    · simp only [h8, if_true]
                      obtain ⟨a4, ha4, hva4, hsa4, hia4⟩ :=
                        eatWhile_view isNum (by decide) fuel
                          ([c] ++ List.takeWhile isNum (view l1) ++ [d]) a3 hl3
                      rw [ha4]
                      exact ⟨_, a4, rfl, by rw [hsa4, hsa3, hsa], by omega⟩
                    · simp only [h8]
                      exact ⟨_, a3, rfl, by rw [hsa3, hsa], by omega⟩
                · simp only [h7, if_false]
                  exact ⟨_, a, rfl, hsa, by omega⟩
              · simp only [h6]
                exact ⟨_, l1, rfl, rfl, le_refl _⟩

theorem getNextTokenFuel_total :
    ∀ (n : Nat) (l : Lexer), (view l).length < n → l.idx ≤ l.source.buffer.length →
      ∃ t l1, getNextTokenFuel n l = .ok (t, l1) ∧ l1.source = l.source ∧ l.idx < l1.idx := by
  intro n
  induction n with
  | zero => intro l h; omega
  | succ n ih =>
    intro l hn hle
    have hview := view_eq_append_nul l hle
    obtain ⟨w, hw⟩ := dropWhile_append_nul_shape isSpace (by decide) (l.source.buffer.drop l.idx)
    rw [← hview] at hw
    have hlen := view_length l
    have hdl := length_dropWhile_le_self isSpace (view l)
    cases hD : (view l).dropWhile isSpace with
    | nil =>
      rw [hview] at hD
      exact absurd hD (dropWhile_append_nul_ne_nil _ (by decide) _)
    | cons c1 r1 =>
      obtain ⟨l1, hg, hv1, hs1, hi1⟩ := (getNextTokenFuel_view n l hn).2 c1 r1 hD
      rw [hD] at hw hdl
      simp only [List.length_cons] at hdl
      have hc : c1 = '\x00' ∨ l1.idx ≤ l1.source.buffer.length := by
        cases w with
        | nil =>
          left
          simp only [List.nil_append, List.cons.injEq] at hw
          exact hw.1
        | cons x w1 =>
          right
          apply idx_le_of_view_ne_nil
          rw [hv1]
          simp only [List.cons_append, List.cons.injEq] at hw
          rw [hw.2]; simp
      obtain ⟨t, l2, hlex, hs2, hi2⟩ :=
        lexToken_total (getNextTokenFuel n) (n + 1) c1 l1 (by rw [hv1]; omega) hc (by
          intro a hsa hia hale
          apply ih a _ hale
          have hla := view_length a
          have hl1 := view_length l1
          rw [hsa] at hla
          rw [hv1] at hl1
          rw [hsa] at hale
          omega)
      exact ⟨t, l2, by rw [hg, hlex], by rw [hs2, hs1], by omega⟩

/-- In front of the terminating NUL or of an earlier character a call of
`getNextToken` returns a token and moves forward in the same buffer. -/
theorem getNextToken_total (l : Lexer) (h : l.idx ≤ l.source.buffer.length) :
    ∃ t l1, getNextToken l = .ok (t, l1) ∧ l1.source = l.source ∧ l.idx < l1.idx :=
  getNextTokenFuel_total _ l (getNextToken_length_lt l) h

/-! ## Lexer: character classes -/

theorem char_le_iff (a b : Char) : a ≤ b ↔ a.toNat ≤ b.toNat := by
  rfl

theorem isNum_iff (c : Char) : isNum c = true ↔ 48 ≤ c.toNat ∧ c.toNat ≤ 57 := by
  simp only [isNum, Bool.and_eq_true, decide_eq_true_eq, char_le_iff]
  rfl

theorem isAlpha_iff (c : Char) :
    isAlpha c = true ↔ (97 ≤ c.toNat ∧ c.toNat ≤ 122) ∨ (65 ≤ c.toNat ∧ c.toNat ≤ 90) := by
  simp only [isAlpha, Bool.or_eq_true, Bool.and_eq_true, decide_eq_true_eq, char_le_iff]
  rfl

theorem find_singleCharTokens_none (c : Char)
    (h : 48 ≤ c.toNat ∧ c.toNat ≠ 58 ∧ c.toNat ≠ 59 ∧ c.toNat ≠ 60 ∧ c.toNat ≠ 61 ∧
      c.toNat ≠ 62 ∧ c.toNat ≠ 123 ∧ c.toNat ≠ 125) :
    singleCharTokens.find? (fun x => x == c) = none := by
  rw [List.find?_eq_none]
  intro x hx
  simp only [singleCharTokens, List.mem_cons, List.mem_singleton, List.not_mem_nil,
    or_false] at hx
  simp only [beq_iff_eq]
  intro hxc
  subst hxc
  rcases hx with rfl | rfl | rfl | rfl | rfl | rfl | rfl | rfl | rfl | rfl | rfl | rfl |
    rfl | rfl | rfl <;> simp at h

theorem ne_of_toNat_ne (c d : Char) (h : c.toNat ≠ d.toNat) : c ≠ d := by
  intro hcd; exact h (by rw [hcd])

theorem view_of_drop (l : Lexer) (x : Char) (xs : List Char)
    (h : l.source.buffer.drop l.idx = x :: xs) : view l = x :: (xs ++ ['\x00']) := by
  have hlt : l.idx < l.source.buffer.length := by
    by_contra hge
    rw [List.drop_eq_nil_of_le (by omega)] at h
    exact absurd h (by simp)
  unfold view
  rw [List.drop_append_of_le_length (by omega), h]
  rfl

theorem takeWhile_stop (p : Char → Bool) (h0 : p '\x00' = false) (tail : List Char)
    (htail : ∀ c, tail.head? = some c → p c = false) :
    (tail ++ ['\x00']).takeWhile p = [] ∧ (tail ++ ['\x00']).dropWhile p = tail ++ ['\x00'] := by
  cases tail with
  | nil => simp [List.takeWhile_cons, List.dropWhile_cons, h0]
  | cons c r =>
    have := htail c rfl
    simp [List.takeWhile_cons, List.dropWhile_cons, this]

theorem takeWhile_append_nul (p : Char → Bool) (h0 : p '\x00' = false) (xs : List Char) :
    (xs ++ ['\x00']).takeWhile p = xs.takeWhile p := by
  induction xs with
  | nil => simp [List.takeWhile_cons, h0]
  | cons c r ih =>
    by_cases hc : p c = true
    · simp only [List.cons_append, List.takeWhile_cons, hc, if_true, ih]
    · simp [List.takeWhile_cons, hc]

/-! ## Lexer: the branches of `lexToken` -/

theorem lexToken_isNum (recur : Lexer → Except Fault (Token × Lexer)) (fuel : Nat)
    (c : Char) (l1 : Lexer) (hc : isNum c = true) (hf : (view l1).length < fuel) :
    ∃ l2, eatWhile isNum fuel [c] l1 = .ok (c :: (view l1).takeWhile isNum, l2) ∧
      view l2 = (view l1).dropWhile isNum ∧ l2.source = l1.source ∧
      l2.idx = l1.idx + ((view l1).takeWhile isNum).length ∧
      lexToken recur fuel c l1 =
        (if peekNextChar l2 = '.' then
          match eatNextChar l2 with
          | .error e => .error e
          | .ok (dot, l3) =>
            if isNum (peekNextChar l3) then
              match eatWhile isNum fuel (c :: (view l1).takeWhile isNum ++ [dot]) l3 with
              | .error e => .error e
              | .ok (value2, l4) =>
                .ok ({ location := ⟨l1.source.path, l1.line, l1.column⟩, kind := .Number,
                       value := some value2 }, l4)
            else
              .ok ({ location := ⟨l1.source.path, l1.line, l1.column⟩, kind := .Unk }, l3)
        else
          .ok ({ location := ⟨l1.source.path, l1.line, l1.column⟩, kind := .Number,
                 value := some (c :: (view l1).takeWhile isNum) }, l2)) := by
  obtain ⟨l2, hw, hv2, hs2, hi2⟩ := eatWhile_view isNum (by decide) fuel [c] l1 hf
  have hn := (isNum_iff c).1 hc
  have hfind := find_singleCharTokens_none c (by omega)
  have h1 : c ≠ '/' := ne_of_toNat_ne _ _ (by simp; omega)
  have h2 : c ≠ '=' := ne_of_toNat_ne _ _ (by simp; omega)
  have h3 : c ≠ '&' := ne_of_toNat_ne _ _ (by simp; omega)
  have h4 : c ≠ '|' := ne_of_toNat_ne _ _ (by simp; omega)
  have h5 : c ≠ '@' := ne_of_toNat_ne _ _ (by simp; omega)
  have h6 : isAlpha c = false := by
    rw [← Bool.not_eq_true, isAlpha_iff]; omega
  refine ⟨l2, hw, hv2, hs2, hi2, ?_⟩
  unfold lexToken
  simp only [hfind, h1, h2, h3, h4, h5, h6, hc, hw, if_false, if_true, false_and,
    Bool.false_or, beq_iff_eq, List.singleton_append, Bool.false_eq_true]

theorem lexToken_ident (recur : Lexer → Except Fault (Token × Lexer)) (fuel : Nat)
    (c : Char) (l1 : Lexer) (hc : isAlpha c = true ∨ c = '@')
    (hf : (view l1).length < fuel) :
    ∃ l2, view l2 = (view l1).dropWhile (fun x => isAlnum x || x == '_') ∧
      l2.source = l1.source ∧
      l2.idx = l1.idx + ((view l1).takeWhile (fun x => isAlnum x || x == '_')).length ∧
      lexToken recur fuel c l1 =
        .ok ({ location := ⟨l1.source.path, l1.line, l1.column⟩,
               kind := (keywords.lookup
                 (c :: (view l1).takeWhile (fun x => isAlnum x || x == '_'))).getD .Identifier,
               value := some (c :: (view l1).takeWhile (fun x => isAlnum x || x == '_')) },
             l2) := by
  obtain ⟨l2, hw, hv2, hs2, hi2⟩ :=
    eatWhile_view (fun x => isAlnum x || x == '_') (by decide) fuel [c] l1 hf
  have hn : 64 ≤ c.toNat ∧ c.toNat ≠ 123 ∧ c.toNat ≠ 124 ∧ c.toNat ≠ 125 := by
    rcases hc with h | h
    · have := (isAlpha_iff c).1 h; omega
    · subst h; decide
  have hfind := find_singleCharTokens_none c (by omega)
  have h1 : c ≠ '/' := ne_of_toNat_ne _ _ (by simp; omega)
  have h2 : c ≠ '=' := ne_of_toNat_ne _ _ (by simp; omega)
  have h3 : c ≠ '&' := ne_of_toNat_ne _ _ (by simp; omega)
  have h4 : c ≠ '|' := ne_of_toNat_ne _ _ (by simp; omega)
  have h5 : (isAlpha c || c == '@') = true := by
    rcases hc with h | h
    · simp [h]
    · simp [h]
  refine ⟨l2, hv2, hs2, hi2, ?_⟩
  unfold lexToken
  simp only [hfind, h1, h2, h3, h4, h5, hw, if_false, if_true, false_and,
    List.singleton_append]
  cases keywords.lookup (c :: List.takeWhile (fun x => isAlnum x || x == '_') (view l1)) <;> rfl

theorem isSpace_toNat (c : Char) (h : isSpace c = true) : c.toNat < 48 := by
  simp only [isSpace, Bool.or_eq_true, beq_iff_eq] at h
  rcases h with ((((rfl | rfl) | rfl) | rfl) | rfl) | rfl <;> decide

theorem dropWhile_isSpace_cons (c : Char) (r : List Char) (h : 48 ≤ c.toNat) :
    (c :: r).dropWhile isSpace = c :: r ∧ (c :: r).takeWhile isSpace = [] := by
  have hs : ¬ isSpace c = true := fun hs => by have := isSpace_toNat c hs; omega
  simp [List.dropWhile_cons, List.takeWhile_cons, hs]

/-- The digits of a literal: from a lexer in front of `c0 :: d1 ++ rest`, with
`c0 :: d1` digits and `rest` not starting with a digit, `getNextToken` reads
the digits and goes on from the state `l2` in front of `rest`. -/
theorem getNextToken_digits (l : Lexer) (c0 : Char) (d1 rest : List Char)
    (hv : view l = c0 :: (d1 ++ rest)) (hc0 : isNum c0 = true)
    (hd1 : ∀ x ∈ d1, isNum x = true) (hrest : rest.takeWhile isNum = []) :
    ∃ loc l2, view l2 = rest ∧ l2.source = l.source ∧ l2.idx = l.idx + 1 + d1.length ∧
      getNextToken l =
        (if peekNextChar l2 = '.' then
          match eatNextChar l2 with
          | .error e => .error e
          | .ok (dot, l3) =>
            if isNum (peekNextChar l3) then
              match eatWhile isNum (l.source.buffer.length + 2) (c0 :: d1 ++ [dot]) l3 with
              | .error e => .error e
              | .ok (value2, l4) => .ok ({ location := loc, kind := .Number,
                                           value := some value2 }, l4)
            else
              .ok ({ location := loc, kind := .Unk }, l3)
        else
          .ok ({ location := loc, kind := .Number, value := some (c0 :: d1) }, l2)) := by
  have hn := (isNum_iff c0).1 hc0
  have hlen := getNextToken_length_lt l
  have h1 := getNextTokenFuel_view (l.source.buffer.length + 1) l hlen
  rw [hv] at h1
  have hsp := dropWhile_isSpace_cons c0 (d1 ++ rest) (by omega)
  obtain ⟨l1, hg, hv1, hs1, hi1⟩ := h1.2 c0 (d1 ++ rest) hsp.1
  rw [hsp.2] at hi1
  have hf1 : (view l1).length < l.source.buffer.length + 1 + 1 := by
    rw [hv1]; rw [hv] at hlen; simp only [List.length_cons] at hlen; omega
  obtain ⟨l2, -, hv2, hs2, hi2, hlex⟩ :=
    lexToken_isNum (getNextTokenFuel (l.source.buffer.length + 1))
      (l.source.buffer.length + 1 + 1) c0 l1 hc0 hf1
  have htw : (view l1).takeWhile isNum = d1 := by
    rw [hv1, List.takeWhile_append_of_pos hd1, hrest, List.append_nil]
  have hdw : (view l1).dropWhile isNum = rest := by
    rw [hv1, List.dropWhile_append_of_pos hd1]
    have := List.takeWhile_append_dropWhile isNum rest
    rw [hrest] at this
    simpa using this
  rw [htw] at hlex hi2
  rw [hdw] at hv2
  refine ⟨⟨l1.source.path, l1.line, l1.column⟩, l2, hv2, by rw [hs2, hs1], ?_, ?_⟩
  · rw [hi2, hi1]; simp
  · unfold getNextToken
    rw [hg, hlex]

/-- C1. From a lexer in front of a literal `d` or `d.f` (`d`, `f` non-empty
digit strings) that is followed by the end of the input or by a character that
is neither a digit nor `.`, `getNextToken` returns one `Number` token whose
text is the whole literal, and has eaten exactly the literal; the four tokens
of "12+3.5" are Number "12", Plus, Number "3.5", Eof. -/
theorem c1_number_token_spans_literal (l : Lexer) (d f tail : List Char)
    (hd : d ≠ []) (hdn : ∀ x ∈ d, isNum x = true)
    (hf : f ≠ []) (hfn : ∀ x ∈ f, isNum x = true)
    (htail : ∀ c, tail.head? = some c → isNum c = false ∧ c ≠ '.') :
    (l.source.buffer.drop l.idx = d ++ tail →
      ∃ t l1, getNextToken l = .ok (t, l1) ∧ t.kind = .Number ∧ t.value = some d ∧
        l1.source = l.source ∧ l1.idx = l.idx + d.length) ∧
    (l.source.buffer.drop l.idx = d ++ '.' :: (f ++ tail) →
      ∃ t l1, getNextToken l = .ok (t, l1) ∧ t.kind = .Number ∧
        t.value = some (d ++ '.' :: f) ∧
        l1.source = l.source ∧ l1.idx = l.idx + (d ++ '.' :: f).length) ∧
    lexKinds 4 (Lexer.new ⟨"input", "12+3.5".toList⟩) =
      [(.Number, some "12".toList), (.Plus, none), (.Number, some "3.5".toList),
       (.Eof, none)] := by
  obtain ⟨c0, d1, rfl⟩ := List.exists_cons_of_ne_nil hd
  have hc0 : isNum c0 = true := hdn c0 (List.mem_cons_self _ _)
  have hd1 : ∀ x ∈ d1, isNum x = true := fun x hx => hdn x (List.mem_cons_of_mem _ hx)
  have hstop := takeWhile_stop isNum (by decide) tail (fun c hc => (htail c hc).1)
  refine ⟨?_, ?_, by decide⟩
  · intro hdrop
    have hv := view_of_drop l c0 (d1 ++ tail) hdrop
    rw [List.append_assoc] at hv
    obtain ⟨loc, l2, hv2, hs2, hi2, hg⟩ :=
      getNextToken_digits l c0 d1 (tail ++ ['\x00']) hv hc0 hd1 hstop.1
    have hpeek : peekNextChar l2 ≠ '.' := by
      rw [peekNextChar_eq_head, hv2]
      cases tail with
      | nil => decide
      | cons c r => exact (htail c rfl).2
    rw [if_neg hpeek] at hg
    exact ⟨_, l2, hg, rfl, rfl, hs2, by rw [hi2]; simp; omega⟩
  · intro hdrop
    obtain ⟨f0, f1, rfl⟩ := List.exists_cons_of_ne_nil hf
    have hf0 : isNum f0 = true := hfn f0 (List.mem_cons_self _ _)
    have hv := view_of_drop l c0 (d1 ++ '.' :: (f0 :: f1 ++ tail)) hdrop
    rw [List.append_assoc] at hv
    obtain ⟨loc, l2, hv2, hs2, hi2, hg⟩ :=
      getNextToken_digits l c0 d1 ('.' :: (f0 :: f1 ++ tail) ++ ['\x00']) hv hc0 hd1
        (by simp [List.takeWhile_cons]; decide)
    have hpeek : peekNextChar l2 = '.' := by
      rw [peekNextChar_eq_head, hv2]; rfl
    obtain ⟨l3, he3, hv3, hs3, hi3⟩ :=
      eatNextChar_cons l2 '.' ((f0 :: f1 ++ tail) ++ ['\x00']) hv2
    have hpeek3 : isNum (peekNextChar l3) = true := by
      rw [peekNextChar_eq_head, hv3]; exact hf0
    have hlen3 : (view l3).length < l.source.buffer.length + 2 := by
      have := getNextToken_length_lt l3
      rw [hs3, hs2] at this; exact this
    obtain ⟨l4, hw4, hv4, hs4, hi4⟩ :=
      eatWhile_view isNum (by decide) (l.source.buffer.length + 2)
        (c0 :: d1 ++ ['.']) l3 hlen3
    have htw : (view l3).takeWhile isNum = f0 :: f1 := by
      rw [hv3, List.append_assoc, List.takeWhile_append_of_pos hfn, hstop.1,
        List.append_nil]
    rw [htw] at hw4 hi4
    rw [if_pos hpeek, he3] at hg
    simp only [hpeek3, if_true, hw4] at hg
    refine ⟨_, l4, hg, rfl, ?_, by rw [hs4, hs3, hs2], ?_⟩
    · simp
    · rw [hi4, hi3, hi2]; simp; omega

/-- C1, at "12+3.5": the first token from the start, and the token read from
index 3, in front of "3.5". -/
theorem c1_number_token_spans_literal_witness :
    (∃ t l1, getNextToken (Lexer.new ⟨"input", "12+3.5".toList⟩) = .ok (t, l1) ∧
      t.kind = .Number ∧ t.value = some "12".toList ∧
      l1.source = ⟨"input", "12+3.5".toList⟩ ∧ l1.idx = 0 + 2) ∧
    (∃ t l1, getNextToken { source := ⟨"input", "12+3.5".toList⟩, idx := 3 } = .ok (t, l1) ∧
      t.kind = .Number ∧ t.value = some "3.5".toList ∧
      l1.source = ⟨"input", "12+3.5".toList⟩ ∧ l1.idx = 3 + 3) :=
  ⟨(c1_number_token_spans_literal (Lexer.new ⟨"input", "12+3.5".toList⟩)
      "12".toList "5".toList "+3.5".toList (by decide) (by decide) (by decide) (by decide)
      (by decide)).1 (by decide),
   (c1_number_token_spans_literal { source := ⟨"input", "12+3.5".toList⟩, idx := 3 }
      "3".toList "5".toList [] (by decide) (by decide) (by decide) (by decide)
      (by decide)).2.1 (by decide)⟩

/-- C2. From a lexer in front of a non-empty digit string `d`, a `.` and then
a character that is not a digit or the end of the input, `getNextToken`
returns an `Unk` token without text (not a `Number` token), having eaten `d`
and the point; the first token of "3." is `Unk`. -/
theorem c2_point_without_digit_is_unknown (l : Lexer) (d tail : List Char)
    (hd : d ≠ []) (hdn : ∀ x ∈ d, isNum x = true)
    (htail : ∀ c, tail.head? = some c → isNum c = false)
    (hdrop : l.source.buffer.drop l.idx = d ++ '.' :: tail) :
    (∃ t l1, getNextToken l = .ok (t, l1) ∧ t.kind = .Unk ∧ t.value = none ∧
      t.kind ≠ .Number ∧ l1.source = l.source ∧ l1.idx = l.idx + d.length + 1) ∧
    lexKinds 1 (Lexer.new ⟨"input", "3.".toList⟩) = [(.Unk, none)] := by
  obtain ⟨c0, d1, rfl⟩ := List.exists_cons_of_ne_nil hd
  have hc0 : isNum c0 = true := hdn c0 (List.mem_cons_self _ _)
  have hd1 : ∀ x ∈ d1, isNum x = true := fun x hx => hdn x (List.mem_cons_of_mem _ hx)
  have hstop := takeWhile_stop isNum (by decide) tail htail
  refine ⟨?_, by decide⟩
  have hv := view_of_drop l c0 (d1 ++ '.' :: tail) hdrop
  rw [List.append_assoc] at hv
  obtain ⟨loc, l2, hv2, hs2, hi2, hg⟩ :=
    getNextToken_digits l c0 d1 ('.' :: tail ++ ['\x00']) hv hc0 hd1
      (by simp [List.takeWhile_cons]; decide)
  have hpeek : peekNextChar l2 = '.' := by
    rw [peekNextChar_eq_head, hv2]; rfl
  obtain ⟨l3, he3, hv3, hs3, hi3⟩ := eatNextChar_cons l2 '.' (tail ++ ['\x00']) hv2
  have hpeek3 : isNum (peekNextChar l3) = false := by
    rw [peekNextChar_eq_head, hv3]
    cases tail with
    | nil => decide
    | cons c r => exact htail c rfl
  rw [if_pos hpeek, he3] at hg
  simp only [hpeek3, Bool.false_eq_true, if_false] at hg
  refine ⟨_, l3, hg, rfl, rfl, by simp, by rw [hs3, hs2], ?_⟩
  rw [hi3, hi2]; simp; omega

/-- C2, at "3.": the token read from the start is `Unk` and both characters
are eaten. -/
theorem c2_point_without_digit_is_unknown_witness :
    ∃ t l1, getNextToken (Lexer.new ⟨"input", "3.".toList⟩) = .ok (t, l1) ∧
      t.kind = .Unk ∧ t.value = none ∧ t.kind ≠ .Number ∧
      l1.source = ⟨"input", "3.".toList⟩ ∧ l1.idx = 0 + 1 + 1 :=
  (c2_point_without_digit_is_unknown (Lexer.new ⟨"input", "3.".toList⟩) "3".toList []
    (by decide) (by decide) (by decide) (by decide)).1

/-- C3 (what the code does). The second character of `&&` and `||` is looked
at and not eaten, so it is lexed again and comes out as `Unk`; `=` is an
entry of `singleCharTokens`, so `==` is two `EqualSign` tokens and the branch
for `EqualEqual` is never reached. -/
theorem c3_two_char_operators_as_lexed :
    lexKinds 4 (Lexer.new ⟨"input", "&&".toList⟩)
      = [(.AmpAmp, none), (.Unk, none), (.Eof, none)] ∧
    lexKinds 4 (Lexer.new ⟨"input", "||".toList⟩)
      = [(.PipePipe, none), (.Unk, none), (.Eof, none)] ∧
    lexKinds 4 (Lexer.new ⟨"input", "==".toList⟩)
      = [(.EqualSign, none), (.EqualSign, none), (.Eof, none)] ∧
    lexKinds 6 (Lexer.new ⟨"input", "a&&b".toList⟩)
      = [(.Identifier, some "a".toList), (.AmpAmp, none), (.Unk, none),
         (.Identifier, some "b".toList), (.Eof, none)] ∧
    lexKinds 6 (Lexer.new ⟨"input", "a==b".toList⟩)
      = [(.Identifier, some "a".toList), (.EqualSign, none), (.EqualSign, none),
         (.Identifier, some "b".toList), (.Eof, none)] := by
  decide

/-- C4. A call of `getNextToken` on a lexer that has not eaten the terminator
of its buffer returns a token and moves forward. A `//` comment `c` (no
newline, no NUL in it) with its newline, or a run `ws` of whitespace, in front
of a source text `s` changes nothing in the kinds and texts of the tokens that
successive calls of `getNextToken` return, however many calls are made; and a
`/` that is not followed by `/` is a `Slash` token that eats that one
character. -/
theorem c4_comments_and_whitespace_skipped (l : Lexer) (path : String)
    (c ws s rest : List Char)
    (hl : l.idx ≤ l.source.buffer.length)
    (hc : ∀ x ∈ c, x ≠ '\n' ∧ x ≠ '\x00') (hws : ∀ w ∈ ws, isSpace w = true)
    (hrest : rest.head? ≠ some '/') :
    (∃ t l1, getNextToken l = .ok (t, l1) ∧ l1.source = l.source ∧ l.idx < l1.idx) ∧
    (∀ n, lexKinds n (Lexer.new ⟨path, '/' :: '/' :: (c ++ '\n' :: s)⟩)
        = lexKinds n (Lexer.new ⟨path, s⟩)) ∧
    (∀ n, lexKinds n (Lexer.new ⟨path, ws ++ s⟩) = lexKinds n (Lexer.new ⟨path, s⟩)) ∧
    tokObs (getNextToken (Lexer.new ⟨path, '/' :: rest⟩))
      = .ok (.Slash, none, rest ++ ['\x00']) := by
  refine ⟨getNextToken_total l hl, ?_, ?_, ?_⟩
  · intro n
    apply lexKinds_of_obs
    apply getNextToken_obs_comment _ _ c hc
    rw [view_new, view_new]
    simp
  · intro n
    apply lexKinds_of_obs
    apply getNextToken_obs_spaces _ _ ws hws
    rw [view_new, view_new]
    simp
  · have hlen := getNextToken_length_lt (Lexer.new ⟨path, '/' :: rest⟩)
    have h1 := getNextTokenFuel_view _ (Lexer.new ⟨path, '/' :: rest⟩) hlen
    rw [view_new] at h1
    obtain ⟨l1, hg, hv1, -, -⟩ := h1.2 '/' (rest ++ ['\x00'])
      (by rw [List.cons_append, List.dropWhile_cons, if_neg (by decide)])
    have hpeek : peekNextChar l1 ≠ '/' := by
      rw [peekNextChar_eq_head, hv1]
      cases rest with
      | nil => decide
      | cons x r =>
        intro hx
        apply hrest
        simp only [List.cons_append, List.headD_cons] at hx
        rw [hx]; rfl
    have hfind : singleCharTokens.find? (fun x => x == '/') = none := by decide
    unfold getNextToken
    rw [hg]
    unfold lexToken
    simp only [hfind, hpeek, if_true, if_false, tokObs, hv1]

/-- C4, at the comment " note", the whitespace " \t\n", the text "x/2" and a
`/` in front of "2". -/
theorem c4_comments_and_whitespace_skipped_witness :
    (∃ t l1, getNextToken { source := ⟨"input", "x/2".toList⟩, idx := 1 } = .ok (t, l1) ∧
      l1.source = ⟨"input", "x/2".toList⟩ ∧ 1 < l1.idx) ∧
    (∀ n, lexKinds n (Lexer.new ⟨"input", '/' :: '/' :: (" note".toList ++ '\n' :: "x/2".toList)⟩)
        = lexKinds n (Lexer.new ⟨"input", "x/2".toList⟩)) ∧
    (∀ n, lexKinds n (Lexer.new ⟨"input", " \t\n".toList ++ "x/2".toList⟩)
        = lexKinds n (Lexer.new ⟨"input", "x/2".toList⟩)) ∧
    tokObs (getNextToken (Lexer.new ⟨"input", '/' :: "2".toList⟩))
      = .ok (.Slash, none, "2".toList ++ ['\x00']) :=
  c4_comments_and_whitespace_skipped { source := ⟨"input", "x/2".toList⟩, idx := 1 } "input"
    " note".toList " \t\n".toList "x/2".toList "2".toList (by decide) (by decide) (by decide)
    (by decide)

/-- C5. From a lexer in front of a letter or `@` followed by `rest`,
`getNextToken` eats that character and the longest prefix of `rest` made of
letters, digits and underscores, and returns a token whose text is exactly
those characters; its kind is the kind the table `keywords` gives for the
text, and `Identifier` when the text is not in the table. -/
theorem c5_identifier_or_keyword (l : Lexer) (c : Char) (rest : List Char)
    (hc : isAlpha c = true ∨ c = '@')
    (hdrop : l.source.buffer.drop l.idx = c :: rest) :
    ∃ t l1, getNextToken l = .ok (t, l1) ∧
      t.value = some (c :: rest.takeWhile (fun x => isAlnum x || x == '_')) ∧
      t.kind = (keywords.lookup
        (c :: rest.takeWhile (fun x => isAlnum x || x == '_'))).getD .Identifier ∧
      l1.source = l.source ∧
      l1.idx = l.idx + 1 + (rest.takeWhile (fun x => isAlnum x || x == '_')).length := by
  have hv := view_of_drop l c rest hdrop
  have hn : 64 ≤ c.toNat := by
    rcases hc with h | h
    · have := (isAlpha_iff c).1 h; omega
    · subst h; decide
  have hlen := getNextToken_length_lt l
  have h1 := getNextTokenFuel_view (l.source.buffer.length + 1) l hlen
  rw [hv] at h1
  have hsp := dropWhile_isSpace_cons c (rest ++ ['\x00']) (by omega)
  obtain ⟨l1, hg, hv1, hs1, hi1⟩ := h1.2 c (rest ++ ['\x00']) hsp.1
  rw [hsp.2] at hi1
  have hf1 : (view l1).length < l.source.buffer.length + 1 + 1 := by
    rw [hv1]; rw [hv] at hlen; simp only [List.length_cons] at hlen; omega
  obtain ⟨l2, -, hs2, hi2, hlex⟩ :=
    lexToken_ident (getNextTokenFuel (l.source.buffer.length + 1))
      (l.source.buffer.length + 1 + 1) c l1 hc hf1
  rw [hv1, takeWhile_append_nul _ (by decide)] at hlex hi2
  have hres : getNextToken l = .ok
      ({ location := ⟨l1.source.path, l1.line, l1.column⟩,
         kind := (keywords.lookup
           (c :: rest.takeWhile (fun x => isAlnum x || x == '_'))).getD .Identifier,
         value := some (c :: rest.takeWhile (fun x => isAlnum x || x == '_')) }, l2) := by
    unfold getNextToken
    rw [hg, hlex]
  refine ⟨_, l2, hres, rfl, rfl, by rw [hs2, hs1], ?_⟩
  rw [hi2, hi1]; simp

/-- C5, at "return x1_y;" (a keyword) and at index 7 of it, in front of
"x1_y;" (an identifier). -/
theorem c5_identifier_or_keyword_witness :
    (∃ t l1, getNextToken (Lexer.new ⟨"input", "return x1_y;".toList⟩) = .ok (t, l1) ∧
      t.value = some "return".toList ∧ t.kind = .KwReturn ∧
      l1.source = ⟨"input", "return x1_y;".toList⟩ ∧ l1.idx = 0 + 1 + 5) ∧
    (∃ t l1, getNextToken { source := ⟨"input", "return x1_y;".toList⟩, idx := 7 }
        = .ok (t, l1) ∧
      t.value = some "x1_y".toList ∧ t.kind = .Identifier ∧
      l1.source = ⟨"input", "return x1_y;".toList⟩ ∧ l1.idx = 7 + 1 + 3) :=
  ⟨c5_identifier_or_keyword (Lexer.new ⟨"input", "return x1_y;".toList⟩) 'r'
      "eturn x1_y;".toList (by decide) (by decide),
   c5_identifier_or_keyword { source := ⟨"input", "return x1_y;".toList⟩, idx := 7 } 'x'
      "1_y;".toList (by decide) (by decide)⟩

/-! ## Parser: resynchronisation -/

theorem eatNextToken_cons (p : Parser) (t : Token) (ts : List Token) (h : p.lexer = t :: ts) :
    eatNextToken p = .ok { p with lexer := ts, nextToken := t } := by
  simp [eatNextToken, h]

theorem nesting_cons (t : Token) (ts : List Token) :
    nesting (t :: ts) = braceDelta t.kind + nesting ts := by
  simp [nesting]

/-- The loop of `synchronize` from depth `braces`: it stops at the first token
that causes a stop at its depth, consumes it or not as the stop says, and
changes nothing but the position in the token stream. -/
theorem synchronizeLoop_stops :
    ∀ (fuel : Nat) (braces : Int) (p : Parser), p.lexer.length < fuel → 0 ≤ braces →
      (∃ e ∈ p.nextToken :: p.lexer, e.kind = .Eof) →
      ∃ p1 sk t rest st, synchronizeLoop fuel braces p = .ok p1 ∧
        p1.incompleteAST = p.incompleteAST ∧ p1.diagnostics = p.diagnostics ∧
        p.nextToken :: p.lexer = sk ++ t :: rest ∧
        (∀ a x b, sk = a ++ x :: b → stopState (braces + nesting a) x.kind = none) ∧
        stopState (braces + nesting sk) t.kind = some st ∧
        p1.nextToken :: p1.lexer = (if st.consumed then rest else t :: rest) := by
  intro fuel
  induction fuel with
  | zero => intro braces p h; omega
  | succ fuel ih =>
    intro braces p hfuel hb hEof
    -- a token that is not `Eof` is followed by another token
    have hnext : p.nextToken.kind ≠ .Eof →
        ∃ t ts, p.lexer = t :: ts ∧ ∃ e ∈ t :: ts, e.kind = .Eof := by
      intro hk
      obtain ⟨e, he, hek⟩ := hEof
      rcases List.mem_cons.1 he with h | h
      · subst h; exact absurd hek hk
      · cases hl : p.lexer with
        | nil => rw [hl] at h; simp at h
        | cons t ts => exact ⟨t, ts, rfl, e, hl ▸ h, hek⟩
    -- the step that skips the token in front
    have hskip : ∀ (braces1 : Int), p.nextToken.kind ≠ .Eof →
        braces1 = braces + braceDelta p.nextToken.kind → 0 ≤ braces1 →
        stopState braces p.nextToken.kind = none →
        (∀ t ts, p.lexer = t :: ts →
          synchronizeLoop (fuel + 1) braces p
            = synchronizeLoop fuel braces1 { p with lexer := ts, nextToken := t }) →
        ∃ p1 sk t rest st, synchronizeLoop (fuel + 1) braces p = .ok p1 ∧
          p1.incompleteAST = p.incompleteAST ∧ p1.diagnostics = p.diagnostics ∧
          p.nextToken :: p.lexer = sk ++ t :: rest ∧
          (∀ a x b, sk = a ++ x :: b → stopState (braces + nesting a) x.kind = none) ∧
          stopState (braces + nesting sk) t.kind = some st ∧
          p1.nextToken :: p1.lexer = (if st.consumed then rest else t :: rest) := by
      intro braces1 hk hb1 hb1pos hnone hstep
      obtain ⟨t0, ts0, hl, hEof1⟩ := hnext hk
      obtain ⟨p1, sk, t, rest, st, hrun, hinc, hdiag, hsplit, hbefore, hstop, hout⟩ :=
        ih braces1 { p with lexer := ts0, nextToken := t0 }
          (by simp only; rw [hl] at hfuel; simp only [List.length_cons] at hfuel; omega)
          hb1pos hEof1
      refine ⟨p1, p.nextToken :: sk, t, rest, st, ?_, hinc, hdiag, ?_, ?_, ?_, hout⟩
      · rw [hstep t0 ts0 hl, hrun]
      · simp only at hsplit
        rw [hl, hsplit]; rfl
      · intro a x b hab
        cases a with
        | nil =>
          simp only [List.nil_append, List.cons.injEq] at hab
          rw [← hab.1]
          simpa [nesting] using hnone
        | cons y a1 =>
          simp only [List.cons_append, List.cons.injEq] at hab
          have := hbefore a1 x b hab.2
          rw [nesting_cons, ← hab.1, ← add_assoc, ← hb1]
          exact this
      · rw [nesting_cons, ← add_assoc, ← hb1]
        exact hstop
    -- the step that stops at the token in front
    have hstop : ∀ (st : SyncStop) (p1 : Parser),
        stopState braces p.nextToken.kind = some st →
        synchronizeLoop (fuel + 1) braces p = .ok p1 →
        p1.incompleteAST = p.incompleteAST → p1.diagnostics = p.diagnostics →
        p1.nextToken :: p1.lexer
          = (if st.consumed then p.lexer else p.nextToken :: p.lexer) →
        ∃ p1 sk t rest st, synchronizeLoop (fuel + 1) braces p = .ok p1 ∧
          p1.incompleteAST = p.incompleteAST ∧ p1.diagnostics = p.diagnostics ∧
          p.nextToken :: p.lexer = sk ++ t :: rest ∧
          (∀ a x b, sk = a ++ x :: b → stopState (braces + nesting a) x.kind = none) ∧
          stopState (braces + nesting sk) t.kind = some st ∧
          p1.nextToken :: p1.lexer = (if st.consumed then rest else t :: rest) := by
      intro st p1 hst hrun hinc hdiag hout
      refine ⟨p1, [], p.nextToken, p.lexer, st, hrun, hinc, hdiag, rfl, ?_, ?_, hout⟩
      · intro a x b hab
        simp at hab
      · simpa [nesting] using hst
    by_cases hL : p.nextToken.kind = .Lbrace
    · apply hskip (braces + 1) (by rw [hL]; decide) (by rw [hL]; rfl) (by omega)
        (by rw [hL]; rfl)
      intro t ts hl
      simp only [synchronizeLoop, hL, if_true, eatNextToken_cons p t ts hl]
    · by_cases hR : p.nextToken.kind = .Rbrace
      · by_cases h0 : braces = 0
        · apply hstop .atRbrace p
          · rw [hR, h0]; rfl
          · simp [synchronizeLoop, hR, h0]
          · rfl
          · rfl
          · rfl
        · by_cases h1 : braces = 1
          · obtain ⟨t0, ts0, hl, -⟩ := hnext (by rw [hR]; decide)
            apply hstop .afterRbrace { p with lexer := ts0, nextToken := t0 }
            · rw [hR, h1]; rfl
            · simp [synchronizeLoop, hR, h1, eatNextToken_cons p t0 ts0 hl]
            · rfl
            · rfl
            · simp [SyncStop.consumed, hl]
          · apply hskip (braces - 1) (by rw [hR]; decide)
              (by rw [hR]; simp [braceDelta]; omega) (by omega)
              (by rw [hR]; simp [stopState, h0, h1])
            intro t ts hl
            simp [synchronizeLoop, hR, h0, h1, eatNextToken_cons p t ts hl]
      · by_cases hS : p.nextToken.kind = .Semi ∧ braces = 0
        · obtain ⟨t0, ts0, hl, -⟩ := hnext (by rw [hS.1]; decide)
          apply hstop .afterSemi { p with lexer := ts0, nextToken := t0 }
          · rw [hS.1, hS.2]; rfl
          · simp [synchronizeLoop, hS.1, hS.2, eatNextToken_cons p t0 ts0 hl]
          · rfl
          · rfl
          · simp [SyncStop.consumed, hl]
        · by_cases hF : p.nextToken.kind = .KwFunction ∨ p.nextToken.kind = .Eof
          · apply hstop .atFunctionOrEof p
            · rcases hF with h | h <;> rw [h] <;> simp [stopState]
            · simp only [synchronizeLoop, hL, hR, hS, hF, if_true, if_false]
            · rfl
            · rfl
            · rfl
          · apply hskip braces (fun h => hF (Or.inr h))
              (by simp [braceDelta, hL, hR]) hb
              (by simp only [stopState, hS, hR, hF, false_and, if_false])
            intro t ts hl
            simp only [synchronizeLoop, hL, hR, hS, hF, if_false,
              eatNextToken_cons p t ts hl]

/-! ## Parser: the fuel of the recursive descent is enough -/

theorem eatNextToken_length (p p1 : Parser) (h : eatNextToken p = .ok p1) :
    p1.lexer.length + 1 = p.lexer.length := by
  unfold eatNextToken at h
  cases hl : p.lexer with
  | nil => rw [hl] at h; simp at h
  | cons t ts =>
    rw [hl] at h
    simp only [Except.ok.injEq] at h
    rw [← h]; simp

theorem eatNextToken_error {α : Type} (p : Parser) (e : Fault)
    (h : eatNextToken p = .error e) :
    (Except.error e : Except Fault α) ≠ .error .outOfFuel := by
  unfold eatNextToken at h
  cases hl : p.lexer with
  | nil =>
    rw [hl] at h
    simp only [Except.error.injEq] at h
    rw [← h]; simp
  | cons t ts => rw [hl] at h; simp at h

theorem error_ne_outOfFuel {α β : Type} (e : Fault)
    (h : (Except.error e : Except Fault α) ≠ .error .outOfFuel) :
    (Except.error e : Except Fault β) ≠ .error .outOfFuel := by
  intro h1
  apply h
  simp only [Except.error.injEq] at h1
  rw [h1]

/-- With three units of fuel per token left and a few to start, none of the
three expression parsers runs out of fuel, and none returns with more tokens
left than it was given. -/
theorem parse_fuel_enough : ∀ (fuel : Nat),
    (∀ p, 3 * p.lexer.length + 2 ≤ fuel →
      parsePrefixExprFuel fuel p ≠ .error .outOfFuel ∧
      ∀ e p1, parsePrefixExprFuel fuel p = .ok (e, p1) → p1.lexer.length ≤ p.lexer.length) ∧
    (∀ p, 3 * p.lexer.length + 3 ≤ fuel →
      parseExprFuel fuel p ≠ .error .outOfFuel ∧
      ∀ e p1, parseExprFuel fuel p = .ok (e, p1) → p1.lexer.length ≤ p.lexer.length) ∧
    (∀ lhs exprPrec p, 3 * p.lexer.length + 1 ≤ fuel →
      parseExprRHSFuel fuel lhs exprPrec p ≠ .error .outOfFuel ∧
      ∀ e p1, parseExprRHSFuel fuel lhs exprPrec p = .ok (e, p1) →
        p1.lexer.length ≤ p.lexer.length) := by
  intro fuel
  induction fuel with
  | zero =>
    refine ⟨fun p h => ?_, fun p h => ?_, fun lhs exprPrec p h => ?_⟩ <;> omega
  | succ fuel ih =>
    obtain ⟨ihP, ihE, ihR⟩ := ih
    refine ⟨?_, ?_, ?_⟩
    · intro p hf
      rw [parsePrefixExprFuel]
      try simp only []
      by_cases h1 : p.nextToken.kind = .Identifier
      · simp only [h1, if_true]
        cases he : eatNextToken p with
        | error e =>
          exact ⟨eatNextToken_error p e he, fun _ _ h => by simp at h⟩
        | ok p1 =>
          have hl := eatNextToken_length p p1 he
          try simp only []
          cases p1.nextToken.value with
          | none => exact ⟨by simp, fun _ _ h => by simp at h⟩
          | some v =>
            refine ⟨by simp, fun e p2 h => ?_⟩
            simp only [Except.ok.injEq, Prod.mk.injEq] at h
            rw [← h.2]; omega
      · simp only [h1, if_false]
        by_cases h2 : p.nextToken.kind = .IntegerLiteral
        · simp only [h2, if_true]
          cases he : eatNextToken p with
          | error e =>
            exact ⟨eatNextToken_error p e he, fun _ _ h => by simp at h⟩
          | ok p1 =>
            have hl := eatNextToken_length p p1 he
            try simp only []
            cases p1.nextToken.value with
            | none => exact ⟨by simp, fun _ _ h => by simp at h⟩
            | some v =>
              refine ⟨by simp, fun e p2 h => ?_⟩
              simp only [Except.ok.injEq, Prod.mk.injEq] at h
              rw [← h.2]; omega
        · simp only [h2, if_false]
          by_cases h3 : p.nextToken.kind = .Lparen
          · simp only [h3, if_true]
            cases he : eatNextToken p with
            | error e =>
              exact ⟨eatNextToken_error p e he, fun _ _ h => by simp at h⟩
            | ok p1 =>
              have hl := eatNextToken_length p p1 he
              have hE := ihE p1 (by omega)
              try simp only []
              cases hx : parseExprFuel fuel p1 with
              | error e =>
                rw [hx] at hE

                exact ⟨error_ne_outOfFuel e hE.1, fun _ _ h => by simp at h⟩
              | ok r =>
                obtain ⟨e, p2⟩ := r
                have hl2 := hE.2 e p2 hx
                cases e with
                | none =>
                  refine ⟨by simp, fun e p3 h => ?_⟩
                  simp only [Except.ok.injEq, Prod.mk.injEq] at h
                  rw [← h.2]; omega
                | some expr =>
                  try simp only []
                  by_cases h4 : p2.nextToken.kind ≠ .Rparen
                  · rw [if_pos h4]
                    refine ⟨by simp, fun e p3 h => ?_⟩
                    simp only [Except.ok.injEq, Prod.mk.injEq] at h
                    rw [← h.2]; simp only [report]; omega
                  · rw [if_neg h4]
                    cases he2 : eatNextToken p2 with
                    | error e =>
                      exact ⟨eatNextToken_error p2 e he2, fun _ _ h => by simp at h⟩
                    | ok p3 =>
                      have hl3 := eatNextToken_length p2 p3 he2
                      refine ⟨by simp, fun e p4 h => ?_⟩
                      simp only [Except.ok.injEq, Prod.mk.injEq] at h
                      rw [← h.2]; omega
          · simp only [h3, if_false]
            refine ⟨by simp, fun e p1 h => ?_⟩
            simp only [Except.ok.injEq, Prod.mk.injEq] at h
            rw [← h.2]
    · intro p hf
      rw [parseExprFuel]
      have hP := ihP p (by omega)
      cases hx : parsePrefixExprFuel fuel p with
      | error e =>
        rw [hx] at hP

        exact ⟨error_ne_outOfFuel e hP.1, fun _ _ h => by simp at h⟩
      | ok r =>
        obtain ⟨lhs, p1⟩ := r
        have hl1 := hP.2 lhs p1 hx
        have hR := ihR lhs 0 p1 (by omega)
        try simp only []
        exact ⟨hR.1, fun e p2 h => le_trans (hR.2 e p2 h) hl1⟩
    · intro lhs exprPrec p hf
      rw [parseExprRHSFuel]
      try simp only []
      by_cases h1 : getTokPrecedence p.nextToken.kind < exprPrec
      · simp only [h1, if_true]
        refine ⟨by simp, fun e p1 h => ?_⟩
        simp only [Except.ok.injEq, Prod.mk.injEq] at h
        rw [← h.2]
      · simp only [h1, if_false]
        cases he : eatNextToken p with
        | error e =>
          exact ⟨eatNextToken_error p e he, fun _ _ h => by simp at h⟩
        | ok p1 =>
          have hl := eatNextToken_length p p1 he
          have hP := ihP p1 (by omega)
          try simp only []
          cases hx : parsePrefixExprFuel fuel p1 with
          | error e =>
            rw [hx] at hP

            exact ⟨error_ne_outOfFuel e hP.1, fun _ _ h => by simp at h⟩
          | ok r =>
            obtain ⟨rhs, p2⟩ := r
            have hl2 := hP.2 rhs p2 hx
            cases rhs with
            | none =>
              refine ⟨by simp, fun e p3 h => ?_⟩
              simp only [Except.ok.injEq, Prod.mk.injEq] at h
              rw [← h.2]; omega
            | some rhs =>
              try simp only []
              by_cases h2 : getTokPrecedence p.nextToken.kind
                  < getTokPrecedence p2.nextToken.kind
              · simp only [h2, if_true]
                have hR := ihR (some rhs) (getTokPrecedence p.nextToken.kind + 1) p2
                  (by omega)
                cases hy : parseExprRHSFuel fuel (some rhs)
                    (getTokPrecedence p.nextToken.kind + 1) p2 with
                | error e =>
                  rw [hy] at hR

                  exact ⟨error_ne_outOfFuel e hR.1, fun _ _ h => by simp at h⟩
                | ok r =>
                  obtain ⟨rhs1, p3⟩ := r
                  have hl3 := hR.2 rhs1 p3 hy
                  cases rhs1 with
                  | none =>
                    refine ⟨by simp, fun e p4 h => ?_⟩
                    simp only [Except.ok.injEq, Prod.mk.injEq] at h
                    rw [← h.2]; omega
                  | some rhs1 =>
                    try simp only []
                    have hR2 := ihR
                      (some (.BinaryExpr p.nextToken.location p.nextToken.kind lhs (some rhs1)))
                      exprPrec p3 (by omega)
                    exact ⟨hR2.1, fun e p4 h => by have := hR2.2 e p4 h; omega⟩
              · simp only [h2, if_false]
                have hR2 := ihR
                  (some (.BinaryExpr p.nextToken.location p.nextToken.kind lhs (some rhs)))
                  exprPrec p2 (by omega)
                exact ⟨hR2.1, fun e p4 h => by have := hR2.2 e p4 h; omega⟩

/-- `parseExpr`, `parsePrefixExpr` and `parseExprRHS` never stop for lack of
fuel. -/
theorem parseExpr_ne_outOfFuel (p : Parser) (lhs : Option Expr) (exprPrec : Int) :
    parseExpr p ≠ .error .outOfFuel ∧ parsePrefixExpr p ≠ .error .outOfFuel ∧
    parseExprRHS lhs exprPrec p ≠ .error .outOfFuel := by
  obtain ⟨hP, hE, hR⟩ := parse_fuel_enough (parseFuel p)
  exact ⟨(hE p (by unfold parseFuel; omega)).1, (hP p (by unfold parseFuel; omega)).1,
    (hR lhs exprPrec p (by unfold parseFuel; omega)).1⟩

theorem parseParamDecl_progress (p : Parser) :
    parseParamDecl p ≠ .error .outOfFuel ∧
    ∀ d p1, parseParamDecl p = .ok (some d, p1) → p1.lexer.length < p.lexer.length := by
  unfold parseParamDecl
  simp only []
  cases p.nextToken.value with
  | none => exact ⟨by simp, fun _ _ h => by simp at h⟩
  | some identifier =>
    simp only []
    cases he : eatNextToken p with
    | error e => exact ⟨eatNextToken_error p e he, fun _ _ h => by simp at h⟩
    | ok p1 =>
      have hl := eatNextToken_length p p1 he
      simp only []
      by_cases h1 : p1.nextToken.kind ≠ .Colon
      · rw [if_pos h1]
        exact ⟨by simp, fun _ _ h => by simp at h⟩
      · rw [if_neg h1]
        cases he2 : eatNextToken p1 with
        | error e => exact ⟨eatNextToken_error p1 e he2, fun _ _ h => by simp at h⟩
        | ok p2 =>
          have hl2 := eatNextToken_length p1 p2 he2
          simp only []
          unfold parseType
          by_cases h2 : p2.nextToken.kind = .Identifier
          · rw [if_pos h2]
            cases p2.nextToken.value with
            | none => exact ⟨by simp, fun _ _ h => by simp at h⟩
            | some name =>
              simp only []
              cases he3 : eatNextToken p2 with
              | error e => exact ⟨eatNextToken_error p2 e he3, fun _ _ h => by simp at h⟩
              | ok p3 =>
                have hl3 := eatNextToken_length p2 p3 he3
                refine ⟨by simp, fun d p4 h => ?_⟩
                simp only [Except.ok.injEq, Prod.mk.injEq] at h
                rw [← h.2]; omega
          · rw [if_neg h2]
            exact ⟨by simp, fun _ _ h => by simp at h⟩

/-- The loop of `parseParameterList` never stops for lack of fuel. -/
theorem parseParameterLoop_ne_outOfFuel :
    ∀ (fuel : Nat) (params : List ParamDecl) (p : Parser), p.lexer.length < fuel →
      parseParameterLoop fuel params p ≠ .error .outOfFuel := by
  intro fuel
  induction fuel with
  | zero => intro params p h; omega
  | succ fuel ih =>
    intro params p hf
    have hP := parseParamDecl_progress p
    rw [parseParameterLoop]
    cases hx : parseParamDecl p with
    | error e =>
      rw [hx] at hP
      exact error_ne_outOfFuel e hP.1
    | ok r =>
      obtain ⟨d, p1⟩ := r
      cases d with
      | none => simp
      | some param =>
        have hl := hP.2 param p1 hx
        simp only []
        by_cases h1 : p1.nextToken.kind = .Comma
        · rw [if_pos h1]
          cases he : eatNextToken p1 with
          | error e => exact eatNextToken_error p1 e he
          | ok p2 =>
            have hl2 := eatNextToken_length p1 p2 he
            exact ih _ p2 (by omega)
        · rw [if_neg h1]; simp

/-! ## Parser: the claims -/

/-- C7 (what the code does). On the tokens of `5 = 6;`, of `(x) = 5;` and of
`a + b = 3;` `parseAssignmentOrExpr` neither reports nor returns failure: the
left-hand side holds an identifier or literal followed by a token without
text, which `parsePrefixExpr` dereferences. And a parenthesised identifier is
returned as the bare `DeclRefExpr` (no grouping node), so when the tokens
carry texts `(x) = 5;` comes back as an `Assignment`. -/
theorem c7_assignment_lhs_as_parsed :
    parseAssignmentOrExpr
      { lexer := [tok 2 .Equal, tokv 3 .IntegerLiteral "6", tok 4 .Semi, tok 5 .Eof],
        nextToken := tokv 1 .IntegerLiteral "5" }
      = .error .emptyOptional ∧
    parseAssignmentOrExpr
      { lexer := [tokv 2 .Identifier "x", tok 3 .Rparen, tok 4 .Equal,
                  tokv 5 .IntegerLiteral "5", tok 6 .Semi, tok 7 .Eof],
        nextToken := tok 1 .Lparen }
      = .error .emptyOptional ∧
    parseAssignmentOrExpr
      { lexer := [tok 2 .Plus, tokv 3 .Identifier "b", tok 4 .Equal,
                  tokv 5 .IntegerLiteral "3", tok 6 .Semi, tok 7 .Eof],
        nextToken := tokv 1 .Identifier "a" }
      = .error .emptyOptional ∧
    parseAssignmentOrExpr
      { lexer := [tokv 2 .Identifier "x", tokv 3 .Rparen ")", tokv 4 .Equal "=",
                  tokv 5 .IntegerLiteral "5", tokv 6 .Semi ";", tokv 7 .Eof "end"],
        nextToken := tokv 1 .Lparen "(" }
      = .ok (some (.Assignment ⟨"t", 1, 4⟩ ⟨⟨"t", 1, 2⟩, ")".toList⟩
                (.IntegerLiteral ⟨"t", 1, 5⟩ ";".toList)),
             { lexer := [], nextToken := tokv 7 .Eof "end" }) :=
  ⟨rfl, rfl, rfl, rfl⟩

/-- C8 (what the code does). On the tokens `+ 3 x` the prefix expression
fails (`parsePrefixExpr` returns null and eats nothing), yet `parseExpr`
passes the null pointer on to `parseExprRHS` and returns a `BinaryExpr` whose
left operand is null; on `+ 3` followed by `Eof` it ends in the dereference of
the empty text of `Eof`. -/
theorem c8_null_lhs_reaches_binary_node :
    parsePrefixExpr
      { lexer := [tokv 2 .IntegerLiteral "3", tokv 3 .Identifier "x", tok 4 .Eof],
        nextToken := tok 1 .Plus }
      = .ok (none,
             { lexer := [tokv 2 .IntegerLiteral "3", tokv 3 .Identifier "x", tok 4 .Eof],
               nextToken := tok 1 .Plus }) ∧
    parseExpr
      { lexer := [tokv 2 .IntegerLiteral "3", tokv 3 .Identifier "x", tok 4 .Eof],
        nextToken := tok 1 .Plus }
      = .ok (some (.BinaryExpr ⟨"t", 1, 1⟩ .Plus none
                (some (.IntegerLiteral ⟨"t", 1, 2⟩ "x".toList))),
             { lexer := [tok 4 .Eof], nextToken := tokv 3 .Identifier "x" }) ∧
    parseExpr
      { lexer := [tokv 2 .IntegerLiteral "3", tok 3 .Eof], nextToken := tok 1 .Plus }
      = .error .emptyOptional :=
  ⟨rfl, rfl, rfl⟩

/-- C9. `synchronize` sets `incompleteAST` and, on a token stream that ends
in `Eof`, returns after skipping the tokens `sk`: `t`, the token after them,
is the first token that causes one of the four stops at its nesting depth,
and it is consumed exactly for the two stops `afterSemi` and `afterRbrace`.
No skipped token causes a stop, and a `;` stops the skipping only at depth
zero. Nothing else of the parser changes. -/
theorem c9_synchronize_stop_states (p : Parser)
    (hEof : ((p.nextToken :: p.lexer).getLast (List.cons_ne_nil _ _)).kind = .Eof) :
    ∃ p1 sk t rest st, synchronize p = .ok p1 ∧
      p1.incompleteAST = true ∧ p1.diagnostics = p.diagnostics ∧
      p.nextToken :: p.lexer = sk ++ t :: rest ∧
      (∀ a x b, sk = a ++ x :: b → stopState (nesting a) x.kind = none) ∧
      stopState (nesting sk) t.kind = some st ∧
      p1.nextToken :: p1.lexer = (if st.consumed then rest else t :: rest) ∧
      (t.kind = .Semi → nesting sk = 0) := by
  have hmem : ∃ e ∈ p.nextToken :: p.lexer, e.kind = .Eof :=
    ⟨_, List.getLast_mem _, hEof⟩
  obtain ⟨p1, sk, t, rest, st, hrun, hinc, hdiag, hsplit, hbefore, hstop, hout⟩ :=
    synchronizeLoop_stops (p.lexer.length + 1) 0 { p with incompleteAST := true }
      (by simp) (le_refl _) hmem
  simp only [zero_add] at hbefore hstop
  refine ⟨p1, sk, t, rest, st, hrun, hinc, hdiag, hsplit, hbefore, hstop, hout, ?_⟩
  intro hk
  rw [hk] at hstop
  by_contra hne
  simp [stopState, hne] at hstop

/-- C9, at the tokens `5 { ; } ; Eof`: the `;` inside the braces is skipped
and the closing `}` stops the skipping. -/
theorem c9_synchronize_stop_states_witness :
    ∃ p1 sk t rest st,
      synchronize
        { lexer := [tok 2 .Lbrace, tok 3 .Semi, tok 4 .Rbrace, tok 5 .Semi, tok 6 .Eof],
          nextToken := tokv 1 .IntegerLiteral "5" } = .ok p1 ∧
      p1.incompleteAST = true ∧ p1.diagnostics = [] ∧
      [tokv 1 .IntegerLiteral "5", tok 2 .Lbrace, tok 3 .Semi, tok 4 .Rbrace, tok 5 .Semi,
        tok 6 .Eof] = sk ++ t :: rest ∧
      (∀ a x b, sk = a ++ x :: b → stopState (nesting a) x.kind = none) ∧
      stopState (nesting sk) t.kind = some st ∧
      p1.nextToken :: p1.lexer = (if st.consumed then rest else t :: rest) ∧
      (t.kind = .Semi → nesting sk = 0) :=
  c9_synchronize_stop_states
    { lexer := [tok 2 .Lbrace, tok 3 .Semi, tok 4 .Rbrace, tok 5 .Semi, tok 6 .Eof],
      nextToken := tokv 1 .IntegerLiteral "5" }
    (by decide)

/-- C10 (what the code does). `parseParameterList` calls `parseParamDecl`
without checking that the next token is an identifier, so on `( ,` and on the
trailing comma of `( a : number , )` the assertion
`nextToken.value && "identifier token without value"` fails. -/
theorem c10_parameter_list_assertion_fails :
    parseParameterList
      { lexer := [tok 2 .Comma, tok 3 .Eof], nextToken := tok 1 .Lparen }
      = .error (.assertion "identifier token without value") ∧
    parseParameterList
      { lexer := [tokv 2 .Identifier "a", tok 3 .Colon, tokv 4 .Identifier "number",
                  tok 5 .Comma, tok 6 .Rparen, tok 7 .Eof],
        nextToken := tok 1 .Lparen }
      = .error (.assertion "identifier token without value") :=
  ⟨rfl, rfl⟩

namespace Sema

/-! ## Resolver: lookup in the scopes -/

theorem find_identifier_none (scope : List ResolvedDecl) (id : List Char)
    (h : ∀ x ∈ scope, x.identifier ≠ id) :
    scope.find? (fun decl => decl.identifier == id) = none := by
  rw [List.find?_eq_none]
  intro x hx
  simpa using h x hx

theorem find_identifier_first (pre post : List ResolvedDecl) (d : ResolvedDecl)
    (id : List Char) (hpre : ∀ x ∈ pre, x.identifier ≠ id) (hd : d.identifier = id) :
    (pre ++ d :: post).find? (fun decl => decl.identifier == id) = some d := by
  induction pre with
  | nil => simp [List.find?_cons, hd]
  | cons y ys ih =>
    have hy : y.identifier ≠ id := hpre y (List.mem_cons_self _ _)
    have : (y.identifier == id) = false := by simpa using hy
    rw [List.cons_append, List.find?_cons, this]
    exact ih (fun x hx => hpre x (List.mem_cons_of_mem _ hx))

theorem find_identifier_some (scope : List ResolvedDecl) (id : List Char) (d : ResolvedDecl)
    (h : scope.find? (fun decl => decl.identifier == id) = some d) :
    d ∈ scope ∧ d.identifier = id := by
  have h1 := List.find?_some h
  have h2 := List.mem_of_find?_eq_some h
  exact ⟨h2, by simpa using h1⟩

theorem lookupLoop_none (scopes : List (List ResolvedDecl)) (id : List Char) :
    ∀ (i : Int), (∀ sc ∈ scopes, ∀ x ∈ sc, x.identifier ≠ id) →
      lookupLoop scopes i id = (none, -1) := by
  induction scopes with
  | nil => intro i _; rfl
  | cons sc rest ih =>
    intro i h
    rw [lookupLoop, find_identifier_none sc id (h sc (List.mem_cons_self _ _))]
    exact ih (i + 1) (fun sc1 h1 => h sc1 (List.mem_cons_of_mem _ h1))

theorem lookupLoop_found (inner : List (List ResolvedDecl)) (scope : List ResolvedDecl)
    (outer : List (List ResolvedDecl)) (id : List Char) (d : ResolvedDecl)
    (hinner : ∀ sc ∈ inner, ∀ x ∈ sc, x.identifier ≠ id)
    (hscope : scope.find? (fun decl => decl.identifier == id) = some d) :
    ∀ (i : Int), lookupLoop (inner ++ scope :: outer) i id = (some d, i + inner.length) := by
  induction inner with
  | nil => intro i; simp [lookupLoop, hscope]
  | cons sc rest ih =>
    intro i
    rw [List.cons_append, lookupLoop,
      find_identifier_none sc id (hinner sc (List.mem_cons_self _ _))]
    simp only []
    rw [ih (fun sc1 h1 => hinner sc1 (List.mem_cons_of_mem _ h1)) (i + 1)]
    simp only [List.length_cons, Nat.cast_add, Nat.cast_one]
    congr 1
    omega

theorem lookupLoop_some (scopes : List (List ResolvedDecl)) (id : List Char) :
    ∀ (i : Int) (d : ResolvedDecl) (j : Int), lookupLoop scopes i id = (some d, j) →
      i ≤ j ∧ d.identifier = id ∧ ∃ sc ∈ scopes, d ∈ sc := by
  induction scopes with
  | nil => intro i d j h; simp [lookupLoop] at h
  | cons sc rest ih =>
    intro i d j h
    rw [lookupLoop] at h
    cases hf : sc.find? (fun decl => decl.identifier == id) with
    | some d1 =>
      rw [hf] at h
      simp only [Prod.mk.injEq, Option.some.injEq] at h
      obtain ⟨hm, hid⟩ := find_identifier_some sc id d1 hf
      rw [← h.1]
      exact ⟨by omega, hid, sc, List.mem_cons_self _ _, hm⟩
    | none =>
      rw [hf] at h
      obtain ⟨h1, h2, sc1, h3, h4⟩ := ih (i + 1) d j h
      exact ⟨by omega, h2, sc1, List.mem_cons_of_mem _ h3, h4⟩

theorem lookupLoop_fst_none (scopes : List (List ResolvedDecl)) (id : List Char) :
    ∀ (i : Int), (lookupLoop scopes i id).1 = none →
      ∀ sc ∈ scopes, ∀ x ∈ sc, x.identifier ≠ id := by
  induction scopes with
  | nil => intro i _ sc hsc; simp at hsc
  | cons sc0 rest ih =>
    intro i h sc hsc x hx
    rw [lookupLoop] at h
    cases hf : sc0.find? (fun decl => decl.identifier == id) with
    | some d1 => rw [hf] at h; simp at h
    | none =>
      rw [hf] at h
      rcases List.mem_cons.1 hsc with h1 | h1
      · subst h1
        rw [List.find?_eq_none] at hf
        simpa using hf x hx
      · exact ih (i + 1) h sc h1 x hx

theorem lookupDecl_found (s : Sema) (id : List Char)
    (outer : List (List ResolvedDecl)) (scope : List ResolvedDecl)
    (inner : List (List ResolvedDecl)) (d : ResolvedDecl)
    (hs : s.scopes = outer ++ scope :: inner)
    (hinner : ∀ sc ∈ inner, ∀ x ∈ sc, x.identifier ≠ id)
    (hscope : scope.find? (fun decl => decl.identifier == id) = some d) :
    lookupDecl s id = (some d, (inner.length : Int)) := by
  unfold lookupDecl
  rw [hs, List.reverse_append, List.reverse_cons, List.append_assoc, List.singleton_append,
    lookupLoop_found inner.reverse scope outer.reverse id d
      (fun sc hsc => hinner sc (List.mem_reverse.1 hsc)) hscope 0]
  simp

/-- C11 (what the code does). `resolveExpr` has no branch for a number
literal: for every literal, in every state of the resolver, it runs into
`assert(false && "unexpected expression type")`. -/
theorem c11_number_literal_reaches_assert (typeOf : ResolvedExpr → TypeKind) (s : Sema)
    (location : SourceLocation) (value : List Char) :
    resolveExpr typeOf s (.NumberLiteral location value)
      = .error (.assertion "unexpected expression type") :=
  rfl

/-- C12. `lookupDecl` returns the first declaration named `id` of the
innermost scope that has one, with the number of scopes inside that scope
(0 for the innermost scope), whatever the scopes outside it hold; and
`(null, -1)` when no scope has a declaration named `id`. -/
theorem c12_lookupDecl_innermost_first (s : Sema) (id : List Char) :
    (∀ (outer : List (List ResolvedDecl)) (scope : List ResolvedDecl)
        (inner : List (List ResolvedDecl)) (pre : List ResolvedDecl) (d : ResolvedDecl)
        (post : List ResolvedDecl),
      s.scopes = outer ++ scope :: inner →
      (∀ sc ∈ inner, ∀ x ∈ sc, x.identifier ≠ id) →
      scope = pre ++ d :: post → (∀ x ∈ pre, x.identifier ≠ id) → d.identifier = id →
      lookupDecl s id = (some d, (inner.length : Int))) ∧
    ((∀ sc ∈ s.scopes, ∀ x ∈ sc, x.identifier ≠ id) → lookupDecl s id = (none, -1)) := by
  constructor
  · intro outer scope inner pre d post hs hinner hscope hpre hd
    apply lookupDecl_found s id outer scope inner d hs hinner
    rw [hscope]
    exact find_identifier_first pre post d id hpre hd
  · intro h
    unfold lookupDecl
    exact lookupLoop_none _ id 0 (fun sc hsc => h sc (List.mem_reverse.1 hsc))

/-- C12, at three scopes of which the outermost and the middle one declare
`x`: the lookup of `x` returns the middle one, at distance 1, and the lookup
of `y` returns `(null, -1)`. -/
theorem c12_lookupDecl_innermost_first_witness :
    lookupDecl { scopes := [[varX 1 1], [.ResolvedFunctionDecl funF, varX 2 2, varX 3 3], []] }
        "x".toList = (some (varX 2 2), 1) ∧
    lookupDecl { scopes := [[varX 1 1], [.ResolvedFunctionDecl funF, varX 2 2, varX 3 3], []] }
        "y".toList = (none, -1) :=
  ⟨(c12_lookupDecl_innermost_first
      { scopes := [[varX 1 1], [.ResolvedFunctionDecl funF, varX 2 2, varX 3 3], []] }
      "x".toList).1 [[varX 1 1]] [.ResolvedFunctionDecl funF, varX 2 2, varX 3 3] [[]]
      [.ResolvedFunctionDecl funF] (varX 2 2) [varX 3 3] rfl (by decide) rfl (by decide) rfl,
   (c12_lookupDecl_innermost_first
      { scopes := [[varX 1 1], [.ResolvedFunctionDecl funF, varX 2 2, varX 3 3], []] }
      "y".toList).2 (by decide)⟩

theorem lookupDecl_not_innermost (s : Sema) (id : List Char)
    (outer : List (List ResolvedDecl)) (cur : List ResolvedDecl)
    (hs : s.scopes = outer ++ [cur]) (hcur : ∀ x ∈ cur, x.identifier ≠ id) :
    ∀ d, lookupDecl s id ≠ (some d, 0) := by
  intro d h
  unfold lookupDecl at h
  rw [hs, List.reverse_append, List.reverse_singleton, List.singleton_append, lookupLoop,
    find_identifier_none cur id hcur] at h
  have := (lookupLoop_some _ id _ d 0 h).1
  omega

/-- C13. On a stack whose innermost scope is `cur`: when `cur` holds a
declaration with the identifier of `d`, `insertDeclToCurrentScope` returns
false, reports the redeclaration and leaves the scopes as they are; otherwise
it returns true, `d` is appended to `cur`, the scopes outside are unchanged
whatever they hold, and `lookupDecl` of the identifier then returns `d` at
distance 0. -/
theorem c13_insert_fails_iff_in_innermost (s : Sema) (outer : List (List ResolvedDecl))
    (cur : List ResolvedDecl) (d : ResolvedDecl) (hs : s.scopes = outer ++ [cur]) :
    ((∃ x ∈ cur, x.identifier = d.identifier) →
      insertDeclToCurrentScope s d
        = .ok (false, { s with diagnostics := s.diagnostics ++
            [(d.location, "redeclaration of '".toList ++ d.identifier ++ "'".toList)] })) ∧
    ((∀ x ∈ cur, x.identifier ≠ d.identifier) →
      insertDeclToCurrentScope s d = .ok (true, { s with scopes := outer ++ [cur ++ [d]] }) ∧
      lookupDecl { s with scopes := outer ++ [cur ++ [d]] } d.identifier = (some d, 0)) := by
  constructor
  · rintro ⟨x, hx, hid⟩
    cases hf : cur.find? (fun decl => decl.identifier == d.identifier) with
    | none =>
      rw [List.find?_eq_none] at hf
      have := hf x hx
      simp [hid] at this
    | some d1 =>
      have hl := lookupDecl_found s d.identifier outer cur [] d1 (by simpa using hs)
        (by simp) hf
      unfold insertDeclToCurrentScope
      rw [hl]
      rfl
  · intro hcur
    constructor
    · have hne := lookupDecl_not_innermost s d.identifier outer cur hs hcur
      have hlast : s.scopes.getLast? = some cur := by rw [hs]; simp
      have hdrop : s.scopes.dropLast = outer := by rw [hs]; simp
      unfold insertDeclToCurrentScope
      split
      · next d1 heq => exact absurd heq (hne d1)
      · rw [hlast]
        simp only [hdrop]
    · apply lookupDecl_found _ d.identifier outer (cur ++ [d]) [] d rfl (by simp)
      exact find_identifier_first cur [] d d.identifier hcur rfl

/-- C13, at an outer scope that declares `x` and an innermost scope that
declares `f`: a second `f` is refused, a new `x` is appended to the innermost
scope and found there. -/
theorem c13_insert_fails_iff_in_innermost_witness :
    insertDeclToCurrentScope { scopes := [[varX 1 1], [.ResolvedFunctionDecl funF]] }
        (.ResolvedFunctionDecl funF)
      = .ok (false, { scopes := [[varX 1 1], [.ResolvedFunctionDecl funF]],
                      diagnostics := [(⟨"t", 1, 1⟩, "redeclaration of 'f'".toList)] }) ∧
    insertDeclToCurrentScope { scopes := [[varX 1 1], [.ResolvedFunctionDecl funF]] } (varX 2 2)
      = .ok (true, { scopes := [[varX 1 1], [.ResolvedFunctionDecl funF, varX 2 2]] }) ∧
    lookupDecl { scopes := [[varX 1 1], [.ResolvedFunctionDecl funF, varX 2 2]] } "x".toList
      = (some (varX 2 2), 0) :=
  ⟨(c13_insert_fails_iff_in_innermost
      { scopes := [[varX 1 1], [.ResolvedFunctionDecl funF]] } [[varX 1 1]]
      [.ResolvedFunctionDecl funF] (.ResolvedFunctionDecl funF) rfl).1
      ⟨.ResolvedFunctionDecl funF, by decide, rfl⟩,
   (c13_insert_fails_iff_in_innermost
      { scopes := [[varX 1 1], [.ResolvedFunctionDecl funF]] } [[varX 1 1]]
      [.ResolvedFunctionDecl funF] (varX 2 2) rfl).2 (by decide)⟩

theorem lookupDecl_fst_none_iff (s : Sema) (id : List Char) :
    (lookupDecl s id).1 = none ↔ ∀ sc ∈ s.scopes, ∀ x ∈ sc, x.identifier ≠ id := by
  constructor
  · intro h sc hsc
    exact lookupLoop_fst_none s.scopes.reverse id 0 h sc (List.mem_reverse.2 hsc)
  · intro h
    unfold lookupDecl
    rw [lookupLoop_none _ id 0 (fun sc hsc => h sc (List.mem_reverse.1 hsc))]

theorem resolveDeclRefExpr_callee (s : Sema) (location : SourceLocation) (id : List Char) :
    resolveDeclRefExpr s location id true =
      match (lookupDecl s id).1 with
      | none => (none, report s location ("symbol '".toList ++ id ++ "' not found".toList))
      | some decl => (some ⟨location, decl⟩, s) := by
  unfold resolveDeclRefExpr
  cases (lookupDecl s id).1 with
  | none => rfl
  | some d => rfl

/-- C14. `resolveDeclRefExpr` returns a node exactly when some scope holds a
declaration named `id` and, outside call position, the declaration
`lookupDecl` finds is not a function; the node it returns points to the
declaration `lookupDecl` finds and nothing is reported; a null result comes
with a report at the location of the reference. -/
theorem c14_declref_resolves_iff (s : Sema) (location : SourceLocation) (id : List Char)
    (isCallee : Bool) :
    ((∃ r, (resolveDeclRefExpr s location id isCallee).1 = some r) ↔
      (∃ sc ∈ s.scopes, ∃ x ∈ sc, x.identifier = id) ∧
      (isCallee = false → ∀ f, (lookupDecl s id).1 ≠ some (.ResolvedFunctionDecl f))) ∧
    (∀ r, (resolveDeclRefExpr s location id isCallee).1 = some r →
      (lookupDecl s id).1 = some r.decl ∧ r.location = location ∧
      (resolveDeclRefExpr s location id isCallee).2 = s) ∧
    ((resolveDeclRefExpr s location id isCallee).1 = none →
      ∃ message, (resolveDeclRefExpr s location id isCallee).2 = report s location message) := by
  have hnone := lookupDecl_fst_none_iff s id
  unfold resolveDeclRefExpr
  cases hl : (lookupDecl s id).1 with
  | none =>
    rw [hl] at hnone
    have hno := hnone.1 rfl
    refine ⟨⟨?_, ?_⟩, ?_, ?_⟩
    · rintro ⟨r, hr⟩
      simp at hr
    · rintro ⟨⟨sc, hsc, x, hx, hid⟩, _⟩
      exact absurd hid (hno sc hsc x hx)
    · intro r hr
      simp at hr
    · intro _
      exact ⟨_, rfl⟩
  | some d =>
    rw [hl] at hnone
    have hex : ∃ sc ∈ s.scopes, ∃ x ∈ sc, x.identifier = id := by
      by_contra hcon
      have : (some d : Option ResolvedDecl) = none :=
        hnone.2 (fun sc hsc x hx hid => hcon ⟨sc, hsc, x, hx, hid⟩)
      simp at this
    cases isCallee with
    | true =>
      refine ⟨⟨fun _ => ⟨hex, by simp⟩, fun _ => ⟨⟨location, d⟩, rfl⟩⟩, ?_, ?_⟩
      · intro r hr
        simp only [Option.some.injEq] at hr
        subst hr
        exact ⟨rfl, rfl, rfl⟩
      · intro h
        simp at h
    | false =>
      cases d with
      | ResolvedFunctionDecl f =>
        refine ⟨⟨?_, ?_⟩, ?_, ?_⟩
        · rintro ⟨r, hr⟩
          simp at hr
        · rintro ⟨_, h⟩
          exact absurd rfl (h rfl f)
        · intro r hr
          simp at hr
        · intro _
          exact ⟨_, rfl⟩
      | ResolvedVarDecl v =>
        refine ⟨⟨fun _ => ⟨hex, by simp⟩, fun _ => ⟨⟨location, .ResolvedVarDecl v⟩, rfl⟩⟩, ?_, ?_⟩
        · intro r hr
          simp only [Option.some.injEq] at hr
          subst hr
          exact ⟨rfl, rfl, rfl⟩
        · intro h
          simp at h
      | ResolvedParamDecl v =>
        refine ⟨⟨fun _ => ⟨hex, by simp⟩, fun _ => ⟨⟨location, .ResolvedParamDecl v⟩, rfl⟩⟩, ?_, ?_⟩
        · intro r hr
          simp only [Option.some.injEq] at hr
          subst hr
          exact ⟨rfl, rfl, rfl⟩
        · intro h
          simp at h

/-- C14, at an outer scope that declares the function `f` and an inner scope
that declares the variable `x`: the reference to `x` resolves, and `f` is
resolved in call position only. -/
theorem c14_declref_resolves_iff_witness :
    (∃ r, (resolveDeclRefExpr { scopes := [[.ResolvedFunctionDecl funF], [varX 2 2]] }
        ⟨"t", 3, 1⟩ "x".toList false).1 = some r) ∧
    (∃ r, (resolveDeclRefExpr { scopes := [[.ResolvedFunctionDecl funF], [varX 2 2]] }
        ⟨"t", 3, 1⟩ "f".toList true).1 = some r) ∧
    ¬ (∃ r, (resolveDeclRefExpr { scopes := [[.ResolvedFunctionDecl funF], [varX 2 2]] }
        ⟨"t", 3, 1⟩ "f".toList false).1 = some r) :=
  ⟨(c14_declref_resolves_iff { scopes := [[.ResolvedFunctionDecl funF], [varX 2 2]] }
      ⟨"t", 3, 1⟩ "x".toList false).1.2
      ⟨⟨[varX 2 2], by decide, varX 2 2, by decide, rfl⟩,
        fun _ f h => by
          have h2 : varX 2 2 = ResolvedDecl.ResolvedFunctionDecl f := Option.some.inj h
          simp [varX] at h2⟩,
   (c14_declref_resolves_iff { scopes := [[.ResolvedFunctionDecl funF], [varX 2 2]] }
      ⟨"t", 3, 1⟩ "f".toList true).1.2
      ⟨⟨[.ResolvedFunctionDecl funF], by decide, .ResolvedFunctionDecl funF, by decide, rfl⟩,
        fun h => by simp at h⟩,
   fun h => ((c14_declref_resolves_iff { scopes := [[.ResolvedFunctionDecl funF], [varX 2 2]] }
      ⟨"t", 3, 1⟩ "f".toList false).1.1 h).2 rfl funF rfl⟩

/-- C15. `resolveCallExpr` returns a node only when the callee is a
reference to an identifier that `lookupDecl` finds as a function declaration
with as many parameters as the call has arguments; a call of a function with
another number of arguments returns null with the report
`argument count mismatch`, and a call of an identifier found as a variable or
a parameter returns null with the report `calling non-function symbol`. -/
theorem c15_call_needs_function_and_arity (typeOf : ResolvedExpr → TypeKind) (s : Sema)
    (location : SourceLocation) (callee : Option Expr) (arguments : List (Option Expr)) :
    (∀ r s1, resolveCallExpr typeOf s location callee arguments = .ok (some r, s1) →
      ∃ l id f, callee = some (.DeclRefExpr l id) ∧
        (lookupDecl s id).1 = some (.ResolvedFunctionDecl f) ∧
        arguments.length = f.params.length) ∧
    (∀ l id f, callee = some (.DeclRefExpr l id) →
      (lookupDecl s id).1 = some (.ResolvedFunctionDecl f) →
      arguments.length ≠ f.params.length →
      resolveCallExpr typeOf s location callee arguments
        = .ok (none, report s location "argument count mismatch".toList)) ∧
    (∀ l id d, callee = some (.DeclRefExpr l id) → (lookupDecl s id).1 = some d →
      (∀ f, d ≠ .ResolvedFunctionDecl f) →
      resolveCallExpr typeOf s location callee arguments
        = .ok (none, report s location "calling non-function symbol".toList)) := by
  refine ⟨?_, ?_, ?_⟩
  · intro r s1 h
    rcases callee with _ | c
    · simp [resolveCallExpr, resolveCallExprFuel] at h
    · cases c with
      | DeclRefExpr l id =>
        simp only [resolveCallExpr, resolveCallExprFuel] at h
        rw [resolveDeclRefExpr_callee] at h
        cases hl : (lookupDecl s id).1 with
        | none => rw [hl] at h; simp at h
        | some d =>
          rw [hl] at h
          cases d with
          | ResolvedFunctionDecl f =>
            simp only [] at h
            by_cases hlen : arguments.length = f.params.length
            · exact ⟨l, id, f, rfl, hl, hlen⟩
            · rw [if_pos hlen] at h
              simp at h
          | ResolvedVarDecl v => simp at h
          | ResolvedParamDecl v => simp at h
      | NumberLiteral _ _ => simp [resolveCallExpr, resolveCallExprFuel] at h
      | CallExpr _ _ _ => simp [resolveCallExpr, resolveCallExprFuel] at h
      | GroupingExpr _ _ => simp [resolveCallExpr, resolveCallExprFuel] at h
      | BinaryOperator _ _ _ _ => simp [resolveCallExpr, resolveCallExprFuel] at h
      | UnaryOperator _ _ _ => simp [resolveCallExpr, resolveCallExprFuel] at h
  · intro l id f hc hl hlen
    subst hc
    unfold resolveCallExpr
    rw [show 3 * sizeArgs arguments + 3 = (3 * sizeArgs arguments + 2) + 1 from rfl,
      resolveCallExprFuel, resolveDeclRefExpr_callee, hl]
    simp only []
    rw [if_pos hlen]
  · intro l id d hc hl hd
    subst hc
    unfold resolveCallExpr
    rw [show 3 * sizeArgs arguments + 3 = (3 * sizeArgs arguments + 2) + 1 from rfl,
      resolveCallExprFuel, resolveDeclRefExpr_callee, hl]
    cases d with
    | ResolvedFunctionDecl f => exact absurd rfl (hd f)
    | ResolvedVarDecl v => rfl
    | ResolvedParamDecl v => rfl

/-- C15, at scopes that declare the function `f` without parameters and the
variable `x`: the call `f()` returns its node, the call `f(x)` reports the
argument count and the call `x()` reports a non-function symbol. -/
theorem c15_call_needs_function_and_arity_witness :
    (∃ l id f, (some (Expr.DeclRefExpr ⟨"t", 3, 1⟩ "f".toList) : Option Expr)
        = some (.DeclRefExpr l id) ∧
      (lookupDecl { scopes := [[.ResolvedFunctionDecl funF], [varX 2 2]] } id).1
        = some (.ResolvedFunctionDecl f) ∧
      ([] : List (Option Expr)).length = f.params.length) ∧
    resolveCallExpr (fun _ => .Number) { scopes := [[.ResolvedFunctionDecl funF], [varX 2 2]] }
        ⟨"t", 3, 2⟩ (some (.DeclRefExpr ⟨"t", 3, 1⟩ "f".toList))
        [some (.DeclRefExpr ⟨"t", 3, 3⟩ "x".toList)]
      = .ok (none, report { scopes := [[.ResolvedFunctionDecl funF], [varX 2 2]] } ⟨"t", 3, 2⟩
          "argument count mismatch".toList) ∧
    resolveCallExpr (fun _ => .Number) { scopes := [[.ResolvedFunctionDecl funF], [varX 2 2]] }
        ⟨"t", 3, 2⟩ (some (.DeclRefExpr ⟨"t", 3, 1⟩ "x".toList)) []
      = .ok (none, report { scopes := [[.ResolvedFunctionDecl funF], [varX 2 2]] } ⟨"t", 3, 2⟩
          "calling non-function symbol".toList) :=
  ⟨(c15_call_needs_function_and_arity (fun _ => .Number)
      { scopes := [[.ResolvedFunctionDecl funF], [varX 2 2]] } ⟨"t", 3, 2⟩
      (some (.DeclRefExpr ⟨"t", 3, 1⟩ "f".toList)) []).1
      (.ResolvedCallExpr ⟨"t", 3, 2⟩ ⟨⟨"t", 3, 1⟩, .ResolvedFunctionDecl funF⟩ [])
      { scopes := [[.ResolvedFunctionDecl funF], [varX 2 2]] } rfl,
   (c15_call_needs_function_and_arity (fun _ => .Number)
      { scopes := [[.ResolvedFunctionDecl funF], [varX 2 2]] } ⟨"t", 3, 2⟩
      (some (.DeclRefExpr ⟨"t", 3, 1⟩ "f".toList))
      [some (.DeclRefExpr ⟨"t", 3, 3⟩ "x".toList)]).2.1 _ _ funF rfl rfl (by decide),
   (c15_call_needs_function_and_arity (fun _ => .Number)
      { scopes := [[.ResolvedFunctionDecl funF], [varX 2 2]] } ⟨"t", 3, 2⟩
      (some (.DeclRefExpr ⟨"t", 3, 1⟩ "x".toList)) []).2.2 _ _ (varX 2 2) rfl rfl
      (fun f => by simp [varX])⟩

/-! ## Flow checks: the join and the sweep over the statements -/

theorem reportAll_nil (s : Sema) : reportAll s [] = s := by
  cases s
  simp [reportAll]

theorem assign_lookup_self (m : Lattice) (key : Nat) (state : State) :
    List.lookup key (Lattice.assign m key state) = some state := by
  induction m with
  | nil => simp [Lattice.assign, List.lookup]
  | cons e rest ih =>
    obtain ⟨k, v⟩ := e
    unfold Lattice.assign
    by_cases h1 : key < k
    · rw [if_pos h1]; simp [List.lookup]
    · rw [if_neg h1]
      by_cases h2 : key = k
      · rw [if_pos h2]; simp [List.lookup]
      · rw [if_neg h2]
        have : (key == k) = false := by simpa using h2
        rw [List.lookup, this]
        exact ih

theorem assign_lookup_other (m : Lattice) (key : Nat) (state : State) (other : Nat)
    (h : other ≠ key) :
    List.lookup other (Lattice.assign m key state) = List.lookup other m := by
  have hb : (other == key) = false := by simpa using h
  induction m with
  | nil => simp [Lattice.assign, List.lookup, hb]
  | cons e rest ih =>
    obtain ⟨k, v⟩ := e
    unfold Lattice.assign
    by_cases h1 : key < k
    · rw [if_pos h1, List.lookup, hb]
    · rw [if_neg h1]
      by_cases h2 : key = k
      · rw [if_pos h2]
        subst h2
        rw [List.lookup, hb, List.lookup, hb]
      · rw [if_neg h2]
        cases h3 : other == k with
        | true => rw [List.lookup, h3, List.lookup, h3]
        | false => rw [List.lookup, h3, List.lookup, h3]; exact ih

/-- C17. The join of two states: equal states join to themselves, `Bottom`
joined with a state is that state, on either side, and two different states
neither of which is `Bottom` join to `Top`. -/
theorem c17_join_table (s t : State) :
    joinStates s s = s ∧ joinStates .Bottom t = t ∧ joinStates s .Bottom = s ∧
    (s ≠ t → s ≠ .Bottom → t ≠ .Bottom → joinStates s t = .Top) := by
  cases s <;> cases t <;> decide

/-- C17, at `Assigned` and `Unassigned`, which join to `Top`. -/
theorem c17_join_table_witness : joinStates .Assigned .Unassigned = .Top :=
  (c17_join_table .Assigned .Unassigned).2.2.2 (by decide) (by decide) (by decide)

/-- C18. On the single block that holds the statements of
`let x: number = 5; x = 6;` in program order the check adds
`'x' cannot be mutated` at the assignment to the diagnostics and returns
true; on the block of `var x: number = 5; x = 6;` it adds nothing and returns
false. The sweep goes from the last statement of a block to the first, so on
these blocks the assignment is met before the declaration, with `x` in the
state `Bottom`, and `let x: number; x = 6;` is reported as well. On the block
that holds the statements in the order of the back-to-front construction the
declaration is swept first: `let x: number = 5; x = 6;` meets the assignment
with `x` `Assigned` and is reported, `let x: number; x = 6;` meets it with
`x` `Unassigned` and is not, and `var x: number = 5; x = 6;` is not. For every
assignment to a variable: when the variable is immutable and the state the
map gives it is not `Unassigned`, the sweep adds that error; when the
variable is mutable, or immutable with the state `Unassigned`, it adds none;
in each case the variable is `Assigned` afterwards. -/
theorem c18_assignment_to_immutable (s : Sema) (tmp : Lattice) (pendingErrors : PendingErrors)
    (location : SourceLocation) («variable» : ResolvedDeclRefExpr) (var : ResolvedVarDecl)
    (hvar : «variable».decl = .ResolvedVarDecl var) :
    checkVariableInitialization s (singleBlockCFG [declX false true, assignX false true])
      = .ok (true, { s with diagnostics :=
          s.diagnostics ++ [(⟨"t", 3, 3⟩, "'x' cannot be mutated".toList)] }) ∧
    checkVariableInitialization s (singleBlockCFG [declX true true, assignX true true])
      = .ok (false, s) ∧
    checkVariableInitialization s (singleBlockCFG [declX false false, assignX false false])
      = .ok (true, { s with diagnostics :=
          s.diagnostics ++ [(⟨"t", 3, 3⟩, "'x' cannot be mutated".toList)] }) ∧
    checkVariableInitialization s (singleBlockCFG [assignX false true, declX false true])
      = .ok (true, { s with diagnostics :=
          s.diagnostics ++ [(⟨"t", 3, 3⟩, "'x' cannot be mutated".toList)] }) ∧
    checkVariableInitialization s (singleBlockCFG [assignX false false, declX false false])
      = .ok (false, s) ∧
    checkVariableInitialization s (singleBlockCFG [assignX true true, declX true true])
      = .ok (false, s) ∧
    (var.isMutable = false → (Lattice.index tmp var.addr).1 ≠ .Unassigned →
      ∃ tmp1, sweepStmt tmp pendingErrors (.ResolvedAssignment location «variable»)
          = .ok (tmp1, pendingErrors ++
              [(location, "'".toList ++ var.identifier ++ "' cannot be mutated".toList)]) ∧
        List.lookup var.addr tmp1 = some .Assigned) ∧
    (var.isMutable = true ∨ (Lattice.index tmp var.addr).1 = .Unassigned →
      ∃ tmp1, sweepStmt tmp pendingErrors (.ResolvedAssignment location «variable»)
          = .ok (tmp1, pendingErrors) ∧
        List.lookup var.addr tmp1 = some .Assigned) := by
  have hnone : ∀ cfg, checkVariableInitialization s cfg = .ok (false, reportAll s []) →
      checkVariableInitialization s cfg = .ok (false, s) := by
    intro cfg h
    rw [h, reportAll_nil]
  refine ⟨rfl, hnone _ rfl, rfl, rfl, hnone _ rfl, hnone _ rfl, ?_, ?_⟩
  · intro hm hst
    refine ⟨Lattice.assign (Lattice.index tmp var.addr).2 var.addr .Assigned, ?_,
      assign_lookup_self _ _ _⟩
    simp only [sweepStmt, hvar, hm]
    rw [if_pos hst]
    rfl
  · intro h
    by_cases hm : var.isMutable = true
    · refine ⟨Lattice.assign tmp var.addr .Assigned, ?_, assign_lookup_self _ _ _⟩
      simp only [sweepStmt, hvar, hm]
      rfl
    · have hst : (Lattice.index tmp var.addr).1 = .Unassigned := by
        rcases h with h | h
        · exact absurd h hm
        · exact h
      have hm1 : var.isMutable = false := by simpa using hm
      refine ⟨Lattice.assign (Lattice.index tmp var.addr).2 var.addr .Assigned, ?_,
        assign_lookup_self _ _ _⟩
      simp only [sweepStmt, hvar, hm1]
      rw [if_neg (not_not.2 hst)]
      rfl

/-- C18, at the assignment `x = 6;` to the immutable `x` in the map that
holds `x` as `Assigned`, as the declaration `let x: number = 5;` leaves it:
the error is added and the diagnostics of the check on the block are the one
report; in the map that holds `x` as `Unassigned`, as `let x: number;` leaves
it, no error is added. -/
theorem c18_assignment_to_immutable_witness :
    (∃ tmp1, sweepStmt [(1, .Assigned)] [] (assignX false true)
        = .ok (tmp1, [] ++ [(⟨"t", 3, 3⟩, "'".toList ++ "x".toList ++ "' cannot be mutated".toList)]) ∧
      List.lookup 1 tmp1 = some .Assigned) ∧
    (∃ tmp1, sweepStmt [(1, .Unassigned)] [] (assignX false false) = .ok (tmp1, []) ∧
      List.lookup 1 tmp1 = some .Assigned) ∧
    checkVariableInitialization { scopes := [] }
        (singleBlockCFG [assignX false true, declX false true])
      = .ok (true, { scopes := [],
                     diagnostics := [(⟨"t", 3, 3⟩, "'x' cannot be mutated".toList)] }) :=
  ⟨(c18_assignment_to_immutable { scopes := [] } [(1, .Assigned)] [] ⟨"t", 3, 3⟩
      ⟨⟨"t", 3, 1⟩, .ResolvedVarDecl (localX false true)⟩ (localX false true) rfl).2.2.2.2.2.2.1
      rfl (by decide),
    (c18_assignment_to_immutable { scopes := [] } [(1, .Unassigned)] [] ⟨"t", 3, 3⟩
      ⟨⟨"t", 3, 1⟩, .ResolvedVarDecl (localX false false)⟩ (localX false false)
      rfl).2.2.2.2.2.2.2 (Or.inr rfl),
    (c18_assignment_to_immutable { scopes := [] } [] [] ⟨"t", 3, 3⟩
      ⟨⟨"t", 3, 1⟩, .ResolvedVarDecl (localX false true)⟩ (localX false true)
      rfl).2.2.2.1⟩

/-- C19 fails as stated: on the single block that holds the statements of
`var x: number = 0; return x;` in program order (the declaration, the
reference to `x`, the return) the check reports `'x' is not initialized` and
returns true, because the block is swept from its last statement to its
first and the reference is met before the declaration. -/
theorem c19_initialized_in_program_order_reports :
    checkVariableInitialization { scopes := [] }
        (singleBlockCFG [declX true true, refX true true, .ResolvedReturnStmt ⟨"t", 3, 1⟩])
      = .ok (true, { scopes := [],
                     diagnostics := [(⟨"t", 3, 8⟩, "'x' is not initialized".toList)] }) :=
  rfl

/-- C19, amended. On the single block that holds the statements in the order
of the back-to-front construction (the return, the reference to `x`, the
declaration), which the sweep from the back of the vector reads in program
order, `var x: number; return x;` reports `'x' is not initialized` and
returns true and `var x: number = 0; return x;` reports nothing and returns
false; on the block that holds them in program order both programs report
`'x' is not initialized` and return true. -/
theorem c19_reverse_sweep_initialization (s : Sema) :
    checkVariableInitialization s
        (singleBlockCFG [.ResolvedReturnStmt ⟨"t", 3, 1⟩, refX true false, declX true false])
      = .ok (true, reportAll s [(⟨"t", 3, 8⟩, "'x' is not initialized".toList)]) ∧
    checkVariableInitialization s
        (singleBlockCFG [.ResolvedReturnStmt ⟨"t", 3, 1⟩, refX true true, declX true true])
      = .ok (false, s) ∧
    checkVariableInitialization s
        (singleBlockCFG [declX true false, refX true false, .ResolvedReturnStmt ⟨"t", 3, 1⟩])
      = .ok (true, reportAll s [(⟨"t", 3, 8⟩, "'x' is not initialized".toList)]) ∧
    checkVariableInitialization s
        (singleBlockCFG [declX true true, refX true true, .ResolvedReturnStmt ⟨"t", 3, 1⟩])
      = .ok (true, reportAll s [(⟨"t", 3, 8⟩, "'x' is not initialized".toList)]) := by
  refine ⟨rfl, ?_, rfl, rfl⟩
  have h : checkVariableInitialization s
      (singleBlockCFG [.ResolvedReturnStmt ⟨"t", 3, 1⟩, refX true true, declX true true])
      = .ok (false, reportAll s []) := rfl
  rw [h, reportAll_nil]

/-! ## Return check: the loop visits the blocks of the traversal -/

theorem pushReachable_eq (succs : List (Int × Bool)) :
    ∀ worklist, pushReachable worklist succs
      = worklist ++ (succs.filter (fun e => e.2)).map (fun e => e.1) := by
  induction succs with
  | nil => intro worklist; simp [pushReachable]
  | cons e rest ih =>
    intro worklist
    obtain ⟨succ, reachable⟩ := e
    cases reachable with
    | true => simp [pushReachable, ih]
    | false => simp [pushReachable, ih]

theorem mem_pushReachable (succs : List (Int × Bool)) (worklist : List Int) (b : Int) :
    b ∈ pushReachable worklist succs ↔ b ∈ worklist ∨ (b, true) ∈ succs := by
  rw [pushReachable_eq]
  simp only [List.mem_append, List.mem_map, List.mem_filter]
  constructor
  · rintro (h | ⟨e, ⟨he, hr⟩, hb⟩)
    · exact Or.inl h
    · obtain ⟨e1, e2⟩ := e
      simp only at hr hb
      subst hr hb
      exact Or.inr he
  · rintro (h | h)
    · exact Or.inl h
    · exact Or.inr ⟨(b, true), ⟨h, rfl⟩, rfl⟩

theorem length_pushReachable_le (succs : List (Int × Bool)) (worklist : List Int) :
    (pushReachable worklist succs).length ≤ worklist.length + succs.length := by
  rw [pushReachable_eq, List.length_append, List.length_map]
  exact Nat.add_le_add_left (List.length_filter_le _ _) _

theorem pendingEdges_nil (blocks : List BasicBlock) :
    ∀ i, pendingEdges [] blocks i = (blocks.map (fun b => b.successors.length)).sum := by
  induction blocks with
  | nil => intro i; rfl
  | cons b rest ih => intro i; simp [pendingEdges, ih]

theorem pendingEdges_cons_le (bb : Int) (visited : List Int) (blocks : List BasicBlock) :
    ∀ i, pendingEdges (bb :: visited) blocks i ≤ pendingEdges visited blocks i := by
  induction blocks with
  | nil => intro i; simp [pendingEdges]
  | cons b rest ih =>
    intro i
    simp only [pendingEdges]
    have h := ih (i + 1)
    by_cases h1 : i ∈ visited
    · have h2 : i ∈ bb :: visited := List.mem_cons_of_mem _ h1
      rw [if_pos h1, if_pos h2]
      omega
    · rw [if_neg h1]
      by_cases h2 : i ∈ bb :: visited
      · rw [if_pos h2]; omega
      · rw [if_neg h2]; omega

theorem pendingEdges_visit (bb : Int) (visited : List Int) (block : BasicBlock)
    (hbb : bb ∉ visited) (blocks : List BasicBlock) :
    ∀ i, i ≤ bb → blocks.get? (bb - i).toNat = some block →
      pendingEdges (bb :: visited) blocks i + block.successors.length
        ≤ pendingEdges visited blocks i := by
  induction blocks with
  | nil => intro i _ h; simp at h
  | cons b rest ih =>
    intro i hi h
    simp only [pendingEdges]
    by_cases heq : i = bb
    · subst heq
      simp only [sub_self, Int.toNat_zero, List.get?_cons_zero, Option.some.injEq] at h
      subst h
      rw [if_neg hbb, if_pos (List.mem_cons_self _ _)]
      have := pendingEdges_cons_le i visited rest (i + 1)
      omega
    · have hlt : i + 1 ≤ bb := by omega
      have hn : (bb - i).toNat = (bb - (i + 1)).toNat + 1 := by omega
      rw [hn, List.get?_cons_succ] at h
      have h3 := ih (i + 1) hlt h
      have hmem : i ∈ bb :: visited ↔ i ∈ visited := by
        simp only [List.mem_cons]
        constructor
        · rintro (h4 | h4)
          · exact absurd h4 heq
          · exact h4
        · exact Or.inr
      by_cases h1 : i ∈ visited
      · rw [if_pos h1, if_pos (hmem.2 h1)]
        omega
      · rw [if_neg h1, if_neg (fun h5 => h1 (hmem.1 h5))]
        omega

theorem vectorAt_some_iff {α : Type} (v : List α) (i : Int) (x : α) :
    vectorAt v i = some x ↔ 0 ≤ i ∧ v.get? i.toNat = some x := by
  unfold vectorAt
  by_cases h : 0 ≤ i
  · simp [h]
  · simp [h]

theorem vectorAt_isSome {α : Type} (v : List α) (i : Int) (h0 : 0 ≤ i) (h1 : i < v.length) :
    ∃ x, vectorAt v i = some x := by
  have h2 : i.toNat < v.length := by omega
  refine ⟨v.get ⟨i.toNat, h2⟩, ?_⟩
  rw [vectorAt_some_iff]
  exact ⟨h0, List.get?_eq_get h2⟩

theorem vectorAt_mem {α : Type} (v : List α) (i : Int) (x : α) (h : vectorAt v i = some x) :
    x ∈ v := by
  rw [vectorAt_some_iff] at h
  exact List.get?_mem h.2

theorem visited_valid (cfg : CFG) (hv : cfg.validSuccessors = true) (b : Int)
    (h : Visited cfg b) : ∃ block, vectorAt cfg.basicBlocks b = some block := by
  simp only [CFG.validSuccessors, CFG.validIndex, Bool.and_eq_true, decide_eq_true_eq,
    List.all_eq_true] at hv
  cases h with
  | entry => exact vectorAt_isSome _ _ hv.1.1 hv.1.2
  | step a b block _ hblock _ hsucc =>
    have := hv.2 block (vectorAt_mem _ _ _ hblock) (b, true) hsucc
    exact vectorAt_isSome _ _ this.1 this.2

theorem checkReturnLoop_spec (cfg : CFG) (hv : cfg.validSuccessors = true) :
    ∀ (fuel : Nat) (visited worklist : List Int) (returnCount : Int) (exitReached : Bool),
      LoopInv cfg visited worklist returnCount exitReached →
      worklist.length + pendingEdges visited cfg.basicBlocks 0 < fuel →
      ∃ visited1 returnCount1 exitReached1,
        checkReturnLoop cfg fuel visited worklist returnCount exitReached
          = .ok (returnCount1, exitReached1) ∧
        LoopInv cfg visited1 [] returnCount1 exitReached1 := by
  intro fuel
  induction fuel with
  | zero => intro visited worklist returnCount exitReached _ h; omega
  | succ fuel ih =>
    intro visited worklist returnCount exitReached inv hfuel
    unfold checkReturnLoop
    cases hlast : worklist.getLast? with
    | none =>
      have hnil : worklist = [] := List.getLast?_eq_none_iff.1 hlast
      subst hnil
      exact ⟨visited, returnCount, exitReached, rfl, inv⟩
    | some bb =>
      obtain ⟨ys, hys⟩ := List.getLast?_eq_some_iff.1 hlast
      subst hys
      have hdrop : (ys ++ [bb]).dropLast = ys := List.dropLast_concat
      simp only [hdrop]
      have hlen : (ys ++ [bb]).length = ys.length + 1 := by simp
      rw [hlen] at hfuel
      have hbbv : Visited cfg bb := inv.worklist_ok bb (by simp)
      by_cases hmem : bb ∈ visited
      · rw [if_pos hmem]
        apply ih
        · refine ⟨inv.visited_ok, fun b hb => inv.worklist_ok b (by simp [hb]), ?_, ?_,
            inv.count_nonneg, inv.count_zero, inv.exit_iff⟩
          · rcases inv.entry_seen with h | h
            · exact Or.inl h
            · rcases List.mem_append.1 h with h | h
              · exact Or.inr h
              · rw [List.mem_singleton.1 h]; exact Or.inl hmem
          · intro a ha block hblock hret b hb
            rcases inv.closed a ha block hblock hret b hb with h | h
            · exact Or.inl h
            · rcases List.mem_append.1 h with h | h
              · exact Or.inr h
              · rw [List.mem_singleton.1 h]; exact Or.inl hmem
        · omega
      · rw [if_neg hmem]
        obtain ⟨block, hblock⟩ := visited_valid cfg hv bb hbbv
        rw [hblock]
        simp only []
        have hget : cfg.basicBlocks.get? (bb - 0).toNat = some block := by
          rw [sub_zero]; exact ((vectorAt_some_iff _ _ _).1 hblock).2
        have hpend := pendingEdges_visit bb visited block hmem cfg.basicBlocks 0
          ((vectorAt_some_iff _ _ _).1 hblock).1 hget
        have hexit : ((exitReached || bb == cfg.exit) = true) ↔ cfg.exit ∈ bb :: visited := by
          rw [Bool.or_eq_true, inv.exit_iff, List.mem_cons, beq_iff_eq]
          constructor
          · rintro (h | h)
            · exact Or.inr h
            · exact Or.inl h.symm
          · rintro (h | h)
            · exact Or.inr h.symm
            · exact Or.inl h
        cases hret : beginsWithReturn block with
        | true =>
          simp only [if_true]
          apply ih
          · refine ⟨?_, fun b hb => inv.worklist_ok b (by simp [hb]), ?_, ?_, ?_, ?_, hexit⟩
            · intro b hb
              rcases List.mem_cons.1 hb with h | h
              · rw [h]; exact hbbv
              · exact inv.visited_ok b h
            · rcases inv.entry_seen with h | h
              · exact Or.inl (List.mem_cons_of_mem _ h)
              · rcases List.mem_append.1 h with h | h
                · exact Or.inr h
                · rw [List.mem_singleton.1 h]; exact Or.inl (List.mem_cons_self _ _)
            · intro a ha block1 hblock1 hret1 b hb
              rcases List.mem_cons.1 ha with h | h
              · rw [h, hblock] at hblock1
                rw [← Option.some.inj hblock1, hret] at hret1
                exact absurd hret1 (by decide)
              · rcases inv.closed a h block1 hblock1 hret1 b hb with h1 | h1
                · exact Or.inl (List.mem_cons_of_mem _ h1)
                · rcases List.mem_append.1 h1 with h1 | h1
                  · exact Or.inr h1
                  · rw [List.mem_singleton.1 h1]; exact Or.inl (List.mem_cons_self _ _)
            · have := inv.count_nonneg
              omega
            · constructor
              · intro h
                have := inv.count_nonneg
                omega
              · intro h
                have := h bb (List.mem_cons_self _ _) block hblock
                rw [hret] at this
                exact absurd this (by decide)
          · have := pendingEdges_cons_le bb visited cfg.basicBlocks 0
            omega
        | false =>
          simp only [Bool.false_eq_true, if_false]
          apply ih
          · refine ⟨?_, ?_, ?_, ?_, inv.count_nonneg, ?_, hexit⟩
            · intro b hb
              rcases List.mem_cons.1 hb with h | h
              · rw [h]; exact hbbv
              · exact inv.visited_ok b h
            · intro b hb
              rcases (mem_pushReachable _ _ _).1 hb with h | h
              · exact inv.worklist_ok b (by simp [h])
              · exact Visited.step bb b block hbbv hblock hret h
            · rcases inv.entry_seen with h | h
              · exact Or.inl (List.mem_cons_of_mem _ h)
              · rcases List.mem_append.1 h with h | h
                · exact Or.inr ((mem_pushReachable _ _ _).2 (Or.inl h))
                · rw [List.mem_singleton.1 h]; exact Or.inl (List.mem_cons_self _ _)
            · intro a ha block1 hblock1 hret1 b hb
              rcases List.mem_cons.1 ha with h | h
              · rw [h, hblock] at hblock1
                rw [← Option.some.inj hblock1] at hb
                exact Or.inr ((mem_pushReachable _ _ _).2 (Or.inr hb))
              · rcases inv.closed a h block1 hblock1 hret1 b hb with h1 | h1
                · exact Or.inl (List.mem_cons_of_mem _ h1)
                · rcases List.mem_append.1 h1 with h1 | h1
                  · exact Or.inr ((mem_pushReachable _ _ _).2 (Or.inl h1))
                  · rw [List.mem_singleton.1 h1]; exact Or.inl (List.mem_cons_self _ _)
            · rw [inv.count_zero]
              constructor
              · intro h b hb block1 hblock1
                rcases List.mem_cons.1 hb with h1 | h1
                · rw [h1, hblock] at hblock1
                  rw [← Option.some.inj hblock1]
                  exact hret
                · exact h b h1 block1 hblock1
              · intro h b hb
                exact h b (List.mem_cons_of_mem _ hb)
          · have := length_pushReachable_le block.successors ys
            omega

theorem loopInv_final (cfg : CFG) (visited : List Int) (returnCount : Int)
    (exitReached : Bool) (inv : LoopInv cfg visited [] returnCount exitReached) :
    ((exitReached || returnCount == 0) = true) ↔
      (Visited cfg cfg.exit ∨ ∀ b block, Visited cfg b →
        vectorAt cfg.basicBlocks b = some block → beginsWithReturn block = false) := by
  have hall : ∀ b, Visited cfg b → b ∈ visited := by
    intro b hb
    induction hb with
    | entry =>
      rcases inv.entry_seen with h | h
      · exact h
      · simp at h
    | step a b block _ hblock hret hsucc ih =>
      rcases inv.closed a ih block hblock hret b hsucc with h | h
      · exact h
      · simp at h
  rw [Bool.or_eq_true, inv.exit_iff, beq_iff_eq, inv.count_zero]
  constructor
  · rintro (h | h)
    · exact Or.inl (inv.visited_ok _ h)
    · exact Or.inr (fun b block hb => h b (hall b hb) block)
  · rintro (h | h)
    · exact Or.inl (hall _ h)
    · exact Or.inr (fun b hb block => h b block (inv.visited_ok b hb))

/-- C16. For a function that does not return `Void` and a CFG whose entry
and successors are indices of its blocks, `checkReturnOnAllPaths` returns,
and it returns true exactly when the traversal from the entry along the
edges flagged reachable, which does not go on from a block that begins with a
return, visits the exit or visits no block that begins with a return; when
it returns true it reports at the location of the function, when it returns
false it reports nothing. The CFG of `if (cond) { return 1; }` gives true,
the CFG of the same body with `else { return 2; }` gives false. -/
theorem c16_return_check_iff (s : Sema) (fn : ResolvedFunctionDecl) (cfg : CFG)
    (hfn : fn.type ≠ .Void) (hv : cfg.validSuccessors = true) :
    (∃ r s1, checkReturnOnAllPaths s fn cfg = .ok (r, s1) ∧
      (r = true ↔ (Visited cfg cfg.exit ∨ ∀ b block, Visited cfg b →
        vectorAt cfg.basicBlocks b = some block → beginsWithReturn block = false)) ∧
      (r = true → ∃ message, s1 = report s fn.location message) ∧
      (r = false → s1 = s)) ∧
    checkReturnOnAllPaths s fn ifOnlyCFG
      = .ok (true, report s fn.location
          "non-void function doesn't return a value on every path".toList) ∧
    checkReturnOnAllPaths s fn ifElseCFG = .ok (false, s) := by
  refine ⟨?_, ?_, ?_⟩
  · have hstart : LoopInv cfg [] [cfg.entry] 0 false :=
      ⟨by simp, by simpa using Visited.entry, by simp, by simp, le_refl _, by simp, by simp⟩
    have hfuel : [cfg.entry].length + pendingEdges [] cfg.basicBlocks 0 < edgeCount cfg + 2 := by
      rw [pendingEdges_nil]
      simp only [edgeCount, List.length_singleton]
      omega
    obtain ⟨visited, returnCount, exitReached, hloop, inv⟩ :=
      checkReturnLoop_spec cfg hv _ _ _ _ _ hstart hfuel
    have hfinal := loopInv_final cfg visited returnCount exitReached inv
    unfold checkReturnOnAllPaths
    rw [if_neg hfn, hloop]
    simp only []
    by_cases hr : (exitReached || returnCount == 0) = true
    · rw [if_pos hr]
      exact ⟨true, _, rfl, ⟨fun _ => hfinal.1 hr, fun _ => rfl⟩, fun _ => ⟨_, rfl⟩,
        fun h => by simp at h⟩
    · rw [if_neg hr]
      exact ⟨false, _, rfl, ⟨fun h => by simp at h, fun h => absurd (hfinal.2 h) hr⟩,
        fun h => by simp at h, fun _ => rfl⟩
  · unfold checkReturnOnAllPaths
    rw [if_neg hfn]
    rfl
  · unfold checkReturnOnAllPaths
    rw [if_neg hfn]
    rfl

/-- C16, at the function `f` of type `number` and the CFG of
`if (cond) { return 1; }`. -/
theorem c16_return_check_iff_witness :
    ∃ r s1, checkReturnOnAllPaths { scopes := [] } funF ifOnlyCFG = .ok (r, s1) ∧
      (r = true ↔ (Visited ifOnlyCFG ifOnlyCFG.exit ∨ ∀ b block, Visited ifOnlyCFG b →
        vectorAt ifOnlyCFG.basicBlocks b = some block → beginsWithReturn block = false)) ∧
      (r = true → ∃ message, s1 = report { scopes := [] } funF.location message) ∧
      (r = false → s1 = { scopes := [] }) :=
  (c16_return_check_iff { scopes := [] } funF ifOnlyCFG (by decide) (by decide)).1

/-! ## Initialization check: the maps, key by key -/

theorem mem_assign (m : Lattice) (key : Nat) (state : State) (e : Nat × State)
    (h : e ∈ Lattice.assign m key state) : e = (key, state) ∨ e ∈ m := by
  induction m with
  | nil => simpa [Lattice.assign] using h
  | cons x rest ih =>
    obtain ⟨k, v⟩ := x
    unfold Lattice.assign at h
    by_cases h1 : key < k
    · rw [if_pos h1] at h
      rcases List.mem_cons.1 h with h | h
      · exact Or.inl h
      · exact Or.inr h
    · rw [if_neg h1] at h
      by_cases h2 : key = k
      · rw [if_pos h2] at h
        rcases List.mem_cons.1 h with h | h
        · exact Or.inl h
        · exact Or.inr (List.mem_cons_of_mem _ h)
      · rw [if_neg h2] at h
        rcases List.mem_cons.1 h with h | h
        · exact Or.inr (h ▸ List.mem_cons_self _ _)
        · rcases ih h with h3 | h3
          · exact Or.inl h3
          · exact Or.inr (List.mem_cons_of_mem _ h3)

theorem assign_sorted (m : Lattice) (key : Nat) (state : State) (h : sortedKeys m) :
    sortedKeys (Lattice.assign m key state) := by
  induction m with
  | nil => simp [Lattice.assign, sortedKeys]
  | cons x rest ih =>
    obtain ⟨k, v⟩ := x
    unfold sortedKeys at h ih ⊢
    rw [List.pairwise_cons] at h
    unfold Lattice.assign
    by_cases h1 : key < k
    · rw [if_pos h1, List.pairwise_cons]
      refine ⟨?_, List.pairwise_cons.2 h⟩
      intro e he
      rcases List.mem_cons.1 he with he | he
      · rw [he]; exact h1
      · exact lt_trans h1 (h.1 e he)
    · rw [if_neg h1]
      by_cases h2 : key = k
      · rw [if_pos h2, List.pairwise_cons]
        subst h2
        exact ⟨h.1, h.2⟩
      · rw [if_neg h2, List.pairwise_cons]
        refine ⟨?_, ih h.2⟩
        intro e he
        rcases mem_assign rest key state e he with he | he
        · rw [he]
          show k < key
          omega
        · exact h.1 e he

theorem lookup_none_of_lt (m : Lattice) (k : Nat) (h : ∀ e ∈ m, k < e.1) :
    List.lookup k m = none := by
  rw [List.lookup_eq_none_iff]
  intro e he
  have := h e he
  simp only [bne_iff_ne, ne_eq]
  omega

theorem lookup_some_mem (m : Lattice) (k : Nat) (state : State)
    (h : List.lookup k m = some state) : (k, state) ∈ m := by
  induction m with
  | nil => simp at h
  | cons x rest ih =>
    obtain ⟨k1, v⟩ := x
    rw [List.lookup_cons] at h
    cases hk : k == k1 with
    | true =>
      rw [hk] at h
      simp only [Option.some.injEq] at h
      rw [beq_iff_eq] at hk
      rw [hk, h]
      exact List.mem_cons_self _ _
    | false =>
      rw [hk] at h
      exact List.mem_cons_of_mem _ (ih h)

theorem sorted_ext (m : Lattice) :
    ∀ (m1 : Lattice), sortedKeys m → sortedKeys m1 →
      (∀ k, List.lookup k m = List.lookup k m1) → m = m1 := by
  induction m with
  | nil =>
    intro m1 _ _ h
    cases m1 with
    | nil => rfl
    | cons y rest1 =>
      obtain ⟨k1, v1⟩ := y
      have := h k1
      rw [List.lookup_cons_self] at this
      simp at this
  | cons x rest ih =>
    intro m1 hs hs1 h
    obtain ⟨k, v⟩ := x
    cases m1 with
    | nil =>
      have := h k
      rw [List.lookup_cons_self] at this
      simp at this
    | cons y rest1 =>
      obtain ⟨k1, v1⟩ := y
      unfold sortedKeys at hs hs1
      rw [List.pairwise_cons] at hs hs1
      have hk : k = k1 := by
        by_contra hne
        rcases Nat.lt_or_gt_of_ne hne with hlt | hgt
        · have h1 := h k
          rw [List.lookup_cons_self] at h1
          have h2 : List.lookup k ((k1, v1) :: rest1) = none := by
            apply lookup_none_of_lt
            intro e he
            rcases List.mem_cons.1 he with he | he
            · rw [he]; exact hlt
            · exact lt_trans hlt (hs1.1 e he)
          rw [h2] at h1
          simp at h1
        · have h1 := h k1
          rw [List.lookup_cons_self] at h1
          have h2 : List.lookup k1 ((k, v) :: rest) = none := by
            apply lookup_none_of_lt
            intro e he
            rcases List.mem_cons.1 he with he | he
            · rw [he]; exact hgt
            · exact lt_trans hgt (hs.1 e he)
          rw [h2] at h1
          simp at h1
      subst hk
      have hv : v = v1 := by
        have h1 := h k
        rw [List.lookup_cons_self, List.lookup_cons_self] at h1
        exact Option.some.inj h1
      subst hv
      have hrest : rest = rest1 := by
        apply ih rest1 hs.2 hs1.2
        intro k2
        by_cases hk2 : k2 = k
        · subst hk2
          rw [lookup_none_of_lt rest k2 hs.1, lookup_none_of_lt rest1 k2 hs1.1]
        · have h1 := h k2
          have hb : (k2 == k) = false := by simpa using hk2
          rw [List.lookup_cons, List.lookup_cons, hb] at h1
          exact h1
      rw [hrest]

theorem index_fst (m : Lattice) (key : Nat) :
    (Lattice.index m key).1 = (List.lookup key m).getD .Bottom := by
  unfold Lattice.index
  cases List.lookup key m with
  | none => rfl
  | some state => rfl

theorem index_lookup (m : Lattice) (key k : Nat) :
    List.lookup k (Lattice.index m key).2
      = if k = key then some ((List.lookup key m).getD .Bottom) else List.lookup k m := by
  unfold Lattice.index
  cases h : List.lookup key m with
  | none =>
    by_cases hk : k = key
    · rw [if_pos hk, hk]
      exact assign_lookup_self _ _ _
    · rw [if_neg hk]
      exact assign_lookup_other _ _ _ _ hk
  | some state =>
    by_cases hk : k = key
    · rw [if_pos hk, hk]
      exact h
    · rw [if_neg hk]

theorem index_sorted (m : Lattice) (key : Nat) (h : sortedKeys m) :
    sortedKeys (Lattice.index m key).2 := by
  unfold Lattice.index
  cases List.lookup key m with
  | none => exact assign_sorted _ _ _ h
  | some state => exact h

theorem assign_lookup (m : Lattice) (key : Nat) (state : State) (k : Nat) :
    List.lookup k (Lattice.assign m key state)
      = if k = key then some state else List.lookup k m := by
  by_cases hk : k = key
  · rw [if_pos hk, hk]
    exact assign_lookup_self _ _ _
  · rw [if_neg hk]
    exact assign_lookup_other _ _ _ _ hk

theorem joinLattice_cons (tmp : Lattice) (decl : Nat) (state : State) (rest : Lattice) :
    joinLattice tmp ((decl, state) :: rest)
      = joinLattice (Lattice.assign (Lattice.index tmp decl).2 decl
          (joinStates (Lattice.index tmp decl).1 state)) rest :=
  rfl

theorem joinLattice_spec (lattice : Lattice) (hs : sortedKeys lattice) :
    ∀ tmp, (sortedKeys tmp → sortedKeys (joinLattice tmp lattice)) ∧
      ∀ k, List.lookup k (joinLattice tmp lattice)
        = joinOpt (List.lookup k tmp) (List.lookup k lattice) := by
  induction lattice with
  | nil =>
    intro tmp
    exact ⟨fun h => h, fun k => rfl⟩
  | cons e rest ih =>
    intro tmp
    obtain ⟨decl, state⟩ := e
    unfold sortedKeys at hs
    rw [List.pairwise_cons] at hs
    obtain ⟨ih1, ih2⟩ := ih hs.2 (Lattice.assign (Lattice.index tmp decl).2 decl
      (joinStates (Lattice.index tmp decl).1 state))
    rw [joinLattice_cons]
    refine ⟨fun h => ih1 (assign_sorted _ _ _ (index_sorted _ _ h)), ?_⟩
    intro k
    rw [ih2 k, assign_lookup, index_lookup, index_fst]
    by_cases hk : k = decl
    · subst hk
      rw [if_pos rfl, lookup_none_of_lt rest k hs.1, List.lookup_cons_self]
      rfl
    · have hb : (k == decl) = false := by simpa using hk
      rw [if_neg hk, if_neg hk, List.lookup_cons, hb]

theorem joinPreds_spec (curLattices : List Lattice)
    (hs : ∀ lattice ∈ curLattices, sortedKeys lattice) (preds : List (Int × Bool)) :
    ∀ tmp, (∀ pred ∈ preds, ∃ lattice, vectorAt curLattices pred.1 = some lattice) →
      ∃ tmp1, joinPreds curLattices tmp preds = .ok tmp1 ∧
        (sortedKeys tmp → sortedKeys tmp1) ∧
        ∀ k, List.lookup k tmp1 = joinAt curLattices k (List.lookup k tmp) preds := by
  induction preds with
  | nil =>
    intro tmp _
    exact ⟨tmp, rfl, fun h => h, fun k => rfl⟩
  | cons pred rest ih =>
    intro tmp hv
    obtain ⟨lattice, hl⟩ := hv pred (List.mem_cons_self _ _)
    obtain ⟨h1, h2⟩ := joinLattice_spec lattice (hs lattice (vectorAt_mem _ _ _ hl)) tmp
    obtain ⟨tmp1, h3, h4, h5⟩ := ih (joinLattice tmp lattice)
      (fun p hp => hv p (List.mem_cons_of_mem _ hp))
    refine ⟨tmp1, ?_, fun h => h4 (h1 h), ?_⟩
    · unfold joinPreds
      rw [hl]
      exact h3
    · intro k
      rw [joinAt, hl, h5 k, h2 k]
      rfl

theorem sweepStmt_spec (stmt : ResolvedStmt) (hok : stmtOk stmt = true) (tmp : Lattice)
    (pendingErrors : PendingErrors) :
    ∃ tmp1 more, sweepStmt tmp pendingErrors stmt = .ok (tmp1, pendingErrors ++ more) ∧
      (sortedKeys tmp → sortedKeys tmp1) ∧
      ∀ k, List.lookup k tmp1 = transfer stmt k (List.lookup k tmp) := by
  cases stmt with
  | ResolvedDeclStmt location varDecl =>
    exact ⟨_, [], by rw [List.append_nil]; rfl, fun h => assign_sorted _ _ _ h,
      fun k => assign_lookup _ _ _ _⟩
  | ResolvedAssignment location v =>
    obtain ⟨loc, decl⟩ := v
    cases decl with
    | ResolvedVarDecl var =>
      cases hm : var.isMutable with
      | true =>
        refine ⟨Lattice.assign tmp var.addr .Assigned, [], ?_, fun h => assign_sorted _ _ _ h,
          fun k => assign_lookup _ _ _ _⟩
        simp only [sweepStmt, hm, List.append_nil]
        rfl
      | false =>
        by_cases hst : (Lattice.index tmp var.addr).1 ≠ .Unassigned
        · refine ⟨Lattice.assign (Lattice.index tmp var.addr).2 var.addr .Assigned,
            [(location, '\'' :: var.identifier ++ "' cannot be mutated".toList)], ?_,
            fun h => assign_sorted _ _ _ (index_sorted _ _ h), ?_⟩
          · simp only [sweepStmt, hm]
            rw [if_pos hst]
            rfl
          · intro k
            rw [assign_lookup, index_lookup]
            simp only [transfer]
            by_cases hk : k = var.addr
            · rw [if_pos hk, if_pos hk]
            · rw [if_neg hk, if_neg hk, if_neg hk]
        · refine ⟨Lattice.assign (Lattice.index tmp var.addr).2 var.addr .Assigned, [], ?_,
            fun h => assign_sorted _ _ _ (index_sorted _ _ h), ?_⟩
          · simp only [sweepStmt, hm, List.append_nil]
            rw [if_neg hst]
            rfl
          · intro k
            rw [assign_lookup, index_lookup]
            simp only [transfer]
            by_cases hk : k = var.addr
            · rw [if_pos hk, if_pos hk]
            · rw [if_neg hk, if_neg hk, if_neg hk]
    | ResolvedParamDecl d => simp [stmtOk] at hok
    | ResolvedFunctionDecl d => simp [stmtOk] at hok
  | ResolvedReturnStmt location =>
    exact ⟨tmp, [], by rw [List.append_nil]; rfl, fun h => h, fun k => rfl⟩
  | ResolvedIfStmt location =>
    exact ⟨tmp, [], by rw [List.append_nil]; rfl, fun h => h, fun k => rfl⟩
  | ResolvedWhileStmt location =>
    exact ⟨tmp, [], by rw [List.append_nil]; rfl, fun h => h, fun k => rfl⟩
  | ResolvedExpr e =>
    cases e with
    | ResolvedDeclRefExpr dre =>
      obtain ⟨loc, decl⟩ := dre
      cases decl with
      | ResolvedVarDecl var =>
        by_cases hst : (Lattice.index tmp var.addr).1 ≠ .Assigned
        · refine ⟨(Lattice.index tmp var.addr).2,
            [(loc, '\'' :: var.identifier ++ "' is not initialized".toList)], ?_,
            fun h => index_sorted _ _ h, ?_⟩
          · simp only [sweepStmt]
            rw [if_pos hst]
          · intro k
            rw [index_lookup]
            simp only [transfer]
            by_cases hk : k = var.addr
            · rw [if_pos hk, if_pos hk, hk]
            · rw [if_neg hk, if_neg hk]
        · refine ⟨(Lattice.index tmp var.addr).2, [], ?_, fun h => index_sorted _ _ h, ?_⟩
          · simp only [sweepStmt, List.append_nil]
            rw [if_neg hst]
          · intro k
            rw [index_lookup]
            simp only [transfer]
            by_cases hk : k = var.addr
            · rw [if_pos hk, if_pos hk, hk]
            · rw [if_neg hk, if_neg hk]
      | ResolvedParamDecl d =>
        exact ⟨tmp, [], by rw [List.append_nil]; rfl, fun h => h, fun k => rfl⟩
      | ResolvedFunctionDecl d =>
        exact ⟨tmp, [], by rw [List.append_nil]; rfl, fun h => h, fun k => rfl⟩
    | ResolvedCallExpr _ _ _ =>
      exact ⟨tmp, [], by rw [List.append_nil]; rfl, fun h => h, fun k => rfl⟩
    | ResolvedGroupingExpr _ _ =>
      exact ⟨tmp, [], by rw [List.append_nil]; rfl, fun h => h, fun k => rfl⟩
    | ResolvedBinaryOperator _ _ _ _ =>
      exact ⟨tmp, [], by rw [List.append_nil]; rfl, fun h => h, fun k => rfl⟩
    | ResolvedUnaryOperator _ _ _ =>
      exact ⟨tmp, [], by rw [List.append_nil]; rfl, fun h => h, fun k => rfl⟩

theorem sweepStmts_spec (stmts : List ResolvedStmt) :
    ∀ (tmp : Lattice) (pendingErrors : PendingErrors),
      (∀ stmt ∈ stmts, stmtOk stmt = true) →
      ∃ tmp1 more, sweepStmts tmp pendingErrors stmts = .ok (tmp1, pendingErrors ++ more) ∧
        (sortedKeys tmp → sortedKeys tmp1) ∧
        ∀ k, List.lookup k tmp1 = sweepAt k (List.lookup k tmp) stmts := by
  induction stmts with
  | nil =>
    intro tmp pendingErrors _
    exact ⟨tmp, [], by rw [List.append_nil]; rfl, fun h => h, fun k => rfl⟩
  | cons stmt rest ih =>
    intro tmp pendingErrors hok
    obtain ⟨tmp1, more1, h1, h2, h3⟩ :=
      sweepStmt_spec stmt (hok stmt (List.mem_cons_self _ _)) tmp pendingErrors
    obtain ⟨tmp2, more2, h4, h5, h6⟩ := ih tmp1 (pendingErrors ++ more1)
      (fun st hst => hok st (List.mem_cons_of_mem _ hst))
    refine ⟨tmp2, more1 ++ more2, ?_, fun h => h5 (h2 h), ?_⟩
    · unfold sweepStmts
      rw [h1]
      simp only []
      rw [h4, List.append_assoc]
    · intro k
      rw [h6 k, h3 k]
      rfl

theorem blockState_spec (curLattices : List Lattice)
    (hs : ∀ lattice ∈ curLattices, sortedKeys lattice) (block : BasicBlock)
    (hp : ∀ pred ∈ block.predecessors, ∃ lattice, vectorAt curLattices pred.1 = some lattice)
    (hok : ∀ stmt ∈ block.statements, stmtOk stmt = true) (pendingErrors : PendingErrors) :
    ∃ tmp more, blockState curLattices pendingErrors block = .ok (tmp, pendingErrors ++ more) ∧
      sortedKeys tmp ∧ ∀ k, List.lookup k tmp = stateAt curLattices block k := by
  obtain ⟨tmp0, h1, h2, h3⟩ := joinPreds_spec curLattices hs block.predecessors [] hp
  obtain ⟨tmp, more, h4, h5, h6⟩ := sweepStmts_spec block.statements.reverse tmp0 pendingErrors
    (fun st hst => hok st (List.mem_reverse.1 hst))
  refine ⟨tmp, more, ?_, h5 (h2 (by simp [sortedKeys])), ?_⟩
  · unfold blockState
    rw [h1]
    exact h4
  · intro k
    rw [h6 k, h3 k]
    rfl

/-! ## Initialization check: the states only rise -/

theorem leS_refl (a : Option State) : leS a a = true := by
  simp [leS]

theorem leS_none (a : Option State) : leS none a = true := by
  rcases a with _ | a
  · rfl
  · cases a <;> rfl

theorem leS_trans (a b c : Option State) (h1 : leS a b = true) (h2 : leS b c = true) :
    leS a c = true := by
  simp only [leS, Bool.or_eq_true, decide_eq_true_eq] at h1 h2 ⊢
  rcases h1 with h1 | h1
  · rw [h1]; exact h2
  · rcases h2 with h2 | h2
    · rw [← h2]; exact Or.inr h1
    · exact Or.inr (lt_trans h1 h2)

theorem leS_rank (a b : Option State) (h : leS a b = true) : rank a ≤ rank b := by
  simp only [leS, Bool.or_eq_true, decide_eq_true_eq] at h
  rcases h with h | h
  · rw [h]
  · exact le_of_lt h

theorem leS_rank_lt (a b : Option State) (h : leS a b = true) (hne : a ≠ b) :
    rank a < rank b := by
  simp only [leS, Bool.or_eq_true, decide_eq_true_eq] at h
  rcases h with h | h
  · exact absurd h hne
  · exact h

theorem rank_le_three (a : Option State) : rank a ≤ 3 := by
  rcases a with _ | a
  · decide
  · cases a <;> decide

theorem joinOpt_mono (a a1 b b1 : Option State) :
    leS a a1 = true → leS b b1 = true → leS (joinOpt a b) (joinOpt a1 b1) = true := by
  rcases a with _ | a <;> rcases a1 with _ | a1 <;> rcases b with _ | b <;>
    rcases b1 with _ | b1 <;> (try cases a) <;> (try cases a1) <;> (try cases b) <;>
    (try cases b1) <;> decide

theorem getD_mono (a b : Option State) (h : leS a b = true) :
    leS (some (a.getD .Bottom)) (some (b.getD .Bottom)) = true := by
  revert h
  rcases a with _ | a <;> rcases b with _ | b <;> (try cases a) <;> (try cases b) <;> decide

theorem transfer_mono (stmt : ResolvedStmt) (k : Nat) (a b : Option State)
    (h : leS a b = true) : leS (transfer stmt k a) (transfer stmt k b) = true := by
  cases stmt with
  | ResolvedDeclStmt location varDecl =>
    simp only [transfer]
    by_cases hk : k = varDecl.addr
    · rw [if_pos hk, if_pos hk]; exact leS_refl _
    · rw [if_neg hk, if_neg hk]; exact h
  | ResolvedAssignment location v =>
    obtain ⟨loc, decl⟩ := v
    cases decl with
    | ResolvedVarDecl var =>
      simp only [transfer]
      by_cases hk : k = var.addr
      · rw [if_pos hk, if_pos hk]; exact leS_refl _
      · rw [if_neg hk, if_neg hk]; exact h
    | ResolvedParamDecl d => exact h
    | ResolvedFunctionDecl d => exact h
  | ResolvedReturnStmt location => exact h
  | ResolvedIfStmt location => exact h
  | ResolvedWhileStmt location => exact h
  | ResolvedExpr e =>
    cases e with
    | ResolvedDeclRefExpr dre =>
      obtain ⟨loc, decl⟩ := dre
      cases decl with
      | ResolvedVarDecl var =>
        simp only [transfer]
        by_cases hk : k = var.addr
        · rw [if_pos hk, if_pos hk]; exact getD_mono a b h
        · rw [if_neg hk, if_neg hk]; exact h
      | ResolvedParamDecl d => exact h
      | ResolvedFunctionDecl d => exact h
    | ResolvedCallExpr _ _ _ => exact h
    | ResolvedGroupingExpr _ _ => exact h
    | ResolvedBinaryOperator _ _ _ _ => exact h
    | ResolvedUnaryOperator _ _ _ => exact h

theorem sweepAt_mono (k : Nat) (stmts : List ResolvedStmt) :
    ∀ (a b : Option State), leS a b = true → leS (sweepAt k a stmts) (sweepAt k b stmts) = true := by
  induction stmts with
  | nil => intro a b h; exact h
  | cons stmt rest ih =>
    intro a b h
    exact ih _ _ (transfer_mono stmt k a b h)

theorem joinAt_mono (X Y : List Lattice) (k : Nat) (preds : List (Int × Bool))
    (hXY : ∀ pred ∈ preds, leS (List.lookup k ((vectorAt X pred.1).getD []))
      (List.lookup k ((vectorAt Y pred.1).getD [])) = true) :
    ∀ (a b : Option State), leS a b = true →
      leS (joinAt X k a preds) (joinAt Y k b preds) = true := by
  induction preds with
  | nil => intro a b h; exact h
  | cons pred rest ih =>
    intro a b h
    exact ih (fun p hp => hXY p (List.mem_cons_of_mem _ hp)) _ _
      (joinOpt_mono _ _ _ _ h (hXY pred (List.mem_cons_self _ _)))

theorem stateAt_mono (X Y : List Lattice) (block : BasicBlock) (k : Nat)
    (hXY : ∀ pred ∈ block.predecessors, leS (List.lookup k ((vectorAt X pred.1).getD []))
      (List.lookup k ((vectorAt Y pred.1).getD [])) = true) :
    leS (stateAt X block k) (stateAt Y block k) = true :=
  sweepAt_mono k _ _ _ (joinAt_mono X Y k block.predecessors hXY none none (leS_refl _))

theorem transfer_other (stmt : ResolvedStmt) (k : Nat) (a : Option State)
    (h : stmtAddr stmt ≠ some k) : transfer stmt k a = a := by
  cases stmt with
  | ResolvedDeclStmt location varDecl =>
    simp only [stmtAddr, ne_eq, Option.some.injEq] at h
    simp only [transfer]
    rw [if_neg (fun hk => h hk.symm)]
  | ResolvedAssignment location v =>
    obtain ⟨loc, decl⟩ := v
    cases decl with
    | ResolvedVarDecl var =>
      simp only [stmtAddr, ne_eq, Option.some.injEq] at h
      simp only [transfer]
      rw [if_neg (fun hk => h hk.symm)]
    | ResolvedParamDecl d => rfl
    | ResolvedFunctionDecl d => rfl
  | ResolvedReturnStmt location => rfl
  | ResolvedIfStmt location => rfl
  | ResolvedWhileStmt location => rfl
  | ResolvedExpr e =>
    cases e with
    | ResolvedDeclRefExpr dre =>
      obtain ⟨loc, decl⟩ := dre
      cases decl with
      | ResolvedVarDecl var =>
        simp only [stmtAddr, ne_eq, Option.some.injEq] at h
        simp only [transfer]
        rw [if_neg (fun hk => h hk.symm)]
      | ResolvedParamDecl d => rfl
      | ResolvedFunctionDecl d => rfl
    | ResolvedCallExpr _ _ _ => rfl
    | ResolvedGroupingExpr _ _ => rfl
    | ResolvedBinaryOperator _ _ _ _ => rfl
    | ResolvedUnaryOperator _ _ _ => rfl

theorem mem_stmtKeys (stmts : List ResolvedStmt) (k : Nat) :
    k ∈ stmtKeys stmts ↔ ∃ stmt ∈ stmts, stmtAddr stmt = some k := by
  induction stmts with
  | nil => simp [stmtKeys]
  | cons stmt rest ih =>
    unfold stmtKeys
    cases h : stmtAddr stmt with
    | none =>
      simp only []
      rw [ih]
      constructor
      · rintro ⟨st, hst, hk⟩
        exact ⟨st, List.mem_cons_of_mem _ hst, hk⟩
      · rintro ⟨st, hst, hk⟩
        rcases List.mem_cons.1 hst with h1 | h1
        · rw [h1, h] at hk; simp at hk
        · exact ⟨st, h1, hk⟩
    | some k1 =>
      simp only [List.mem_cons]
      rw [ih]
      constructor
      · rintro (h1 | ⟨st, hst, hk⟩)
        · exact ⟨stmt, Or.inl rfl, by rw [h, h1]⟩
        · exact ⟨st, Or.inr hst, hk⟩
      · rintro ⟨st, hst, hk⟩
        rcases hst with h1 | h1
        · rw [h1, h] at hk
          exact Or.inl (Option.some.inj hk).symm
        · exact Or.inr ⟨st, h1, hk⟩

theorem sweepAt_other (k : Nat) (stmts : List ResolvedStmt) :
    ∀ (a : Option State), (∀ stmt ∈ stmts, stmtAddr stmt ≠ some k) → sweepAt k a stmts = a := by
  induction stmts with
  | nil => intro a _; rfl
  | cons stmt rest ih =>
    intro a h
    unfold sweepAt
    rw [transfer_other stmt k a (h stmt (List.mem_cons_self _ _))]
    exact ih a (fun st hst => h st (List.mem_cons_of_mem _ hst))

theorem joinAt_none (X : List Lattice) (k : Nat) (preds : List (Int × Bool))
    (h : ∀ lattice ∈ X, List.lookup k lattice = none) : joinAt X k none preds = none := by
  induction preds with
  | nil => rfl
  | cons pred rest ih =>
    unfold joinAt
    have : List.lookup k ((vectorAt X pred.1).getD []) = none := by
      cases hv : vectorAt X pred.1 with
      | none => rfl
      | some lattice => exact h lattice (vectorAt_mem _ _ _ hv)
    rw [this]
    exact ih

theorem mem_blockKeys (blocks : List BasicBlock) (block : BasicBlock) (k : Nat)
    (hb : block ∈ blocks) (hk : k ∈ stmtKeys block.statements) : k ∈ blockKeys blocks := by
  induction blocks with
  | nil => simp at hb
  | cons b rest ih =>
    unfold blockKeys
    rcases List.mem_cons.1 hb with h | h
    · rw [← h]; exact List.mem_append_left _ hk
    · exact List.mem_append_right _ (ih h)

theorem stateAt_none (X : List Lattice) (blocks : List BasicBlock) (block : BasicBlock)
    (hb : block ∈ blocks) (k : Nat) (hk : k ∉ blockKeys blocks)
    (h : ∀ lattice ∈ X, List.lookup k lattice = none) : stateAt X block k = none := by
  unfold stateAt
  rw [joinAt_none X k _ h]
  apply sweepAt_other
  intro stmt hstmt haddr
  exact hk (mem_blockKeys blocks block k hb
    ((mem_stmtKeys _ _).2 ⟨stmt, List.mem_reverse.1 hstmt, haddr⟩))

theorem length_stmtKeys_le (stmts : List ResolvedStmt) :
    (stmtKeys stmts).length ≤ stmts.length := by
  induction stmts with
  | nil => simp [stmtKeys]
  | cons stmt rest ih =>
    unfold stmtKeys
    cases stmtAddr stmt with
    | none => simp only [List.length_cons]; omega
    | some k => simp only [List.length_cons]; omega

theorem length_blockKeys_le (blocks : List BasicBlock) :
    (blockKeys blocks).length ≤ (blocks.map (fun b => b.statements.length)).sum := by
  induction blocks with
  | nil => simp [blockKeys]
  | cons b rest ih =>
    unfold blockKeys
    have := length_stmtKeys_le b.statements
    simp only [List.length_append, List.map_cons, List.sum_cons]
    omega

theorem mu_le (keys : List Nat) (m m1 : Lattice)
    (h : ∀ k, leS (List.lookup k m) (List.lookup k m1) = true) : mu keys m ≤ mu keys m1 := by
  induction keys with
  | nil => simp [mu]
  | cons k rest ih =>
    have := leS_rank _ _ (h k)
    simp only [mu, List.map_cons, List.sum_cons] at ih ⊢
    omega

theorem mu_lt (keys : List Nat) (m m1 : Lattice)
    (h : ∀ k, leS (List.lookup k m) (List.lookup k m1) = true) (k0 : Nat) (hk0 : k0 ∈ keys)
    (hne : List.lookup k0 m ≠ List.lookup k0 m1) : mu keys m < mu keys m1 := by
  induction keys with
  | nil => simp at hk0
  | cons k rest ih =>
    have hle := mu_le rest m m1 h
    simp only [mu, List.map_cons, List.sum_cons] at ih hle ⊢
    rcases List.mem_cons.1 hk0 with h1 | h1
    · subst h1
      have := leS_rank_lt _ _ (h k0) hne
      omega
    · have := leS_rank _ _ (h k)
      have := ih h1
      omega

theorem mu_bound (keys : List Nat) (m : Lattice) : mu keys m ≤ 3 * keys.length := by
  induction keys with
  | nil => simp [mu]
  | cons k rest ih =>
    have := rank_le_three (List.lookup k m)
    simp only [mu, List.map_cons, List.sum_cons, List.length_cons] at ih ⊢
    omega

theorem total_bound (keys : List Nat) (X : List Lattice) :
    total keys X ≤ 3 * keys.length * X.length := by
  induction X with
  | nil => simp [total]
  | cons m rest ih =>
    have := mu_bound keys m
    simp only [total, List.length_cons]
    rw [Nat.mul_succ]
    omega

theorem total_set (keys : List Nat) (X : List Lattice) :
    ∀ (i : Nat) (lattice tmp : Lattice), X.get? i = some lattice →
      total keys (X.set i tmp) + mu keys lattice = total keys X + mu keys tmp := by
  induction X with
  | nil => intro i lattice tmp h; simp at h
  | cons m rest ih =>
    intro i lattice tmp h
    cases i with
    | zero =>
      simp only [List.get?_cons_zero, Option.some.injEq] at h
      subst h
      simp only [List.set_cons_zero, total]
      omega
    | succ i =>
      rw [List.get?_cons_succ] at h
      have := ih i lattice tmp h
      simp only [List.set_cons_succ, total]
      omega

/-! ## Initialization check: the loops return -/

theorem vectorAt_set_self {α : Type} (v : List α) (i : Int) (x y : α)
    (h : vectorAt v i = some x) : vectorAt (vectorSet v i y) i = some y := by
  rw [vectorAt_some_iff] at h ⊢
  refine ⟨h.1, ?_⟩
  unfold vectorSet
  rw [List.get?_eq_getElem?, List.getElem?_set]
  have hlt : i.toNat < v.length := by
    have := h.2
    rw [List.get?_eq_getElem?] at this
    exact (List.getElem?_eq_some_iff.1 this).1
  simp [hlt]

theorem vectorAt_set_other {α : Type} (v : List α) (i j : Int) (y : α) (hi : 0 ≤ i)
    (hne : j ≠ i) : vectorAt (vectorSet v i y) j = vectorAt v j := by
  unfold vectorAt vectorSet
  by_cases hj : 0 ≤ j
  · rw [if_pos hj, if_pos hj, List.get?_eq_getElem?, List.get?_eq_getElem?,
      List.getElem?_set_ne]
    omega
  · rw [if_neg hj, if_neg hj]

theorem validForInitialization_iff (cfg : CFG) (h : cfg.validForInitialization = true) :
    (-1 ≤ cfg.exit ∧ cfg.exit ≤ cfg.entry ∧ cfg.entry < cfg.basicBlocks.length) ∧
    (∀ block ∈ cfg.basicBlocks, ∀ pred ∈ block.predecessors,
      0 ≤ pred.1 ∧ pred.1 < cfg.basicBlocks.length) ∧
    (∀ block ∈ cfg.basicBlocks, ∀ stmt ∈ block.statements, stmtOk stmt = true) := by
  simp only [CFG.validForInitialization, CFG.validIndex, Bool.and_eq_true, decide_eq_true_eq,
    List.all_eq_true] at h
  exact ⟨h.1, fun block hb pred hp => (h.2 block hb).1 pred hp,
    fun block hb stmt hs => (h.2 block hb).2 stmt hs⟩

theorem forBlocks_spec (cfg : CFG) (hvalid : cfg.validForInitialization = true) :
    ∀ (fuel : Nat) (bb : Int) (X : List Lattice) (changed : Bool)
      (pendingErrors : PendingErrors),
      FlowInv cfg X → cfg.exit ≤ bb → bb ≤ cfg.entry → (bb - cfg.exit).toNat < fuel →
      ∃ X1 changed1 pendingErrors1,
        forBlocks cfg fuel bb X changed pendingErrors = .ok (X1, changed1, pendingErrors1) ∧
        FlowInv cfg X1 ∧
        total (blockKeys cfg.basicBlocks) X ≤ total (blockKeys cfg.basicBlocks) X1 ∧
        (changed1 = true → changed = true ∨
          total (blockKeys cfg.basicBlocks) X < total (blockKeys cfg.basicBlocks) X1) := by
  obtain ⟨hx, hp, hok⟩ := validForInitialization_iff cfg hvalid
  intro fuel
  induction fuel with
  | zero => intro bb X changed pendingErrors _ _ _ h; omega
  | succ fuel ih =>
    intro bb X changed pendingErrors inv hlo hhi hfuel
    unfold forBlocks
    by_cases hexit : bb = cfg.exit
    · rw [if_pos hexit]
      exact ⟨X, changed, pendingErrors, rfl, inv, le_refl _, fun h => Or.inl h⟩
    · rw [if_neg hexit]
      have hbb0 : 0 ≤ bb := by omega
      have hbbn : bb < cfg.basicBlocks.length := by omega
      obtain ⟨block, hblock⟩ := vectorAt_isSome cfg.basicBlocks bb hbb0 hbbn
      have hbmem : block ∈ cfg.basicBlocks := vectorAt_mem _ _ _ hblock
      have hpred : ∀ pred ∈ block.predecessors,
          ∃ lattice, vectorAt X pred.1 = some lattice := by
        intro pred hpr
        have := hp block hbmem pred hpr
        exact vectorAt_isSome X pred.1 this.1 (by rw [inv.length_eq]; exact this.2)
      obtain ⟨tmp, more, hstate, htmps, htmpl⟩ :=
        blockState_spec X inv.sorted block hpred (hok block hbmem) pendingErrors
      obtain ⟨lattice, hlattice⟩ :=
        vectorAt_isSome X bb hbb0 (by rw [inv.length_eq]; exact hbbn)
      rw [hblock]
      simp only []
      rw [hstate]
      simp only []
      rw [hlattice]
      simp only []
      by_cases heq : lattice = tmp
      · rw [if_neg (not_not.2 heq)]
        exact ih (bb - 1) X changed _ inv (by omega) (by omega) (by omega)
      · rw [if_pos heq]
        have hkeys : ∀ k, k ∉ blockKeys cfg.basicBlocks → List.lookup k tmp = none := by
          intro k hk
          rw [htmpl k]
          exact stateAt_none X cfg.basicBlocks block hbmem k hk
            (fun l hl => inv.keys l hl k hk)
        have hrise : ∀ k, leS (List.lookup k lattice) (List.lookup k tmp) = true := by
          intro k
          rw [htmpl k]
          exact inv.below bb lattice block (by omega) hhi hlattice hblock k
        have hself : vectorAt (vectorSet X bb tmp) bb = some tmp :=
          vectorAt_set_self X bb lattice tmp hlattice
        have hXX1 : ∀ (p : Int) (k : Nat),
            leS (List.lookup k ((vectorAt X p).getD []))
              (List.lookup k ((vectorAt (vectorSet X bb tmp) p).getD [])) = true := by
          intro p k
          by_cases hpb : p = bb
          · rw [hpb, hlattice, hself]
            exact hrise k
          · rw [vectorAt_set_other X bb p tmp hbb0 hpb]
            exact leS_refl _
        have inv1 : FlowInv cfg (vectorSet X bb tmp) := by
          refine ⟨?_, ?_, ?_, ?_⟩
          · unfold vectorSet
            rw [List.length_set]
            exact inv.length_eq
          · intro l hl
            rcases List.mem_or_eq_of_mem_set hl with h | h
            · exact inv.sorted l h
            · rw [h]; exact htmps
          · intro l hl
            rcases List.mem_or_eq_of_mem_set hl with h | h
            · exact inv.keys l h
            · rw [h]; exact hkeys
          · intro b l blk hb1 hb2 hl hblk k
            have hmono := stateAt_mono X (vectorSet X bb tmp) blk k
              (fun pred _ => hXX1 pred.1 k)
            by_cases hbb : b = bb
            · subst hbb
              rw [hself] at hl
              rw [hblock] at hblk
              rw [← Option.some.inj hl, ← Option.some.inj hblk, htmpl k]
              rw [← Option.some.inj hblk] at hmono
              exact hmono
            · rw [vectorAt_set_other X bb b tmp hbb0 hbb] at hl
              exact leS_trans _ _ _ (inv.below b l blk hb1 hb2 hl hblk k) hmono
        have hlt : mu (blockKeys cfg.basicBlocks) lattice
            < mu (blockKeys cfg.basicBlocks) tmp := by
          have hdiff : ∃ k, List.lookup k lattice ≠ List.lookup k tmp := by
            by_contra hcon
            apply heq
            apply sorted_ext lattice tmp (inv.sorted lattice (vectorAt_mem _ _ _ hlattice)) htmps
            intro k
            by_contra hk
            exact hcon ⟨k, hk⟩
          obtain ⟨k0, hk0⟩ := hdiff
          have hmem : k0 ∈ blockKeys cfg.basicBlocks := by
            by_contra hk
            apply hk0
            rw [inv.keys lattice (vectorAt_mem _ _ _ hlattice) k0 hk, hkeys k0 hk]
          exact mu_lt _ lattice tmp hrise k0 hmem hk0
        have htotal := total_set (blockKeys cfg.basicBlocks) X bb.toNat lattice tmp
          ((vectorAt_some_iff _ _ _).1 hlattice).2
        have htotal1 : total (blockKeys cfg.basicBlocks) X
            < total (blockKeys cfg.basicBlocks) (vectorSet X bb tmp) := by
          unfold vectorSet
          omega
        obtain ⟨X2, changed2, errs2, h1, h2, h3, _⟩ :=
          ih (bb - 1) (vectorSet X bb tmp) true (pendingErrors ++ more) inv1
            (by omega) (by omega) (by omega)
        exact ⟨X2, changed2, errs2, h1, h2, by omega, fun _ => Or.inr (by omega)⟩

theorem forBlocks_changed_true (cfg : CFG) :
    ∀ (fuel : Nat) (bb : Int) (X : List Lattice) (pendingErrors : PendingErrors)
      (X1 : List Lattice) (changed1 : Bool) (pendingErrors1 : PendingErrors),
      forBlocks cfg fuel bb X true pendingErrors = .ok (X1, changed1, pendingErrors1) →
      changed1 = true := by
  intro fuel
  induction fuel with
  | zero =>
    intro bb X pendingErrors X1 changed1 pendingErrors1 h
    simp [forBlocks] at h
  | succ fuel ih =>
    intro bb X pendingErrors X1 changed1 pendingErrors1 h
    unfold forBlocks at h
    by_cases hexit : bb = cfg.exit
    · rw [if_pos hexit] at h
      simp only [Except.ok.injEq, Prod.mk.injEq] at h
      exact h.2.1.symm
    · rw [if_neg hexit] at h
      cases hblock : vectorAt cfg.basicBlocks bb with
      | none => rw [hblock] at h; simp at h
      | some block =>
        rw [hblock] at h
        simp only [] at h
        cases hstate : blockState X pendingErrors block with
        | error e => rw [hstate] at h; simp at h
        | ok r =>
          obtain ⟨tmp, errs⟩ := r
          rw [hstate] at h
          simp only [] at h
          cases hlattice : vectorAt X bb with
          | none => rw [hlattice] at h; simp at h
          | some lattice =>
            rw [hlattice] at h
            simp only [] at h
            by_cases heq : lattice ≠ tmp
            · rw [if_pos heq] at h
              exact ih _ _ _ _ _ _ h
            · rw [if_neg heq] at h
              exact ih _ _ _ _ _ _ h

theorem forBlocks_final (cfg : CFG) (hvalid : cfg.validForInitialization = true) :
    ∀ (fuel : Nat) (bb : Int) (X : List Lattice) (changed : Bool)
      (pendingErrors : PendingErrors) (X1 : List Lattice) (pendingErrors1 : PendingErrors),
      FlowInv cfg X → cfg.exit ≤ bb → bb ≤ cfg.entry →
      forBlocks cfg fuel bb X changed pendingErrors = .ok (X1, false, pendingErrors1) →
      X1 = X ∧ changed = false ∧ (∀ e ∈ pendingErrors, e ∈ pendingErrors1) ∧
      ∀ (b : Int) (block : BasicBlock), cfg.exit < b → b ≤ bb →
        vectorAt cfg.basicBlocks b = some block →
        ∃ errs0 tmp more, blockState X errs0 block = .ok (tmp, errs0 ++ more) ∧
          vectorAt X b = some tmp ∧ ∀ e ∈ errs0 ++ more, e ∈ pendingErrors1 := by
  obtain ⟨hx, hp, hok⟩ := validForInitialization_iff cfg hvalid
  intro fuel
  induction fuel with
  | zero =>
    intro bb X changed pendingErrors X1 pendingErrors1 _ _ _ h
    simp [forBlocks] at h
  | succ fuel ih =>
    intro bb X changed pendingErrors X1 pendingErrors1 inv hlo hhi h
    unfold forBlocks at h
    by_cases hexit : bb = cfg.exit
    · rw [if_pos hexit] at h
      simp only [Except.ok.injEq, Prod.mk.injEq] at h
      refine ⟨h.1.symm, h.2.1, fun e he => h.2.2 ▸ he, ?_⟩
      intro b block hb1 hb2 _
      omega
    · rw [if_neg hexit] at h
      have hbb0 : 0 ≤ bb := by omega
      have hbbn : bb < cfg.basicBlocks.length := by omega
      obtain ⟨block, hblock⟩ := vectorAt_isSome cfg.basicBlocks bb hbb0 hbbn
      have hbmem : block ∈ cfg.basicBlocks := vectorAt_mem _ _ _ hblock
      have hpred : ∀ pred ∈ block.predecessors,
          ∃ lattice, vectorAt X pred.1 = some lattice := by
        intro pred hpr
        have := hp block hbmem pred hpr
        exact vectorAt_isSome X pred.1 this.1 (by rw [inv.length_eq]; exact this.2)
      obtain ⟨tmp, more, hstate, _, _⟩ :=
        blockState_spec X inv.sorted block hpred (hok block hbmem) pendingErrors
      obtain ⟨lattice, hlattice⟩ :=
        vectorAt_isSome X bb hbb0 (by rw [inv.length_eq]; exact hbbn)
      rw [hblock] at h
      simp only [] at h
      rw [hstate] at h
      simp only [] at h
      rw [hlattice] at h
      simp only [] at h
      by_cases heq : lattice = tmp
      · rw [if_neg (not_not.2 heq)] at h
        obtain ⟨h1, h2, h3, h4⟩ :=
          ih (bb - 1) X changed _ X1 pendingErrors1 inv (by omega) (by omega) h
        refine ⟨h1, h2, fun e he => h3 e (List.mem_append_left _ he), ?_⟩
        intro b blk hb1 hb2 hblk
        by_cases hbb : b = bb
        · subst hbb
          rw [hblock] at hblk
          rw [← Option.some.inj hblk]
          exact ⟨pendingErrors, tmp, more, hstate, by rw [hlattice, heq], h3⟩
        · exact h4 b blk hb1 (by omega) hblk
      · rw [if_pos heq] at h
        have := forBlocks_changed_true cfg _ _ _ _ _ _ _ h
        simp at this

theorem whileChanged_spec (cfg : CFG) (hvalid : cfg.validForInitialization = true) :
    ∀ (fuel : Nat) (X : List Lattice), FlowInv cfg X →
      3 * (blockKeys cfg.basicBlocks).length * cfg.basicBlocks.length
        - total (blockKeys cfg.basicBlocks) X < fuel →
      ∃ L errs, whileChanged cfg fuel X = .ok (L, errs) ∧ FlowInv cfg L ∧
        pass cfg L = .ok (L, false, errs) := by
  obtain ⟨hx, _, _⟩ := validForInitialization_iff cfg hvalid
  intro fuel
  induction fuel with
  | zero => intro X _ h; omega
  | succ fuel ih =>
    intro X inv hfuel
    obtain ⟨X1, changed1, errs1, hpass, inv1, hle, hch⟩ :=
      forBlocks_spec cfg hvalid (cfg.entry.toNat + 2) cfg.entry X false [] inv hx.2.1
        (le_refl _) (by omega)
    unfold whileChanged
    have hpass1 : pass cfg X = .ok (X1, changed1, errs1) := hpass
    rw [hpass1]
    simp only []
    cases changed1 with
    | false =>
      simp only [Bool.false_eq_true, if_false]
      have hX := (forBlocks_final cfg hvalid _ _ _ _ _ _ _ inv hx.2.1 (le_refl _) hpass).1
      refine ⟨X1, errs1, rfl, inv1, ?_⟩
      rw [hX]
      rw [hX] at hpass1
      exact hpass1
    | true =>
      simp only [if_true]
      apply ih X1 inv1
      have hb := total_bound (blockKeys cfg.basicBlocks) X1
      rw [inv1.length_eq] at hb
      rcases hch rfl with h | h
      · simp at h
      · omega

theorem flowInv_start (cfg : CFG) :
    FlowInv cfg (List.replicate cfg.basicBlocks.length []) := by
  refine ⟨List.length_replicate _ _, ?_, ?_, ?_⟩
  · intro l hl
    rw [List.eq_of_mem_replicate hl]
    simp [sortedKeys]
  · intro l hl k _
    rw [List.eq_of_mem_replicate hl]
    rfl
  · intro b l block _ _ hl _ k
    rw [List.eq_of_mem_replicate (vectorAt_mem _ _ _ hl)]
    exact leS_none _

theorem fixedPoint_returns (cfg : CFG) (hvalid : cfg.validForInitialization = true) :
    ∃ L errs, fixedPoint cfg = .ok (L, errs) ∧ FlowInv cfg L ∧
      pass cfg L = .ok (L, false, errs) := by
  apply whileChanged_spec cfg hvalid _ _ (flowInv_start cfg)
  have h1 := length_blockKeys_le cfg.basicBlocks
  have h2 : 3 * (blockKeys cfg.basicBlocks).length * cfg.basicBlocks.length
      ≤ 3 * cfg.basicBlocks.length * stmtCount cfg := by
    unfold stmtCount
    calc 3 * (blockKeys cfg.basicBlocks).length * cfg.basicBlocks.length
        = 3 * cfg.basicBlocks.length * (blockKeys cfg.basicBlocks).length := by ring
      _ ≤ _ := Nat.mul_le_mul_left _ h1
  omega

/-! ## Initialization check: a reference under conflicting predecessors -/

theorem joinOpt_ge_left (a b : Option State) : leS a (joinOpt a b) = true := by
  rcases a with _ | a <;> rcases b with _ | b <;> (try cases a) <;> (try cases b) <;> decide

theorem joinOpt_ge_right (a b : Option State) : leS b (joinOpt a b) = true := by
  rcases a with _ | a <;> rcases b with _ | b <;> (try cases a) <;> (try cases b) <;> decide

theorem joinAt_ge_init (X : List Lattice) (k : Nat) (preds : List (Int × Bool)) :
    ∀ a, leS a (joinAt X k a preds) = true := by
  induction preds with
  | nil => intro a; exact leS_refl a
  | cons pred rest ih =>
    intro a
    exact leS_trans _ _ _ (joinOpt_ge_left a _) (ih _)

theorem joinAt_ge_pred (X : List Lattice) (k : Nat) (preds : List (Int × Bool))
    (pred : Int × Bool) (hp : pred ∈ preds) :
    ∀ a, leS (List.lookup k ((vectorAt X pred.1).getD [])) (joinAt X k a preds) = true := by
  induction preds with
  | nil => simp at hp
  | cons p rest ih =>
    intro a
    rcases List.mem_cons.1 hp with h | h
    · rw [h]
      exact leS_trans _ _ _ (joinOpt_ge_right a _) (joinAt_ge_init X k rest _)
    · exact ih h _

end Sema

/-! ## Parser: the text of a leaf -/

theorem parsePrefixExpr_leaf_text (p : Parser) (next : Token) (rest : List Token)
    (hl : p.lexer = next :: rest)
    (hk : p.nextToken.kind = .Identifier ∨ p.nextToken.kind = .IntegerLiteral) :
    (next.value = none → parsePrefixExpr p = .error .emptyOptional) ∧
    (∀ text, next.value = some text →
      parsePrefixExpr p
        = .ok (some (if p.nextToken.kind = .Identifier
                      then .DeclRefExpr ⟨p.nextToken.location, text⟩
                      else .IntegerLiteral p.nextToken.location text),
               { p with lexer := rest, nextToken := next })) := by
  have hfuel : parseFuel p = (3 * p.lexer.length + 3) + 1 := rfl
  refine ⟨?_, ?_⟩
  · intro hv
    unfold parsePrefixExpr
    rw [hfuel, parsePrefixExprFuel]
    rcases hk with h | h
    · simp [h, eatNextToken, hl, hv]
    · simp [h, eatNextToken, hl, hv]
  · intro text hv
    unfold parsePrefixExpr
    rw [hfuel, parsePrefixExprFuel]
    rcases hk with h | h
    · simp [h, eatNextToken, hl, hv]
    · simp [h, eatNextToken, hl, hv]

/-- C30 (what the code does). `parsePrefixExpr` eats the identifier or the
literal first and then reads `*nextToken.value`: the leaf holds the text of
the token that follows the one consumed. The identifier `x` followed by the
identifier `y` gives a reference to `y`; the literal `3` followed by the
literal `4` gives the literal `4`; the literal `3` followed by `*`, which has
no text, gives no leaf, and on the tokens of `3 * 4` `parseExpr` returns no
tree. -/
theorem c30_leaf_holds_text_of_next_token :
    parsePrefixExpr
      { lexer := [tokv 2 .Identifier "y", tok 3 .Eof], nextToken := tokv 1 .Identifier "x" }
      = .ok (some (.DeclRefExpr ⟨⟨"t", 1, 1⟩, "y".toList⟩),
             { lexer := [tok 3 .Eof], nextToken := tokv 2 .Identifier "y" }) ∧
    parsePrefixExpr
      { lexer := [tokv 2 .IntegerLiteral "4", tok 3 .Eof],
        nextToken := tokv 1 .IntegerLiteral "3" }
      = .ok (some (.IntegerLiteral ⟨"t", 1, 1⟩ "4".toList),
             { lexer := [tok 3 .Eof], nextToken := tokv 2 .IntegerLiteral "4" }) ∧
    parsePrefixExpr
      { lexer := [tok 2 .Asterisk, tokv 3 .IntegerLiteral "4", tok 4 .Eof],
        nextToken := tokv 1 .IntegerLiteral "3" }
      = .error .emptyOptional ∧
    parseExpr
      { lexer := [tok 2 .Asterisk, tokv 3 .IntegerLiteral "4", tok 4 .Eof],
        nextToken := tokv 1 .IntegerLiteral "3" }
      = .error .emptyOptional :=
  ⟨rfl, rfl, rfl, rfl⟩

namespace Sema

/-! ## Initialization check: the loop stops -/

theorem validForFlow_iff (cfg : CFG) (h : cfg.validForFlow = true) :
    (-1 ≤ cfg.exit ∧ cfg.exit ≤ cfg.entry ∧ cfg.entry < cfg.basicBlocks.length) ∧
    (∀ block ∈ cfg.basicBlocks, ∀ pred ∈ block.predecessors,
      0 ≤ pred.1 ∧ pred.1 < cfg.basicBlocks.length) := by
  simp only [CFG.validForFlow, CFG.validIndex, Bool.and_eq_true, decide_eq_true_eq,
    List.all_eq_true] at h
  exact ⟨h.1, fun block hb pred hp => h.2 block hb pred hp⟩

theorem validForFlow_of_initialization (cfg : CFG) (h : cfg.validForInitialization = true) :
    cfg.validForFlow = true := by
  obtain ⟨h1, h2, _⟩ := validForInitialization_iff cfg h
  simp only [CFG.validForFlow, CFG.validIndex, Bool.and_eq_true, decide_eq_true_eq,
    List.all_eq_true]
  exact ⟨h1, fun block hb pred hp => h2 block hb pred hp⟩

theorem sweepStmt_asserts (stmt : ResolvedStmt) (hbad : stmtOk stmt = false) (tmp : Lattice)
    (pendingErrors : PendingErrors) :
    sweepStmt tmp pendingErrors stmt
      = .error (.assertion "assignment to non-variables should have been caught by sema") := by
  cases stmt with
  | ResolvedAssignment location v =>
    obtain ⟨loc, decl⟩ := v
    cases decl with
    | ResolvedVarDecl var => simp [stmtOk] at hbad
    | ResolvedParamDecl d => rfl
    | ResolvedFunctionDecl d => rfl
  | ResolvedDeclStmt location varDecl => simp [stmtOk] at hbad
  | ResolvedReturnStmt location => simp [stmtOk] at hbad
  | ResolvedIfStmt location => simp [stmtOk] at hbad
  | ResolvedWhileStmt location => simp [stmtOk] at hbad
  | ResolvedExpr e => simp [stmtOk] at hbad

theorem sweepStmts_asserts (stmts : List ResolvedStmt) :
    ∀ (tmp : Lattice) (pendingErrors : PendingErrors),
      (∃ stmt ∈ stmts, stmtOk stmt = false) →
      sweepStmts tmp pendingErrors stmts
        = .error (.assertion "assignment to non-variables should have been caught by sema") := by
  induction stmts with
  | nil => intro tmp pendingErrors h; simp at h
  | cons stmt rest ih =>
    intro tmp pendingErrors h
    unfold sweepStmts
    cases hok : stmtOk stmt with
    | false => rw [sweepStmt_asserts stmt hok]
    | true =>
      obtain ⟨tmp1, more, h1, _, _⟩ := sweepStmt_spec stmt hok tmp pendingErrors
      rw [h1]
      simp only []
      apply ih
      obtain ⟨st, hst, hbad⟩ := h
      rcases List.mem_cons.1 hst with h2 | h2
      · rw [h2, hok] at hbad
        exact absurd hbad (by decide)
      · exact ⟨st, h2, hbad⟩

theorem blockState_asserts (curLattices : List Lattice)
    (hs : ∀ lattice ∈ curLattices, sortedKeys lattice) (block : BasicBlock)
    (hp : ∀ pred ∈ block.predecessors, ∃ lattice, vectorAt curLattices pred.1 = some lattice)
    (hbad : ∃ stmt ∈ block.statements, stmtOk stmt = false) (pendingErrors : PendingErrors) :
    blockState curLattices pendingErrors block
      = .error (.assertion "assignment to non-variables should have been caught by sema") := by
  obtain ⟨tmp0, h1, _, _⟩ := joinPreds_spec curLattices hs block.predecessors [] hp
  unfold blockState
  rw [h1]
  apply sweepStmts_asserts
  obtain ⟨st, hst, hb⟩ := hbad
  exact ⟨st, List.mem_reverse.2 hst, hb⟩

theorem flowInv_set (cfg : CFG) (X : List Lattice) (inv : FlowInv cfg X) (bb : Int)
    (block : BasicBlock) (lattice tmp : Lattice) (hbb0 : 0 ≤ bb) (hb1 : cfg.exit < bb)
    (hb2 : bb ≤ cfg.entry) (hblock : vectorAt cfg.basicBlocks bb = some block)
    (hlattice : vectorAt X bb = some lattice) (htmps : sortedKeys tmp)
    (htmpl : ∀ k, List.lookup k tmp = stateAt X block k) (heq : lattice ≠ tmp) :
    FlowInv cfg (vectorSet X bb tmp) ∧
    total (blockKeys cfg.basicBlocks) X
      < total (blockKeys cfg.basicBlocks) (vectorSet X bb tmp) ∧
    ∀ (p : Int) (k : Nat), leS (List.lookup k ((vectorAt X p).getD []))
      (List.lookup k ((vectorAt (vectorSet X bb tmp) p).getD [])) = true := by
  have hbmem : block ∈ cfg.basicBlocks := vectorAt_mem _ _ _ hblock
  have hkeys : ∀ k, k ∉ blockKeys cfg.basicBlocks → List.lookup k tmp = none := by
    intro k hk
    rw [htmpl k]
    exact stateAt_none X cfg.basicBlocks block hbmem k hk (fun l hl => inv.keys l hl k hk)
  have hrise : ∀ k, leS (List.lookup k lattice) (List.lookup k tmp) = true := by
    intro k
    rw [htmpl k]
    exact inv.below bb lattice block hb1 hb2 hlattice hblock k
  have hself : vectorAt (vectorSet X bb tmp) bb = some tmp :=
    vectorAt_set_self X bb lattice tmp hlattice
  have hXX1 : ∀ (p : Int) (k : Nat),
      leS (List.lookup k ((vectorAt X p).getD []))
        (List.lookup k ((vectorAt (vectorSet X bb tmp) p).getD [])) = true := by
    intro p k
    by_cases hpb : p = bb
    · rw [hpb, hlattice, hself]
      exact hrise k
    · rw [vectorAt_set_other X bb p tmp hbb0 hpb]
      exact leS_refl _
  refine ⟨⟨?_, ?_, ?_, ?_⟩, ?_, hXX1⟩
  · unfold vectorSet
    rw [List.length_set]
    exact inv.length_eq
  · intro l hl
    rcases List.mem_or_eq_of_mem_set hl with h | h
    · exact inv.sorted l h
    · rw [h]; exact htmps
  · intro l hl
    rcases List.mem_or_eq_of_mem_set hl with h | h
    · exact inv.keys l h
    · rw [h]; exact hkeys
  · intro b l blk hb1 hb2 hl hblk k
    have hmono := stateAt_mono X (vectorSet X bb tmp) blk k (fun pred _ => hXX1 pred.1 k)
    by_cases hbb : b = bb
    · subst hbb
      rw [hself] at hl
      rw [hblock] at hblk
      rw [← Option.some.inj hl, ← Option.some.inj hblk, htmpl k]
      rw [← Option.some.inj hblk] at hmono
      exact hmono
    · rw [vectorAt_set_other X bb b tmp hbb0 hbb] at hl
      exact leS_trans _ _ _ (inv.below b l blk hb1 hb2 hl hblk k) hmono
  · have hdiff : ∃ k, List.lookup k lattice ≠ List.lookup k tmp := by
      by_contra hcon
      apply heq
      apply sorted_ext lattice tmp (inv.sorted lattice (vectorAt_mem _ _ _ hlattice)) htmps
      intro k
      by_contra hk
      exact hcon ⟨k, hk⟩
    obtain ⟨k0, hk0⟩ := hdiff
    have hmem : k0 ∈ blockKeys cfg.basicBlocks := by
      by_contra hk
      apply hk0
      rw [inv.keys lattice (vectorAt_mem _ _ _ hlattice) k0 hk, hkeys k0 hk]
    have hlt := mu_lt _ lattice tmp hrise k0 hmem hk0
    have htotal := total_set (blockKeys cfg.basicBlocks) X bb.toNat lattice tmp
      ((vectorAt_some_iff _ _ _).1 hlattice).2
    unfold vectorSet
    omega

theorem forBlocks_stops (cfg : CFG) (hvalid : cfg.validForFlow = true) :
    ∀ (fuel : Nat) (bb : Int) (X : List Lattice) (changed : Bool)
      (pendingErrors : PendingErrors),
      FlowInv cfg X → cfg.exit ≤ bb → bb ≤ cfg.entry → (bb - cfg.exit).toNat < fuel →
      (∃ X1 changed1 pendingErrors1,
        forBlocks cfg fuel bb X changed pendingErrors = .ok (X1, changed1, pendingErrors1) ∧
        FlowInv cfg X1 ∧
        total (blockKeys cfg.basicBlocks) X ≤ total (blockKeys cfg.basicBlocks) X1 ∧
        (changed1 = true → changed = true ∨
          total (blockKeys cfg.basicBlocks) X < total (blockKeys cfg.basicBlocks) X1) ∧
        ∀ (p : Int) (k : Nat), leS (List.lookup k ((vectorAt X p).getD []))
          (List.lookup k ((vectorAt X1 p).getD [])) = true) ∨
      forBlocks cfg fuel bb X changed pendingErrors
        = .error (.assertion "assignment to non-variables should have been caught by sema") := by
  obtain ⟨hx, hp⟩ := validForFlow_iff cfg hvalid
  intro fuel
  induction fuel with
  | zero => intro bb X changed pendingErrors _ _ _ h; omega
  | succ fuel ih =>
    intro bb X changed pendingErrors inv hlo hhi hfuel
    unfold forBlocks
    by_cases hexit : bb = cfg.exit
    · rw [if_pos hexit]
      exact Or.inl ⟨X, changed, pendingErrors, rfl, inv, le_refl _, fun h => Or.inl h,
        fun p k => leS_refl _⟩
    · rw [if_neg hexit]
      have hbb0 : 0 ≤ bb := by omega
      have hbbn : bb < cfg.basicBlocks.length := by omega
      obtain ⟨block, hblock⟩ := vectorAt_isSome cfg.basicBlocks bb hbb0 hbbn
      have hbmem : block ∈ cfg.basicBlocks := vectorAt_mem _ _ _ hblock
      have hpred : ∀ pred ∈ block.predecessors,
          ∃ lattice, vectorAt X pred.1 = some lattice := by
        intro pred hpr
        have := hp block hbmem pred hpr
        exact vectorAt_isSome X pred.1 this.1 (by rw [inv.length_eq]; exact this.2)
      rw [hblock]
      simp only []
      by_cases hall : ∀ stmt ∈ block.statements, stmtOk stmt = true
      · obtain ⟨tmp, more, hstate, htmps, htmpl⟩ :=
          blockState_spec X inv.sorted block hpred hall pendingErrors
        obtain ⟨lattice, hlattice⟩ :=
          vectorAt_isSome X bb hbb0 (by rw [inv.length_eq]; exact hbbn)
        rw [hstate]
        simp only []
        rw [hlattice]
        simp only []
        by_cases heq : lattice = tmp
        · rw [if_neg (not_not.2 heq)]
          exact ih (bb - 1) X changed _ inv (by omega) (by omega) (by omega)
        · rw [if_pos heq]
          obtain ⟨inv1, htotal1, hXX1⟩ := flowInv_set cfg X inv bb block lattice tmp hbb0
            (by omega) hhi hblock hlattice htmps htmpl heq
          rcases ih (bb - 1) (vectorSet X bb tmp) true (pendingErrors ++ more) inv1
            (by omega) (by omega) (by omega) with h | h
          · obtain ⟨X2, changed2, errs2, h1, h2, h3, _, h5⟩ := h
            exact Or.inl ⟨X2, changed2, errs2, h1, h2, by omega, fun _ => Or.inr (by omega),
              fun p k => leS_trans _ _ _ (hXX1 p k) (h5 p k)⟩
          · exact Or.inr h
      · right
        have hbad : ∃ stmt ∈ block.statements, stmtOk stmt = false := by
          by_contra hcon
          apply hall
          intro stmt hstmt
          cases hs : stmtOk stmt with
          | true => rfl
          | false => exact absurd ⟨stmt, hstmt, hs⟩ hcon
        rw [blockState_asserts X inv.sorted block hpred hbad pendingErrors]

theorem pass_stops (cfg : CFG) (hvalid : cfg.validForFlow = true) (X : List Lattice)
    (inv : FlowInv cfg X) :
    (∃ X1 changed1 pendingErrors1,
      pass cfg X = .ok (X1, changed1, pendingErrors1) ∧ FlowInv cfg X1 ∧
      (changed1 = true →
        total (blockKeys cfg.basicBlocks) X < total (blockKeys cfg.basicBlocks) X1) ∧
      ∀ (p : Int) (k : Nat), leS (List.lookup k ((vectorAt X p).getD []))
        (List.lookup k ((vectorAt X1 p).getD [])) = true) ∨
    pass cfg X
      = .error (.assertion "assignment to non-variables should have been caught by sema") := by
  obtain ⟨hx, _⟩ := validForFlow_iff cfg hvalid
  rcases forBlocks_stops cfg hvalid (cfg.entry.toNat + 2) cfg.entry X false [] inv hx.2.1
    (le_refl _) (by omega) with h | h
  · obtain ⟨X1, changed1, errs1, h1, h2, _, h4, h5⟩ := h
    refine Or.inl ⟨X1, changed1, errs1, h1, h2, ?_, h5⟩
    intro hc
    rcases h4 hc with h6 | h6
    · simp at h6
    · exact h6
  · exact Or.inr h

theorem whileChanged_stops (cfg : CFG) (hvalid : cfg.validForFlow = true) :
    ∀ (fuel : Nat) (X : List Lattice), FlowInv cfg X →
      3 * (blockKeys cfg.basicBlocks).length * cfg.basicBlocks.length
        - total (blockKeys cfg.basicBlocks) X < fuel →
      (∃ L errs, whileChanged cfg fuel X = .ok (L, errs)) ∨
      whileChanged cfg fuel X
        = .error (.assertion "assignment to non-variables should have been caught by sema") := by
  intro fuel
  induction fuel with
  | zero => intro X _ h; omega
  | succ fuel ih =>
    intro X inv hfuel
    unfold whileChanged
    rcases pass_stops cfg hvalid X inv with h | h
    · obtain ⟨X1, changed1, errs1, hpass, inv1, hlt, _⟩ := h
      rw [hpass]
      simp only []
      cases changed1 with
      | false => exact Or.inl ⟨X1, errs1, rfl⟩
      | true =>
        simp only [if_true]
        apply ih X1 inv1
        have hb := total_bound (blockKeys cfg.basicBlocks) X1
        rw [inv1.length_eq] at hb
        have := hlt rfl
        omega
    · rw [h]
      exact Or.inr rfl

theorem fuel_bound (cfg : CFG) :
    3 * (blockKeys cfg.basicBlocks).length * cfg.basicBlocks.length
      - total (blockKeys cfg.basicBlocks) (List.replicate cfg.basicBlocks.length [])
      < 3 * cfg.basicBlocks.length * stmtCount cfg + 2 := by
  have h1 := length_blockKeys_le cfg.basicBlocks
  have h2 : 3 * (blockKeys cfg.basicBlocks).length * cfg.basicBlocks.length
      ≤ 3 * cfg.basicBlocks.length * stmtCount cfg := by
    unfold stmtCount
    calc 3 * (blockKeys cfg.basicBlocks).length * cfg.basicBlocks.length
        = 3 * cfg.basicBlocks.length * (blockKeys cfg.basicBlocks).length := by ring
      _ ≤ _ := Nat.mul_le_mul_left _ h1
  omega

theorem passes_inv (cfg : CFG) (hvalid : cfg.validForFlow = true) :
    ∀ (n : Nat) (X : List Lattice), passes cfg n = .ok X → FlowInv cfg X := by
  intro n
  induction n with
  | zero =>
    intro X h
    simp only [passes, Except.ok.injEq] at h
    rw [← h]
    exact flowInv_start cfg
  | succ n ih =>
    intro X h
    unfold passes at h
    cases hn : passes cfg n with
    | error e => rw [hn] at h; simp at h
    | ok X0 =>
      rw [hn] at h
      simp only [] at h
      rcases pass_stops cfg hvalid X0 (ih X0 hn) with h1 | h1
      · obtain ⟨X1, changed1, errs1, hpass, inv1, _, _⟩ := h1
        rw [hpass] at h
        simp only [Except.ok.injEq] at h
        rw [← h]
        exact inv1
      · rw [h1] at h
        simp at h

theorem passes_rise (cfg : CFG) (hvalid : cfg.validForFlow = true) (n : Nat)
    (X X1 : List Lattice) (h0 : passes cfg n = .ok X) (h1 : passes cfg (n + 1) = .ok X1) :
    ∀ (p : Int) (k : Nat), leS (List.lookup k ((vectorAt X p).getD []))
      (List.lookup k ((vectorAt X1 p).getD [])) = true := by
  unfold passes at h1
  rw [h0] at h1
  simp only [] at h1
  rcases pass_stops cfg hvalid X (passes_inv cfg hvalid n X h0) with h | h
  · obtain ⟨X2, changed2, errs2, hpass, _, _, hrise⟩ := h
    rw [hpass] at h1
    simp only [Except.ok.injEq] at h1
    rw [← h1]
    exact hrise
  · rw [h] at h1
    simp at h1

theorem whileChanged_passes (cfg : CFG) :
    ∀ (fuel n : Nat) (X L : List Lattice) (errs : PendingErrors),
      passes cfg n = .ok X → whileChanged cfg fuel X = .ok (L, errs) →
      ∃ m, 1 ≤ m ∧ m ≤ fuel ∧ passes cfg (n + m) = .ok L := by
  intro fuel
  induction fuel with
  | zero => intro n X L errs _ h; simp [whileChanged] at h
  | succ fuel ih =>
    intro n X L errs hn h
    unfold whileChanged at h
    cases hpass : pass cfg X with
    | error e => rw [hpass] at h; simp at h
    | ok r =>
      obtain ⟨X1, changed1, errs1⟩ := r
      rw [hpass] at h
      simp only [] at h
      have hn1 : passes cfg (n + 1) = .ok X1 := by
        rw [passes]
        rw [hn]
        simp only []
        rw [hpass]
      cases changed1 with
      | false =>
        simp only [Bool.false_eq_true, if_false, Except.ok.injEq, Prod.mk.injEq] at h
        rw [← h.1]
        exact ⟨1, le_refl _, by omega, hn1⟩
      | true =>
        simp only [if_true] at h
        obtain ⟨m, hm1, hm2, hm3⟩ := ih (n + 1) X1 L errs hn1 h
        refine ⟨m + 1, by omega, by omega, ?_⟩
        rw [← hm3]
        congr 1
        omega

theorem stateLe_of_leS (a b : Option State) (h : leS a b = true) :
    stateLe (a.getD .Bottom) (b.getD .Bottom) = true := by
  revert h
  rcases a with _ | a <;> rcases b with _ | b <;> (try cases a) <;> (try cases b) <;> decide

theorem forBlocks_unchanged (cfg : CFG) :
    ∀ (fuel : Nat) (bb : Int) (X : List Lattice) (changed : Bool)
      (pendingErrors : PendingErrors) (X1 : List Lattice) (pendingErrors1 : PendingErrors),
      forBlocks cfg fuel bb X changed pendingErrors = .ok (X1, false, pendingErrors1) →
      X1 = X := by
  intro fuel
  induction fuel with
  | zero =>
    intro bb X changed pendingErrors X1 pendingErrors1 h
    simp [forBlocks] at h
  | succ fuel ih =>
    intro bb X changed pendingErrors X1 pendingErrors1 h
    unfold forBlocks at h
    by_cases hexit : bb = cfg.exit
    · rw [if_pos hexit] at h
      simp only [Except.ok.injEq, Prod.mk.injEq] at h
      exact h.1.symm
    · rw [if_neg hexit] at h
      cases hblock : vectorAt cfg.basicBlocks bb with
      | none => rw [hblock] at h; simp at h
      | some block =>
        rw [hblock] at h
        simp only [] at h
        cases hstate : blockState X pendingErrors block with
        | error e => rw [hstate] at h; simp at h
        | ok r =>
          obtain ⟨tmp, errs⟩ := r
          rw [hstate] at h
          simp only [] at h
          cases hlattice : vectorAt X bb with
          | none => rw [hlattice] at h; simp at h
          | some lattice =>
            rw [hlattice] at h
            simp only [] at h
            by_cases heq : lattice ≠ tmp
            · rw [if_pos heq] at h
              have := forBlocks_changed_true cfg _ _ _ _ _ _ _ h
              simp at this
            · rw [if_neg heq] at h
              exact ih _ _ _ _ _ _ h

theorem whileChanged_fixed (cfg : CFG) :
    ∀ (fuel : Nat) (X L : List Lattice) (errs : PendingErrors),
      whileChanged cfg fuel X = .ok (L, errs) → pass cfg L = .ok (L, false, errs) := by
  intro fuel
  induction fuel with
  | zero => intro X L errs h; simp [whileChanged] at h
  | succ fuel ih =>
    intro X L errs h
    unfold whileChanged at h
    cases hpass : pass cfg X with
    | error e => rw [hpass] at h; simp at h
    | ok r =>
      obtain ⟨X1, changed1, errs1⟩ := r
      rw [hpass] at h
      simp only [] at h
      cases changed1 with
      | false =>
        simp only [Bool.false_eq_true, if_false, Except.ok.injEq, Prod.mk.injEq] at h
        have hX : X1 = X := forBlocks_unchanged cfg _ _ _ _ _ _ _ hpass
        rw [← h.1, ← h.2, hX]
        rw [hX] at hpass
        exact hpass
      | true =>
        simp only [if_true] at h
        exact ih X1 L errs h

/-- C21. On a CFG whose blocks from `entry` down to `exit` exist and whose
predecessors are indices of blocks, the `while (changed)` loop stops: it
ends with the maps of the blocks, or at the assertion on an assignment to a
declaration that is no variable, which no turn of the loop changes; it ends
with the maps when every assignment assigns to a variable. When it ends with
the maps `L` it has made at least one and at most
`3 * blocks * statements + 2` passes, and one more pass from `L` gives `L`
again with `changed` false. From each pass to the next the state of every
variable in every block stays or moves upward in the order
`Bottom < {Unassigned, Assigned} < Top`. -/
theorem c21_fixed_point_terminates (cfg : CFG) (hvalid : cfg.validForFlow = true) :
    ((∃ L errs, fixedPoint cfg = .ok (L, errs)) ∨
      fixedPoint cfg
        = .error (.assertion "assignment to non-variables should have been caught by sema")) ∧
    (cfg.validForInitialization = true → ∃ L errs, fixedPoint cfg = .ok (L, errs)) ∧
    (∀ L errs, fixedPoint cfg = .ok (L, errs) →
      (∃ N, 1 ≤ N ∧ N ≤ 3 * cfg.basicBlocks.length * stmtCount cfg + 2 ∧
        passes cfg N = .ok L) ∧
      pass cfg L = .ok (L, false, errs)) ∧
    (∀ (n : Nat) (X X1 : List Lattice), passes cfg n = .ok X → passes cfg (n + 1) = .ok X1 →
      ∀ (b : Int) (lattice lattice1 : Lattice), vectorAt X b = some lattice →
        vectorAt X1 b = some lattice1 →
        ∀ k, stateLe (stateOf lattice k) (stateOf lattice1 k) = true) := by
  refine ⟨?_, ?_, ?_, ?_⟩
  · exact whileChanged_stops cfg hvalid _ _ (flowInv_start cfg) (fuel_bound cfg)
  · intro h
    obtain ⟨L, errs, h1, _, _⟩ := fixedPoint_returns cfg h
    exact ⟨L, errs, h1⟩
  · intro L errs h
    constructor
    · obtain ⟨m, h1, h2, h3⟩ := whileChanged_passes cfg _ 0 _ L errs rfl h
      rw [Nat.zero_add] at h3
      exact ⟨m, h1, h2, h3⟩
    · exact whileChanged_fixed cfg _ _ L errs h
  · intro n X X1 h0 h1 b lattice lattice1 hl hl1 k
    have := passes_rise cfg hvalid n X X1 h0 h1 b k
    rw [hl, hl1] at this
    exact stateLe_of_leS _ _ this

/-- C21, at the CFG of `var x: number; if (c) { x = 6; } x;`: the loop ends
with `x` at `Top` in block 1, and a further pass changes nothing. -/
theorem c21_fixed_point_terminates_witness :
    (∃ N, 1 ≤ N ∧ N ≤ 3 * diamondCFG.basicBlocks.length * stmtCount diamondCFG + 2 ∧
      passes diamondCFG N
        = .ok [[], [(1, .Top)], [(1, .Assigned)], [(1, .Unassigned)], []]) ∧
    pass diamondCFG [[], [(1, .Top)], [(1, .Assigned)], [(1, .Unassigned)], []]
      = .ok ([[], [(1, .Top)], [(1, .Assigned)], [(1, .Unassigned)], []], false,
          [(⟨"t", 3, 8⟩, "'x' is not initialized".toList)]) :=
  (c21_fixed_point_terminates diamondCFG (by decide)).2.2.1
    [[], [(1, .Top)], [(1, .Assigned)], [(1, .Unassigned)], []]
    [(⟨"t", 3, 8⟩, "'x' is not initialized".toList)] rfl

end Sema

namespace ConstantExpressionEvaluator

/-! ## Constant evaluator: the operators -/

theorem evaluate_binary {D : Type} (A : Arith D) (op : TokenKind) (l r : ResolvedExpr D)
    (allowSideEffects : Bool) (x : Option D)
    (hl : evaluate A l allowSideEffects = .ok x) :
    evaluate A (.ResolvedBinaryOperator {} op l r) allowSideEffects
      = evaluateBinaryOperator A op x (fun _ => evaluate A r allowSideEffects)
          allowSideEffects := by
  rw [evaluate]
  simp only [ConstantValueContainer.getConstantValue]
  rw [hl]

theorem evaluate_unary {D : Type} (A : Arith D) (op : TokenKind) (e : ResolvedExpr D)
    (allowSideEffects : Bool) (x : Option D)
    (he : evaluate A e allowSideEffects = .ok x) :
    evaluate A (.ResolvedUnaryOperator {} op e) allowSideEffects
      = evaluateUnaryOperator A op x := by
  rw [evaluate]
  simp only [ConstantValueContainer.getConstantValue]
  rw [he]

theorem evaluate_lit {D : Type} (A : Arith D) (v : D) (allowSideEffects : Bool) :
    evaluate A (lit v) allowSideEffects = .ok (some v) := by
  simp [lit, evaluate, ConstantValueContainer.getConstantValue]

theorem evaluate_unknown {D : Type} (A : Arith D) (allowSideEffects : Bool) :
    evaluate A (unknown : ResolvedExpr D) allowSideEffects = .ok none := by
  simp [unknown, evaluate, evaluateDeclRefExpr, ConstantValueContainer.getConstantValue]

/-- C22. With a known left operand `a` and an unknown right operand, `+`
and `-` take `0.0` and `/` takes `1.0` for the right operand, for both values
of `allowSideEffects`: the results are `a + 0.0`, `a - 0.0` and `a / 1.0`,
which is `a` in an arithmetic where these are `a`. With both operands known
the result is the sum, the difference or the quotient. Over the rationals
`3 + 4` evaluates to `7` and `3 + unknown` to `3`. -/
theorem c22_fallback_for_unknown_right {D : Type} (A : Arith D) (l r : ResolvedExpr D)
    (allowSideEffects : Bool) (a : D)
    (hl : evaluate A l allowSideEffects = .ok (some a)) :
    (evaluate A r allowSideEffects = .ok none →
      evaluate A (.ResolvedBinaryOperator {} .Plus l r) allowSideEffects
        = .ok (some (A.add a A.zero)) ∧
      evaluate A (.ResolvedBinaryOperator {} .Minus l r) allowSideEffects
        = .ok (some (A.sub a A.zero)) ∧
      evaluate A (.ResolvedBinaryOperator {} .Slash l r) allowSideEffects
        = .ok (some (A.div a A.one)) ∧
      (A.add a A.zero = a →
        evaluate A (.ResolvedBinaryOperator {} .Plus l r) allowSideEffects = .ok (some a)) ∧
      (A.sub a A.zero = a →
        evaluate A (.ResolvedBinaryOperator {} .Minus l r) allowSideEffects = .ok (some a)) ∧
      (A.div a A.one = a →
        evaluate A (.ResolvedBinaryOperator {} .Slash l r) allowSideEffects = .ok (some a))) ∧
    (∀ b, evaluate A r allowSideEffects = .ok (some b) →
      evaluate A (.ResolvedBinaryOperator {} .Plus l r) allowSideEffects
        = .ok (some (A.add a b)) ∧
      evaluate A (.ResolvedBinaryOperator {} .Minus l r) allowSideEffects
        = .ok (some (A.sub a b)) ∧
      evaluate A (.ResolvedBinaryOperator {} .Slash l r) allowSideEffects
        = .ok (some (A.div a b))) ∧
    evaluate ratArith (.ResolvedBinaryOperator {} .Plus (lit 3) (lit 4)) allowSideEffects
      = .ok (some 7) ∧
    evaluate ratArith (.ResolvedBinaryOperator {} .Plus (lit 3) unknown) allowSideEffects
      = .ok (some 3) := by
  have hp := evaluate_binary A .Plus l r allowSideEffects _ hl
  have hm := evaluate_binary A .Minus l r allowSideEffects _ hl
  have hs := evaluate_binary A .Slash l r allowSideEffects _ hl
  refine ⟨?_, ?_, ?_, ?_⟩
  · intro hr
    have h1 : evaluate A (.ResolvedBinaryOperator {} .Plus l r) allowSideEffects
        = .ok (some (A.add a A.zero)) := by
      rw [hp]; simp [evaluateBinaryOperator, hr]
    have h2 : evaluate A (.ResolvedBinaryOperator {} .Minus l r) allowSideEffects
        = .ok (some (A.sub a A.zero)) := by
      rw [hm]; simp [evaluateBinaryOperator, hr]
    have h3 : evaluate A (.ResolvedBinaryOperator {} .Slash l r) allowSideEffects
        = .ok (some (A.div a A.one)) := by
      rw [hs]; simp [evaluateBinaryOperator, hr]
    exact ⟨h1, h2, h3, fun h => by rw [h1, h], fun h => by rw [h2, h], fun h => by rw [h3, h]⟩
  · intro b hr
    refine ⟨?_, ?_, ?_⟩
    · rw [hp]; simp [evaluateBinaryOperator, hr]
    · rw [hm]; simp [evaluateBinaryOperator, hr]
    · rw [hs]; simp [evaluateBinaryOperator, hr]
  · rw [evaluate_binary ratArith .Plus (lit 3) (lit 4) allowSideEffects _ (evaluate_lit _ _ _)]
    simp [evaluateBinaryOperator, evaluate_lit, ratArith]
    norm_num
  · rw [evaluate_binary ratArith .Plus (lit 3) unknown allowSideEffects _ (evaluate_lit _ _ _)]
    simp [evaluateBinaryOperator, evaluate_unknown, ratArith]

/-- C22, over the rationals at `3 + unknown`, `3 - unknown` and
`3 / unknown`. -/
theorem c22_fallback_for_unknown_right_witness :
    evaluate ratArith (.ResolvedBinaryOperator {} .Plus (lit 3) unknown) false
      = .ok (some 3) ∧
    evaluate ratArith (.ResolvedBinaryOperator {} .Minus (lit 3) unknown) false
      = .ok (some 3) ∧
    evaluate ratArith (.ResolvedBinaryOperator {} .Slash (lit 3) unknown) false
      = .ok (some 3) :=
  have h := (c22_fallback_for_unknown_right ratArith (lit 3) unknown false 3
    (evaluate_lit _ _ _)).1 (evaluate_unknown _ _)
  ⟨h.2.2.2.1 (by simp [ratArith]), h.2.2.2.2.1 (by simp [ratArith]),
    h.2.2.2.2.2 (by simp [ratArith])⟩

/-- C23 (what the code does). For `*` with a known left operand and an
unknown right operand the evaluator takes `0.0` for the right operand: over
the rationals `2 * unknown` evaluates to the known value `0`, for both values
of `allowSideEffects`. -/
theorem c23_product_with_unknown_right_is_known :
    evaluate ratArith (.ResolvedBinaryOperator {} .Asterisk (lit 2) unknown) false
      = .ok (some 0) ∧
    evaluate ratArith (.ResolvedBinaryOperator {} .Asterisk (lit 2) unknown) true
      = .ok (some 0) := by
  constructor
  · rw [evaluate_binary ratArith .Asterisk (lit 2) unknown false _ (evaluate_lit _ _ _)]
    simp [evaluateBinaryOperator, evaluate_unknown, ratArith]
  · rw [evaluate_binary ratArith .Asterisk (lit 2) unknown true _ (evaluate_lit _ _ _)]
    simp [evaluateBinaryOperator, evaluate_unknown, ratArith]

/-- C24 (what the code does). For a comparison with a known left operand and
an unknown right operand the evaluator compares with `0.0`: over the
rationals `1 < unknown` evaluates to the known value `0`, `1 > unknown` to
`1` and `0 == unknown` to `1`. -/
theorem c24_comparison_with_unknown_right_is_known :
    evaluate ratArith (.ResolvedBinaryOperator {} .Lt (lit 1) unknown) false = .ok (some 0) ∧
    evaluate ratArith (.ResolvedBinaryOperator {} .Gt (lit 1) unknown) false = .ok (some 1) ∧
    evaluate ratArith (.ResolvedBinaryOperator {} .EqualEqual (lit 0) unknown) false
      = .ok (some 1) := by
  refine ⟨?_, ?_, ?_⟩
  · rw [evaluate_binary ratArith .Lt (lit 1) unknown false _ (evaluate_lit _ _ _)]
    simp [evaluateBinaryOperator, evaluate_unknown, ratArith]
  · rw [evaluate_binary ratArith .Gt (lit 1) unknown false _ (evaluate_lit _ _ _)]
    simp [evaluateBinaryOperator, evaluate_unknown, ratArith]
  · rw [evaluate_binary ratArith .EqualEqual (lit 0) unknown false _ (evaluate_lit _ _ _)]
    simp [evaluateBinaryOperator, evaluate_unknown, ratArith]

/-- C25 fails as stated: without side effects allowed, `unknown || 1`
evaluates to unknown, not to `1.0`, because an unknown left operand ends the
evaluation before the operator is looked at. -/
theorem c25_unknown_left_without_side_effects :
    evaluate ratArith (.ResolvedBinaryOperator {} .PipePipe unknown (lit 1)) false
      = .ok none := by
  rw [evaluate_binary ratArith .PipePipe unknown (lit 1) false _ (evaluate_unknown _ _)]
  simp [evaluateBinaryOperator]

/-- C25, amended. When side effects are allowed or the left operand is
known, `l || r` follows the three-valued table: `1.0` if `l` is known and
non-zero, whatever `r` is; otherwise `1.0` if `r` is known and non-zero;
otherwise `0.0` if both are known; otherwise unknown. When the left operand
is unknown and side effects are not allowed, `l || r` is unknown whatever
`r` is. -/
theorem c25_or_table {D : Type} (A : Arith D) (l r : ResolvedExpr D)
    (allowSideEffects : Bool) (x : Option D)
    (hl : evaluate A l allowSideEffects = .ok x) :
    (x = none → allowSideEffects = false →
      evaluate A (.ResolvedBinaryOperator {} .PipePipe l r) allowSideEffects = .ok none) ∧
    (toBool A x = some true →
      evaluate A (.ResolvedBinaryOperator {} .PipePipe l r) allowSideEffects
        = .ok (some A.one)) ∧
    (∀ y, (allowSideEffects = true ∨ x ≠ none) → toBool A x ≠ some true →
      evaluate A r allowSideEffects = .ok y →
      (toBool A y = some true →
        evaluate A (.ResolvedBinaryOperator {} .PipePipe l r) allowSideEffects
          = .ok (some A.one)) ∧
      (toBool A y ≠ some true → x ≠ none → y ≠ none →
        evaluate A (.ResolvedBinaryOperator {} .PipePipe l r) allowSideEffects
          = .ok (some A.zero)) ∧
      (toBool A y ≠ some true → (x = none ∨ y = none) →
        evaluate A (.ResolvedBinaryOperator {} .PipePipe l r) allowSideEffects
          = .ok none)) := by
  rw [evaluate_binary A .PipePipe l r allowSideEffects x hl]
  refine ⟨?_, ?_, ?_⟩
  · intro hx ha
    subst hx ha
    simp [evaluateBinaryOperator]
  · intro ht
    rcases x with _ | a
    · simp [toBool] at ht
    · simp [evaluateBinaryOperator, ht]
  · intro y hg hnt hr
    have hguard : (x.isNone && !allowSideEffects) = false := by
      rcases hg with h | h
      · simp [h]
      · rcases x with _ | a
        · exact absurd rfl h
        · rfl
    refine ⟨?_, ?_, ?_⟩
    · intro hy
      simp [evaluateBinaryOperator, hguard, hnt, hr, hy]
    · intro hy hx0 hy0
      rcases x with _ | a
      · exact absurd rfl hx0
      · rcases y with _ | b
        · exact absurd rfl hy0
        · simp [evaluateBinaryOperator, hnt, hr, hy]
    · intro hy hxy
      rcases hxy with h | h
      · subst h
        simp [evaluateBinaryOperator, hguard, hnt, hr, hy]
      · subst h
        simp [evaluateBinaryOperator, hguard, hnt, hr]
        intro h
        simp [toBool] at h

/-- C25 amended, over the rationals at `unknown || 1` with side effects
allowed, which is `1`. -/
theorem c25_or_table_witness :
    evaluate ratArith (.ResolvedBinaryOperator {} .PipePipe unknown (lit 1)) true
      = .ok (some 1) :=
  ((c25_or_table ratArith unknown (lit 1) true none (evaluate_unknown _ _)).2.2 (some 1)
    (Or.inl rfl) (by simp [toBool]) (evaluate_lit _ _ _)).1 (by simp [toBool, ratArith])

/-- C26. For `l && r` with a known left operand `a`: when `a` is zero the
result is `0.0` whatever `r` is; when `a` and the value of `r` are known and
non-zero the result is `1.0`; when `a` is non-zero and `r` is unknown the
result is unknown. Over the rationals `0 && unknown` evaluates to `0` and
`1 && unknown` to unknown. -/
theorem c26_and_short_circuit {D : Type} (A : Arith D) (l r : ResolvedExpr D)
    (allowSideEffects : Bool) (a : D)
    (hl : evaluate A l allowSideEffects = .ok (some a)) :
    (A.eq a A.zero = true →
      evaluate A (.ResolvedBinaryOperator {} .AmpAmp l r) allowSideEffects
        = .ok (some A.zero)) ∧
    (∀ b, A.eq a A.zero = false → evaluate A r allowSideEffects = .ok (some b) →
      A.eq b A.zero = false →
      evaluate A (.ResolvedBinaryOperator {} .AmpAmp l r) allowSideEffects
        = .ok (some A.one)) ∧
    (A.eq a A.zero = false → evaluate A r allowSideEffects = .ok none →
      evaluate A (.ResolvedBinaryOperator {} .AmpAmp l r) allowSideEffects = .ok none) ∧
    evaluate ratArith (.ResolvedBinaryOperator {} .AmpAmp (lit 0) unknown) allowSideEffects
      = .ok (some 0) ∧
    evaluate ratArith (.ResolvedBinaryOperator {} .AmpAmp (lit 1) unknown) allowSideEffects
      = .ok none := by
  rw [evaluate_binary A .AmpAmp l r allowSideEffects _ hl]
  refine ⟨?_, ?_, ?_, ?_, ?_⟩
  · intro ha
    simp [evaluateBinaryOperator, toBool, ha]
  · intro b ha hr hb
    simp [evaluateBinaryOperator, toBool, ha, hr, hb]
  · intro ha hr
    simp [evaluateBinaryOperator, toBool, ha, hr]
  · rw [evaluate_binary ratArith .AmpAmp (lit 0) unknown allowSideEffects _
      (evaluate_lit _ _ _)]
    simp [evaluateBinaryOperator, toBool, ratArith]
  · rw [evaluate_binary ratArith .AmpAmp (lit 1) unknown allowSideEffects _
      (evaluate_lit _ _ _)]
    simp [evaluateBinaryOperator, toBool, ratArith, evaluate_unknown]

/-- C26, over the rationals at `2 && 3`, which is `1`. -/
theorem c26_and_short_circuit_witness :
    evaluate ratArith (.ResolvedBinaryOperator {} .AmpAmp (lit 2) (lit 3)) false
      = .ok (some 1) :=
  (c26_and_short_circuit ratArith (lit 2) (lit 3) false 2 (evaluate_lit _ _ _)).2.1 3
    (by simp [ratArith]) (evaluate_lit _ _ _) (by simp [ratArith])

/-- C27 (what the code does). Unary `!` on a known operand tests whether
`toBool(operand)` holds a value, which it always does: `!0` evaluates to
`0`, as `!5` does. -/
theorem c27_not_of_zero_is_zero :
    evaluate ratArith (.ResolvedUnaryOperator {} .Excl (lit 0)) false = .ok (some 0) ∧
    evaluate ratArith (.ResolvedUnaryOperator {} .Excl (lit 5)) false = .ok (some 0) := by
  constructor
  · rw [evaluate_unary ratArith .Excl (lit 0) false _ (evaluate_lit _ _ _)]
    simp [evaluateUnaryOperator, toBool, ratArith]
  · rw [evaluate_unary ratArith .Excl (lit 5) false _ (evaluate_lit _ _ _)]
    simp [evaluateUnaryOperator, toBool, ratArith]

/-! ## Constant evaluator: the memoized constant and references -/

/-- C28 fails as stated: on a container that holds `1`,
`setConstantValue(2)` leaves `getConstantValue()` equal to `2`, not to
`1`. -/
theorem c28_setConstantValue_overwrites :
    (ConstantValueContainer.setConstantValue { value := some (1 : ℚ) }
      (some 2)).getConstantValue = some 2 ∧
    (ConstantValueContainer.setConstantValue { value := some (1 : ℚ) }
      (some 2)).getConstantValue ≠ some 1 := by
  constructor
  · rfl
  · simp [ConstantValueContainer.setConstantValue, ConstantValueContainer.getConstantValue]

/-- C28, amended. `setConstantValue(w)` makes `getConstantValue()` equal to
`w`, whatever the container held, and `evaluate` on an expression whose
container holds a value `v` returns `v`, whatever the expression and its
sub-expressions are. -/
theorem c28_memoized_constant_read_through {D : Type} (A : Arith D)
    (c : ConstantValueContainer D) (w : Option D) (expr : ResolvedExpr D)
    (allowSideEffects : Bool) (v : D) (hv : expr.getConstantValue = some v) :
    (c.setConstantValue w).getConstantValue = w ∧
    evaluate A expr allowSideEffects = .ok (some v) := by
  constructor
  · rfl
  · cases expr with
    | ResolvedNumberLiteral c1 value =>
      simp only [ResolvedExpr.getConstantValue] at hv
      rw [evaluate, hv]
    | ResolvedGroupingExpr c1 e =>
      simp only [ResolvedExpr.getConstantValue] at hv
      rw [evaluate, hv]
    | ResolvedBinaryOperator c1 op lhs rhs =>
      simp only [ResolvedExpr.getConstantValue] at hv
      rw [evaluate, hv]
    | ResolvedUnaryOperator c1 op operand =>
      simp only [ResolvedExpr.getConstantValue] at hv
      rw [evaluate, hv]
    | ResolvedDeclRefExpr c1 decl =>
      simp only [ResolvedExpr.getConstantValue] at hv
      rw [evaluate, hv]
    | ResolvedCallExpr c1 =>
      simp only [ResolvedExpr.getConstantValue] at hv
      rw [evaluate, hv]

/-- C28 amended, over the rationals at the sum `3 + 4` whose container holds
`10`. -/
theorem c28_memoized_constant_read_through_witness :
    (ConstantValueContainer.setConstantValue { value := some (1 : ℚ) }
      (some 2)).getConstantValue = some 2 ∧
    evaluate ratArith (.ResolvedBinaryOperator { value := some 10 } .Plus (lit 3) (lit 4))
      false = .ok (some 10) :=
  c28_memoized_constant_read_through ratArith { value := some 1 } (some 2)
    (.ResolvedBinaryOperator { value := some 10 } .Plus (lit 3) (lit 4)) false 10 rfl

/-- C29. On a reference without a memoized constant, `evaluate` returns
what `evaluateDeclRefExpr` returns: what `evaluate` returns for the
initializer when the declaration is an immutable variable with an
initializer, and unknown for every other declaration: a parameter, a function,
a mutable variable, a variable without initializer. -/
theorem c29_reference_folds_iff_immutable_initialized {D : Type} (A : Arith D)
    (decl : ResolvedDecl D) (allowSideEffects : Bool) :
    evaluate A (.ResolvedDeclRefExpr {} decl) allowSideEffects
      = evaluateDeclRefExpr A decl allowSideEffects ∧
    (∀ initializer, decl = .ResolvedVarDecl false (some initializer) →
      evaluateDeclRefExpr A decl allowSideEffects
        = evaluate A initializer allowSideEffects) ∧
    ((∀ initializer, decl ≠ .ResolvedVarDecl false (some initializer)) →
      evaluateDeclRefExpr A decl allowSideEffects = .ok none) ∧
    evaluateDeclRefExpr A .ResolvedParamDecl allowSideEffects = .ok none ∧
    evaluateDeclRefExpr A .ResolvedFunctionDecl allowSideEffects = .ok none ∧
    (∀ initializer,
      evaluateDeclRefExpr A (.ResolvedVarDecl true initializer) allowSideEffects = .ok none) ∧
    (∀ isMutable,
      evaluateDeclRefExpr A (.ResolvedVarDecl isMutable none) allowSideEffects = .ok none) := by
  refine ⟨?_, ?_, ?_, ?_, ?_, ?_, ?_⟩
  · rw [evaluate]
    rfl
  · intro initializer h
    rw [h, evaluateDeclRefExpr]
  · intro h
    cases decl with
    | ResolvedVarDecl isMutable initializer =>
      cases isMutable with
      | true => simp [evaluateDeclRefExpr]
      | false =>
        cases initializer with
        | none => simp [evaluateDeclRefExpr]
        | some e => exact absurd rfl (h e)
    | ResolvedParamDecl => simp [evaluateDeclRefExpr]
    | ResolvedFunctionDecl => simp [evaluateDeclRefExpr]
  · simp [evaluateDeclRefExpr]
  · simp [evaluateDeclRefExpr]
  · intro initializer
    simp [evaluateDeclRefExpr]
  · intro isMutable
    cases isMutable <;> simp [evaluateDeclRefExpr]

/-- C29, over the rationals at a reference to `let x: number = 3 + 4;`, which
evaluates to what `3 + 4` evaluates to. -/
theorem c29_reference_folds_iff_immutable_initialized_witness :
    evaluateDeclRefExpr ratArith
        (.ResolvedVarDecl false (some (.ResolvedBinaryOperator {} .Plus (lit 3) (lit 4)))) false
      = evaluate ratArith (.ResolvedBinaryOperator {} .Plus (lit 3) (lit 4)) false :=
  (c29_reference_folds_iff_immutable_initialized ratArith
    (.ResolvedVarDecl false (some (.ResolvedBinaryOperator {} .Plus (lit 3) (lit 4))))
    false).2.1 _ rfl

end ConstantExpressionEvaluator

/-! ## The assignment token in the lexer and in the parser -/

theorem parseAssignmentOrExpr_equalSign (p : Parser) (t : Token) (rest : List Token)
    (hk : p.nextToken.kind = .Identifier) (hl : p.lexer = t :: rest)
    (ht : t.kind = .EqualSign) :
    (t.value = none → parseAssignmentOrExpr p = .error .emptyOptional) ∧
    (∀ value, t.value = some value →
      parseAssignmentOrExpr p
        = .ok (none, report { p with lexer := rest, nextToken := t } t.location
            "expected ';' at the end of expression")) := by
  have he : eatNextToken p = .ok { p with lexer := rest, nextToken := t } := by
    unfold eatNextToken
    rw [hl]
  have hf : parseFuel p = (3 * p.lexer.length + 3) + 1 := rfl
  constructor
  · intro hv
    unfold parseAssignmentOrExpr parsePrefixExpr
    rw [hf, parsePrefixExprFuel]
    simp only [hk, if_true, he, hv]
  · intro value hv
    unfold parseAssignmentOrExpr parsePrefixExpr
    rw [hf, parsePrefixExprFuel]
    simp only [hk, if_true, he, hv]
    have hne : ({ p with lexer := rest, nextToken := t } : Parser).nextToken.kind
        ≠ .Equal := by
      simp [ht]
    rw [if_pos hne]
    have hrhs : parseExprRHS (some (.DeclRefExpr ⟨p.nextToken.location, value⟩)) 0
        { p with lexer := rest, nextToken := t }
        = .ok (some (.DeclRefExpr ⟨p.nextToken.location, value⟩),
            { p with lexer := rest, nextToken := t }) := by
      unfold parseExprRHS
      have hf2 : parseFuel ({ p with lexer := rest, nextToken := t } : Parser)
          = (3 * rest.length + 3) + 1 := rfl
      rw [hf2, parseExprRHSFuel]
      simp [ht, getTokPrecedence]
    rw [hrhs]
    simp [ht]

/-- C31 fails: the tokens of `x = 6;` are `x`, `EqualSign`, the number `6`,
`;` and `Eof`, and `parseAssignmentOrExpr` of parser.cpp, which tests the token
after the left-hand side for the kind `Equal`, returns no `Assignment` on
them: it reads the text of the `EqualSign` token, which has none. With a text
on that token it takes `x` for an expression statement and reports the
missing `;`. -/
theorem c31_assignment_token_kinds_differ :
    lexTokens 7 (Lexer.new ⟨"t", "x = 6;".toList⟩)
      = .ok [tokv 1 .Identifier "x", tok 3 .EqualSign, tokv 5 .Number "6", tok 6 .Semi,
          tok 7 .Eof] ∧
    parseAssignmentOrExprOf ⟨"t", "x = 6;".toList⟩ = .error .emptyOptional ∧
    parseAssignmentOrExpr
        { lexer := [tokv 3 .EqualSign "=", tokv 5 .Number "6", tok 6 .Semi, tok 7 .Eof],
          nextToken := tokv 1 .Identifier "x" }
      = .ok (none,
          { lexer := [tokv 5 .Number "6", tok 6 .Semi, tok 7 .Eof],
            nextToken := tokv 3 .EqualSign "=",
            diagnostics := [(⟨"t", 1, 3⟩, "expected ';' at the end of expression")] }) := by
  refine ⟨rfl, rfl, rfl⟩

/-! ## Lexer: the characters that start no token -/

theorem lexToken_unknown (recur : Lexer → Except Fault (Token × Lexer)) (fuel : Nat)
    (c : Char) (l1 : Lexer)
    (hs : c ∉ singleCharTokens) (h1 : c ≠ '/') (h2 : c ≠ '=')
    (h3 : isAlpha c = false) (h4 : c ≠ '@') (h5 : isNum c = false)
    (h6 : ¬ (c = '&' ∧ peekNextChar l1 = '&')) (h7 : ¬ (c = '|' ∧ peekNextChar l1 = '|')) :
    lexToken recur fuel c l1
      = .ok ({ location := ⟨l1.source.path, l1.line, l1.column⟩, kind := .Unk }, l1) := by
  have hfind : singleCharTokens.find? (fun x => x == c) = none := by
    rw [List.find?_eq_none]
    intro x hx
    simp only [beq_iff_eq]
    intro hxc
    rw [hxc] at hx
    exact hs hx
  unfold lexToken
  simp only [hfind, if_neg h1, if_neg h2, if_neg h6, if_neg h7, h3, h5]
  have h4b : (c == '@') = false := by simpa using h4
  simp [h4b]

/-- C32 fails as stated: `&` is no whitespace, no entry of `singleCharTokens`,
not `/`, not `=`, no letter, not `@` and no digit, and in front of a second
`&` it lexes to `AmpAmp`; so does `|` in front of a second `|`, to
`PipePipe`. -/
theorem c32_doubled_operator_is_not_unknown :
    (isSpace '&' = false ∧ '&' ∉ singleCharTokens ∧ '&' ≠ '/' ∧ '&' ≠ '=' ∧
      isAlpha '&' = false ∧ '&' ≠ '@' ∧ isNum '&' = false) ∧
    lexKinds 1 (Lexer.new ⟨"input", "&&".toList⟩) = [(.AmpAmp, none)] ∧
    (isSpace '|' = false ∧ '|' ∉ singleCharTokens ∧ '|' ≠ '/' ∧ '|' ≠ '=' ∧
      isAlpha '|' = false ∧ '|' ≠ '@' ∧ isNum '|' = false) ∧
    lexKinds 1 (Lexer.new ⟨"input", "||".toList⟩) = [(.PipePipe, none)] := by
  decide

/-- C32, amended. From a lexer in front of a character `c` that is no
whitespace, no entry of `singleCharTokens`, not `/`, not `=`, no letter, not
`@` and no digit, and that is not a `&` in front of a `&` nor a `|` in front of
a `|`, `getNextToken` returns one `Unk` token without text and has eaten
exactly `c`. -/
theorem c32_unknown_character (l : Lexer) (c : Char) (rest : List Char)
    (hv : view l = c :: rest)
    (hsp : isSpace c = false) (hs : c ∉ singleCharTokens) (h1 : c ≠ '/') (h2 : c ≠ '=')
    (h3 : isAlpha c = false) (h4 : c ≠ '@') (h5 : isNum c = false)
    (h6 : c = '&' → rest.head? ≠ some '&') (h7 : c = '|' → rest.head? ≠ some '|') :
    ∃ t l1, getNextToken l = .ok (t, l1) ∧ t.kind = .Unk ∧ t.value = none ∧
      view l1 = rest ∧ l1.source = l.source ∧ l1.idx = l.idx + 1 := by
  have hlen := getNextToken_length_lt l
  have hd : (view l).dropWhile isSpace = c :: rest := by
    rw [hv, List.dropWhile_cons, hsp]
    rfl
  have ht : (view l).takeWhile isSpace = [] := by
    rw [hv, List.takeWhile_cons, hsp]
    rfl
  obtain ⟨l1, hg, hv1, hs1, hi1⟩ :=
    (getNextTokenFuel_view (l.source.buffer.length + 1) l hlen).2 c rest hd
  have hpeek : peekNextChar l1 = rest.headD '\x00' := by
    rw [peekNextChar_eq_head, hv1]
  have hne : c ≠ '\x00' := by
    intro h0
    apply hs
    rw [h0]
    decide
  have hrest : rest ≠ [] := by
    intro hr
    rw [hr] at hv
    have hlast : (view l).getLast? = some '\x00' := by
      unfold view
      have hle : l.idx ≤ l.source.buffer.length := by
        have := view_length l
        rw [hv] at this
        simp only [List.length_cons, List.length_nil] at this
        omega
      rw [List.drop_append_of_le_length hle]
      simp
    rw [hv] at hlast
    simp only [List.getLast?_singleton, Option.some.injEq] at hlast
    exact hne hlast
  obtain ⟨r0, rs, hrs⟩ := List.exists_cons_of_ne_nil hrest
  have h6b : ¬ (c = '&' ∧ peekNextChar l1 = '&') := by
    rintro ⟨hc, hp⟩
    rw [hpeek, hrs] at hp
    apply h6 hc
    rw [hrs]
    simp only [List.headD_cons] at hp
    rw [List.head?_cons, hp]
  have h7b : ¬ (c = '|' ∧ peekNextChar l1 = '|') := by
    rintro ⟨hc, hp⟩
    rw [hpeek, hrs] at hp
    apply h7 hc
    rw [hrs]
    simp only [List.headD_cons] at hp
    rw [List.head?_cons, hp]
  refine ⟨{ location := ⟨l1.source.path, l1.line, l1.column⟩, kind := .Unk }, l1, ?_, rfl, rfl,
    hv1, hs1, ?_⟩
  · unfold getNextToken
    rw [hg]
    exact lexToken_unknown _ _ c l1 hs h1 h2 h3 h4 h5 h6b h7b
  · rw [hi1, ht]
    rfl

/-- C32 amended, at `&x;`: the `&` in front of `x` is one `Unk` token
and the lexer goes on in front of `x;`. -/
theorem c32_unknown_character_witness :
    ∃ t l1, getNextToken (Lexer.new ⟨"input", "&x;".toList⟩) = .ok (t, l1) ∧
      t.kind = .Unk ∧ t.value = none ∧ view l1 = "x;\x00".toList ∧
      l1.source = ⟨"input", "&x;".toList⟩ ∧ l1.idx = 0 + 1 :=
  c32_unknown_character (Lexer.new ⟨"input", "&x;".toList⟩) '&' "x;\x00".toList
    (by decide) (by decide) (by decide) (by decide) (by decide) (by decide) (by decide)
    (by decide) (by decide) (by decide)

/-! ## Parser: the statement loop of a block -/

theorem keeps_refl (p : Parser) : Keeps p p := Or.inr ⟨rfl, rfl⟩

theorem keeps_of_lt (p p1 : Parser) (h : p1.lexer.length < p.lexer.length) : Keeps p p1 :=
  Or.inl h

theorem keeps_report (p p1 : Parser) (location : SourceLocation) (message : String)
    (h : Keeps p p1) : Keeps p (report p1 location message) := h

theorem eatNextToken_lt (p p1 : Parser) (h : eatNextToken p = .ok p1) :
    p1.lexer.length < p.lexer.length := by
  have := eatNextToken_length p p1 h
  omega

theorem parseExpr_length (p : Parser) (e : Option Expr) (p1 : Parser)
    (h : parseExpr p = .ok (e, p1)) : p1.lexer.length ≤ p.lexer.length :=
  ((parse_fuel_enough (parseFuel p)).2.1 p (by unfold parseFuel; omega)).2 e p1 h

theorem parseExprRHS_length (lhs : Option Expr) (exprPrec : Int) (p : Parser)
    (e : Option Expr) (p1 : Parser)
    (h : parseExprRHS lhs exprPrec p = .ok (e, p1)) : p1.lexer.length ≤ p.lexer.length :=
  ((parse_fuel_enough (parseFuel p)).2.2 lhs exprPrec p (by unfold parseFuel; omega)).2 e p1 h

theorem parsePrefixExpr_keeps (p : Parser) (e : Option Expr) (p1 : Parser)
    (h : parsePrefixExpr p = .ok (e, p1)) :
    Keeps p p1 ∧ (e.isSome = true → p1.lexer.length < p.lexer.length) := by
  have hle := ((parse_fuel_enough (parseFuel p)).1 p (by unfold parseFuel; omega)).2 e p1 h
  unfold parsePrefixExpr at h
  have hf : parseFuel p = (3 * p.lexer.length + 3) + 1 := rfl
  rw [hf, parsePrefixExprFuel] at h
  try simp only [] at h
  by_cases h1 : p.nextToken.kind = .Identifier
  · simp only [h1, if_true] at h
    cases he : eatNextToken p with
    | error err => rw [he] at h; simp at h
    | ok q =>
      rw [he] at h
      try simp only [] at h
      have hq := eatNextToken_lt p q he
      cases hv : q.nextToken.value with
      | none => rw [hv] at h; simp at h
      | some v =>
        rw [hv] at h
        simp only [Except.ok.injEq, Prod.mk.injEq] at h
        rw [← h.2]
        exact ⟨Or.inl hq, fun _ => hq⟩
  · simp only [h1, if_false] at h
    by_cases h2 : p.nextToken.kind = .IntegerLiteral
    · simp only [h2, if_true] at h
      cases he : eatNextToken p with
      | error err => rw [he] at h; simp at h
      | ok q =>
        rw [he] at h
        try simp only [] at h
        have hq := eatNextToken_lt p q he
        cases hv : q.nextToken.value with
        | none => rw [hv] at h; simp at h
        | some v =>
          rw [hv] at h
          simp only [Except.ok.injEq, Prod.mk.injEq] at h
          rw [← h.2]
          exact ⟨Or.inl hq, fun _ => hq⟩
    · simp only [h2, if_false] at h
      by_cases h3 : p.nextToken.kind = .Lparen
      · simp only [h3, if_true] at h
        cases he : eatNextToken p with
        | error err => rw [he] at h; simp at h
        | ok q =>
          rw [he] at h
          try simp only [] at h
          have hq := eatNextToken_lt p q he
          have hE := (parse_fuel_enough (3 * p.lexer.length + 3)).2.1 q (by omega)
          cases hx : parseExprFuel (3 * p.lexer.length + 3) q with
          | error err => rw [hx] at h; simp at h
          | ok r =>
            obtain ⟨x, q2⟩ := r
            have hq2 := hE.2 x q2 hx
            rw [hx] at h
            cases x with
            | none =>
              simp only [Except.ok.injEq, Prod.mk.injEq] at h
              rw [← h.2]
              exact ⟨Or.inl (by omega), fun _ => by omega⟩
            | some expr =>
              try simp only [] at h
              by_cases h4 : q2.nextToken.kind ≠ .Rparen
              · rw [if_pos h4] at h
                simp only [Except.ok.injEq, Prod.mk.injEq] at h
                rw [← h.2]
                exact ⟨Or.inl (by simp only [report]; omega),
                  fun _ => by simp only [report]; omega⟩
              · rw [if_neg h4] at h
                cases he2 : eatNextToken q2 with
                | error err => rw [he2] at h; simp at h
                | ok q3 =>
                  rw [he2] at h
                  have hq3 := eatNextToken_lt q2 q3 he2
                  simp only [Except.ok.injEq, Prod.mk.injEq] at h
                  rw [← h.2]
                  exact ⟨Or.inl (by omega), fun _ => by omega⟩
      · simp only [h3, if_false, Except.ok.injEq, Prod.mk.injEq] at h
        rw [← h.1, ← h.2]
        exact ⟨keeps_refl p, fun hs => by simp at hs⟩

theorem parseAssignmentRHS_spec (lhs : DeclRefExpr) (p : Parser) :
    parseAssignmentRHS lhs p ≠ .error .outOfFuel ∧
    ∀ r p1, parseAssignmentRHS lhs p = .ok (r, p1) → p1.lexer.length < p.lexer.length := by
  unfold parseAssignmentRHS
  try simp only []
  cases he : eatNextToken p with
  | error err => exact ⟨eatNextToken_error p err he, fun _ _ h => by simp at h⟩
  | ok q =>
    have hq := eatNextToken_lt p q he
    try simp only []
    have hne := (parseExpr_ne_outOfFuel q none 0).1
    cases hx : parseExpr q with
    | error err =>
      rw [hx] at hne
      exact ⟨error_ne_outOfFuel err hne, fun _ _ h => by simp at h⟩
    | ok r =>
      obtain ⟨x, q2⟩ := r
      have hq2 := parseExpr_length q x q2 hx
      cases x with
      | none =>
        refine ⟨by simp, fun r p1 h => ?_⟩
        simp only [Except.ok.injEq, Prod.mk.injEq] at h
        rw [← h.2]; omega
      | some rhs =>
        refine ⟨by simp, fun r p1 h => ?_⟩
        simp only [Except.ok.injEq, Prod.mk.injEq] at h
        rw [← h.2]; omega

theorem parseAssignmentOrExpr_spec (p : Parser) :
    parseAssignmentOrExpr p ≠ .error .outOfFuel ∧
    ∀ r p1, parseAssignmentOrExpr p = .ok (r, p1) →
      Keeps p p1 ∧ (r.isSome = true → p1.lexer.length < p.lexer.length) := by
  unfold parseAssignmentOrExpr
  have hne := (parseExpr_ne_outOfFuel p none 0).2.1
  cases hx : parsePrefixExpr p with
  | error err =>
    rw [hx] at hne
    exact ⟨error_ne_outOfFuel err hne, fun _ _ h => by simp at h⟩
  | ok r0 =>
    obtain ⟨x, q⟩ := r0
    have hk := parsePrefixExpr_keeps p x q hx
    cases x with
    | none =>
      refine ⟨by simp, fun r p1 h => ?_⟩
      simp only [Except.ok.injEq, Prod.mk.injEq] at h
      rw [← h.1, ← h.2]
      exact ⟨hk.1, fun hs => by simp at hs⟩
    | some lhs =>
      have hq : q.lexer.length < p.lexer.length := hk.2 rfl
      try simp only []
      by_cases h1 : q.nextToken.kind ≠ .Equal
      · rw [if_pos h1]
        have hne2 := (parseExpr_ne_outOfFuel q (some lhs) 0).2.2
        cases hy : parseExprRHS (some lhs) 0 q with
        | error err =>
          rw [hy] at hne2
          exact ⟨error_ne_outOfFuel err hne2, fun _ _ h => by simp at h⟩
        | ok r1 =>
          obtain ⟨y, q2⟩ := r1
          have hq2 := parseExprRHS_length (some lhs) 0 q y q2 hy
          cases y with
          | none =>
            refine ⟨by simp, fun r p1 h => ?_⟩
            simp only [Except.ok.injEq, Prod.mk.injEq] at h
            rw [← h.2]
            exact ⟨Or.inl (by omega), fun _ => by omega⟩
          | some expr =>
            try simp only []
            by_cases h2 : q2.nextToken.kind ≠ .Semi
            · rw [if_pos h2]
              refine ⟨by simp, fun r p1 h => ?_⟩
              simp only [Except.ok.injEq, Prod.mk.injEq] at h
              rw [← h.2]
              exact ⟨Or.inl (by simp only [report]; omega),
                fun _ => by simp only [report]; omega⟩
            · rw [if_neg h2]
              cases he : eatNextToken q2 with
              | error err => exact ⟨eatNextToken_error q2 err he, fun _ _ h => by simp at h⟩
              | ok q3 =>
                have hq3 := eatNextToken_lt q2 q3 he
                refine ⟨by simp, fun r p1 h => ?_⟩
                simp only [Except.ok.injEq, Prod.mk.injEq] at h
                rw [← h.2]
                exact ⟨Or.inl (by omega), fun _ => by omega⟩
      · rw [if_neg h1]
        cases lhs with
        | DeclRefExpr dre =>
          try simp only []
          have hA := parseAssignmentRHS_spec dre q
          cases hy : parseAssignmentRHS dre q with
          | error err =>
            rw [hy] at hA
            exact ⟨hA.1, fun _ _ h => by simp at h⟩
          | ok r1 =>
            obtain ⟨y, q2⟩ := r1
            have hq2 := hA.2 y q2 hy
            cases y with
            | none =>
              refine ⟨by simp, fun r p1 h => ?_⟩
              simp only [Except.ok.injEq, Prod.mk.injEq] at h
              rw [← h.2]
              exact ⟨Or.inl (by omega), fun _ => by omega⟩
            | some assignment =>
              try simp only []
              by_cases h2 : q2.nextToken.kind ≠ .Semi
              · rw [if_pos h2]
                refine ⟨by simp, fun r p1 h => ?_⟩
                simp only [Except.ok.injEq, Prod.mk.injEq] at h
                rw [← h.2]
                exact ⟨Or.inl (by simp only [report]; omega),
                  fun _ => by simp only [report]; omega⟩
              · rw [if_neg h2]
                cases he : eatNextToken q2 with
                | error err => exact ⟨eatNextToken_error q2 err he, fun _ _ h => by simp at h⟩
                | ok q3 =>
                  have hq3 := eatNextToken_lt q2 q3 he
                  refine ⟨by simp, fun r p1 h => ?_⟩
                  simp only [Except.ok.injEq, Prod.mk.injEq] at h
                  rw [← h.2]
                  exact ⟨Or.inl (by omega), fun _ => by omega⟩
        | IntegerLiteral location value =>
          refine ⟨by simp, fun r p1 h => ?_⟩
          simp only [Except.ok.injEq, Prod.mk.injEq] at h
          rw [← h.2]
          exact ⟨Or.inl (by simp only [report]; omega),
            fun _ => by simp only [report]; omega⟩
        | BinaryExpr location op l r =>
          refine ⟨by simp, fun r p1 h => ?_⟩
          simp only [Except.ok.injEq, Prod.mk.injEq] at h
          rw [← h.2]
          exact ⟨Or.inl (by simp only [report]; omega),
            fun _ => by simp only [report]; omega⟩

theorem parseType_spec (p : Parser) :
    parseType p ≠ .error .outOfFuel ∧
    ∀ r p1, parseType p = .ok (r, p1) → p1.lexer.length ≤ p.lexer.length := by
  unfold parseType
  by_cases h1 : p.nextToken.kind = .Identifier
  · rw [if_pos h1]
    cases hv : p.nextToken.value with
    | none => exact ⟨by simp, fun _ _ h => by simp at h⟩
    | some name =>
      try simp only []
      cases he : eatNextToken p with
      | error err => exact ⟨eatNextToken_error p err he, fun _ _ h => by simp at h⟩
      | ok q =>
        have hq := eatNextToken_lt p q he
        refine ⟨by simp, fun r p1 h => ?_⟩
        simp only [Except.ok.injEq, Prod.mk.injEq] at h
        rw [← h.2]; omega
  · rw [if_neg h1]
    refine ⟨by simp, fun r p1 h => ?_⟩
    simp only [Except.ok.injEq, Prod.mk.injEq] at h
    rw [← h.2]

theorem parseVarDecl_spec (isLet : Bool) (p : Parser) :
    parseVarDecl isLet p ≠ .error .outOfFuel ∧
    ∀ r p1, parseVarDecl isLet p = .ok (r, p1) → p1.lexer.length < p.lexer.length := by
  unfold parseVarDecl
  try simp only []
  cases hv : p.nextToken.value with
  | none => exact ⟨by simp, fun _ _ h => by simp at h⟩
  | some identifier =>
    try simp only []
    cases he : eatNextToken p with
    | error err => exact ⟨eatNextToken_error p err he, fun _ _ h => by simp at h⟩
    | ok q =>
      have hq := eatNextToken_lt p q he
      try simp only []
      -- the type, when a ':' follows
      have hT : ∀ (x : Except Fault (Option (Option «Type») × Parser)),
          (x = (if q.nextToken.kind = .Colon then
            match eatNextToken q with
            | .error e => .error e
            | .ok p2 =>
              match parseType p2 with
              | .error e => .error e
              | .ok (none, p3) => .ok (none, p3)
              | .ok (some type, p3) => .ok (some (some type), p3)
          else .ok (some none, q))) →
          x ≠ .error .outOfFuel ∧ ∀ r p3, x = .ok (r, p3) → p3.lexer.length ≤ q.lexer.length := by
        intro x hx
        rw [hx]
        by_cases hc : q.nextToken.kind = .Colon
        · rw [if_pos hc]
          cases he2 : eatNextToken q with
          | error err => exact ⟨eatNextToken_error q err he2, fun _ _ h => by simp at h⟩
          | ok q2 =>
            have hq2 := eatNextToken_lt q q2 he2
            try simp only []
            have hty := parseType_spec q2
            cases ht : parseType q2 with
            | error err =>
              rw [ht] at hty
              exact ⟨error_ne_outOfFuel err hty.1, fun _ _ h => by simp at h⟩
            | ok r0 =>
              obtain ⟨t, q3⟩ := r0
              have hq3 := hty.2 t q3 ht
              cases t with
              | none =>
                refine ⟨by simp, fun r p3 h => ?_⟩
                simp only [Except.ok.injEq, Prod.mk.injEq] at h
                rw [← h.2]; omega
              | some type =>
                refine ⟨by simp, fun r p3 h => ?_⟩
                simp only [Except.ok.injEq, Prod.mk.injEq] at h
                rw [← h.2]; omega
        · rw [if_neg hc]
          refine ⟨by simp, fun r p3 h => ?_⟩
          simp only [Except.ok.injEq, Prod.mk.injEq] at h
          rw [← h.2]
      generalize hx : (if q.nextToken.kind = .Colon then
            match eatNextToken q with
            | .error e => .error e
            | .ok p2 =>
              match parseType p2 with
              | .error e => .error e
              | .ok (none, p3) => .ok (none, p3)
              | .ok (some type, p3) => .ok (some (some type), p3)
          else (.ok (some none, q) : Except Fault (Option (Option «Type») × Parser))) = x
      have hTx := hT x hx.symm
      cases x with
      | error err => exact ⟨error_ne_outOfFuel err hTx.1, fun _ _ h => by simp at h⟩
      | ok r0 =>
        obtain ⟨t, q3⟩ := r0
        have hq3 := hTx.2 t q3 rfl
        cases t with
        | none =>
          refine ⟨by simp, fun r p1 h => ?_⟩
          simp only [Except.ok.injEq, Prod.mk.injEq] at h
          rw [← h.2]; omega
        | some type =>
          try simp only []
          by_cases h2 : q3.nextToken.kind ≠ .Equal
          · rw [if_pos h2]
            refine ⟨by simp, fun r p1 h => ?_⟩
            simp only [Except.ok.injEq, Prod.mk.injEq] at h
            rw [← h.2]; omega
          · rw [if_neg h2]
            cases he4 : eatNextToken q3 with
            | error err => exact ⟨eatNextToken_error q3 err he4, fun _ _ h => by simp at h⟩
            | ok q4 =>
              have hq4 := eatNextToken_lt q3 q4 he4
              try simp only []
              have hne := (parseExpr_ne_outOfFuel q4 none 0).1
              cases hy : parseExpr q4 with
              | error err =>
                rw [hy] at hne
                exact ⟨error_ne_outOfFuel err hne, fun _ _ h => by simp at h⟩
              | ok r1 =>
                obtain ⟨y, q5⟩ := r1
                have hq5 := parseExpr_length q4 y q5 hy
                cases y with
                | none =>
                  refine ⟨by simp, fun r p1 h => ?_⟩
                  simp only [Except.ok.injEq, Prod.mk.injEq] at h
                  rw [← h.2]; omega
                | some initializer =>
                  refine ⟨by simp, fun r p1 h => ?_⟩
                  simp only [Except.ok.injEq, Prod.mk.injEq] at h
                  rw [← h.2]; omega

theorem parseDeclStmt_spec (p : Parser) :
    parseDeclStmt p ≠ .error .outOfFuel ∧
    ∀ r p1, parseDeclStmt p = .ok (r, p1) → p1.lexer.length < p.lexer.length := by
  unfold parseDeclStmt
  try simp only []
  cases he : eatNextToken p with
  | error err => exact ⟨eatNextToken_error p err he, fun _ _ h => by simp at h⟩
  | ok q =>
    have hq := eatNextToken_lt p q he
    try simp only []
    by_cases h1 : q.nextToken.kind ≠ .Identifier
    · rw [if_pos h1]
      refine ⟨by simp, fun r p1 h => ?_⟩
      simp only [Except.ok.injEq, Prod.mk.injEq] at h
      rw [← h.2]; simp only [report]; omega
    · rw [if_neg h1]
      have hV := parseVarDecl_spec (decide (p.nextToken.kind = .KwLet)) q
      cases hx : parseVarDecl (decide (p.nextToken.kind = .KwLet)) q with
      | error err =>
        rw [hx] at hV
        exact ⟨error_ne_outOfFuel err hV.1, fun _ _ h => by simp at h⟩
      | ok r0 =>
        obtain ⟨x, q2⟩ := r0
        have hq2 := hV.2 x q2 hx
        cases x with
        | none =>
          refine ⟨by simp, fun r p1 h => ?_⟩
          simp only [Except.ok.injEq, Prod.mk.injEq] at h
          rw [← h.2]; omega
        | some varDecl =>
          try simp only []
          by_cases h2 : q2.nextToken.kind ≠ .Semi
          · rw [if_pos h2]
            refine ⟨by simp, fun r p1 h => ?_⟩
            simp only [Except.ok.injEq, Prod.mk.injEq] at h
            rw [← h.2]; simp only [report]; omega
          · rw [if_neg h2]
            cases he3 : eatNextToken q2 with
            | error err => exact ⟨eatNextToken_error q2 err he3, fun _ _ h => by simp at h⟩
            | ok q3 =>
              have hq3 := eatNextToken_lt q2 q3 he3
              refine ⟨by simp, fun r p1 h => ?_⟩
              simp only [Except.ok.injEq, Prod.mk.injEq] at h
              rw [← h.2]; omega

theorem parseReturnStmt_spec (p : Parser) :
    parseReturnStmt p ≠ .error .outOfFuel ∧
    ∀ r p1, parseReturnStmt p = .ok (r, p1) → p1.lexer.length < p.lexer.length := by
  unfold parseReturnStmt
  try simp only []
  cases he : eatNextToken p with
  | error err => exact ⟨eatNextToken_error p err he, fun _ _ h => by simp at h⟩
  | ok q =>
    have hq := eatNextToken_lt p q he
    try simp only []
    generalize hx : (if q.nextToken.kind ≠ .Semi then
          match parseExpr q with
          | .error e => .error e
          | .ok (none, p2) => .ok (none, p2)
          | .ok (some expr, p2) => .ok (some (some expr), p2)
        else (.ok (some none, q) : Except Fault (Option (Option Expr) × Parser))) = x
    have hX : x ≠ .error .outOfFuel ∧
        ∀ r p2, x = .ok (r, p2) → p2.lexer.length ≤ q.lexer.length := by
      rw [← hx]
      by_cases hs : q.nextToken.kind ≠ .Semi
      · rw [if_pos hs]
        have hne := (parseExpr_ne_outOfFuel q none 0).1
        cases hy : parseExpr q with
        | error err =>
          rw [hy] at hne
          exact ⟨error_ne_outOfFuel err hne, fun _ _ h => by simp at h⟩
        | ok r1 =>
          obtain ⟨y, q2⟩ := r1
          have hq2 := parseExpr_length q y q2 hy
          cases y with
          | none =>
            refine ⟨by simp, fun r p2 h => ?_⟩
            simp only [Except.ok.injEq, Prod.mk.injEq] at h
            rw [← h.2]; omega
          | some expr =>
            refine ⟨by simp, fun r p2 h => ?_⟩
            simp only [Except.ok.injEq, Prod.mk.injEq] at h
            rw [← h.2]; omega
      · rw [if_neg hs]
        refine ⟨by simp, fun r p2 h => ?_⟩
        simp only [Except.ok.injEq, Prod.mk.injEq] at h
        rw [← h.2]
    cases x with
    | error err => exact ⟨error_ne_outOfFuel err hX.1, fun _ _ h => by simp at h⟩
    | ok r0 =>
      obtain ⟨e, q2⟩ := r0
      have hq2 := hX.2 e q2 rfl
      cases e with
      | none =>
        refine ⟨by simp, fun r p1 h => ?_⟩
        simp only [Except.ok.injEq, Prod.mk.injEq] at h
        rw [← h.2]; omega
      | some expr =>
        try simp only []
        by_cases h2 : q2.nextToken.kind ≠ .Semi
        · rw [if_pos h2]
          refine ⟨by simp, fun r p1 h => ?_⟩
          simp only [Except.ok.injEq, Prod.mk.injEq] at h
          rw [← h.2]; simp only [report]; omega
        · rw [if_neg h2]
          cases he3 : eatNextToken q2 with
          | error err => exact ⟨eatNextToken_error q2 err he3, fun _ _ h => by simp at h⟩
          | ok q3 =>
            have hq3 := eatNextToken_lt q2 q3 he3
            refine ⟨by simp, fun r p1 h => ?_⟩
            simp only [Except.ok.injEq, Prod.mk.injEq] at h
            rw [← h.2]; omega

theorem synchronizeLoop_progress :
    ∀ (fuel : Nat) (braces : Int) (p : Parser), p.lexer.length < fuel →
      synchronizeLoop fuel braces p ≠ .error .outOfFuel ∧
      ∀ p1, synchronizeLoop fuel braces p = .ok p1 →
        p1.lexer.length ≤ p.lexer.length ∧
        (p1.lexer.length = p.lexer.length →
          p.nextToken.kind = .Rbrace ∨ p.nextToken.kind = .KwFunction ∨
            p.nextToken.kind = .Eof) := by
  intro fuel
  induction fuel with
  | zero => intro braces p h; omega
  | succ fuel ih =>
    intro braces p hf
    rw [synchronizeLoop]
    try simp only []
    have hstay : (Except.ok p : Except Fault Parser) ≠ .error .outOfFuel ∧
        ∀ p1, (Except.ok p : Except Fault Parser) = .ok p1 →
          p1.lexer.length ≤ p.lexer.length ∧
          (p1.lexer.length = p.lexer.length → p1 = p) := by
      refine ⟨by simp, fun p1 h => ?_⟩
      simp only [Except.ok.injEq] at h
      rw [← h]
      exact ⟨le_refl _, fun _ => rfl⟩
    cases he : eatNextToken p with
    | error err =>
      have herr : (Except.error err : Except Fault Parser) ≠ .error .outOfFuel ∧
          ∀ p1, (Except.error err : Except Fault Parser) = .ok p1 →
            p1.lexer.length ≤ p.lexer.length ∧
            (p1.lexer.length = p.lexer.length →
              p.nextToken.kind = .Rbrace ∨ p.nextToken.kind = .KwFunction ∨
                p.nextToken.kind = .Eof) :=
        ⟨eatNextToken_error p err he, fun _ h => by simp at h⟩
      try simp only []
      by_cases h1 : p.nextToken.kind = .Lbrace
      · rw [if_pos h1]
        exact herr
      · rw [if_neg h1]
        by_cases h2 : p.nextToken.kind = .Rbrace
        · rw [if_pos h2]
          by_cases h3 : braces = 0
          · rw [if_pos h3]
            exact ⟨hstay.1, fun p1 h => ⟨(hstay.2 p1 h).1, fun _ => Or.inl h2⟩⟩
          · rw [if_neg h3]
            by_cases h4 : braces = 1
            · rw [if_pos h4]
              exact herr
            · rw [if_neg h4]
              exact herr
        · rw [if_neg h2]
          by_cases h5 : p.nextToken.kind = .Semi ∧ braces = 0
          · rw [if_pos h5]
            exact herr
          · rw [if_neg h5]
            by_cases h6 : p.nextToken.kind = .KwFunction ∨ p.nextToken.kind = .Eof
            · rw [if_pos h6]
              exact ⟨hstay.1, fun p1 h => ⟨(hstay.2 p1 h).1, fun _ => Or.inr h6⟩⟩
            · rw [if_neg h6]
              exact herr
    | ok q =>
      have hq := eatNextToken_lt p q he
      have hstep : ∀ (b : Int),
          synchronizeLoop fuel b q ≠ .error .outOfFuel ∧
          ∀ p1, synchronizeLoop fuel b q = .ok p1 →
            p1.lexer.length ≤ p.lexer.length ∧
            (p1.lexer.length = p.lexer.length →
              p.nextToken.kind = .Rbrace ∨ p.nextToken.kind = .KwFunction ∨
                p.nextToken.kind = .Eof) := by
        intro b
        have hI := ih b q (by omega)
        refine ⟨hI.1, fun p1 h => ?_⟩
        have := (hI.2 p1 h).1
        exact ⟨by omega, fun heq => by omega⟩
      have heat : (Except.ok q : Except Fault Parser) ≠ .error .outOfFuel ∧
          ∀ p1, (Except.ok q : Except Fault Parser) = .ok p1 →
            p1.lexer.length ≤ p.lexer.length ∧
            (p1.lexer.length = p.lexer.length →
              p.nextToken.kind = .Rbrace ∨ p.nextToken.kind = .KwFunction ∨
                p.nextToken.kind = .Eof) := by
        refine ⟨by simp, fun p1 h => ?_⟩
        simp only [Except.ok.injEq] at h
        rw [← h]
        exact ⟨by omega, fun heq => by omega⟩
      try simp only []
      by_cases h1 : p.nextToken.kind = .Lbrace
      · rw [if_pos h1]
        exact hstep (braces + 1)
      · rw [if_neg h1]
        by_cases h2 : p.nextToken.kind = .Rbrace
        · rw [if_pos h2]
          by_cases h3 : braces = 0
          · rw [if_pos h3]
            exact ⟨hstay.1, fun p1 h => ⟨(hstay.2 p1 h).1, fun _ => Or.inl h2⟩⟩
          · rw [if_neg h3]
            by_cases h4 : braces = 1
            · rw [if_pos h4]
              exact heat
            · rw [if_neg h4]
              exact hstep (braces - 1)
        · rw [if_neg h2]
          by_cases h5 : p.nextToken.kind = .Semi ∧ braces = 0
          · rw [if_pos h5]
            exact heat
          · rw [if_neg h5]
            by_cases h6 : p.nextToken.kind = .KwFunction ∨ p.nextToken.kind = .Eof
            · rw [if_pos h6]
              exact ⟨hstay.1, fun p1 h => ⟨(hstay.2 p1 h).1, fun _ => Or.inr h6⟩⟩
            · rw [if_neg h6]
              exact hstep braces

theorem synchronize_progress (p : Parser) :
    synchronize p ≠ .error .outOfFuel ∧
    ∀ p1, synchronize p = .ok p1 →
      p1.lexer.length ≤ p.lexer.length ∧
      (p1.lexer.length = p.lexer.length →
        p.nextToken.kind = .Rbrace ∨ p.nextToken.kind = .KwFunction ∨
          p.nextToken.kind = .Eof) :=
  synchronizeLoop_progress (p.lexer.length + 1) 0 { p with incompleteAST := true }
    (Nat.lt_succ_self _)

/-- With four units of fuel per token left and a few to start, none of the
statement parsers runs out of fuel; a statement that is returned has eaten a
token, and a block, an `if` and a `while` eat one before they return. -/
theorem block_fuel_enough : ∀ (fuel : Nat),
    (∀ p, (4 * p.lexer.length + 3 ≤ fuel → parseStmtFuel fuel p ≠ .error .outOfFuel) ∧
      ∀ r p1, parseStmtFuel fuel p = .ok (r, p1) →
        Keeps p p1 ∧ (r.isSome = true → p1.lexer.length < p.lexer.length)) ∧
    (∀ p, (4 * p.lexer.length + 2 ≤ fuel → parseIfStmtFuel fuel p ≠ .error .outOfFuel) ∧
      ∀ r p1, parseIfStmtFuel fuel p = .ok (r, p1) → p1.lexer.length < p.lexer.length) ∧
    (∀ p, (4 * p.lexer.length + 2 ≤ fuel → parseWhileStmtFuel fuel p ≠ .error .outOfFuel) ∧
      ∀ r p1, parseWhileStmtFuel fuel p = .ok (r, p1) → p1.lexer.length < p.lexer.length) ∧
    (∀ p, (4 * p.lexer.length + 1 ≤ fuel → parseBlockFuel fuel p ≠ .error .outOfFuel) ∧
      ∀ r p1, parseBlockFuel fuel p = .ok (r, p1) → p1.lexer.length < p.lexer.length) ∧
    (∀ location statements p,
      (4 * p.lexer.length + 4 ≤ fuel →
        parseBlockLoopFuel fuel location statements p ≠ .error .outOfFuel) ∧
      ∀ r p1, parseBlockLoopFuel fuel location statements p = .ok (r, p1) →
        p1.lexer.length ≤ p.lexer.length) := by
  intro fuel
  induction fuel with
  | zero =>
    refine ⟨fun p => ⟨fun h => by omega, fun r p1 h => ?_⟩,
      fun p => ⟨fun h => by omega, fun r p1 h => ?_⟩,
      fun p => ⟨fun h => by omega, fun r p1 h => ?_⟩,
      fun p => ⟨fun h => by omega, fun r p1 h => ?_⟩,
      fun location statements p => ⟨fun h => by omega, fun r p1 h => ?_⟩⟩
    · simp [parseStmtFuel] at h
    · simp [parseIfStmtFuel] at h
    · simp [parseWhileStmtFuel] at h
    · simp [parseBlockFuel] at h
    · simp [parseBlockLoopFuel] at h
  | succ fuel ih =>
    obtain ⟨ihS, ihI, ihW, ihB, ihL⟩ := ih
    refine ⟨?_, ?_, ?_, ?_, ?_⟩
    · -- parseStmt
      intro p
      rw [parseStmtFuel]
      by_cases h1 : p.nextToken.kind = .KwIf
      · rw [if_pos h1]
        refine ⟨fun hf => (ihI p).1 (by omega), fun r p1 h => ?_⟩
        have := (ihI p).2 r p1 h
        exact ⟨Or.inl this, fun _ => this⟩
      · rw [if_neg h1]
        by_cases h2 : p.nextToken.kind = .KwWhile
        · rw [if_pos h2]
          refine ⟨fun hf => (ihW p).1 (by omega), fun r p1 h => ?_⟩
          have := (ihW p).2 r p1 h
          exact ⟨Or.inl this, fun _ => this⟩
        · rw [if_neg h2]
          by_cases h3 : p.nextToken.kind = .KwReturn
          · rw [if_pos h3]
            refine ⟨fun _ => (parseReturnStmt_spec p).1, fun r p1 h => ?_⟩
            have := (parseReturnStmt_spec p).2 r p1 h
            exact ⟨Or.inl this, fun _ => this⟩
          · rw [if_neg h3]
            by_cases h4 : p.nextToken.kind = .KwLet ∨ p.nextToken.kind = .KwVar
            · rw [if_pos h4]
              refine ⟨fun _ => (parseDeclStmt_spec p).1, fun r p1 h => ?_⟩
              have := (parseDeclStmt_spec p).2 r p1 h
              exact ⟨Or.inl this, fun _ => this⟩
            · rw [if_neg h4]
              exact ⟨fun _ => (parseAssignmentOrExpr_spec p).1,
                (parseAssignmentOrExpr_spec p).2⟩
    · -- parseIfStmt
      intro p
      rw [parseIfStmtFuel]
      try simp only []
      cases he : eatNextToken p with
      | error err => exact ⟨fun _ => eatNextToken_error p err he, fun _ _ h => by simp at h⟩
      | ok q =>
        have hq := eatNextToken_lt p q he
        try simp only []
        have hne := (parseExpr_ne_outOfFuel q none 0).1
        cases hx : parseExpr q with
        | error err =>
          rw [hx] at hne
          exact ⟨fun _ => error_ne_outOfFuel err hne, fun _ _ h => by simp at h⟩
        | ok r0 =>
          obtain ⟨x, q2⟩ := r0
          have hq2 := parseExpr_length q x q2 hx
          cases x with
          | none =>
            refine ⟨fun _ => by simp, fun r p1 h => ?_⟩
            simp only [Except.ok.injEq, Prod.mk.injEq] at h
            rw [← h.2]; omega
          | some condition =>
            try simp only []
            by_cases h1 : q2.nextToken.kind ≠ .Lbrace
            · rw [if_pos h1]
              refine ⟨fun _ => by simp, fun r p1 h => ?_⟩
              simp only [Except.ok.injEq, Prod.mk.injEq] at h
              rw [← h.2]; simp only [report]; omega
            · rw [if_neg h1]
              cases hb : parseBlockFuel fuel q2 with
              | error err =>
                refine ⟨fun hf => ?_, fun _ _ h => by simp at h⟩
                have := (ihB q2).1 (by omega)
                rw [hb] at this
                exact error_ne_outOfFuel err this
              | ok r1 =>
                obtain ⟨y, q3⟩ := r1
                have hq3 := (ihB q2).2 y q3 hb
                cases y with
                | none =>
                  refine ⟨fun _ => by simp, fun r p1 h => ?_⟩
                  simp only [Except.ok.injEq, Prod.mk.injEq] at h
                  rw [← h.2]; omega
                | some trueBlock =>
                  try simp only []
                  by_cases h2 : q3.nextToken.kind ≠ .KwElse
                  · rw [if_pos h2]
                    refine ⟨fun _ => by simp, fun r p1 h => ?_⟩
                    simp only [Except.ok.injEq, Prod.mk.injEq] at h
                    rw [← h.2]; omega
                  · rw [if_neg h2]
                    cases he4 : eatNextToken q3 with
                    | error err =>
                      exact ⟨fun _ => eatNextToken_error q3 err he4,
                        fun _ _ h => by simp at h⟩
                    | ok q4 =>
                      have hq4 := eatNextToken_lt q3 q4 he4
                      try simp only []
                      by_cases h3 : q4.nextToken.kind = .KwIf
                      · rw [if_pos h3]
                        cases hi : parseIfStmtFuel fuel q4 with
                        | error err =>
                          refine ⟨fun hf => ?_, fun _ _ h => by simp at h⟩
                          have := (ihI q4).1 (by omega)
                          rw [hi] at this
                          exact error_ne_outOfFuel err this
                        | ok r2 =>
                          obtain ⟨z, q5⟩ := r2
                          have hq5 := (ihI q4).2 z q5 hi
                          cases z with
                          | none =>
                            refine ⟨fun _ => by simp, fun r p1 h => ?_⟩
                            simp only [Except.ok.injEq, Prod.mk.injEq] at h
                            rw [← h.2]; omega
                          | some elseIf =>
                            refine ⟨fun _ => by simp, fun r p1 h => ?_⟩
                            simp only [Except.ok.injEq, Prod.mk.injEq] at h
                            rw [← h.2]; omega
                      · rw [if_neg h3]
                        by_cases h5 : q4.nextToken.kind ≠ .Lbrace
                        · rw [if_pos h5]
                          refine ⟨fun _ => by simp, fun r p1 h => ?_⟩
                          simp only [Except.ok.injEq, Prod.mk.injEq] at h
                          rw [← h.2]; simp only [report]; omega
                        · rw [if_neg h5]
                          cases hb2 : parseBlockFuel fuel q4 with
                          | error err =>
                            refine ⟨fun hf => ?_, fun _ _ h => by simp at h⟩
                            have := (ihB q4).1 (by omega)
                            rw [hb2] at this
                            exact error_ne_outOfFuel err this
                          | ok r2 =>
                            obtain ⟨z, q5⟩ := r2
                            have hq5 := (ihB q4).2 z q5 hb2
                            cases z with
                            | none =>
                              refine ⟨fun _ => by simp, fun r p1 h => ?_⟩
                              simp only [Except.ok.injEq, Prod.mk.injEq] at h
                              rw [← h.2]; omega
                            | some falseBlock =>
                              refine ⟨fun _ => by simp, fun r p1 h => ?_⟩
                              simp only [Except.ok.injEq, Prod.mk.injEq] at h
                              rw [← h.2]; omega
    · -- parseWhileStmt
      intro p
      rw [parseWhileStmtFuel]
      try simp only []
      cases he : eatNextToken p with
      | error err => exact ⟨fun _ => eatNextToken_error p err he, fun _ _ h => by simp at h⟩
      | ok q =>
        have hq := eatNextToken_lt p q he
        try simp only []
        have hne := (parseExpr_ne_outOfFuel q none 0).1
        cases hx : parseExpr q with
        | error err =>
          rw [hx] at hne
          exact ⟨fun _ => error_ne_outOfFuel err hne, fun _ _ h => by simp at h⟩
        | ok r0 =>
          obtain ⟨x, q2⟩ := r0
          have hq2 := parseExpr_length q x q2 hx
          cases x with
          | none =>
            refine ⟨fun _ => by simp, fun r p1 h => ?_⟩
            simp only [Except.ok.injEq, Prod.mk.injEq] at h
            rw [← h.2]; omega
          | some cond =>
            try simp only []
            by_cases h1 : q2.nextToken.kind ≠ .Lbrace
            · rw [if_pos h1]
              refine ⟨fun _ => by simp, fun r p1 h => ?_⟩
              simp only [Except.ok.injEq, Prod.mk.injEq] at h
              rw [← h.2]; simp only [report]; omega
            · rw [if_neg h1]
              cases hb : parseBlockFuel fuel q2 with
              | error err =>
                refine ⟨fun hf => ?_, fun _ _ h => by simp at h⟩
                have := (ihB q2).1 (by omega)
                rw [hb] at this
                exact error_ne_outOfFuel err this
              | ok r1 =>
                obtain ⟨y, q3⟩ := r1
                have hq3 := (ihB q2).2 y q3 hb
                cases y with
                | none =>
                  refine ⟨fun _ => by simp, fun r p1 h => ?_⟩
                  simp only [Except.ok.injEq, Prod.mk.injEq] at h
                  rw [← h.2]; omega
                | some body =>
                  refine ⟨fun _ => by simp, fun r p1 h => ?_⟩
                  simp only [Except.ok.injEq, Prod.mk.injEq] at h
                  rw [← h.2]; omega
    · -- parseBlock
      intro p
      rw [parseBlockFuel]
      try simp only []
      cases he : eatNextToken p with
      | error err => exact ⟨fun _ => eatNextToken_error p err he, fun _ _ h => by simp at h⟩
      | ok q =>
        have hq := eatNextToken_lt p q he
        try simp only []
        refine ⟨fun hf => (ihL p.nextToken.location [] q).1 (by omega), fun r p1 h => ?_⟩
        have := (ihL p.nextToken.location [] q).2 r p1 h
        omega
    · -- the loop
      intro location statements p
      rw [parseBlockLoopFuel]
      by_cases h1 : p.nextToken.kind = .Rbrace
      · rw [if_pos h1]
        cases he : eatNextToken p with
        | error err => exact ⟨fun _ => eatNextToken_error p err he, fun _ _ h => by simp at h⟩
        | ok q =>
          have hq := eatNextToken_lt p q he
          refine ⟨fun _ => by simp, fun r p1 h => ?_⟩
          simp only [Except.ok.injEq, Prod.mk.injEq] at h
          rw [← h.2]; omega
      · rw [if_neg h1]
        by_cases h2 : p.nextToken.kind = .Eof ∨ p.nextToken.kind = .KwFunction
        · rw [if_pos h2]
          refine ⟨fun _ => by simp, fun r p1 h => ?_⟩
          simp only [Except.ok.injEq, Prod.mk.injEq] at h
          rw [← h.2]; simp only [report]; omega
        · rw [if_neg h2]
          cases hs : parseStmtFuel fuel p with
          | error err =>
            refine ⟨fun hf => ?_, fun _ _ h => by simp at h⟩
            have := (ihS p).1 (by omega)
            rw [hs] at this
            exact error_ne_outOfFuel err this
          | ok r0 =>
            obtain ⟨x, q⟩ := r0
            have hk := (ihS p).2 x q hs
            cases x with
            | none =>
              try simp only []
              have hsy := synchronize_progress q
              cases hy : synchronize q with
              | error err =>
                rw [hy] at hsy
                exact ⟨fun _ => error_ne_outOfFuel err hsy.1, fun _ _ h => by simp at h⟩
              | ok q2 =>
                have hq2 := hsy.2 q2 hy
                have hlt : q2.lexer.length < p.lexer.length := by
                  rcases hk.1 with hlt | ⟨hlen, htok⟩
                  · omega
                  · by_cases heq : q2.lexer.length = q.lexer.length
                    · exfalso
                      have hkind := hq2.2 heq
                      rw [htok] at hkind
                      rcases hkind with hk1 | hk1 | hk1
                      · exact h1 hk1
                      · exact h2 (Or.inr hk1)
                      · exact h2 (Or.inl hk1)
                    · omega
                try simp only []
                refine ⟨fun hf => (ihL location statements q2).1 (by omega),
                  fun r p1 h => ?_⟩
                have := (ihL location statements q2).2 r p1 h
                omega
            | some stmt =>
              have hlt : q.lexer.length < p.lexer.length := hk.2 rfl
              try simp only []
              refine ⟨fun hf => (ihL location (statements ++ [stmt]) q).1 (by omega),
                fun r p1 h => ?_⟩
              have := (ihL location (statements ++ [stmt]) q).2 r p1 h
              omega

/-- C37. On a token stream that ends in `Eof`, `parseBlock` and `parseStmt` of
parser.cpp return or stop at a fault of the program, they do not run on;
`synchronize` returns, and it has eaten a token unless it started in front of
`}`, a function keyword or `Eof`. A turn of the statement loop of
`parseBlock` in front of `Eof` or a function keyword returns the failure
`expected '}' at the end of a block`; in front of a token other than `}`,
`Eof` and a function keyword it goes on with fewer tokens left, after the
statement `parseStmt` returned or after `synchronize`. -/
theorem c37_parseBlock_terminates (p : Parser)
    (hEof : ((p.nextToken :: p.lexer).getLast (List.cons_ne_nil _ _)).kind = .Eof) :
    parseBlock p ≠ .error .outOfFuel ∧ parseStmt p ≠ .error .outOfFuel ∧
    (∃ p2, synchronize p = .ok p2 ∧
      (p2.lexer.length < p.lexer.length ∨ p.nextToken.kind = .Rbrace ∨
        p.nextToken.kind = .KwFunction ∨ p.nextToken.kind = .Eof)) ∧
    ∀ (fuel : Nat) (location : SourceLocation) (statements : List Stmt),
      (p.nextToken.kind = .Eof ∨ p.nextToken.kind = .KwFunction →
        parseBlockLoopFuel (fuel + 1) location statements p
          = .ok (none, report p p.nextToken.location "expected '\x7d' at the end of a block")) ∧
      (p.nextToken.kind ≠ .Rbrace → p.nextToken.kind ≠ .Eof →
        p.nextToken.kind ≠ .KwFunction →
        (∀ stmt p1, parseStmtFuel fuel p = .ok (some stmt, p1) →
          p1.lexer.length < p.lexer.length ∧
          parseBlockLoopFuel (fuel + 1) location statements p
            = parseBlockLoopFuel fuel location (statements ++ [stmt]) p1) ∧
        (∀ p1 p2, parseStmtFuel fuel p = .ok (none, p1) → synchronize p1 = .ok p2 →
          p2.lexer.length < p.lexer.length ∧
          parseBlockLoopFuel (fuel + 1) location statements p
            = parseBlockLoopFuel fuel location statements p2)) := by
  refine ⟨?_, ?_, ?_, ?_⟩
  · exact ((block_fuel_enough (blockFuel p)).2.2.2.1 p).1 (by unfold blockFuel; omega)
  · exact ((block_fuel_enough (blockFuel p)).1 p).1 (by unfold blockFuel; omega)
  · have hmem : ∃ e ∈ p.nextToken :: p.lexer, e.kind = .Eof :=
      ⟨_, List.getLast_mem _, hEof⟩
    obtain ⟨p2, _, _, _, _, hrun, _⟩ :=
      synchronizeLoop_stops (p.lexer.length + 1) 0 { p with incompleteAST := true }
        (by simp) (le_refl _) hmem
    have hp := (synchronize_progress p).2 p2 hrun
    refine ⟨p2, hrun, ?_⟩
    by_cases heq : p2.lexer.length = p.lexer.length
    · exact Or.inr (hp.2 heq)
    · exact Or.inl (by omega)
  · intro fuel location statements
    constructor
    · intro hk
      have hr : p.nextToken.kind ≠ .Rbrace := by
        rcases hk with hk | hk <;> rw [hk] <;> decide
      rw [parseBlockLoopFuel, if_neg hr, if_pos hk]
    · intro h1 h2 h3
      have h23 : ¬ (p.nextToken.kind = .Eof ∨ p.nextToken.kind = .KwFunction) := by
        rintro (h | h)
        · exact h2 h
        · exact h3 h
      constructor
      · intro stmt p1 hs
        refine ⟨((block_fuel_enough fuel).1 p).2 (some stmt) p1 hs |>.2 rfl, ?_⟩
        rw [parseBlockLoopFuel, if_neg h1, if_neg h23, hs]
      · intro p1 p2 hs hy
        have hk := (((block_fuel_enough fuel).1 p).2 none p1 hs).1
        have hq2 := (synchronize_progress p1).2 p2 hy
        refine ⟨?_, ?_⟩
        · rcases hk with hlt | ⟨hlen, htok⟩
          · omega
          · by_cases heq : p2.lexer.length = p1.lexer.length
            · exfalso
              have hkind := hq2.2 heq
              rw [htok] at hkind
              rcases hkind with hk1 | hk1 | hk1
              · exact h1 hk1
              · exact h3 hk1
              · exact h2 hk1
            · omega
        · rw [parseBlockLoopFuel, if_neg h1, if_neg h23, hs]
          simp only [hy]

/-- C37, at the tokens `{ return ; }` and `Eof`, where `parseBlock` returns the
block with the one statement, and at `{ return ;` and `Eof`, where it returns
the failure. -/
theorem c37_parseBlock_terminates_witness :
    parseBlock
        { lexer := [tokv 3 .KwReturn "return", tok 9 .Semi, tok 11 .Rbrace, tok 12 .Eof],
          nextToken := tok 1 .Lbrace }
      = .ok (some (.mk ⟨"t", 1, 1⟩ [.ReturnStmt ⟨"t", 1, 3⟩ none]),
          { lexer := [], nextToken := tok 12 .Eof }) ∧
    parseBlock
        { lexer := [tokv 3 .KwReturn "return", tok 9 .Semi, tok 11 .Eof],
          nextToken := tok 1 .Lbrace }
      = .ok (none,
          { lexer := [], nextToken := tok 11 .Eof,
            diagnostics := [(⟨"t", 1, 11⟩, "expected '\x7d' at the end of a block")] }) ∧
    parseBlock
        { lexer := [tokv 3 .KwReturn "return", tok 9 .Semi, tok 11 .Rbrace, tok 12 .Eof],
          nextToken := tok 1 .Lbrace }
      ≠ .error .outOfFuel :=
  ⟨rfl, rfl,
    (c37_parseBlock_terminates
      { lexer := [tokv 3 .KwReturn "return", tok 9 .Semi, tok 11 .Rbrace, tok 12 .Eof],
        nextToken := tok 1 .Lbrace } rfl).1⟩

/-! ## Parser: the expression parsers do not depend on the fuel -/

/-- A unit of fuel more changes nothing in a call of an expression parser that
did not stop for lack of fuel. -/
theorem parse_fuel_succ : ∀ (fuel : Nat),
    (∀ p, parsePrefixExprFuel fuel p ≠ .error .outOfFuel →
      parsePrefixExprFuel (fuel + 1) p = parsePrefixExprFuel fuel p) ∧
    (∀ p, parseExprFuel fuel p ≠ .error .outOfFuel →
      parseExprFuel (fuel + 1) p = parseExprFuel fuel p) ∧
    (∀ lhs exprPrec p, parseExprRHSFuel fuel lhs exprPrec p ≠ .error .outOfFuel →
      parseExprRHSFuel (fuel + 1) lhs exprPrec p = parseExprRHSFuel fuel lhs exprPrec p) := by
  intro fuel
  induction fuel with
  | zero =>
    refine ⟨fun p h => ?_, fun p h => ?_, fun lhs exprPrec p h => ?_⟩
    · exact absurd (by rw [parsePrefixExprFuel]) h
    · exact absurd (by rw [parseExprFuel]) h
    · exact absurd (by rw [parseExprRHSFuel]) h
  | succ fuel ih =>
    obtain ⟨ihP, ihE, ihR⟩ := ih
    refine ⟨?_, ?_, ?_⟩
    · intro p h
      rw [parsePrefixExprFuel] at h
      rw [parsePrefixExprFuel, parsePrefixExprFuel]
      try simp only [] at h ⊢
      by_cases h1 : p.nextToken.kind = .Identifier
      · simp only [h1, if_true]
      · simp only [h1, if_false] at h ⊢
        by_cases h2 : p.nextToken.kind = .IntegerLiteral
        · simp only [h2, if_true]
        · simp only [h2, if_false] at h ⊢
          by_cases h3 : p.nextToken.kind = .Lparen
          · simp only [h3, if_true] at h ⊢
            cases he : eatNextToken p with
            | error e => rfl
            | ok p1 =>
              rw [he] at h
              try simp only [] at h ⊢
              have hin : parseExprFuel fuel p1 ≠ .error .outOfFuel := by
                intro hc
                rw [hc] at h
                exact h rfl
              rw [ihE p1 hin]
          · simp only [h3, if_false]
    · intro p h
      rw [parseExprFuel] at h
      rw [parseExprFuel, parseExprFuel]
      have hin : parsePrefixExprFuel fuel p ≠ .error .outOfFuel := by
        intro hc
        rw [hc] at h
        exact h rfl
      rw [ihP p hin]
      cases hx : parsePrefixExprFuel fuel p with
      | error e => rfl
      | ok r =>
        obtain ⟨lhs, p1⟩ := r
        rw [hx] at h
        try simp only [] at h ⊢
        exact ihR lhs 0 p1 h
    · intro lhs exprPrec p h
      rw [parseExprRHSFuel] at h
      rw [parseExprRHSFuel, parseExprRHSFuel]
      try simp only [] at h ⊢
      by_cases h1 : getTokPrecedence p.nextToken.kind < exprPrec
      · simp only [h1, if_true]
      · simp only [h1, if_false] at h ⊢
        cases he : eatNextToken p with
        | error e => rfl
        | ok p1 =>
          rw [he] at h
          try simp only [] at h ⊢
          have hin : parsePrefixExprFuel fuel p1 ≠ .error .outOfFuel := by
            intro hc
            rw [hc] at h
            exact h rfl
          rw [ihP p1 hin]
          cases hx : parsePrefixExprFuel fuel p1 with
          | error e => rfl
          | ok r =>
            obtain ⟨rhs, p2⟩ := r
            rw [hx] at h
            cases rhs with
            | none => rfl
            | some rhs =>
              try simp only [] at h ⊢
              by_cases h2 : getTokPrecedence p.nextToken.kind
                  < getTokPrecedence p2.nextToken.kind
              · simp only [h2, if_true] at h ⊢
                have hin2 : parseExprRHSFuel fuel (some rhs)
                    (getTokPrecedence p.nextToken.kind + 1) p2 ≠ .error .outOfFuel := by
                  intro hc
                  rw [hc] at h
                  exact h rfl
                rw [ihR _ _ p2 hin2]
                cases hy : parseExprRHSFuel fuel (some rhs)
                    (getTokPrecedence p.nextToken.kind + 1) p2 with
                | error e => rfl
                | ok r1 =>
                  obtain ⟨rhs1, p3⟩ := r1
                  rw [hy] at h
                  cases rhs1 with
                  | none => rfl
                  | some rhs1 =>
                    try simp only [] at h ⊢
                    exact ihR _ _ p3 h
              · simp only [h2, if_false] at h ⊢
                exact ihR _ _ p2 h

theorem parse_fuel_add : ∀ (k fuel : Nat),
    (∀ p, parsePrefixExprFuel fuel p ≠ .error .outOfFuel →
      parsePrefixExprFuel (fuel + k) p = parsePrefixExprFuel fuel p) ∧
    (∀ p, parseExprFuel fuel p ≠ .error .outOfFuel →
      parseExprFuel (fuel + k) p = parseExprFuel fuel p) ∧
    (∀ lhs exprPrec p, parseExprRHSFuel fuel lhs exprPrec p ≠ .error .outOfFuel →
      parseExprRHSFuel (fuel + k) lhs exprPrec p = parseExprRHSFuel fuel lhs exprPrec p) := by
  intro k
  induction k with
  | zero => intro fuel; exact ⟨fun _ _ => rfl, fun _ _ => rfl, fun _ _ _ _ => rfl⟩
  | succ k ih =>
    intro fuel
    obtain ⟨ihP, ihE, ihR⟩ := ih fuel
    obtain ⟨sP, sE, sR⟩ := parse_fuel_succ (fuel + k)
    refine ⟨fun p h => ?_, fun p h => ?_, fun lhs exprPrec p h => ?_⟩
    · have h1 := ihP p h
      rw [← Nat.add_assoc, sP p (by rw [h1]; exact h), h1]
    · have h1 := ihE p h
      rw [← Nat.add_assoc, sE p (by rw [h1]; exact h), h1]
    · have h1 := ihR lhs exprPrec p h
      rw [← Nat.add_assoc, sR lhs exprPrec p (by rw [h1]; exact h), h1]

theorem parseExprFuel_eq (p : Parser) (fuel : Nat)
    (h : 3 * p.lexer.length + 3 ≤ fuel) : parseExprFuel fuel p = parseExpr p := by
  have hne := ((parse_fuel_enough (3 * p.lexer.length + 3)).2.1 p (le_refl _)).1
  obtain ⟨k, rfl⟩ := Nat.exists_eq_add_of_le h
  rw [(parse_fuel_add k _).2.1 p hne]
  unfold parseExpr parseFuel
  exact ((parse_fuel_add 1 _).2.1 p hne).symm

namespace ParserH

/-! ## Parser of parser.h: the loop of `parseBlock` -/

theorem parseStmt_stays (p : Parser)
    (h : p.nextToken.kind ≠ .Number ∧ p.nextToken.kind ≠ .KwReturn) :
    parseStmt p = .ok (none, p) := by
  have ha : parseAssignmentOrExpr p = .ok (none, p) := by
    unfold parseAssignmentOrExpr parsePrimary
    rw [if_neg h.1]
  unfold parseStmt
  split
  · exact ha
  · exact ha
  · exact ha
  · rename_i hk
    exact absurd hk h.2
  · rfl

theorem parseBlockLoop_spins (p : Parser)
    (h : p.nextToken.kind ≠ .Eof ∧ p.nextToken.kind ≠ .Rbrace ∧
      p.nextToken.kind ≠ .Number ∧ p.nextToken.kind ≠ .KwReturn) :
    ∀ (fuel : Nat) (stmts : List Stmt), parseBlockLoop fuel stmts p = .error .outOfFuel := by
  intro fuel
  induction fuel with
  | zero => intro stmts; rfl
  | succ fuel ih =>
    intro stmts
    rw [parseBlockLoop, if_pos ⟨h.1, h.2.1⟩, parseStmt_stays p ⟨h.2.2.1, h.2.2.2⟩]
    exact ih stmts

theorem parseSourceFile_spins (p : Parser) (t : Token) (rest : List Token)
    (hm : p.nextToken.kind = .KwMain) (hl : p.lexer = t :: rest)
    (h : t.kind ≠ .Eof ∧ t.kind ≠ .Rbrace ∧ t.kind ≠ .Number ∧ t.kind ≠ .KwReturn) :
    ∀ fuel, parseSourceFile fuel p = .error .outOfFuel := by
  intro fuel
  unfold parseSourceFile
  cases fuel with
  | zero => rfl
  | succ fuel =>
    have hne : p.nextToken.kind ≠ .Eof := by rw [hm]; decide
    have he : eatNextToken p = .ok { p with lexer := rest, nextToken := t } := by
      unfold eatNextToken
      rw [hl]
    rw [parseSourceFileLoop, if_pos hne, if_pos hm]
    unfold parseFunctionDecl
    rw [if_neg (not_not.2 hm), he]
    simp only []
    unfold parseBlock
    rw [parseBlockLoop_spins _ h]

/-- C38 fails: on the tokens `main`, `x`, `Eof`, with `x` an identifier,
`parseSourceFile` of parser.h returns for no number of turns of its loops:
`parseBlock` calls `parseStmt` on the identifier, `parseStmt` returns a null
pointer without eating a token, and the loop of `parseBlock` goes on in front
of the same token. The same holds with the keyword `add` in place of the
identifier. -/
theorem c38_parseSourceFile_does_not_return :
    (∀ fuel, parseSourceFile fuel
      { lexer := [tokv 6 .Identifier "x", tok 7 .Eof], nextToken := tokv 1 .KwMain "main" }
        = .error .outOfFuel) ∧
    (∀ fuel, parseSourceFile fuel
      { lexer := [tokv 6 .KwAdd "add", tok 9 .Eof], nextToken := tokv 1 .KwMain "main" }
        = .error .outOfFuel) ∧
    parseSourceFile 3
      { lexer := [tokv 6 .KwReturn "return", tokv 13 .Number "6", tok 14 .Eof],
        nextToken := tokv 1 .KwMain "main" }
        = .ok ([⟨"main", ⟨[.ReturnStmt (some (.LiteralExpr 6))]⟩⟩], false) := by
  refine ⟨?_, ?_, rfl⟩
  · exact parseSourceFile_spins _ _ _ rfl rfl (by decide)
  · exact parseSourceFile_spins _ _ _ rfl rfl (by decide)

end ParserH

namespace Sema

/-! ## Initialization check: the join is a least upper bound -/

theorem leS_antisymm (a b : Option State) (h1 : leS a b = true) (h2 : leS b a = true) :
    a = b := by
  simp only [leS, Bool.or_eq_true, decide_eq_true_eq] at h1 h2
  rcases h1 with h1 | h1
  · exact h1
  · rcases h2 with h2 | h2
    · exact h2.symm
    · omega

theorem joinOpt_lub (a b u : Option State) :
    leS a u = true → leS b u = true → leS (joinOpt a b) u = true := by
  rcases a with _ | a <;> rcases b with _ | b <;> rcases u with _ | u <;>
    (try cases a) <;> (try cases b) <;> (try cases u) <;> decide

theorem joinAt_le (X : List Lattice) (k : Nat) (u : Option State)
    (preds : List (Int × Bool))
    (hp : ∀ pred ∈ preds, leS (List.lookup k ((vectorAt X pred.1).getD [])) u = true) :
    ∀ a, leS a u = true → leS (joinAt X k a preds) u = true := by
  induction preds with
  | nil => intro a h; exact h
  | cons pred rest ih =>
    intro a h
    exact ih (fun p hp1 => hp p (List.mem_cons_of_mem _ hp1)) _
      (joinOpt_lub _ _ _ h (hp pred (List.mem_cons_self _ _)))

theorem joinAt_le_of_sameIndices (X : List Lattice) (k : Nat) (a : Option State)
    (preds1 preds2 : List (Int × Bool)) (h : sameIndices preds1 preds2) :
    leS (joinAt X k a preds1) (joinAt X k a preds2) = true := by
  apply joinAt_le X k _ preds1 _ a (joinAt_ge_init X k preds2 a)
  intro pred hp
  obtain ⟨f, hf⟩ := (h pred.1).1 ⟨pred.2, hp⟩
  exact joinAt_ge_pred X k preds2 (pred.1, f) hf a

theorem joinAt_congr (X : List Lattice) (k : Nat) (a : Option State)
    (preds1 preds2 : List (Int × Bool)) (h : sameIndices preds1 preds2) :
    joinAt X k a preds1 = joinAt X k a preds2 :=
  leS_antisymm _ _ (joinAt_le_of_sameIndices X k a preds1 preds2 h)
    (joinAt_le_of_sameIndices X k a preds2 preds1 (fun i => (h i).symm))

theorem joinPreds_congr (X : List Lattice) (hs : ∀ lattice ∈ X, sortedKeys lattice)
    (preds1 preds2 : List (Int × Bool))
    (hv : ∀ pred ∈ preds1, ∃ lattice, vectorAt X pred.1 = some lattice)
    (h : sameIndices preds1 preds2) :
    joinPreds X [] preds1 = joinPreds X [] preds2 := by
  have hv2 : ∀ pred ∈ preds2, ∃ lattice, vectorAt X pred.1 = some lattice := by
    intro pred hp
    obtain ⟨f, hf⟩ := (h pred.1).2 ⟨pred.2, hp⟩
    exact hv (pred.1, f) hf
  obtain ⟨t1, h1, s1, l1⟩ := joinPreds_spec X hs preds1 [] hv
  obtain ⟨t2, h2, s2, l2⟩ := joinPreds_spec X hs preds2 [] hv2
  rw [h1, h2]
  congr 1
  apply sorted_ext t1 t2 (s1 (by simp [sortedKeys])) (s2 (by simp [sortedKeys]))
  intro k
  rw [l1 k, l2 k]
  exact joinAt_congr X k _ preds1 preds2 h

theorem stateLe_refl (s : State) : stateLe s s = true := by
  cases s <;> rfl

theorem stateLe_trans (s t u : State) :
    stateLe s t = true → stateLe t u = true → stateLe s u = true := by
  cases s <;> cases t <;> cases u <;> decide

theorem stateLe_antisymm (s t : State) :
    stateLe s t = true → stateLe t s = true → s = t := by
  cases s <;> cases t <;> decide

theorem joinStates_ge_left (s t : State) : stateLe s (joinStates s t) = true := by
  cases s <;> cases t <;> decide

theorem joinStates_ge_right (s t : State) : stateLe t (joinStates s t) = true := by
  cases s <;> cases t <;> decide

theorem joinStates_lub (s t u : State) :
    stateLe s u = true → stateLe t u = true → stateLe (joinStates s t) u = true := by
  cases s <;> cases t <;> cases u <;> decide

theorem foldl_join_ge_init (l : List State) :
    ∀ a, stateLe a (l.foldl joinStates a) = true := by
  induction l with
  | nil => intro a; exact stateLe_refl a
  | cons x rest ih =>
    intro a
    exact stateLe_trans _ _ _ (joinStates_ge_left a x) (ih _)

theorem foldl_join_ge_mem (l : List State) (x : State) (hx : x ∈ l) :
    ∀ a, stateLe x (l.foldl joinStates a) = true := by
  induction l with
  | nil => simp at hx
  | cons y rest ih =>
    intro a
    rcases List.mem_cons.1 hx with h | h
    · rw [h]
      exact stateLe_trans _ _ _ (joinStates_ge_right a y) (foldl_join_ge_init rest _)
    · exact ih h _

theorem foldl_join_le (l : List State) (u : State) (h : ∀ x ∈ l, stateLe x u = true) :
    ∀ a, stateLe a u = true → stateLe (l.foldl joinStates a) u = true := by
  induction l with
  | nil => intro a ha; exact ha
  | cons y rest ih =>
    intro a ha
    exact ih (fun x hx => h x (List.mem_cons_of_mem _ hx)) _
      (joinStates_lub a y u ha (h y (List.mem_cons_self _ _)))

theorem foldl_join_congr (l1 l2 : List State) (h : ∀ x, x ∈ l1 ↔ x ∈ l2) (a : State) :
    l1.foldl joinStates a = l2.foldl joinStates a := by
  apply stateLe_antisymm
  · exact foldl_join_le l1 _ (fun x hx => foldl_join_ge_mem l2 x ((h x).1 hx) a) a
      (foldl_join_ge_init l2 a)
  · exact foldl_join_le l2 _ (fun x hx => foldl_join_ge_mem l1 x ((h x).2 hx) a) a
      (foldl_join_ge_init l1 a)

/-- C39. `joinStates` is commutative, associative and idempotent, `Bottom` is
its identity and `Top` absorbs. So the fold of the join over a list of states
from `Bottom` depends only on which states are in the list, and the map the
loop over the predecessors computes from the maps of the blocks is the same
for two predecessor lists that name the same blocks, in whatever order and
however often. -/
theorem c39_join_order_and_duplicates (s t u : State) (l1 l2 : List State)
    (X : List Lattice) (preds1 preds2 : List (Int × Bool))
    (hl : ∀ x, x ∈ l1 ↔ x ∈ l2)
    (hs : ∀ lattice ∈ X, sortedKeys lattice)
    (hv : ∀ pred ∈ preds1, ∃ lattice, vectorAt X pred.1 = some lattice)
    (hp : sameIndices preds1 preds2) :
    joinStates s t = joinStates t s ∧
    joinStates (joinStates s t) u = joinStates s (joinStates t u) ∧
    joinStates s s = s ∧
    joinStates .Bottom s = s ∧ joinStates s .Bottom = s ∧
    joinStates .Top s = .Top ∧ joinStates s .Top = .Top ∧
    l1.foldl joinStates .Bottom = l2.foldl joinStates .Bottom ∧
    joinPreds X [] preds1 = joinPreds X [] preds2 := by
  refine ⟨?_, ?_, ?_, ?_, ?_, ?_, ?_, foldl_join_congr l1 l2 hl _,
    joinPreds_congr X hs preds1 preds2 hv hp⟩
  · cases s <;> cases t <;> decide
  · cases s <;> cases t <;> cases u <;> decide
  · cases s <;> decide
  · cases s <;> decide
  · cases s <;> decide
  · cases s <;> decide
  · cases s <;> decide

/-- C39, at the maps of the fixed point of `diamondCFG` and the predecessors
2 and 3 of its block 1, once in this order and once in the other order with
block 3 named twice. -/
theorem c39_join_order_and_duplicates_witness :
    [State.Assigned, .Unassigned].foldl joinStates .Bottom
      = [State.Unassigned, .Assigned, .Unassigned].foldl joinStates .Bottom ∧
    joinPreds [[], [(1, .Top)], [(1, .Assigned)], [(1, .Unassigned)], []] []
        [(2, true), (3, true)]
      = joinPreds [[], [(1, .Top)], [(1, .Assigned)], [(1, .Unassigned)], []] []
        [(3, false), (2, true), (3, true)] :=
  (c39_join_order_and_duplicates .Assigned .Unassigned .Top
    [.Assigned, .Unassigned] [.Unassigned, .Assigned, .Unassigned]
    [[], [(1, .Top)], [(1, .Assigned)], [(1, .Unassigned)], []]
    [(2, true), (3, true)] [(3, false), (2, true), (3, true)]
    (by intro x; cases x <;> simp) (by simp [sortedKeys])
    (by
      intro pred hp
      simp only [List.mem_cons, List.mem_singleton, List.not_mem_nil, or_false] at hp
      rcases hp with h | h
      · rw [h]; exact ⟨_, rfl⟩
      · rw [h]; exact ⟨_, rfl⟩)
    (by
      intro i
      constructor
      · rintro ⟨f, hf⟩
        simp only [List.mem_cons, Prod.mk.injEq, List.mem_singleton, List.not_mem_nil,
          or_false] at hf
        rcases hf with ⟨h, _⟩ | ⟨h, _⟩
        · exact ⟨true, by simp [h]⟩
        · exact ⟨true, by simp [h]⟩
      · rintro ⟨f, hf⟩
        simp only [List.mem_cons, Prod.mk.injEq, List.mem_singleton, List.not_mem_nil,
          or_false] at hf
        rcases hf with ⟨h, _⟩ | ⟨h, _⟩ | ⟨h, _⟩
        · exact ⟨true, by simp [h]⟩
        · exact ⟨true, by simp [h]⟩
        · exact ⟨true, by simp [h]⟩)).2.2.2.2.2.2.2

/-! ## Initialization check: the flags of the edges are not read -/

theorem get?_zip_mem {α β : Type} (l1 : List α) :
    ∀ (l2 : List β) (i : Nat) (a : α) (b : β), l1.get? i = some a → l2.get? i = some b →
      (a, b) ∈ List.zip l1 l2 := by
  induction l1 with
  | nil => intro l2 i a b h; simp at h
  | cons x rest ih =>
    intro l2 i a b h1 h2
    cases l2 with
    | nil => simp at h2
    | cons y rest2 =>
      cases i with
      | zero =>
        simp only [List.get?_cons_zero, Option.some.injEq] at h1 h2
        rw [h1, h2]
        simp
      | succ i =>
        rw [List.get?_cons_succ] at h1 h2
        rw [List.zip_cons_cons]
        exact List.mem_cons_of_mem _ (ih rest2 i a b h1 h2)

theorem vectorAt_zip_mem {α β : Type} (l1 : List α) (l2 : List β) (i : Int) (a : α) (b : β)
    (h1 : vectorAt l1 i = some a) (h2 : vectorAt l2 i = some b) : (a, b) ∈ List.zip l1 l2 :=
  get?_zip_mem l1 l2 i.toNat a b ((vectorAt_some_iff _ _ _).1 h1).2
    ((vectorAt_some_iff _ _ _).1 h2).2

theorem statements_sum_congr (l1 : List BasicBlock) :
    ∀ (l2 : List BasicBlock), l1.length = l2.length →
      (∀ pair ∈ List.zip l1 l2, pair.1.statements = pair.2.statements) →
      (l1.map (fun b => b.statements.length)).sum
        = (l2.map (fun b => b.statements.length)).sum := by
  induction l1 with
  | nil =>
    intro l2 hl _
    cases l2 with
    | nil => rfl
    | cons y rest2 => simp at hl
  | cons x rest ih =>
    intro l2 hl h
    cases l2 with
    | nil => simp at hl
    | cons y rest2 =>
      have hx := h (x, y) (by simp)
      have hrest := ih rest2 (by simpa using hl)
        (fun pair hp => h pair (by rw [List.zip_cons_cons]; exact List.mem_cons_of_mem _ hp))
      simp only [List.map_cons, List.sum_cons]
      simp only at hx
      rw [hx, hrest]

theorem blockState_congr (X : List Lattice) (hs : ∀ lattice ∈ X, sortedKeys lattice)
    (block1 block2 : BasicBlock)
    (hv : ∀ pred ∈ block1.predecessors, ∃ lattice, vectorAt X pred.1 = some lattice)
    (hst : block1.statements = block2.statements)
    (hp : sameIndices block1.predecessors block2.predecessors)
    (pendingErrors : PendingErrors) :
    blockState X pendingErrors block1 = blockState X pendingErrors block2 := by
  unfold blockState
  rw [joinPreds_congr X hs block1.predecessors block2.predecessors hv hp, hst]

theorem forBlocks_congr (cfg1 cfg2 : CFG) (hvalid : cfg1.validForFlow = true)
    (hsame : sameUpToFlags cfg1 cfg2) :
    ∀ (fuel : Nat) (bb : Int) (X : List Lattice) (changed : Bool)
      (pendingErrors : PendingErrors),
      FlowInv cfg1 X → cfg1.exit ≤ bb → bb ≤ cfg1.entry →
      forBlocks cfg1 fuel bb X changed pendingErrors
        = forBlocks cfg2 fuel bb X changed pendingErrors := by
  obtain ⟨hx, hp⟩ := validForFlow_iff cfg1 hvalid
  obtain ⟨_, hexit, hlen, hblocks⟩ := hsame
  intro fuel
  induction fuel with
  | zero => intro bb X changed pendingErrors _ _ _; rfl
  | succ fuel ih =>
    intro bb X changed pendingErrors inv hlo hhi
    unfold forBlocks
    rw [← hexit]
    by_cases hbbexit : bb = cfg1.exit
    · rw [if_pos hbbexit, if_pos hbbexit]
    · rw [if_neg hbbexit, if_neg hbbexit]
      have hbb0 : 0 ≤ bb := by omega
      have hbbn : bb < cfg1.basicBlocks.length := by omega
      obtain ⟨block1, hblock1⟩ := vectorAt_isSome cfg1.basicBlocks bb hbb0 hbbn
      obtain ⟨block2, hblock2⟩ := vectorAt_isSome cfg2.basicBlocks bb hbb0 (by omega)
      have hbmem : block1 ∈ cfg1.basicBlocks := vectorAt_mem _ _ _ hblock1
      have hpred : ∀ pred ∈ block1.predecessors,
          ∃ lattice, vectorAt X pred.1 = some lattice := by
        intro pred hpr
        have := hp block1 hbmem pred hpr
        exact vectorAt_isSome X pred.1 this.1 (by rw [inv.length_eq]; exact this.2)
      have hrel := hblocks (block1, block2) (vectorAt_zip_mem _ _ bb _ _ hblock1 hblock2)
      have hstate := blockState_congr X inv.sorted block1 block2 hpred hrel.1 hrel.2
        pendingErrors
      rw [hblock1, hblock2]
      simp only []
      rw [← hstate]
      by_cases hall : ∀ stmt ∈ block1.statements, stmtOk stmt = true
      · obtain ⟨tmp, more, hst, htmps, htmpl⟩ :=
          blockState_spec X inv.sorted block1 hpred hall pendingErrors
        obtain ⟨lattice, hlattice⟩ :=
          vectorAt_isSome X bb hbb0 (by rw [inv.length_eq]; exact hbbn)
        rw [hst]
        simp only []
        rw [hlattice]
        simp only []
        by_cases heq : lattice = tmp
        · rw [if_neg (not_not.2 heq), if_neg (not_not.2 heq)]
          exact ih (bb - 1) X changed _ inv (by omega) (by omega)
        · rw [if_pos heq, if_pos heq]
          obtain ⟨inv1, _, _⟩ := flowInv_set cfg1 X inv bb block1 lattice tmp hbb0
            (by omega) hhi hblock1 hlattice htmps htmpl heq
          exact ih (bb - 1) _ true _ inv1 (by omega) (by omega)
      · have hbad : ∃ stmt ∈ block1.statements, stmtOk stmt = false := by
          by_contra hcon
          apply hall
          intro stmt hstmt
          cases hs : stmtOk stmt with
          | true => rfl
          | false => exact absurd ⟨stmt, hstmt, hs⟩ hcon
        rw [blockState_asserts X inv.sorted block1 hpred hbad pendingErrors]

theorem whileChanged_congr (cfg1 cfg2 : CFG) (hvalid : cfg1.validForFlow = true)
    (hsame : sameUpToFlags cfg1 cfg2) :
    ∀ (fuel : Nat) (X : List Lattice), FlowInv cfg1 X →
      whileChanged cfg1 fuel X = whileChanged cfg2 fuel X := by
  obtain ⟨hx, _⟩ := validForFlow_iff cfg1 hvalid
  intro fuel
  induction fuel with
  | zero => intro X _; rfl
  | succ fuel ih =>
    intro X inv
    have hpass : pass cfg1 X = pass cfg2 X := by
      unfold pass
      rw [← hsame.1]
      exact forBlocks_congr cfg1 cfg2 hvalid hsame _ _ X false [] inv hx.2.1 (le_refl _)
    unfold whileChanged
    rw [← hpass]
    rcases pass_stops cfg1 hvalid X inv with h | h
    · obtain ⟨X1, changed1, errs1, hp1, inv1, _, _⟩ := h
      rw [hp1]
      simp only []
      cases changed1 with
      | false => rfl
      | true =>
        simp only [if_true]
        exact ih X1 inv1
    · rw [h]

/-- C34. Two CFGs that have the same entry, exit and statements and whose
blocks have the same predecessor blocks, with whatever flags on the edges,
get the same result from `checkVariableInitialization`: the same value and
the same reports in the same order. -/
theorem c34_flags_are_not_read (s : Sema) (cfg1 cfg2 : CFG)
    (hvalid : cfg1.validForFlow = true) (hsame : sameUpToFlags cfg1 cfg2) :
    checkVariableInitialization s cfg1 = checkVariableInitialization s cfg2 := by
  have hfix : fixedPoint cfg1 = fixedPoint cfg2 := by
    unfold fixedPoint stmtCount
    rw [← hsame.2.2.1, ← statements_sum_congr cfg1.basicBlocks cfg2.basicBlocks hsame.2.2.1
      (fun pair hp => (hsame.2.2.2 pair hp).1)]
    exact whileChanged_congr cfg1 cfg2 hvalid hsame _ _ (flowInv_start cfg1)
  unfold checkVariableInitialization
  rw [hfix]

theorem sameIndices_of_map_eq (preds1 preds2 : List (Int × Bool))
    (h : preds1.map (fun e => e.1) = preds2.map (fun e => e.1)) : sameIndices preds1 preds2 := by
  have key : ∀ (preds : List (Int × Bool)) (i : Int),
      (∃ f, (i, f) ∈ preds) ↔ i ∈ preds.map (fun e => e.1) := by
    intro preds i
    rw [List.mem_map]
    constructor
    · rintro ⟨f, hf⟩
      exact ⟨(i, f), hf, rfl⟩
    · rintro ⟨e, he, hi⟩
      obtain ⟨e1, e2⟩ := e
      simp only at hi
      subst hi
      exact ⟨e2, he⟩
  intro i
  rw [key preds1 i, key preds2 i, h]

/-- C34, at the CFG of `var x: number; if (c) { x = 6; } x;` with every edge
flagged reachable and with the edge from the condition to what follows the
`if` flagged unreachable. -/
theorem c34_flags_are_not_read_witness :
    checkVariableInitialization { scopes := [] } diamondCFG
      = checkVariableInitialization { scopes := [] } diamondDeadEdgeCFG :=
  c34_flags_are_not_read { scopes := [] } diamondCFG diamondDeadEdgeCFG (by decide)
    ⟨rfl, rfl, rfl, by
      intro pair hp
      simp only [diamondCFG, diamondDeadEdgeCFG, List.zip_cons_cons, List.zip_nil_right,
        List.mem_cons, List.not_mem_nil, or_false] at hp
      rcases hp with h | h | h | h | h <;> rw [h] <;>
        exact ⟨rfl, sameIndices_of_map_eq _ _ rfl⟩⟩

/-! ## Control-flow graph: successors and predecessors mirror each other -/

theorem mem_setEmplace (s : List (Int × Bool)) (e x : Int × Bool) :
    x ∈ setEmplace s e ↔ x = e ∨ x ∈ s := by
  induction s with
  | nil => simp [setEmplace]
  | cons y rest ih =>
    unfold setEmplace
    by_cases h1 : edgeLt e y = true
    · rw [if_pos h1]
      simp
    · rw [if_neg h1]
      by_cases h2 : e = y
      · rw [if_pos h2, h2]
        constructor
        · intro h; exact Or.inr h
        · rintro (h | h)
          · rw [h]; exact List.mem_cons_self _ _
          · exact h
      · rw [if_neg h2, List.mem_cons, ih, List.mem_cons]
        constructor
        · rintro (h | h | h)
          · exact Or.inr (Or.inl h)
          · exact Or.inl h
          · exact Or.inr (Or.inr h)
        · rintro (h | h | h)
          · exact Or.inr (Or.inl h)
          · exact Or.inl h
          · exact Or.inr (Or.inr h)

theorem edgeLt_irrefl (e : Int × Bool) : edgeLt e e = false := by
  obtain ⟨i, f⟩ := e
  cases f <;> simp [edgeLt]

theorem setEmplace_idem (s : List (Int × Bool)) (e : Int × Bool) :
    setEmplace (setEmplace s e) e = setEmplace s e := by
  induction s with
  | nil => simp [setEmplace, edgeLt_irrefl]
  | cons y rest ih =>
    by_cases h1 : edgeLt e y = true
    · have h : setEmplace (y :: rest) e = e :: y :: rest := by
        rw [setEmplace, if_pos h1]
      rw [h, setEmplace, edgeLt_irrefl]
      simp
    · by_cases h2 : e = y
      · have h : setEmplace (y :: rest) e = y :: rest := by
          rw [setEmplace, if_neg h1, if_pos h2]
        rw [h, h]
      · have h : setEmplace (y :: rest) e = y :: setEmplace rest e := by
          rw [setEmplace, if_neg h1, if_neg h2]
        rw [h, setEmplace, if_neg h1, if_neg h2, ih]

theorem vectorSet_self {α : Type} (v : List α) (i : Int) (x : α)
    (h : vectorAt v i = some x) : vectorSet v i x = v := by
  rw [vectorAt_some_iff] at h
  unfold vectorSet
  have h2 := h.2
  generalize i.toNat = n at h2
  clear h
  induction v generalizing n with
  | nil => rfl
  | cons y rest ih =>
    cases n with
    | zero =>
      simp only [List.get?_cons_zero, Option.some.injEq] at h2
      rw [List.set_cons_zero, h2]
    | succ n =>
      rw [List.get?_cons_succ] at h2
      rw [List.set_cons_succ, ih n h2]

theorem vectorAt_length_iff {α : Type} (v : List α) (i : Int) :
    (∃ x, vectorAt v i = some x) ↔ 0 ≤ i ∧ i < v.length := by
  constructor
  · rintro ⟨x, h⟩
    rw [vectorAt_some_iff] at h
    have := h.2
    rw [List.get?_eq_getElem?] at this
    have := (List.getElem?_eq_some_iff.1 this).1
    exact ⟨h.1, by omega⟩
  · rintro ⟨h0, h1⟩
    exact vectorAt_isSome v i h0 h1

theorem vectorAt_vectorSet {α : Type} (v : List α) (i j : Int) (y : α) (hi : 0 ≤ i) :
    vectorAt (vectorSet v i y) j
      = if j = i then (vectorAt v j).map (fun _ => y) else vectorAt v j := by
  by_cases h : j = i
  · rw [if_pos h, h]
    cases hv : vectorAt v i with
    | some x => rw [vectorAt_set_self v i x y hv]; rfl
    | none =>
      simp only [Option.map_none']
      cases hv1 : vectorAt (vectorSet v i y) i with
      | none => rfl
      | some z =>
        have h1 := (vectorAt_length_iff _ _).1 ⟨z, hv1⟩
        have hlen : (vectorSet v i y).length = v.length := by
          unfold vectorSet
          exact List.length_set _ _ _
        rw [hlen] at h1
        obtain ⟨x, hx⟩ := (vectorAt_length_iff v i).2 h1
        rw [hx] at hv
        simp at hv
  · rw [if_neg h]
    exact vectorAt_set_other v i j y hi h

theorem insertEdge_spec (cfg cfg1 : CFG) (f t : Int) (r : Bool)
    (h : cfg.insertEdge f t r = .ok cfg1) :
    (∃ F, vectorAt cfg.basicBlocks f = some F) ∧ (∃ T, vectorAt cfg.basicBlocks t = some T) ∧
    cfg1.entry = cfg.entry ∧ cfg1.exit = cfg.exit ∧
    ∀ (i : Int),
      (∀ B1, vectorAt cfg1.basicBlocks i = some B1 → ∃ B, vectorAt cfg.basicBlocks i = some B) ∧
      (∀ B, vectorAt cfg.basicBlocks i = some B →
        ∃ B1, vectorAt cfg1.basicBlocks i = some B1 ∧
          B1.successors = (if i = f then setEmplace B.successors (t, r) else B.successors) ∧
          B1.predecessors
            = (if i = t then setEmplace B.predecessors (f, r) else B.predecessors) ∧
          B1.statements = B.statements) := by
  unfold CFG.insertEdge at h
  cases hf : vectorAt cfg.basicBlocks f with
  | none => rw [hf] at h; simp at h
  | some F =>
    rw [hf] at h
    simp only [] at h
    have hf0 : 0 ≤ f := ((vectorAt_some_iff _ _ _).1 hf).1
    cases ht : vectorAt (vectorSet cfg.basicBlocks f
        { F with successors := setEmplace F.successors (t, r) }) t with
    | none => rw [ht] at h; simp at h
    | some T1 =>
      rw [ht] at h
      simp only [Except.ok.injEq] at h
      have ht0 : 0 ≤ t := ((vectorAt_some_iff _ _ _).1 ht).1
      have ht1 := ht
      rw [vectorAt_vectorSet _ f t _ hf0] at ht1
      have hT : ∃ T, vectorAt cfg.basicBlocks t = some T := by
        by_cases hteq : t = f
        · rw [hteq]; exact ⟨F, hf⟩
        · rw [if_neg hteq] at ht1
          exact ⟨T1, ht1⟩
      refine ⟨⟨F, rfl⟩, hT, by rw [← h], by rw [← h], ?_⟩
      intro i
      have hval : vectorAt cfg1.basicBlocks i
          = (if i = t then
              (vectorAt (vectorSet cfg.basicBlocks f
                { F with successors := setEmplace F.successors (t, r) }) i).map
                (fun _ => { T1 with predecessors := setEmplace T1.predecessors (f, r) })
            else vectorAt (vectorSet cfg.basicBlocks f
                { F with successors := setEmplace F.successors (t, r) }) i) := by
        rw [← h]
        exact vectorAt_vectorSet _ t i _ ht0
      rw [vectorAt_vectorSet _ f i _ hf0] at hval
      constructor
      · intro B1 hB1
        rw [hval] at hB1
        by_cases hit : i = t
        · rw [if_pos hit] at hB1
          by_cases hif : i = f
          · rw [hif]; exact ⟨F, hf⟩
          · rw [if_neg hif] at hB1
            cases hv : vectorAt cfg.basicBlocks i with
            | none => rw [hv] at hB1; simp at hB1
            | some B => exact ⟨B, rfl⟩
        · rw [if_neg hit] at hB1
          by_cases hif : i = f
          · rw [hif]; exact ⟨F, hf⟩
          · rw [if_neg hif] at hB1
            exact ⟨B1, hB1⟩
      · intro B hB
        by_cases hit : i = t
        · by_cases hif : i = f
          · -- i = f = t
            have hft : f = t := by rw [← hif, hit]
            subst hif
            subst hft
            rw [if_pos rfl, hf] at ht1
            simp only [Option.map_some', Option.some.injEq] at ht1
            rw [hf] at hB
            simp only [Option.some.injEq] at hB
            subst hB
            refine ⟨{ T1 with predecessors := setEmplace T1.predecessors (i, r) }, ?_, ?_, ?_, ?_⟩
            · rw [hval, if_pos rfl, if_pos rfl, hf]
              rfl
            · rw [if_pos rfl, ← ht1]
            · rw [if_pos rfl, ← ht1]
            · rw [← ht1]
          · -- i = t, i ≠ f
            subst hit
            rw [if_neg hif] at ht1
            rw [ht1] at hB
            simp only [Option.some.injEq] at hB
            subst hB
            refine ⟨{ T1 with predecessors := setEmplace T1.predecessors (f, r) }, ?_, ?_, ?_, ?_⟩
            · rw [hval, if_pos rfl, if_neg hif, ht1]
              rfl
            · rw [if_neg hif]
            · rw [if_pos rfl]
            · rfl
        · by_cases hif : i = f
          · subst hif
            rw [hf] at hB
            simp only [Option.some.injEq] at hB
            subst hB
            refine ⟨{ F with successors := setEmplace F.successors (t, r) }, ?_, ?_, ?_, ?_⟩
            · rw [hval, if_neg hit, if_pos rfl, hf]
              rfl
            · rw [if_pos rfl]
            · rw [if_neg hit]
            · rfl
          · refine ⟨B, ?_, ?_, ?_, rfl⟩
            · rw [hval, if_neg hit, if_neg hif, hB]
            · rw [if_neg hif]
            · rw [if_neg hit]

theorem insertEdge_successors (cfg cfg1 : CFG) (f t : Int) (r0 : Bool)
    (h : cfg.insertEdge f t r0 = .ok cfg1) (a b : Int) (r : Bool) :
    (∃ A, vectorAt cfg1.basicBlocks a = some A ∧ (b, r) ∈ A.successors) ↔
    ((∃ A, vectorAt cfg.basicBlocks a = some A ∧ (b, r) ∈ A.successors) ∨
      (a = f ∧ b = t ∧ r = r0)) := by
  obtain ⟨⟨F, hF⟩, _, _, _, hall⟩ := insertEdge_spec cfg cfg1 f t r0 h
  constructor
  · rintro ⟨A1, hA1, hmem⟩
    obtain ⟨A, hA⟩ := (hall a).1 A1 hA1
    obtain ⟨B1, hB1, hs, _, _⟩ := (hall a).2 A hA
    rw [hA1] at hB1
    simp only [Option.some.injEq] at hB1
    subst hB1
    rw [hs] at hmem
    by_cases haf : a = f
    · rw [if_pos haf, mem_setEmplace] at hmem
      rcases hmem with hm | hm
      · simp only [Prod.mk.injEq] at hm
        exact Or.inr ⟨haf, hm.1, hm.2⟩
      · exact Or.inl ⟨A, hA, hm⟩
    · rw [if_neg haf] at hmem
      exact Or.inl ⟨A, hA, hmem⟩
  · rintro (⟨A, hA, hmem⟩ | ⟨haf, hbt, hr⟩)
    · obtain ⟨B1, hB1, hs, _, _⟩ := (hall a).2 A hA
      refine ⟨B1, hB1, ?_⟩
      rw [hs]
      by_cases haf : a = f
      · rw [if_pos haf, mem_setEmplace]
        exact Or.inr hmem
      · rw [if_neg haf]
        exact hmem
    · obtain ⟨B1, hB1, hs, _, _⟩ := (hall f).2 F hF
      rw [haf, hbt, hr]
      refine ⟨B1, hB1, ?_⟩
      rw [hs, if_pos rfl, mem_setEmplace]
      exact Or.inl rfl

theorem insertEdge_predecessors (cfg cfg1 : CFG) (f t : Int) (r0 : Bool)
    (h : cfg.insertEdge f t r0 = .ok cfg1) (a b : Int) (r : Bool) :
    (∃ B, vectorAt cfg1.basicBlocks b = some B ∧ (a, r) ∈ B.predecessors) ↔
    ((∃ B, vectorAt cfg.basicBlocks b = some B ∧ (a, r) ∈ B.predecessors) ∨
      (a = f ∧ b = t ∧ r = r0)) := by
  obtain ⟨_, ⟨T, hT⟩, _, _, hall⟩ := insertEdge_spec cfg cfg1 f t r0 h
  constructor
  · rintro ⟨A1, hA1, hmem⟩
    obtain ⟨A, hA⟩ := (hall b).1 A1 hA1
    obtain ⟨B1, hB1, _, hs, _⟩ := (hall b).2 A hA
    rw [hA1] at hB1
    simp only [Option.some.injEq] at hB1
    subst hB1
    rw [hs] at hmem
    by_cases hbt : b = t
    · rw [if_pos hbt, mem_setEmplace] at hmem
      rcases hmem with hm | hm
      · simp only [Prod.mk.injEq] at hm
        exact Or.inr ⟨hm.1, hbt, hm.2⟩
      · exact Or.inl ⟨A, hA, hm⟩
    · rw [if_neg hbt] at hmem
      exact Or.inl ⟨A, hA, hmem⟩
  · rintro (⟨A, hA, hmem⟩ | ⟨haf, hbt, hr⟩)
    · obtain ⟨B1, hB1, _, hs, _⟩ := (hall b).2 A hA
      refine ⟨B1, hB1, ?_⟩
      rw [hs]
      by_cases hbt : b = t
      · rw [if_pos hbt, mem_setEmplace]
        exact Or.inr hmem
      · rw [if_neg hbt]
        exact hmem
    · obtain ⟨B1, hB1, _, hs, _⟩ := (hall t).2 T hT
      rw [haf, hbt, hr]
      refine ⟨B1, hB1, ?_⟩
      rw [hs, if_pos rfl, mem_setEmplace]
      exact Or.inl rfl

theorem mirror_insertEdge (cfg cfg1 : CFG) (f t : Int) (r0 : Bool)
    (h : cfg.insertEdge f t r0 = .ok cfg1) (hm : Mirror cfg) : Mirror cfg1 := by
  intro a b r
  rw [insertEdge_successors cfg cfg1 f t r0 h, insertEdge_predecessors cfg cfg1 f t r0 h,
    hm a b r]

theorem vectorAt_append_one {α : Type} (v : List α) (x : α) (i : Int) :
    vectorAt (v ++ [x]) i
      = if i = v.length then some x else vectorAt v i := by
  unfold vectorAt
  by_cases h0 : 0 ≤ i
  · rw [if_pos h0, if_pos h0]
    by_cases h1 : i = v.length
    · rw [if_pos h1, h1]
      simp
    · rw [if_neg h1]
      rw [List.get?_eq_getElem?, List.get?_eq_getElem?]
      by_cases h2 : i.toNat < v.length
      · rw [List.getElem?_append_left h2]
      · have h3 : v.length < i.toNat := by omega
        rw [List.getElem?_eq_none (by simp; omega), List.getElem?_eq_none (by omega)]
  · rw [if_neg h0, if_neg h0]
    have : i ≠ v.length := by omega
    rw [if_neg this]

theorem mirror_insertNewBlock (cfg : CFG) (hm : Mirror cfg) : Mirror cfg.insertNewBlock.2 := by
  intro a b r
  simp only [CFG.insertNewBlock]
  rw [vectorAt_append_one, vectorAt_append_one]
  have hleft : (∃ A, (if a = (cfg.basicBlocks.length : Int) then some ({} : BasicBlock)
        else vectorAt cfg.basicBlocks a) = some A ∧ (b, r) ∈ A.successors)
      ↔ ∃ A, vectorAt cfg.basicBlocks a = some A ∧ (b, r) ∈ A.successors := by
    by_cases ha : a = (cfg.basicBlocks.length : Int)
    · rw [if_pos ha]
      constructor
      · rintro ⟨A, hA, hmem⟩
        simp only [Option.some.injEq] at hA
        rw [← hA] at hmem
        simp at hmem
      · rintro ⟨A, hA, _⟩
        have := ((vectorAt_length_iff _ _).1 ⟨A, hA⟩).2
        omega
    · rw [if_neg ha]
  have hright : (∃ B, (if b = (cfg.basicBlocks.length : Int) then some ({} : BasicBlock)
        else vectorAt cfg.basicBlocks b) = some B ∧ (a, r) ∈ B.predecessors)
      ↔ ∃ B, vectorAt cfg.basicBlocks b = some B ∧ (a, r) ∈ B.predecessors := by
    by_cases hb : b = (cfg.basicBlocks.length : Int)
    · rw [if_pos hb]
      constructor
      · rintro ⟨B, hB, hmem⟩
        simp only [Option.some.injEq] at hB
        rw [← hB] at hmem
        simp at hmem
      · rintro ⟨B, hB, _⟩
        have := ((vectorAt_length_iff _ _).1 ⟨B, hB⟩).2
        omega
    · rw [if_neg hb]
  rw [hleft, hright]
  exact hm a b r

theorem mirror_insertStmt (cfg cfg1 : CFG) (stmt : ResolvedStmt) (block : Int)
    (h : cfg.insertStmt stmt block = .ok cfg1) (hm : Mirror cfg) : Mirror cfg1 := by
  unfold CFG.insertStmt at h
  cases hb : vectorAt cfg.basicBlocks block with
  | none => rw [hb] at h; simp at h
  | some B0 =>
    rw [hb] at h
    simp only [Except.ok.injEq] at h
    have h0 : 0 ≤ block := ((vectorAt_some_iff _ _ _).1 hb).1
    have key : ∀ i, vectorAt cfg1.basicBlocks i
        = if i = block then some { B0 with statements := B0.statements ++ [stmt] }
          else vectorAt cfg.basicBlocks i := by
      intro i
      rw [← h]
      simp only []
      rw [vectorAt_vectorSet _ _ _ _ h0]
      by_cases hi : i = block
      · rw [if_pos hi, if_pos hi, hi, hb]
        rfl
      · rw [if_neg hi, if_neg hi]
    intro a b r
    rw [key a, key b]
    have hleft : (∃ A, (if a = block then some { B0 with statements := B0.statements ++ [stmt] }
          else vectorAt cfg.basicBlocks a) = some A ∧ (b, r) ∈ A.successors)
        ↔ ∃ A, vectorAt cfg.basicBlocks a = some A ∧ (b, r) ∈ A.successors := by
      by_cases ha : a = block
      · rw [if_pos ha, ha, hb]
        constructor
        · rintro ⟨A, hA, hmem⟩
          simp only [Option.some.injEq] at hA
          rw [← hA] at hmem
          exact ⟨B0, rfl, hmem⟩
        · rintro ⟨A, hA, hmem⟩
          simp only [Option.some.injEq] at hA
          rw [← hA] at hmem
          exact ⟨_, rfl, hmem⟩
      · rw [if_neg ha]
    have hright : (∃ B, (if b = block then some { B0 with statements := B0.statements ++ [stmt] }
          else vectorAt cfg.basicBlocks b) = some B ∧ (a, r) ∈ B.predecessors)
        ↔ ∃ B, vectorAt cfg.basicBlocks b = some B ∧ (a, r) ∈ B.predecessors := by
      by_cases hbb : b = block
      · rw [if_pos hbb, hbb, hb]
        constructor
        · rintro ⟨B, hB, hmem⟩
          simp only [Option.some.injEq] at hB
          rw [← hB] at hmem
          exact ⟨B0, rfl, hmem⟩
        · rintro ⟨B, hB, hmem⟩
          simp only [Option.some.injEq] at hB
          rw [← hB] at hmem
          exact ⟨_, rfl, hmem⟩
      · rw [if_neg hbb]
    rw [hleft, hright]
    exact hm a b r

theorem built_mirror (cfg : CFG) (h : Built cfg) : Mirror cfg := by
  induction h with
  | empty =>
    intro a b r
    have hnone : ∀ i, vectorAt ({} : CFG).basicBlocks i = none := by
      intro i
      unfold vectorAt
      split <;> rfl
    constructor
    · rintro ⟨A, hA, _⟩
      rw [hnone] at hA
      simp at hA
    · rintro ⟨B, hB, _⟩
      rw [hnone] at hB
      simp at hB
  | insertNewBlock cfg _ ih => exact mirror_insertNewBlock cfg ih
  | insertNewBlockBefore cfg before reachable b cfg1 _ hok ih =>
    unfold CFG.insertNewBlockBefore at hok
    simp only [] at hok
    cases he : cfg.insertNewBlock.2.insertEdge cfg.insertNewBlock.1 before reachable with
    | error e => rw [he] at hok; simp at hok
    | ok cfg2 =>
      rw [he] at hok
      simp only [Except.ok.injEq, Prod.mk.injEq] at hok
      rw [← hok.2]
      exact mirror_insertEdge _ _ _ _ _ he (mirror_insertNewBlock cfg ih)
  | insertEdge cfg f t r cfg1 _ hok ih => exact mirror_insertEdge _ _ _ _ _ hok ih
  | insertStmt cfg stmt block cfg1 _ hok ih => exact mirror_insertStmt _ _ _ _ hok ih

theorem insertEdge_returns (cfg : CFG) (f t : Int) (r : Bool)
    (hf : 0 ≤ f ∧ f < cfg.basicBlocks.length) (ht : 0 ≤ t ∧ t < cfg.basicBlocks.length) :
    ∃ cfg1, cfg.insertEdge f t r = .ok cfg1 := by
  obtain ⟨F, hF⟩ := (vectorAt_length_iff cfg.basicBlocks f).2 hf
  obtain ⟨T, hT⟩ := (vectorAt_length_iff cfg.basicBlocks t).2 ht
  unfold CFG.insertEdge
  rw [hF]
  simp only []
  rw [vectorAt_vectorSet _ _ _ _ hf.1]
  by_cases h : t = f
  · rw [if_pos h, h, hF]
    exact ⟨_, rfl⟩
  · rw [if_neg h, hT]
    exact ⟨_, rfl⟩

theorem insertEdge_twice (cfg cfg1 : CFG) (f t : Int) (r : Bool)
    (h : cfg.insertEdge f t r = .ok cfg1) : cfg1.insertEdge f t r = .ok cfg1 := by
  obtain ⟨⟨F, hF⟩, ⟨T, hT⟩, _, _, hall⟩ := insertEdge_spec cfg cfg1 f t r h
  obtain ⟨F1, hF1, hFs, _, _⟩ := (hall f).2 F hF
  obtain ⟨T1, hT1, _, hTp, _⟩ := (hall t).2 T hT
  rw [if_pos rfl] at hFs hTp
  have hb0 : ({ F1 with successors := setEmplace F1.successors (t, r) } : BasicBlock) = F1 := by
    rw [hFs, setEmplace_idem, ← hFs]
  have hb2 : ({ T1 with predecessors := setEmplace T1.predecessors (f, r) } : BasicBlock)
      = T1 := by
    rw [hTp, setEmplace_idem, ← hTp]
  unfold CFG.insertEdge
  rw [hF1]
  simp only []
  rw [hb0, vectorSet_self _ _ _ hF1, hT1]
  simp only []
  rw [hb2, vectorSet_self _ _ _ hT1]

theorem insertNewBlockBefore_spec (cfg : CFG) (before : Int) (r : Bool)
    (h0 : 0 ≤ before) (h1 : before < cfg.basicBlocks.length) :
    ∃ cfg1 B, cfg.insertNewBlockBefore before r = .ok ((cfg.basicBlocks.length : Int), cfg1) ∧
      vectorAt cfg1.basicBlocks cfg.basicBlocks.length = some B ∧
      B.successors = [(before, r)] ∧ B.predecessors = [] ∧ B.statements = [] := by
  have hlen : cfg.insertNewBlock.2.basicBlocks.length = cfg.basicBlocks.length + 1 := by
    simp [CFG.insertNewBlock]
  obtain ⟨cfg1, hok⟩ := insertEdge_returns cfg.insertNewBlock.2 cfg.basicBlocks.length before r
    ⟨by omega, by rw [hlen]; push_cast; omega⟩ ⟨h0, by rw [hlen]; push_cast; omega⟩
  obtain ⟨_, _, _, _, hall⟩ := insertEdge_spec _ _ _ _ _ hok
  have hnew : vectorAt cfg.insertNewBlock.2.basicBlocks cfg.basicBlocks.length
      = some ({} : BasicBlock) := by
    simp only [CFG.insertNewBlock]
    rw [vectorAt_append_one, if_pos rfl]
  obtain ⟨B, hB, hs, hp, hst⟩ := (hall cfg.basicBlocks.length).2 _ hnew
  refine ⟨cfg1, B, ?_, hB, ?_, ?_, hst⟩
  · unfold CFG.insertNewBlockBefore
    simp only []
    have h1 : cfg.insertNewBlock.1 = (cfg.basicBlocks.length : Int) := rfl
    rw [h1, hok]
  · rw [hs, if_pos rfl]
    rfl
  · rw [hp, if_neg (by omega)]

/-- C35: in a CFG built from the empty one by `insertNewBlock`,
`insertNewBlockBefore`, `insertEdge` and `insertStmt` with block indices in
range, `(b, r)` is a successor of block `a` exactly when `(a, r)` is a
predecessor of block `b`; `insertNewBlock` returns the previous number of
blocks and leaves the blocks there unchanged; `insertNewBlockBefore(before, r)`
for a block `before` of the CFG returns the new block, whose only successor is
`(before, r)` and which has no predecessor; `insertEdge` between blocks of the
CFG returns, and the same call again changes nothing. -/
theorem c35_successors_mirror_predecessors (cfg : CFG) (h : Built cfg) :
    Mirror cfg ∧
    (cfg.insertNewBlock.1 = cfg.basicBlocks.length ∧
      cfg.insertNewBlock.2.basicBlocks.length = cfg.basicBlocks.length + 1 ∧
      cfg.insertNewBlock.2.entry = cfg.entry ∧ cfg.insertNewBlock.2.exit = cfg.exit ∧
      ∀ i B, vectorAt cfg.basicBlocks i = some B →
        vectorAt cfg.insertNewBlock.2.basicBlocks i = some B) ∧
    (∀ (before : Int) (r : Bool), 0 ≤ before → before < cfg.basicBlocks.length →
      ∃ cfg1 B, cfg.insertNewBlockBefore before r = .ok ((cfg.basicBlocks.length : Int), cfg1) ∧
        vectorAt cfg1.basicBlocks cfg.basicBlocks.length = some B ∧
        B.successors = [(before, r)] ∧ B.predecessors = [] ∧ B.statements = []) ∧
    (∀ (f t : Int) (r : Bool),
      0 ≤ f ∧ f < cfg.basicBlocks.length → 0 ≤ t ∧ t < cfg.basicBlocks.length →
      ∃ cfg1, cfg.insertEdge f t r = .ok cfg1 ∧ cfg1.insertEdge f t r = .ok cfg1) := by
  refine ⟨built_mirror cfg h, ⟨rfl, by simp [CFG.insertNewBlock], rfl, rfl, ?_⟩, ?_, ?_⟩
  · intro i B hB
    simp only [CFG.insertNewBlock]
    rw [vectorAt_append_one]
    have := ((vectorAt_length_iff _ _).1 ⟨B, hB⟩).2
    rw [if_neg (by omega)]
    exact hB
  · intro before r h0 h1
    exact insertNewBlockBefore_spec cfg before r h0 h1
  · intro f t r hf ht
    obtain ⟨cfg1, hok⟩ := insertEdge_returns cfg f t r hf ht
    exact ⟨cfg1, hok, insertEdge_twice cfg cfg1 f t r hok⟩

/-- C35, at the CFG of two blocks built by `insertNewBlock` and
`insertNewBlockBefore(0, true)`: the edge from block 1 to block 0 is in both
sets, and adding it again changes nothing. -/
theorem c35_successors_mirror_predecessors_witness :
    Built twoBlockCFG ∧ Mirror twoBlockCFG ∧
    ∃ cfg1, twoBlockCFG.insertEdge 1 0 true = .ok cfg1 ∧ cfg1.insertEdge 1 0 true = .ok cfg1 :=
  have hb : Built twoBlockCFG :=
    Built.insertNewBlockBefore _ 0 true 1 twoBlockCFG (Built.insertNewBlock _ Built.empty) rfl
  ⟨hb, (c35_successors_mirror_predecessors twoBlockCFG hb).1,
    (c35_successors_mirror_predecessors twoBlockCFG hb).2.2.2 1 0 true
      ⟨by decide, by decide⟩ ⟨by decide, by decide⟩⟩

/-! ## Resolver: the type check of an assignment -/

theorem resolveAssignment_immutable (typeOf : ResolvedExpr → TypeKind) (other : Bool)
    (s s1 s2 : Sema) (location varLocation : SourceLocation) (identifier : List Char)
    (value : Expr) (d : ResolvedVarDecl) (resolvedValue : ResolvedExpr)
    (hv : resolveDeclRefExpr s varLocation identifier false
      = (some ⟨varLocation, .ResolvedVarDecl d⟩, s1))
    (hm : d.isMutable = false)
    (hr : resolveExpr typeOf s1 value = .ok (some resolvedValue, s2)) :
    resolveAssignment typeOf other s
        ⟨location, some (.DeclRefExpr varLocation identifier), some value⟩
      = .ok (some ⟨location, ⟨varLocation, .ResolvedVarDecl d⟩, resolvedValue⟩, s2) := by
  unfold resolveAssignment
  simp only [hv, hr, ResolvedDecl.isMutable, hm, Bool.false_and, Bool.false_eq_true, if_false]

/-- C33 fails: at `let x: number; x = println(n);` with `println` of type
`void`, `resolveAssignment` returns the resolved assignment and reports
nothing, whatever the types of the resolved expressions are, because the
comparison of the types is made for a mutable variable only; with `var` in
place of `let` the same assignment is reported as
`incompatible types in assignment`. -/
theorem c33_let_assignment_is_not_type_checked :
    (∀ (typeOf : ResolvedExpr → TypeKind) (other : Bool),
      resolveAssignment typeOf other (scopesAtAssignment false) assignPrintln
        = .ok (some ⟨⟨"t", 3, 3⟩, ⟨⟨"t", 3, 1⟩, .ResolvedVarDecl (localX false false)⟩,
            .ResolvedCallExpr ⟨"t", 3, 12⟩ ⟨⟨"t", 3, 5⟩, .ResolvedFunctionDecl funPrintln⟩
              [.ResolvedDeclRefExpr ⟨⟨"t", 3, 13⟩, .ResolvedParamDecl paramN⟩]⟩,
          scopesAtAssignment false)) ∧
    (scopesAtAssignment false).diagnostics = [] ∧
    exampleTypeOf (.ResolvedCallExpr ⟨"t", 3, 12⟩
      ⟨⟨"t", 3, 5⟩, .ResolvedFunctionDecl funPrintln⟩
      [.ResolvedDeclRefExpr ⟨⟨"t", 3, 13⟩, .ResolvedParamDecl paramN⟩]) = .Void ∧
    (localX false false).type = .Number ∧
    (∀ other : Bool,
      resolveAssignment exampleTypeOf other (scopesAtAssignment true) assignPrintln
        = .ok (none, report (scopesAtAssignment true) ⟨"t", 3, 3⟩
            "incompatible types in assignment".toList)) := by
  refine ⟨?_, rfl, rfl, rfl, ?_⟩
  · intro typeOf other
    rfl
  · intro other
    rfl

end Sema

namespace ConstantExpressionEvaluator

/-! ## Constant evaluator: the flag `allowSideEffects` -/

theorem evaluateBinaryOperator_known_left {D : Type} (A : Arith D) (op : TokenKind) (x : D)
    (f : Unit → Except Fault (Option D)) :
    evaluateBinaryOperator A op (some x) f false = evaluateBinaryOperator A op (some x) f true := by
  unfold evaluateBinaryOperator
  simp

theorem evaluateBinaryOperator_stable {D : Type} (A : Arith D) (op : TokenKind) (x v : D)
    (rf rt : Except Fault (Option D))
    (hr : ∀ y, rf = .ok (some y) → rt = .ok (some y))
    (hk : op = .PipePipe ∨ op = .AmpAmp ∨ ∃ y, rf = .ok (some y))
    (h : evaluateBinaryOperator A op (some x) (fun _ => rf) false = .ok (some v)) :
    evaluateBinaryOperator A op (some x) (fun _ => rt) true = .ok (some v) := by
  by_cases hy : ∃ y, rf = .ok (some y)
  · obtain ⟨y, hy⟩ := hy
    rw [hr y hy, ← evaluateBinaryOperator_known_left, ← hy]
    exact h
  · rcases hk with hk | hk | hk
    · subst hk
      unfold evaluateBinaryOperator at h ⊢
      simp only [Option.isNone_some, Bool.false_and, Bool.false_eq_true, if_false] at h ⊢
      by_cases hb : toBool A (some x) = some true
      · rw [if_pos hb] at h ⊢
        exact h
      · rw [if_neg hb] at h
        exfalso
        cases rf with
        | error e => simp at h
        | ok r =>
          cases r with
          | none => simp [toBool] at h
          | some y => exact hy ⟨y, rfl⟩
    · subst hk
      unfold evaluateBinaryOperator at h ⊢
      simp only [Option.isNone_some, Bool.false_and, Bool.false_eq_true, if_false] at h ⊢
      by_cases hb : toBool A (some x) = some false
      · rw [if_pos hb] at h ⊢
        exact h
      · rw [if_neg hb] at h
        exfalso
        cases rf with
        | error e => simp at h
        | ok r =>
          cases r with
          | none => simp [toBool] at h
          | some y => exact hy ⟨y, rfl⟩
    · exact absurd hk hy

theorem knownWithoutSideEffects_iff {D : Type} (A : Arith D) (e : ResolvedExpr D) :
    knownWithoutSideEffects A e = true ↔ ∃ y, evaluate A e false = .ok (some y) := by
  unfold knownWithoutSideEffects
  cases h : evaluate A e false with
  | error err => simp
  | ok r =>
    cases r with
    | none => simp
    | some y => simp

mutual

theorem evaluate_stable {D : Type} (A : Arith D) (e : ResolvedExpr D) (v : D)
    (hn : noFallback A e = true) (h : evaluate A e false = .ok (some v)) :
    evaluate A e true = .ok (some v) := by
  match e with
  | .ResolvedNumberLiteral c value =>
    rw [evaluate] at h ⊢
    exact h
  | .ResolvedGroupingExpr c expr =>
    rw [evaluate] at h ⊢
    cases hc : c.getConstantValue with
    | some val => rw [hc] at h; exact h
    | none =>
      rw [hc] at h
      simp only [] at h ⊢
      rw [noFallback] at hn
      exact evaluate_stable A expr v hn h
  | .ResolvedBinaryOperator c op lhs rhs =>
    rw [evaluate] at h ⊢
    cases hc : c.getConstantValue with
    | some val => rw [hc] at h; exact h
    | none =>
      rw [hc] at h
      simp only [] at h ⊢
      rw [noFallback] at hn
      simp only [Bool.and_eq_true, Bool.or_eq_true, beq_iff_eq] at hn
      obtain ⟨⟨hnl, hnr⟩, hk⟩ := hn
      cases hl : evaluate A lhs false with
      | error err => rw [hl] at h; simp at h
      | ok l =>
        rw [hl] at h
        simp only [] at h
        cases l with
        | none => simp [evaluateBinaryOperator] at h
        | some x =>
          rw [evaluate_stable A lhs x hnl hl]
          simp only []
          refine evaluateBinaryOperator_stable A op x v _ _
            (fun y hy => evaluate_stable A rhs y hnr hy) ?_ h
          rcases hk with (hk | hk) | hk
          · exact Or.inl hk
          · exact Or.inr (Or.inl hk)
          · exact Or.inr (Or.inr ((knownWithoutSideEffects_iff A rhs).1 hk))
  | .ResolvedUnaryOperator c op operand =>
    rw [evaluate] at h ⊢
    cases hc : c.getConstantValue with
    | some val => rw [hc] at h; exact h
    | none =>
      rw [hc] at h
      simp only [] at h ⊢
      rw [noFallback] at hn
      cases ho : evaluate A operand false with
      | error err => rw [ho] at h; simp at h
      | ok o =>
        rw [ho] at h
        simp only [] at h
        cases o with
        | none => simp [evaluateUnaryOperator] at h
        | some x =>
          rw [evaluate_stable A operand x hn ho]
          exact h
  | .ResolvedDeclRefExpr c decl =>
    rw [evaluate] at h ⊢
    cases hc : c.getConstantValue with
    | some val => rw [hc] at h; exact h
    | none =>
      rw [hc] at h
      simp only [] at h ⊢
      rw [noFallback] at hn
      exact evaluateDeclRefExpr_stable A decl v hn h
  | .ResolvedCallExpr c =>
    rw [evaluate] at h ⊢
    exact h

theorem evaluateDeclRefExpr_stable {D : Type} (A : Arith D) (decl : ResolvedDecl D) (v : D)
    (hn : noFallbackDecl A decl = true) (h : evaluateDeclRefExpr A decl false = .ok (some v)) :
    evaluateDeclRefExpr A decl true = .ok (some v) := by
  match decl with
  | .ResolvedVarDecl false (some initializer) =>
    rw [evaluateDeclRefExpr] at h ⊢
    rw [noFallbackDecl] at hn
    exact evaluate_stable A initializer v hn h
  | .ResolvedVarDecl true i => simp [evaluateDeclRefExpr] at h
  | .ResolvedVarDecl false none => simp [evaluateDeclRefExpr] at h
  | .ResolvedParamDecl => simp [evaluateDeclRefExpr] at h
  | .ResolvedFunctionDecl => simp [evaluateDeclRefExpr] at h

end

/-- C40 fails as stated: over the rationals `2 + (n || 1)` with `n` a
parameter and no memoized constant evaluates to `2` without side effects,
where `n || 1` is unknown and `+` takes `0.0` for it, and to `3` with side
effects allowed, where `n || 1` is `1.0`. -/
theorem c40_side_effects_change_a_value :
    evaluate ratArith (.ResolvedBinaryOperator {} .Plus (lit 2)
        (.ResolvedBinaryOperator {} .PipePipe unknown (lit 1))) false = .ok (some 2) ∧
    evaluate ratArith (.ResolvedBinaryOperator {} .Plus (lit 2)
        (.ResolvedBinaryOperator {} .PipePipe unknown (lit 1))) true = .ok (some 3) := by
  have hf : evaluate ratArith (.ResolvedBinaryOperator {} .PipePipe unknown (lit 1)) false
      = .ok none := by
    rw [evaluate_binary ratArith .PipePipe unknown (lit 1) false _ (evaluate_unknown _ _)]
    simp [evaluateBinaryOperator]
  have ht : evaluate ratArith (.ResolvedBinaryOperator {} .PipePipe unknown (lit 1)) true
      = .ok (some 1) := by
    rw [evaluate_binary ratArith .PipePipe unknown (lit 1) true _ (evaluate_unknown _ _)]
    simp [evaluateBinaryOperator, evaluate_lit, toBool, ratArith]
  constructor
  · rw [evaluate_binary ratArith .Plus (lit 2) _ false _ (evaluate_lit _ _ _)]
    simp only [evaluateBinaryOperator, hf]
    simp [ratArith]
  · rw [evaluate_binary ratArith .Plus (lit 2) _ true _ (evaluate_lit _ _ _)]
    simp only [evaluateBinaryOperator, ht]
    simp only [ratArith]
    norm_num

/-- C40, amended. For every resolved expression `e`, whatever constants are
memoized in it, in which the right operand of every binary operator other
than `||` and `&&` is known without side effects, also in the initializers of
the constants `e` refers to: if `evaluate(e, false)` returns a value `v` then
`evaluate(e, true)` returns `v`. -/
theorem c40_value_kept_without_fallback {D : Type} (A : Arith D) (e : ResolvedExpr D) (v : D)
    (hn : noFallback A e = true) (h : evaluate A e false = .ok (some v)) :
    evaluate A e true = .ok (some v) :=
  evaluate_stable A e v hn h

/-- C40 amended, over the rationals at `(1 + 2) || n` with `n` a parameter,
which is `1` with and without side effects. -/
theorem c40_value_kept_without_fallback_witness :
    noFallback ratArith (.ResolvedBinaryOperator {} .PipePipe
        (.ResolvedBinaryOperator {} .Plus (lit 1) (lit 2)) unknown) = true ∧
    evaluate ratArith (.ResolvedBinaryOperator {} .PipePipe
        (.ResolvedBinaryOperator {} .Plus (lit 1) (lit 2)) unknown) false = .ok (some 1) ∧
    evaluate ratArith (.ResolvedBinaryOperator {} .PipePipe
        (.ResolvedBinaryOperator {} .Plus (lit 1) (lit 2)) unknown) true = .ok (some 1) :=
  have hs : evaluate ratArith (.ResolvedBinaryOperator {} .Plus (lit 1) (lit 2)) false
      = .ok (some 3) := by
    rw [evaluate_binary ratArith .Plus (lit 1) (lit 2) false _ (evaluate_lit _ _ _)]
    simp only [evaluateBinaryOperator, evaluate_lit, ratArith]
    norm_num
  have hn : noFallback ratArith (.ResolvedBinaryOperator {} .PipePipe
      (.ResolvedBinaryOperator {} .Plus (lit 1) (lit 2)) unknown) = true := by
    simp [noFallback, noFallbackDecl, lit, unknown, knownWithoutSideEffects, evaluate,
      ConstantValueContainer.getConstantValue]
  have hv : evaluate ratArith (.ResolvedBinaryOperator {} .PipePipe
      (.ResolvedBinaryOperator {} .Plus (lit 1) (lit 2)) unknown) false = .ok (some 1) := by
    rw [evaluate_binary ratArith .PipePipe _ unknown false _ hs]
    simp [evaluateBinaryOperator, toBool, ratArith]
  ⟨hn, hv, c40_value_kept_without_fallback ratArith _ 1 hn hv⟩

end ConstantExpressionEvaluator

namespace Codegen

/-! ## Code generation: the phi of `||` and `&&` -/

theorem addIncomingLoop_not_mem {D : Type} (phi : Nat) (rhs : Value D) (rhsBB : Nat)
    (preds : List Nat) (g : Codegen D) (h : rhsBB ∉ preds) :
    addIncomingLoop phi rhs rhsBB preds g = g := by
  induction preds with
  | nil => rfl
  | cons it rest ih =>
    have hne : it ≠ rhsBB := fun heq => h (by rw [heq]; exact List.mem_cons_self _ _)
    rw [addIncomingLoop, if_neg hne]
    exact ih (fun hm => h (List.mem_cons_of_mem _ hm))

/-- C36 fails: for `a || b` on two locals `generateExpr` leaves the blocks
`entry`, which loads `a` and branches to `or.merge` or to `or.rhs`, `or.rhs`,
which loads `b` and branches to `or.merge`, and `or.merge`, whose phi has no
incoming value although the block has the two predecessors `entry` and
`or.rhs`. The predecessors of `or.rhs` are searched for `or.rhs` itself, which
is not among them. The same holds for `a && b`. -/
theorem c36_phi_without_incoming :
    generateExpr 0 1 twoLocals (localsOp .PipePipe)
      = .ok (.instruction 8,
          { twoLocals with
            blocks :=
              [ { name := "entry",
                  instructions := [(0, .Alloca "a"), (1, .Alloca "b"),
                    (2, .Load (.instruction 0)),
                    (3, .Binary "fcmp one" (.instruction 2) (.ConstantFP 0)),
                    (4, .CondBr (.instruction 3) 2 1)] },
                { name := "or.rhs",
                  instructions := [(5, .Load (.instruction 1)),
                    (6, .Binary "fcmp one" (.instruction 5) (.ConstantFP 0)),
                    (7, .Br 2)] },
                { name := "or.merge", instructions := [(8, .PHI 2 [])] } ],
            insertBlock := 2, nextValue := 9 }) ∧
    mergeBlockOf (generateExpr 0 1 twoLocals (localsOp .PipePipe))
      = some ([(8, .PHI 2 [])], [0, 1]) ∧
    mergeBlockOf (generateExpr 0 1 twoLocals (localsOp .AmpAmp))
      = some ([(8, .PHI 2 [])], [0, 1]) := by
  refine ⟨rfl, rfl, rfl⟩

end Codegen

end Syscall
